import Mathlib

/-!
# Header download engine (execution/stages/headerdownload/header_algos.go)

A shallow embedding of the in-memory header download engine.

* Go pointers `*Link` and `*Anchor` are indices into two object heaps
  (`mem`, `amem`); allocation appends to the heap, a nil pointer is `none`.
* Go maps are association lists with unique keys (`mapGet`, `mapSet`, `mapDel`).
* The three `container/heap` queues are lists of link pointers; the heap root
  is an element of least block height (`heapMin`).
* 64-bit unsigned numbers are natural numbers, reduced modulo `2 ^ 64` where the
  source can overflow.
* Loops that follow pointers take a `fuel` argument and yield `none` when the
  fuel runs out; a Go panic (nil dereference, pop of an empty heap) is `none` too.
* The hash of a header covers its parent hash, so no header is its own parent;
  the statements that depend on it carry `sh.hash ≠ sh.header.ParentHash`.
* The consensus verifier and the persistence callback are arguments of
  `InsertHeader`; the callback takes and returns the state of the database, so
  that a call that leaves the database as it was for every callback has not
  called it. Big integers (total difficulty) are integers.
* The header reader and the database layer (`rawdb`) are arguments of the
  inserter and of the proof-of-stake download: records of functions over the
  state of the database, which return an error code or a result; a write returns
  the new state. The cache of canonical hashes is the LRU cache of a library:
  a list of entries, most recently used first, with a capacity.
-/

namespace Headerdownload

/-! ## Data model -/

/-- A 32-byte hash, read as a big-endian number. -/
abbrev Hash := Nat

/-- A 64-byte peer identifier. -/
abbrev PeerID := Nat

/-- The fields of `types.Header` the engine reads. -/
structure Header where
  ParentHash : Hash := 0
  Number : Nat := 0
  Time : Nat := 0
  Difficulty : Nat := 0
deriving DecidableEq, Repr, Inhabited

/-- Go `ChainSegmentHeader`: a header with its raw bytes, hash and number. -/
structure ChainSegmentHeader where
  headerRaw : List Nat := []
  header : Header := {}
  hash : Hash := 0
  number : Nat := 0
deriving DecidableEq, Repr, Inhabited

/-- Go `QueueID`. -/
inductive QueueID where
  | NoQueue
  | EntryQueueID
  | InsertQueueID
  | PersistedQueueID
deriving DecidableEq, Repr, Inhabited

/-- Go `Link`; `fChild` and `next` are pointers into the link heap. -/
structure Link where
  header : Option Header := none
  headerRaw : Option (List Nat) := none
  fChild : Option Nat := none
  next : Option Nat := none
  hash : Hash := 0
  blockHeight : Nat := 0
  persisted : Bool := false
  verified : Bool := false
  linked : Bool := false
  queueId : QueueID := QueueID.NoQueue
  peerId : PeerID := 0
deriving DecidableEq, Repr, Inhabited

/-- Go `Anchor`; `fLink` is a pointer into the link heap, `nextRetryTime` is an
instant whose zero value is `0`. -/
structure Anchor where
  peerID : PeerID := 0
  fLink : Option Nat := none
  parentHash : Hash := 0
  blockHeight : Nat := 0
  nextRetryTime : Nat := 0
  timeouts : Nat := 0
deriving DecidableEq, Repr, Inhabited

/-- Go `Stats`. -/
structure Stats where
  SkeletonRequests : Nat := 0
  Requests : Nat := 0
  Responses : Nat := 0
  Duplicates : Nat := 0
  InvalidHeaders : Nat := 0
  RejectedBadHeaders : Nat := 0
  ReqMinBlock : Nat := 0
  ReqMaxBlock : Nat := 0
  RespMinBlock : Nat := 0
  RespMaxBlock : Nat := 0
  SkeletonReqMinBlock : Nat := 0
  SkeletonReqMaxBlock : Nat := 0
deriving DecidableEq, Repr, Inhabited

/-- Go `HeaderDownload`, the engine state guarded by `hd.lock`. -/
structure HeaderDownload where
  mem : List Link := []
  amem : List Anchor := []
  links : List (Hash × Nat) := []
  anchors : List (Hash × Nat) := []
  anchorTree : List Nat := []
  linkQueue : List Nat := []
  insertQueue : List Nat := []
  persistedLinkQueue : List Nat := []
  badHeaders : List Hash := []
  badPoSHeaders : List (Hash × Hash) := []
  seenAnnounces : List Hash := []
  toAnnounce : List (Hash × Nat) := []
  stats : Stats := {}
  highestInDb : Nat := 0
  preverifiedHeight : Nat := 0
  latestMinedBlockNumber : Nat := 0
  anchorLimit : Int := 0
  linkLimit : Int := 0
  persistedLinkLimit : Int := 0
  initialCycle : Bool := false
  deliveryNotify : Bool := false
deriving DecidableEq, Repr, Inhabited

/-! ## Maps and heaps of objects -/

/-- Map lookup `m[k]`. -/
def mapGet {α : Type} (m : List (Hash × α)) (k : Hash) : Option α :=
  match m with
  | [] => none
  | e :: rest => if e.1 = k then some e.2 else mapGet rest k

/-- Map deletion `delete(m, k)`. -/
def mapDel {α : Type} (m : List (Hash × α)) (k : Hash) : List (Hash × α) :=
  match m with
  | [] => []
  | e :: rest => if e.1 = k then mapDel rest k else e :: mapDel rest k

/-- Map assignment `m[k] = v`. -/
def mapSet {α : Type} (m : List (Hash × α)) (k : Hash) (v : α) : List (Hash × α) :=
  (k, v) :: mapDel m k

/-- Dereference of a link pointer. -/
def getLink (mem : List Link) (p : Nat) : Link :=
  mem.getD p default

/-- Store through a link pointer. -/
def setLink (mem : List Link) (p : Nat) (l : Link) : List Link :=
  mem.set p l

/-- Dereference of an anchor pointer. -/
def getAnchor (amem : List Anchor) (a : Nat) : Anchor :=
  amem.getD a default

/-- Store through an anchor pointer. -/
def setAnchor (amem : List Anchor) (a : Nat) (v : Anchor) : List Anchor :=
  amem.set a v

/-- The child list that starts at pointer `c`: `c`, `c.next`, `c.next.next`, ...
cut after `n` links. -/
def childList (mem : List Link) : Nat → Option Nat → List Nat
  | 0, _ => []
  | _ + 1, none => []
  | n + 1, some c => c :: childList mem n (getLink mem c).next

/-! ## Queues -/

/-- Modelled from the spec: the heap order of the link queues (their `Less` is
declared outside header_algos.go), "ordered by block height ascending". The root
of a heap is an element of least block height; among equals the model takes the
first in the list. -/
def heapMin (mem : List Link) : List Nat → Option Nat
  | [] => none
  | p :: ps =>
    match heapMin mem ps with
    | none => some p
    | some q => if (getLink mem p).blockHeight ≤ (getLink mem q).blockHeight then some p else some q

/-- Removal of a link from the queue named by `id` (`heap.Remove`). -/
def queueRemove (hd : HeaderDownload) (id : QueueID) (link : Nat) : HeaderDownload :=
  match id with
  | QueueID.NoQueue => hd
  | QueueID.EntryQueueID => { hd with linkQueue := hd.linkQueue.erase link }
  | QueueID.InsertQueueID => { hd with insertQueue := hd.insertQueue.erase link }
  | QueueID.PersistedQueueID => { hd with persistedLinkQueue := hd.persistedLinkQueue.erase link }

/-- Insertion of a link into the queue named by `id` (`heap.Push`). -/
def queuePush (hd : HeaderDownload) (id : QueueID) (link : Nat) : HeaderDownload :=
  match id with
  | QueueID.NoQueue => hd
  | QueueID.EntryQueueID => { hd with linkQueue := hd.linkQueue ++ [link] }
  | QueueID.InsertQueueID => { hd with insertQueue := hd.insertQueue ++ [link] }
  | QueueID.PersistedQueueID => { hd with persistedLinkQueue := hd.persistedLinkQueue ++ [link] }

/-- Modelled from the spec: `moveLinkToQueue` (its body is outside
header_algos.go) "detaches from the current queue (if any), inserts into the
target ..., and updates the tag". The engine has three queue fields; the tag
`EntryQueueID` names `linkQueue`, whose front `MarkAllVerified` moves to
`InsertQueueID` until `linkQueue` is empty. With target `NoQueue` the link ends
in no queue. -/
def moveLinkToQueue (hd : HeaderDownload) (link : Nat) (queueId : QueueID) : HeaderDownload :=
  let hd1 := queueRemove hd (getLink hd.mem link).queueId link
  let hd2 := queuePush hd1 queueId link
  { hd2 with mem := setLink hd2.mem link { getLink hd2.mem link with queueId := queueId } }

/-! ## Anchor tree -/

/-- Modelled from the spec: the order of the anchor tree (its `Less` is given
where the tree is created, outside header_algos.go), "by ascending block height,
then by parent hash". -/
def anchorLess (x y : Anchor) : Bool :=
  decide (x.blockHeight < y.blockHeight) ||
    (decide (x.blockHeight = y.blockHeight) && decide (x.parentHash < y.parentHash))

/-- Two anchors are the same tree item when neither is less than the other. -/
def anchorSameKey (x y : Anchor) : Bool :=
  !(anchorLess x y) && !(anchorLess y x)

/-- Tree deletion `anchorTree.Delete(anchor)`: the item equal to `anchor` goes. -/
def treeDelete (amem : List Anchor) (tree : List Nat) (anchor : Nat) : List Nat :=
  tree.filter (fun b => !(anchorSameKey (getAnchor amem b) (getAnchor amem anchor)))

/-- Insertion of `anchor` before the first item that is greater. -/
def treeInsert (amem : List Anchor) (anchor : Nat) : List Nat → List Nat
  | [] => [anchor]
  | b :: rest =>
    if anchorLess (getAnchor amem anchor) (getAnchor amem b) then anchor :: b :: rest
    else b :: treeInsert amem anchor rest

/-- Tree insertion `anchorTree.ReplaceOrInsert(anchor)`. -/
def treeReplaceOrInsert (amem : List Anchor) (tree : List Nat) (anchor : Nat) : List Nat :=
  treeInsert amem anchor (treeDelete amem tree anchor)

/-- Go `removeAnchor`: the anchor leaves the map and the tree. -/
def removeAnchor (hd : HeaderDownload) (anchor : Nat) : HeaderDownload :=
  { hd with
    anchors := mapDel hd.anchors (getAnchor hd.amem anchor).parentHash
    anchorTree := treeDelete hd.amem hd.anchorTree anchor }

/-! ## Child lists -/

/-- The loop of `ClearChildren`,
`for child := link.fChild; child != nil; child, child.next = child.next, nil`:
every link of the list that starts at `child` gets `next = nil`. -/
def clearNext : Nat → List Link → Option Nat → Option (List Link)
  | _, mem, none => some mem
  | 0, _, some _ => none
  | n + 1, mem, some c =>
    clearNext n (setLink mem c { getLink mem c with next := none }) (getLink mem c).next

/-- Modelled from the spec: `Link.ClearChildren` (declared outside
header_algos.go), written with the loop `invalidateAnchor` uses on an anchor's
children: the sibling pointers of the children of `link` are reset. -/
def ClearChildren (fuel : Nat) (mem : List Link) (link : Nat) : Option (List Link) :=
  clearNext fuel mem (getLink mem link).fChild

/-- Search of the list that starts at `child` for the link whose `next` is
`link`, which then skips `link`. A list without `link` is left as it is. -/
def detachNext : Nat → List Link → Option Nat → Nat → Option (List Link)
  | _, mem, none, _ => some mem
  | 0, _, some _, _ => none
  | n + 1, mem, some c, link =>
    if (getLink mem c).next = some link then
      some (setLink mem c { getLink mem c with next := (getLink mem link).next })
    else detachNext n mem (getLink mem c).next link

/-- Modelled from the spec: `Link.RemoveChild` (declared outside
header_algos.go), "detach from parent-link's child list". -/
def linkRemoveChild (fuel : Nat) (mem : List Link) (parentLink link : Nat) : Option (List Link) :=
  if (getLink mem parentLink).fChild = some link then
    some (setLink mem parentLink { getLink mem parentLink with fChild := (getLink mem link).next })
  else detachNext fuel mem (getLink mem parentLink).fChild link

/-- Modelled from the spec: `Anchor.RemoveChild` (declared outside
header_algos.go), "detach from any anchor's child list". -/
def anchorRemoveChild (fuel : Nat) (hd : HeaderDownload) (anchor link : Nat) : Option HeaderDownload :=
  if (getAnchor hd.amem anchor).fLink = some link then
    some { hd with amem := setAnchor hd.amem anchor
                    { getAnchor hd.amem anchor with fLink := (getLink hd.mem link).next } }
  else (detachNext fuel hd.mem (getAnchor hd.amem anchor).fLink link).map
    (fun m => { hd with mem := m })

/-- The pointers of the list that starts at `child`, in list order; `none` when
the list does not end within `fuel` links. -/
def collectChildren : Nat → List Link → Option Nat → Option (List Nat)
  | _, _, none => some []
  | 0, _, some _ => none
  | n + 1, mem, some c => (collectChildren n mem (getLink mem c).next).map (fun cs => c :: cs)

/-! ## removeUpwards -/

/-- The loop of `removeUpwards`. The slice `toRemove` is kept with its last
element first, so that the head of the list is the next link to remove and
appending the children `c1 .. ck` puts `ck` at the head. -/
def removeUpwardsLoop : Nat → HeaderDownload → List Nat → Option HeaderDownload
  | _, hd, [] => some hd
  | 0, _, _ :: _ => none
  | n + 1, hd, removal :: rest =>
    let hd1 := { hd with links := mapDel hd.links (getLink hd.mem removal).hash }
    let hd2 := moveLinkToQueue hd1 removal QueueID.NoQueue
    match collectChildren n hd2.mem (getLink hd2.mem removal).fChild with
    | none => none
    | some cs =>
      match ClearChildren n hd2.mem removal with
      | none => none
      | some mem3 => removeUpwardsLoop n { hd2 with mem := mem3 } (cs.reverse ++ rest)

/-- The opening of `removeUpwards`: a link that still has its header is taken
out of the child list of its parent link, when that parent is in the store. -/
def detachFromParent (fuel : Nat) (hd : HeaderDownload) (link : Nat) : Option HeaderDownload :=
  match (getLink hd.mem link).header with
  | none => some hd
  | some h =>
    match mapGet hd.links h.ParentHash with
    | none => some hd
    | some parentLink =>
      (linkRemoveChild fuel hd.mem parentLink link).map (fun m => { hd with mem := m })

/-- Go `removeUpwards` for a non-nil link. -/
def removeUpwards (fuel : Nat) (hd : HeaderDownload) (link : Nat) : Option HeaderDownload :=
  (detachFromParent fuel hd link).bind (fun hd1 => removeUpwardsLoop fuel hd1 [link])

/-! ## Ingest -/

/-- Go `addHeaderAsLink`: allocates the link, stores it under its hash and
queues it. Returns the new state and the pointer to the new link. -/
def addHeaderAsLink (hd : HeaderDownload) (h : ChainSegmentHeader) (persisted : Bool) :
    HeaderDownload × Nat :=
  let link : Link :=
    { blockHeight := h.number
      hash := h.hash
      header := if persisted then none else some h.header
      headerRaw := if persisted then none else some h.headerRaw
      persisted := persisted
      linked := persisted
      verified := persisted }
  let p := hd.mem.length
  let hd1 := { hd with mem := hd.mem ++ [link], links := mapSet hd.links h.hash p }
  (moveLinkToQueue hd1 p (if persisted then QueueID.PersistedQueueID else QueueID.EntryQueueID), p)

/-- The statistics update that opens `ProcessHeader`. -/
def updateRespStats (stats : Stats) (number : Nat) : Stats :=
  let s1 := if number > stats.RespMaxBlock then { stats with RespMaxBlock := number } else stats
  if s1.RespMinBlock = 0 ∨ number < s1.RespMinBlock then { s1 with RespMinBlock := number } else s1

/-- The branch of `ProcessHeader` for an anchor keyed by the parent hash: the link
becomes the first child of that anchor. -/
def attachToAnchor (hd : HeaderDownload) (link parentAnchor : Nat) : HeaderDownload :=
  let mem1 := setLink hd.mem link
    { getLink hd.mem link with next := (getAnchor hd.amem parentAnchor).fLink }
  let amem1 := setAnchor hd.amem parentAnchor
    { getAnchor hd.amem parentAnchor with fLink := some link }
  { hd with mem := mem1, amem := amem1 }

/-- The branch of `ProcessHeader` for a parent link in the store: the link
becomes the first child of its parent, and is linked and moved to the insert
queue when the parent is persisted. -/
def attachToParent (hd : HeaderDownload) (link parent : Nat) : HeaderDownload :=
  let mem1 := setLink hd.mem link { getLink hd.mem link with next := (getLink hd.mem parent).fChild }
  let mem2 := setLink mem1 parent { getLink mem1 parent with fChild := some link }
  let hd1 := { hd with mem := mem2 }
  if (getLink hd1.mem parent).persisted then
    let hd2 := { hd1 with mem := setLink hd1.mem link { getLink hd1.mem link with linked := true } }
    moveLinkToQueue hd2 link QueueID.InsertQueueID
  else hd1

/-- The branch of `ProcessHeader` that turns the link into an anchor. -/
def addAnchor (hd : HeaderDownload) (sh : ChainSegmentHeader) (peerID : PeerID) (link : Nat) :
    HeaderDownload :=
  let anchor : Anchor :=
    { parentHash := sh.header.ParentHash
      nextRetryTime := 0
      peerID := peerID
      blockHeight := sh.number
      fLink := some link }
  let a := hd.amem.length
  let amem1 := hd.amem ++ [anchor]
  { hd with
    amem := amem1
    anchors := mapSet hd.anchors sh.header.ParentHash a
    anchorTree := treeReplaceOrInsert amem1 hd.anchorTree a }

/-- The part of `ProcessHeader` after the new link has been added and an anchor
keyed by the header's own hash has been taken over. `thr` is
`config3.FullImmutabilityThreshold`. -/
def attachLink (fuel thr : Nat) (hd : HeaderDownload) (sh : ChainSegmentHeader)
    (peerID : PeerID) (link : Nat) (parent : Option Nat) : Option (HeaderDownload × Bool) :=
  match mapGet hd.anchors sh.header.ParentHash with
  | some parentAnchor => some (attachToAnchor hd link parentAnchor, false)
  | none =>
    match parent with
    | some par => some (attachToParent hd link par, false)
    | none =>
      if (sh.number + thr) % 2 ^ 64 < hd.highestInDb then
        (removeUpwards fuel hd link).map (fun hd1 => (hd1, false))
      else some (addAnchor hd sh peerID link, true)

/-- The step of `ProcessHeader` for `foundAnchor`: the new link takes over the
child links of the anchor keyed by its hash, and that anchor is removed. -/
def adoptAnchor (hd : HeaderDownload) (link : Nat) (anchor : Option Nat) : HeaderDownload :=
  match anchor with
  | some a =>
    removeAnchor
      { hd with mem := setLink hd.mem link
                  { getLink hd.mem link with fChild := (getAnchor hd.amem a).fLink } } a
  | none => hd

/-- The state of `ProcessHeader` once the header is accepted: response statistics
updated, the new link added and queued, the anchor keyed by the header's hash
taken over. The second component is the pointer to the new link. -/
def acceptLink (hd : HeaderDownload) (sh : ChainSegmentHeader) : HeaderDownload × Nat :=
  let added := addHeaderAsLink { hd with stats := updateRespStats hd.stats sh.number } sh false
  (adoptAnchor added.1 added.2 (mapGet hd.anchors sh.hash), added.2)

/-- Go `ProcessHeader`. `thr` is `config3.FullImmutabilityThreshold`. -/
def ProcessHeader (fuel thr : Nat) (hd : HeaderDownload) (sh : ChainSegmentHeader)
    (_newBlock : Bool) (peerID : PeerID) : Option (HeaderDownload × Bool) :=
  let hd0 := { hd with stats := updateRespStats hd.stats sh.number }
  match mapGet hd0.links sh.hash with
  | some _ =>
    some ({ hd0 with stats := { hd0.stats with Duplicates := hd0.stats.Duplicates + 1 } }, false)
  | none =>
    let parent := mapGet hd0.links sh.header.ParentHash
    let anchor := mapGet hd0.anchors sh.hash
    if parent = none ∧ anchor = none ∧ sh.number < hd0.highestInDb then some (hd0, false)
    else if parent = none ∧ anchor = none ∧ (hd0.anchors.length : Int) ≥ hd0.anchorLimit then
      some (hd0, false)
    else
      let accepted := acceptLink hd sh
      attachLink fuel thr accepted.1 sh peerID accepted.2 parent

/-- The body of the loop of `pruneLinkQueue` after the pop: the link leaves the
store, its children are cleared, and it is taken out of the child list of its
parent link and of the anchor keyed by its parent hash; an anchor left without
children is removed. -/
def pruneLink (fuel : Nat) (hd : HeaderDownload) (link : Nat) : Option HeaderDownload :=
  let hd1 := { hd with links := mapDel hd.links (getLink hd.mem link).hash }
  (ClearChildren fuel hd1.mem link).bind fun mem2 =>
    let hd2 := { hd1 with mem := mem2 }
    match (getLink hd2.mem link).header with
    | none => none
    | some h =>
      (match mapGet hd2.links h.ParentHash with
        | none => some hd2
        | some parentLink =>
          (linkRemoveChild fuel hd2.mem parentLink link).map
            (fun m => { hd2 with mem := m })).bind fun hd3 =>
        match mapGet hd3.anchors h.ParentHash with
        | none => some hd3
        | some anchor =>
          (anchorRemoveChild fuel hd3 anchor link).map
            (fun (hd4 : HeaderDownload) =>
              if (getAnchor hd4.amem anchor).fLink = none then removeAnchor hd4 anchor else hd4)

/-- Go `pruneLinkQueue`; `none` is the panic of `heap.Pop` on an empty queue or
of `link.header.ParentHash` on a link without header, or a child list that does
not end within the fuel. -/
def pruneLinkQueue : Nat → HeaderDownload → Option HeaderDownload
  | 0, hd => if (hd.linkQueue.length : Int) > hd.linkLimit then none else some hd
  | n + 1, hd =>
    if (hd.linkQueue.length : Int) > hd.linkLimit then
      match heapMin hd.mem hd.linkQueue with
      | none => none
      | some link =>
        (pruneLink n { hd with linkQueue := hd.linkQueue.erase link } link).bind
          (pruneLinkQueue n)
    else some hd

/-- The loop of `ProcessHeaders` over the segment. -/
def processSegment (fuel thr : Nat) (newBlock : Bool) (peerID : PeerID) :
    HeaderDownload → List ChainSegmentHeader → Bool → Option (HeaderDownload × Bool)
  | hd, [], requestMore => some (hd, requestMore)
  | hd, sh :: rest, requestMore =>
    match ProcessHeader fuel thr hd sh newBlock peerID with
    | none => none
    | some (hd1, more) => processSegment fuel thr newBlock peerID hd1 rest (more || requestMore)

/-- Go `ProcessHeaders`. -/
def ProcessHeaders (fuel thr : Nat) (hd : HeaderDownload) (csHeaders : List ChainSegmentHeader)
    (newBlock : Bool) (peerID : PeerID) : Option (HeaderDownload × Bool) :=
  match processSegment fuel thr newBlock peerID hd csHeaders false with
  | none => none
  | some (hd1, requestMore) =>
    let hd2 := { hd1 with stats := { hd1.stats with Responses := hd1.stats.Responses + 1 } }
    let pruned : Option HeaderDownload :=
      if (hd2.linkQueue.length : Int) > hd2.linkLimit then pruneLinkQueue fuel hd2 else some hd2
    match pruned with
    | none => none
    | some hd3 => some ({ hd3 with deliveryNotify := true }, !hd3.initialCycle && requestMore)

/-! ## Loading persisted links -/

/-- The loop of `AddHeadersFromSnapshot` over the frozen blocks `i, i - 1, .., 1`.
`r i` is the header that `r.HeaderByNumber` finds for block `i`, with its
encoding and hash; the errors of the reader are left out. -/
def addSnapshotHeaders (r : Nat → Option ChainSegmentHeader) :
    Nat → HeaderDownload → HeaderDownload
  | 0, hd => hd
  | i + 1, hd =>
    if (hd.persistedLinkQueue.length : Int) < hd.persistedLinkLimit then
      match r (i + 1) with
      | none => addSnapshotHeaders r i hd
      | some h =>
        let added := addHeaderAsLink hd { h with number := h.header.Number } true
        let hd1 := { added.1 with
          mem := setLink added.1.mem added.2 { getLink added.1.mem added.2 with verified := true } }
        addSnapshotHeaders r i hd1
    else hd

/-- Go `AddHeadersFromSnapshot` for `n` frozen blocks. -/
def AddHeadersFromSnapshot (hd : HeaderDownload) (n : Nat)
    (r : Nat → Option ChainSegmentHeader) : HeaderDownload :=
  let hd1 := addSnapshotHeaders r n hd
  let hd2 := if hd1.highestInDb < n then { hd1 with highestInDb := n } else hd1
  if hd2.preverifiedHeight < n then { hd2 with preverifiedHeight := n } else hd2

/-! ## Predicates used in the statements -/

/-- The forest of two states is the same: link store, link heap, anchors, anchor
heap, anchor tree and the three queues. -/
def SameForest (x y : HeaderDownload) : Prop :=
  y.links = x.links ∧ y.mem = x.mem ∧ y.anchors = x.anchors ∧ y.amem = x.amem ∧
    y.anchorTree = x.anchorTree ∧ y.linkQueue = x.linkQueue ∧
    y.insertQueue = x.insertQueue ∧ y.persistedLinkQueue = x.persistedLinkQueue

/-- The anchors of two states are the same: map, heap and tree. -/
def SameAnchors (x y : HeaderDownload) : Prop :=
  y.anchors = x.anchors ∧ y.amem = x.amem ∧ y.anchorTree = x.anchorTree

/-- Everything outside the forest is the same in two states. -/
def SameRest (x y : HeaderDownload) : Prop :=
  y.stats = x.stats ∧ y.highestInDb = x.highestInDb ∧
    y.preverifiedHeight = x.preverifiedHeight ∧
    y.latestMinedBlockNumber = x.latestMinedBlockNumber ∧
    y.anchorLimit = x.anchorLimit ∧ y.linkLimit = x.linkLimit ∧
    y.persistedLinkLimit = x.persistedLinkLimit ∧ y.initialCycle = x.initialCycle ∧
    y.deliveryNotify = x.deliveryNotify ∧ y.badHeaders = x.badHeaders ∧
    y.badPoSHeaders = x.badPoSHeaders ∧ y.seenAnnounces = x.seenAnnounces ∧
    y.toAnnounce = x.toAnnounce

/-- `ProcessHeader` rejects the header before adding a link: it has neither a
parent link nor an anchor keyed by its own hash, and it is below `highestInDb`
or the anchor limit is reached. -/
def Rejected (hd : HeaderDownload) (sh : ChainSegmentHeader) : Prop :=
  mapGet hd.links sh.header.ParentHash = none ∧ mapGet hd.anchors sh.hash = none ∧
    (sh.number < hd.highestInDb ∨ (hd.anchors.length : Int) ≥ hd.anchorLimit)

instance (hd : HeaderDownload) (sh : ChainSegmentHeader) : Decidable (Rejected hd sh) := by
  unfold Rejected
  exact inferInstance

/-- No anchor waits for a header that is in the link store: the parent hash of
an anchor is not the hash of a stored link. -/
def anchorsUnresolved (hd : HeaderDownload) : Bool :=
  hd.anchors.all (fun e => (mapGet hd.links e.1).isNone)

/-- A pointer, if not nil, is below `n`. -/
def ptrBelow (n : Nat) (p : Option Nat) : Bool :=
  match p with
  | none => true
  | some q => decide (q < n)

/-- Every pointer held by the state points into its heap, and both maps are
keyed by the hash the object itself carries (`hd.links[link.hash] = link`,
`hd.anchors[anchor.parentHash] = anchor`). -/
def wellFormed (hd : HeaderDownload) : Bool :=
  hd.links.all (fun e => decide (e.2 < hd.mem.length) && decide ((getLink hd.mem e.2).hash = e.1)) &&
  hd.anchors.all (fun e => decide (e.2 < hd.amem.length) &&
    decide ((getAnchor hd.amem e.2).parentHash = e.1)) &&
  hd.mem.all (fun l => ptrBelow hd.mem.length l.fChild && ptrBelow hd.mem.length l.next) &&
  hd.amem.all (fun x => ptrBelow hd.mem.length x.fLink) &&
  hd.anchorTree.all (fun a => decide (a < hd.amem.length)) &&
  hd.linkQueue.all (fun p => decide (p < hd.mem.length)) &&
  hd.insertQueue.all (fun p => decide (p < hd.mem.length)) &&
  hd.persistedLinkQueue.all (fun p => decide (p < hd.mem.length))

/-- The child and sibling pointers of the link heap respect a rank: no link is
its own descendant or later sibling. -/
def acyclic (mem : List Link) (rank : Nat → Nat) : Bool :=
  (List.range mem.length).all (fun q =>
    (match (getLink mem q).fChild with
      | none => true
      | some c => decide (rank c < rank q)) &&
    (match (getLink mem q).next with
      | none => true
      | some c => decide (rank c < rank q)))

/-- Link `x` hangs below the child list that starts at pointer `o`: it is a
link of that list or a descendant of one. -/
inductive Below (mem : List Link) : Option Nat → Nat → Prop where
  | here (p : Nat) : Below mem (some p) p
  | child (p x : Nat) : Below mem (getLink mem p).fChild x → Below mem (some p) x
  | sibling (p x : Nat) : Below mem (getLink mem p).next x → Below mem (some p) x

/-- Link `q` is on the sibling chain that starts at pointer `o`. -/
inductive InChain (mem : List Link) : Option Nat → Nat → Prop where
  | here (p : Nat) : InChain mem (some p) p
  | sibling (p q : Nat) : InChain mem (getLink mem p).next q → InChain mem (some p) q

/-- Link `x` is in the subtree of one of the links of `stack`. -/
def Covered (mem : List Link) (stack : List Nat) (x : Nat) : Prop :=
  ∃ r, r ∈ stack ∧ (x = r ∨ Below mem (getLink mem r).fChild x)

/-- The heap `mem2` is the heap `mem` up to queue tags, with some sibling pointers
reset to nil. -/
def Pruned (mem mem2 : List Link) : Prop :=
  ∀ q, (getLink mem2 q).fChild = (getLink mem q).fChild ∧
    (getLink mem2 q).hash = (getLink mem q).hash ∧
    ((getLink mem2 q).next = (getLink mem q).next ∨ (getLink mem2 q).next = none)

/-- Every child and sibling pointer of the heap leads to a link of lower rank. -/
def Ranked (mem : List Link) (rank : Nat → Nat) : Prop :=
  ∀ q c, ((getLink mem q).fChild = some c ∨ (getLink mem q).next = some c) → rank c < rank q

/-- The bound on the work left for the loop of `removeUpwards`: `2 ^ rank` summed
over the links still to remove. -/
def weight (rank : Nat → Nat) (stack : List Nat) : Nat :=
  (stack.map (fun r => 2 ^ rank r)).sum

/-- The link `ProcessHeader` allocates for header `sh`, as it stands once it is
queued and has taken over the child list `fChild`. -/
def freshLink (sh : ChainSegmentHeader) (fChild : Option Nat) : Link :=
  { blockHeight := sh.number, hash := sh.hash, header := some sh.header
    headerRaw := some sh.headerRaw, queueId := QueueID.EntryQueueID, fChild := fChild }

/-- The first link of the child list of the anchor keyed by the hash of `sh`,
nil when there is no such anchor. -/
def adoptedChildren (hd : HeaderDownload) (sh : ChainSegmentHeader) : Option Nat :=
  match mapGet hd.anchors sh.hash with
  | some a => (getAnchor hd.amem a).fLink
  | none => none

/-- Two calls of `ProcessHeader` with the same header in succession; the result
is the state after the first call and the state after the second. -/
def ingestTwice (fuel thr : Nat) (hd : HeaderDownload) (sh : ChainSegmentHeader)
    (newBlock : Bool) (peerID : PeerID) : Option (HeaderDownload × HeaderDownload) :=
  (ProcessHeader fuel thr hd sh newBlock peerID).bind fun r1 =>
    (ProcessHeader fuel thr r1.1 sh newBlock peerID).map fun r2 => (r1.1, r2.1)

/-! ## Concrete states and headers -/

/-- An engine without links and anchors, with room for four anchors. -/
def emptyEngine : HeaderDownload :=
  { anchorLimit := 4, linkLimit := 8, persistedLinkLimit := 8 }

/-- Header `0x0b` at height 5 whose parent is `0x0a`. -/
def header11 : ChainSegmentHeader :=
  { hash := 11, number := 5, header := { ParentHash := 10, Number := 5 } }

/-- Header `0x0c` at height 6 whose parent is `0x0b`. -/
def header12 : ChainSegmentHeader :=
  { hash := 12, number := 6, header := { ParentHash := 11, Number := 6 } }

/-- Header `0x0a` at height 4 whose parent is `0x09`. -/
def header10 : ChainSegmentHeader :=
  { hash := 10, number := 4, header := { ParentHash := 9, Number := 4 } }

/-- A second header at height 5 whose parent is `0x0a`. -/
def header13 : ChainSegmentHeader :=
  { hash := 13, number := 5, header := { ParentHash := 10, Number := 5 } }

/-- The engine after header `0x0b` arrived: one link, below an anchor keyed by
`0x0a`. -/
def oneAnchorEngine : HeaderDownload :=
  { mem := [{ header := some header11.header, headerRaw := some [], hash := 11, blockHeight := 5,
              queueId := QueueID.EntryQueueID }]
    amem := [{ peerID := 7, fLink := some 0, parentHash := 10, blockHeight := 5 }]
    links := [(11, 0)]
    anchors := [(10, 0)]
    anchorTree := [0]
    linkQueue := [0]
    stats := { RespMinBlock := 5, RespMaxBlock := 5 }
    anchorLimit := 4, linkLimit := 8, persistedLinkLimit := 8 }

/-- An engine whose database is at height 10 and that holds no link. -/
def engineAtTen : HeaderDownload :=
  { highestInDb := 10, anchorLimit := 4, linkLimit := 8, persistedLinkLimit := 8 }

/-- An engine that holds one persisted link, `0x0a` at height 4. -/
def persistedEngine : HeaderDownload :=
  { mem := [{ hash := 10, blockHeight := 4, persisted := true, verified := true, linked := true,
              queueId := QueueID.PersistedQueueID }]
    links := [(10, 0)]
    persistedLinkQueue := [0]
    highestInDb := 4
    anchorLimit := 4, linkLimit := 8, persistedLinkLimit := 8 }

/-- A snapshot of four frozen blocks of which block 4 is header `0x0a`. -/
def snapshotWith10 : Nat → Option ChainSegmentHeader :=
  fun i => if i = 4 then some header10 else none

/-- An empty engine with room for a single link in the link queue. -/
def tightEngine : HeaderDownload :=
  { anchorLimit := 4, linkLimit := 1, persistedLinkLimit := 8 }


/-! ## Verification and insertion -/

/-- The error of `hd.VerifyHeader(link.header)` as `InsertHeader` tells it apart:
nil, an error that is `consensus.ErrFutureBlock`, any other error. -/
inductive VerifyResult where
  | valid
  | futureBlock
  | invalid
  deriving DecidableEq, Repr, Inhabited

/-- Go `FeedHeaderFunc`, the persistence callback, over a database state of type
`σ`: it is called with the header, the raw bytes, the hash and the block height
of the link, and returns an error or the total difficulty (`td`, possibly nil),
together with the database state it leaves. -/
abbrev FeedHeaderFunc (σ ε : Type) :=
  Header → Option (List Nat) → Hash → Nat → σ → Except ε (Option Int) × σ

/-- The engine and database after `InsertHeader`, with its five results. -/
structure InsertOutcome (σ ε : Type) where
  hd : HeaderDownload
  db : σ
  more : Bool
  force : Bool
  blocksToTTD : Nat
  lastTime : Nat
  err : Option ε
  deriving DecidableEq, Repr

/-- The test `bad` at the top of `InsertHeader`: the hash of the link is a bad
header, or the link is not persisted and the parent hash of its header is.
`none` is the nil dereference of `link.header.ParentHash`. -/
def isBad (hd : HeaderDownload) (l : Link) : Option Bool :=
  if l.hash ∈ hd.badHeaders then some true
  else if l.persisted then some false
  else
    match l.header with
    | none => none
    | some h => some (decide (h.ParentHash ∈ hd.badHeaders))

/-- The loop over the children of the link just persisted: every child that is
not persisted moves to the insert queue. -/
def moveChildren : Nat → HeaderDownload → Option Nat → Option HeaderDownload
  | _, hd, none => some hd
  | 0, _, some _ => none
  | n + 1, hd, some child =>
    let hd1 :=
      if (getLink hd.mem child).persisted then hd else moveLinkToQueue hd child QueueID.InsertQueueID
    moveChildren n hd1 (getLink hd1.mem child).next

/-- The part of `InsertHeader` from the update of `highestInDb` to the loop over
the children: the link becomes persisted, gives up its header and raw bytes and
moves to the persisted queue. -/
def persistLink (fuel : Nat) (hd : HeaderDownload) (link : Nat) : Option HeaderDownload :=
  let hd1 :=
    if (getLink hd.mem link).blockHeight > hd.highestInDb then
      { hd with highestInDb := (getLink hd.mem link).blockHeight }
    else hd
  let hd2 := { hd1 with
    mem := setLink hd1.mem link
      { getLink hd1.mem link with persisted := true, header := none, headerRaw := none } }
  let hd3 := moveLinkToQueue hd2 link QueueID.PersistedQueueID
  moveChildren fuel hd3 (getLink hd3.mem link).fChild

/-- The loop `for hd.persistedLinkQueue.Len() > hd.persistedLinkLimit`: the root
of the persisted queue is popped, deleted from the store, and its children are
cleared. -/
def evictPersisted : Nat → HeaderDownload → Option HeaderDownload
  | 0, hd => if (hd.persistedLinkQueue.length : Int) > hd.persistedLinkLimit then none else some hd
  | n + 1, hd =>
    if (hd.persistedLinkQueue.length : Int) > hd.persistedLinkLimit then
      match heapMin hd.mem hd.persistedLinkQueue with
      | none => none
      | some link =>
        let hd1 := { hd with
          persistedLinkQueue := hd.persistedLinkQueue.erase link,
          links := mapDel hd.links (getLink hd.mem link).hash }
        (ClearChildren n hd1.mem link).bind fun mem2 =>
          evictPersisted n { hd1 with mem := mem2 }
    else some hd

/-- The estimate `blocksToTTD`: `(terminalTotalDifficulty - returnTd) / lastD`
when all three are set and the quotient fits 64 bits, else 0. `pending` holds
`returnTd` and `lastD`, which the source sets together. `none` is the panic of
`big.Int.Div` on a zero divisor. -/
def blocksToTTD (terminalTotalDifficulty : Option Int) (pending : Option (Int × Nat)) :
    Option Nat :=
  match terminalTotalDifficulty, pending with
  | some ttd, some (returnTd, lastD) =>
    if lastD = 0 then none
    else
      let x : Int := (ttd - returnTd) / (lastD : Int)
      if 0 ≤ x ∧ x < 2 ^ 64 then some x.toNat else some 0
  | _, _ => some 0

/-- The tail of `InsertHeader`: eviction from the persisted queue, the estimate,
and the final return. -/
def finishInsert {σ ε : Type} (fuel : Nat) (terminalTotalDifficulty : Option Int)
    (pending : Option (Int × Nat)) (lastTime : Nat) (hd : HeaderDownload) (db : σ) :
    Option (InsertOutcome σ ε) :=
  (evictPersisted fuel hd).bind fun hd1 =>
    (blocksToTTD terminalTotalDifficulty pending).map fun b =>
      { hd := hd1, db := db,
        more :=
          (match heapMin hd1.mem hd1.insertQueue with
            | none => false
            | some front =>
              decide ((getLink hd1.mem front).blockHeight ≤ (hd1.highestInDb + 1) % 2 ^ 64)),
        force := false, blocksToTTD := b, lastTime := lastTime, err := none }

/-- The bookkeeping of `InsertHeader` right after the callback returned without
error: the hash of the link leaves the PoS bad-map and, when a total difficulty
came back and `seenAnnounces.Pop` finds the hash, the link is queued for
announcement. -/
def noteInserted (hd : HeaderDownload) (link : Nat) (td : Option Int) : HeaderDownload :=
  let l := getLink hd.mem link
  let hd2 := { hd with badPoSHeaders := mapDel hd.badPoSHeaders l.hash }
  match td with
  | none => hd2
  | some _ =>
    if l.hash ∈ hd2.seenAnnounces then
      { hd2 with
        seenAnnounces := hd2.seenAnnounces.erase l.hash,
        toAnnounce := hd2.toAnnounce ++ [(l.hash, l.blockHeight)] }
    else hd2

/-- The part of `InsertHeader` after a call of the callback that returned no
error, with the total difficulty `td` it gave. -/
def afterFeed {σ ε : Type} (fuel : Nat) (terminalTotalDifficulty : Option Int)
    (hd : HeaderDownload) (link : Nat) (h : Header) (td : Option Int) (db : σ) :
    Option (InsertOutcome σ ε) :=
  let l := getLink hd.mem link
  let hd3 := noteInserted hd link td
  let terminal : Bool :=
    match td, terminalTotalDifficulty with
    | some t, some ttd => decide (t ≥ ttd)
    | _, _ => false
  if terminal then
    some { hd := { hd3 with highestInDb := l.blockHeight }, db := db, more := true, force := true,
           blocksToTTD := 0, lastTime := 0, err := none }
  else
    let pending : Option (Int × Nat) :=
      match td, terminalTotalDifficulty with
      | some t, some _ => some (t, h.Difficulty)
      | _, _ => none
    (persistLink fuel hd3 link).bind fun hd4 =>
      if l.blockHeight = hd4.latestMinedBlockNumber then
        some { hd := hd4, db := db, more := false, force := true, blocksToTTD := 0,
               lastTime := h.Time, err := none }
      else finishInsert fuel terminalTotalDifficulty pending h.Time hd4 db

/-- Go `InsertHeader`. `verify` is `hd.VerifyHeader`, `hf` the callback, `db`
the database the callback writes to. `none` is a panic (the front link has no
header where one is read, `big.Int.Div` by zero) or a child list that does not
end within the fuel. -/
def InsertHeader {σ ε : Type} (fuel : Nat) (verify : Header → VerifyResult)
    (hf : FeedHeaderFunc σ ε) (terminalTotalDifficulty : Option Int)
    (hd : HeaderDownload) (db : σ) : Option (InsertOutcome σ ε) :=
  match heapMin hd.mem hd.insertQueue with
  | none => finishInsert fuel terminalTotalDifficulty none 0 hd db
  | some link =>
    let l := getLink hd.mem link
    match isBad hd l with
    | none => none
    | some true =>
      (removeUpwards fuel hd link).map fun (hd1 : HeaderDownload) =>
        { hd := { hd1 with
                  stats := { hd1.stats with RejectedBadHeaders := hd1.stats.RejectedBadHeaders + 1 } },
          db := db, more := true, force := false, blocksToTTD := 0, lastTime := 0, err := none }
    | some false =>
      match l.header with
      | none => none
      | some h =>
        match (if l.verified then VerifyResult.valid else verify h) with
        | VerifyResult.futureBlock =>
          some { hd := { hd with badPoSHeaders := mapSet hd.badPoSHeaders l.hash h.ParentHash },
                 db := db, more := false, force := false, blocksToTTD := 0, lastTime := 0,
                 err := none }
        | VerifyResult.invalid =>
          (removeUpwards fuel
              { hd with badPoSHeaders := mapSet hd.badPoSHeaders l.hash h.ParentHash } link).map
            fun (hd1 : HeaderDownload) =>
              { hd := { hd1 with
                        stats := { hd1.stats with InvalidHeaders := hd1.stats.InvalidHeaders + 1 } },
                db := db, more := true, force := false, blocksToTTD := 0, lastTime := 0,
                err := none }
        | VerifyResult.valid =>
          let hd1 := { hd with mem := setLink hd.mem link { l with verified := true } }
          match hf h l.headerRaw l.hash l.blockHeight db with
          | (Except.error e, db1) =>
            some { hd := hd1, db := db1, more := false, force := false, blocksToTTD := 0,
                   lastTime := 0, err := some e }
          | (Except.ok td, db1) => afterFeed fuel terminalTotalDifficulty hd1 link h td db1

/-- Go `UnlinkHeader`. -/
def UnlinkHeader (fuel : Nat) (hd : HeaderDownload) (headerHash : Hash) : Option HeaderDownload :=
  match mapGet hd.links headerHash with
  | none => some hd
  | some link => removeUpwards fuel hd link

/-- The body of the first loop of `MarkAllVerified`. -/
def markVerified (mem : List Link) (link : Nat) : List Link :=
  if (getLink mem link).verified then mem
  else setLink mem link { getLink mem link with linked := true, verified := true }

/-- The second loop of `MarkAllVerified`, `for hd.linkQueue.Len() > 0`: the
front of the link queue, when not verified, is marked and moves to the insert
queue; a verified front stays, and the loop goes on with the same state. -/
def markLinkQueue : Nat → HeaderDownload → Option HeaderDownload
  | 0, hd => if hd.linkQueue.length > 0 then none else some hd
  | n + 1, hd =>
    match heapMin hd.mem hd.linkQueue with
    | none => some hd
    | some link =>
      if (getLink hd.mem link).verified then markLinkQueue n hd
      else
        markLinkQueue n
          (moveLinkToQueue { hd with mem := markVerified hd.mem link } link QueueID.InsertQueueID)

/-- Go `MarkAllVerified`. -/
def MarkAllVerified (fuel : Nat) (hd : HeaderDownload) : Option HeaderDownload :=
  markLinkQueue fuel { hd with mem := hd.insertQueue.foldl markVerified hd.mem }

/-- Every queue holds a link at most once, and only links whose tag names it. -/
def queuesTagged (hd : HeaderDownload) : Bool :=
  decide hd.linkQueue.Nodup && decide hd.insertQueue.Nodup &&
  decide hd.persistedLinkQueue.Nodup &&
  hd.linkQueue.all (fun p => decide ((getLink hd.mem p).queueId = QueueID.EntryQueueID)) &&
  hd.insertQueue.all (fun p => decide ((getLink hd.mem p).queueId = QueueID.InsertQueueID)) &&
  hd.persistedLinkQueue.all
    (fun p => decide ((getLink hd.mem p).queueId = QueueID.PersistedQueueID))

/-- The property `queuesTagged` checks. -/
def QueuesOk (hd : HeaderDownload) : Prop :=
  hd.linkQueue.Nodup ∧ hd.insertQueue.Nodup ∧ hd.persistedLinkQueue.Nodup ∧
  (∀ p ∈ hd.linkQueue, (getLink hd.mem p).queueId = QueueID.EntryQueueID) ∧
  (∀ p ∈ hd.insertQueue, (getLink hd.mem p).queueId = QueueID.InsertQueueID) ∧
  (∀ p ∈ hd.persistedLinkQueue, (getLink hd.mem p).queueId = QueueID.PersistedQueueID)

/-- Link `x` is in none of the three queues. -/
def inNoQueue (hd : HeaderDownload) (x : Nat) : Prop :=
  x ∉ hd.linkQueue ∧ x ∉ hd.insertQueue ∧ x ∉ hd.persistedLinkQueue

/-! ## Concrete verifiers, callbacks and states for insertion -/

/-- A verifier that accepts every header. -/
def verifyOk : Header → VerifyResult := fun _ => VerifyResult.valid

/-- A verifier that finds every header to be in the future. -/
def verifyFuture : Header → VerifyResult := fun _ => VerifyResult.futureBlock

/-- A verifier that rejects every header. -/
def verifyInvalid : Header → VerifyResult := fun _ => VerifyResult.invalid

/-- A callback that appends the block height it is given to the database and
returns no total difficulty. -/
def feedOk : FeedHeaderFunc (List Nat) Nat :=
  fun _ _ _ blockHeight db => (Except.ok none, db ++ [blockHeight])

/-- A callback that appends the block height it is given to the database and
returns the total difficulty `td`. -/
def feedTd (td : Int) : FeedHeaderFunc (List Nat) Nat :=
  fun _ _ _ blockHeight db => (Except.ok (some td), db ++ [blockHeight])

/-- A callback that fails with error 1 and leaves the database as it is. -/
def feedFail : FeedHeaderFunc (List Nat) Nat :=
  fun _ _ _ _ db => (Except.error 1, db)

/-- The engine `persistedEngine` after headers `0x0c` and `0x0b` arrived in that
order: link `0x0b` (pointer 2) is linked below the persisted `0x0a` and waits in
the insert queue, its child `0x0c` (pointer 1) waits in the link queue. -/
def readyEngine : HeaderDownload :=
  { mem := [{ hash := 10, blockHeight := 4, persisted := true, verified := true, linked := true,
              queueId := QueueID.PersistedQueueID, fChild := some 2 },
            { header := some header12.header, headerRaw := some [], hash := 12, blockHeight := 6,
              queueId := QueueID.EntryQueueID },
            { header := some header11.header, headerRaw := some [], hash := 11, blockHeight := 5,
              linked := true, queueId := QueueID.InsertQueueID, fChild := some 1 }]
    amem := [{ peerID := 7, fLink := some 1, parentHash := 11, blockHeight := 6 }]
    links := [(11, 2), (12, 1), (10, 0)]
    linkQueue := [1]
    insertQueue := [2]
    persistedLinkQueue := [0]
    stats := { RespMinBlock := 5, RespMaxBlock := 6 }
    highestInDb := 4
    anchorLimit := 4, linkLimit := 8, persistedLinkLimit := 8 }

/-- The engine `readyEngine` with a database that has reached height 10: link
`0x0b` at height 5 is a side chain below the persisted `0x0a`. -/
def aheadEngine : HeaderDownload :=
  { readyEngine with highestInDb := 10 }

/-- The engine `readyEngine` with room for a single persisted link, and with
block 5 as the latest block mined locally. -/
def minedEngine : HeaderDownload :=
  { readyEngine with latestMinedBlockNumber := 5, persistedLinkLimit := 1 }

/-- The engine `readyEngine` with room for a single persisted link. -/
def narrowEngine : HeaderDownload :=
  { readyEngine with persistedLinkLimit := 1 }

/-- Header `0x15` at height 8 whose parent is `0x14`. -/
def header21 : ChainSegmentHeader :=
  { hash := 21, number := 8, header := { ParentHash := 20, Number := 8 } }

/-- An engine that holds two persisted links, `0x0a` at height 4 and `0x14` at
height 7, with a database at height 7. -/
def twoPersistedEngine : HeaderDownload :=
  { mem := [{ hash := 10, blockHeight := 4, persisted := true, verified := true, linked := true,
              queueId := QueueID.PersistedQueueID },
            { hash := 20, blockHeight := 7, persisted := true, verified := true, linked := true,
              queueId := QueueID.PersistedQueueID }]
    links := [(20, 1), (10, 0)]
    persistedLinkQueue := [0, 1]
    highestInDb := 7
    anchorLimit := 4, linkLimit := 8, persistedLinkLimit := 8 }

/-- The run `ProcessHeader a; ProcessHeader b; InsertHeader` with an accepting
verifier and the callback `feedOk`. -/
def ingestTwoInsert (hd : HeaderDownload) (a b : ChainSegmentHeader) :
    Option (InsertOutcome (List Nat) Nat) :=
  (ProcessHeader 10 90000 hd a false 7).bind fun r1 =>
    (ProcessHeader 10 90000 r1.1 b false 7).bind fun r2 =>
      InsertHeader 10 verifyOk feedOk none r2.1 []

/-- The run `ProcessHeader a; ProcessHeader b; InsertHeader; InsertHeader` with
an accepting verifier and the callback `feedOk`. -/
def ingestTwoInsertTwo (hd : HeaderDownload) (a b : ChainSegmentHeader) :
    Option (InsertOutcome (List Nat) Nat) :=
  (ingestTwoInsert hd a b).bind fun o1 => InsertHeader 10 verifyOk feedOk none o1.hd o1.db

/-- The empty engine after the snapshot `snapshotWith10` was loaded: it holds
the persisted link `0x0a` at height 4. -/
def loadedEngine : HeaderDownload :=
  AddHeadersFromSnapshot emptyEngine 4 snapshotWith10

/-- An empty engine with room for a single persisted link, after the snapshot
`snapshotWith10` was loaded. -/
def loadedSmallEngine : HeaderDownload :=
  AddHeadersFromSnapshot { emptyEngine with persistedLinkLimit := 1 } 4 snapshotWith10

/-- The run `ProcessHeader a; InsertHeader; ProcessHeader b; InsertHeader` with
an accepting verifier and the callback `feedOk`. -/
def ingestInsertTwice (hd : HeaderDownload) (a b : ChainSegmentHeader) :
    Option (InsertOutcome (List Nat) Nat) :=
  (ProcessHeader 10 90000 hd a false 7).bind fun r1 =>
    (InsertHeader 10 verifyOk feedOk none r1.1 []).bind fun o1 =>
      (ProcessHeader 10 90000 o1.hd b false 7).bind fun r2 =>
        InsertHeader 10 verifyOk feedOk none r2.1 o1.db

/-- What a link carries besides its pointers and its queue tag: header, raw
bytes, hash, block height, the three flags and the peer. -/
def content (l : Link) : Link :=
  { l with fChild := none, next := none, queueId := QueueID.NoQueue }

/-- The heap `mem2` is the heap `mem` up to child pointers, sibling pointers and
queue tags. -/
def SameLinks (mem mem2 : List Link) : Prop :=
  ∀ q, content (getLink mem2 q) = content (getLink mem q)

/-- Header `0x10` at height 7 whose parent is `0x0c`. -/
def header16 : ChainSegmentHeader :=
  { hash := 16, number := 7, header := { ParentHash := 12, Number := 7 } }

/-- Header `0x11` at height 8 whose parent is `0x10`. -/
def header17 : ChainSegmentHeader :=
  { hash := 17, number := 8, header := { ParentHash := 16, Number := 8 } }

/-- Header `0x12` at height 9 whose parent is `0x11`. -/
def header18 : ChainSegmentHeader :=
  { hash := 18, number := 9, header := { ParentHash := 17, Number := 9 } }

/-- An engine in which header `0x0b` is marked bad, after the chain `0x0b`,
`0x0c`, `0x10`, `0x11`, `0x12` arrived below the persisted link `0x0a`: the root
`0x0b` (pointer 1) waits in the insert queue, the four links below it in the
link queue. -/
def badChainEngine : HeaderDownload :=
  { mem := [{ hash := 10, blockHeight := 4, persisted := true, verified := true, linked := true,
              queueId := QueueID.PersistedQueueID, fChild := some 1 },
            { header := some header11.header, headerRaw := some [], hash := 11, blockHeight := 5,
              linked := true, queueId := QueueID.InsertQueueID, fChild := some 2 },
            { header := some header12.header, headerRaw := some [], hash := 12, blockHeight := 6,
              queueId := QueueID.EntryQueueID, fChild := some 3 },
            { header := some header16.header, headerRaw := some [], hash := 16, blockHeight := 7,
              queueId := QueueID.EntryQueueID, fChild := some 4 },
            { header := some header17.header, headerRaw := some [], hash := 17, blockHeight := 8,
              queueId := QueueID.EntryQueueID, fChild := some 5 },
            { header := some header18.header, headerRaw := some [], hash := 18, blockHeight := 9,
              queueId := QueueID.EntryQueueID }]
    links := [(18, 5), (17, 4), (16, 3), (12, 2), (11, 1), (10, 0)]
    linkQueue := [2, 3, 4, 5]
    insertQueue := [1]
    persistedLinkQueue := [0]
    badHeaders := [11]
    stats := { Responses := 1, RespMinBlock := 5, RespMaxBlock := 9 }
    highestInDb := 4
    anchorLimit := 4, linkLimit := 8, persistedLinkLimit := 8
    deliveryNotify := true }

/-- A rank for the forest of `readyEngine`: `0x0a` above `0x0b` above `0x0c`. -/
def readyRank (q : Nat) : Nat :=
  if q = 0 then 3 else if q = 2 then 2 else 1

/-! ## Requests -/

/-- Go `Penalty`, with the kinds that header_algos.go names. -/
inductive Penalty where
  | NoPenalty
  | BadBlockPenalty
  | NewBlockGossipAfterMergePenalty
  | AbandonedAnchorPenalty
  deriving DecidableEq, Repr, Inhabited

/-- Go `PenaltyItem`. -/
structure PenaltyItem where
  Penalty : Penalty
  PeerID : PeerID
  deriving DecidableEq, Repr

/-- Go `HeaderRequest`; `Anchor` is a pointer into the anchor heap. -/
structure HeaderRequest where
  Hash : Hash := 0
  Number : Nat := 0
  Length : Nat := 0
  Skip : Nat := 0
  Reverse : Bool := false
  Anchor : Option Nat := none
  deriving DecidableEq, Repr

/-- Go `RequestSkeleton`, which holds the read lock: the engine is returned as it
was given. -/
def RequestSkeleton (hd : HeaderDownload) : HeaderDownload × HeaderRequest :=
  let stride : Nat := if hd.initialCycle then 192 else 0
  let length : Nat := 192
  let from_ : Nat := if hd.highestInDb ≤ 1 then 1 else hd.highestInDb - 1
  (hd, { Number := from_, Length := length, Skip := stride, Reverse := false })

/-- The loop of `invalidateAnchor`,
`for child := anchor.fLink; child != nil; child, child.next = child.next, nil`
with body `hd.removeUpwards(child)`. `f` is the fuel of `removeUpwards`. -/
def invalidateChildren (f : Nat) : Nat → HeaderDownload → Option Nat → Option HeaderDownload
  | _, hd, none => some hd
  | 0, _, some _ => none
  | n + 1, hd, some child =>
    (removeUpwards f hd child).bind fun hd1 =>
      invalidateChildren f n
        { hd1 with mem := setLink hd1.mem child { getLink hd1.mem child with next := none } }
        (getLink hd1.mem child).next

/-- Go `invalidateAnchor`. -/
def invalidateAnchor (fuel : Nat) (hd : HeaderDownload) (anchor : Nat) : Option HeaderDownload :=
  invalidateChildren fuel fuel (removeAnchor hd anchor) (getAnchor hd.amem anchor).fLink

/-- The request `RequestMoreHeaders` builds for an anchor. -/
def anchorRequest (amem : List Anchor) (anchor : Nat) : HeaderRequest :=
  { Anchor := some anchor
    Hash := (getAnchor amem anchor).parentHash
    Number := (getAnchor amem anchor).blockHeight - 1
    Length := 192
    Skip := 0
    Reverse := true }

/-- The walk `hd.anchorTree.Ascend` of `RequestMoreHeaders`. The tree
(google/btree, outside this repository) keeps its items in a slice and `Ascend`
is the loop `for i := 0; i < len(items); i++` that calls the function on
`items[i]`; the slice is read again at every turn. When the function invalidates
the anchor, `removeAnchor` deletes it from that slice, the items behind it move
one place forward, and the next turn reads index `i + 1` of the shorter slice:
the anchor that stood behind the invalidated one is stepped over. `i` is the
index of the turn, `n` bounds the number of turns (the walk starts with the
length of the tree, which does not grow), `penalties` are those gathered so far.
The walk stops at the first anchor that yields a request. This is the walk of a
tree whose items are in one node. Instants are natural numbers, `After` is
`>`. -/
def ascendAnchors (fuel : Nat) (currentTime : Nat) :
    Nat → Nat → HeaderDownload → List PenaltyItem →
      Option (HeaderDownload × Option HeaderRequest × List PenaltyItem)
  | 0, i, hd, penalties =>
    if i < hd.anchorTree.length then none else some (hd, none, penalties)
  | n + 1, i, hd, penalties =>
    match hd.anchorTree[i]? with
    | none => some (hd, none, penalties)
    | some anchor =>
      if (getAnchor hd.amem anchor).blockHeight = 0 then
        ascendAnchors fuel currentTime n (i + 1) hd penalties
      else if (getAnchor hd.amem anchor).nextRetryTime > currentTime then
        ascendAnchors fuel currentTime n (i + 1) hd penalties
      else if (getAnchor hd.amem anchor).timeouts ≥ 10 then
        (invalidateAnchor fuel hd anchor).bind fun hd1 =>
          ascendAnchors fuel currentTime n (i + 1) hd1
            (penalties ++ [{ Penalty := Penalty.AbandonedAnchorPenalty,
                             PeerID := (getAnchor hd1.amem anchor).peerID }])
      else some (hd, some (anchorRequest hd.amem anchor), penalties)

/-- Go `RequestMoreHeaders`. -/
def RequestMoreHeaders (fuel : Nat) (hd : HeaderDownload) (currentTime : Nat) :
    Option (HeaderDownload × Option HeaderRequest × List PenaltyItem) :=
  ascendAnchors fuel currentTime hd.anchorTree.length 0 hd []

/-- Go `UpdateRetryTime`; `none` is the nil dereference of a request without
anchor. -/
def UpdateRetryTime (hd : HeaderDownload) (req : HeaderRequest) (currentTime timeout : Nat) :
    Option HeaderDownload :=
  match req.Anchor with
  | none => none
  | some anchor =>
    some { hd with
      amem := setAnchor hd.amem anchor
        { getAnchor hd.amem anchor with
          timeouts := (getAnchor hd.amem anchor).timeouts + 1
          nextRetryTime := currentTime + timeout } }

/-- One round of the timeout scenario: `RequestMoreHeaders` at instant `now`,
followed by `UpdateRetryTime` with the same instant when a request came back.
The result holds the engine, the request and the penalties of the call. -/
def requestRound (fuel timeout : Nat) (hd : HeaderDownload) (now : Nat) :
    Option (HeaderDownload × Option HeaderRequest × List PenaltyItem) :=
  (RequestMoreHeaders fuel hd now).bind fun r =>
    match r.2.1 with
    | none => some r
    | some req => (UpdateRetryTime r.1 req now timeout).map fun hd1 => (hd1, some req, r.2.2)

/-- Rounds of the timeout scenario at the instants `now`, `now + step`,
`now + 2 * step`, ...: the engine after `k` rounds. -/
def requestRounds (fuel timeout step : Nat) : Nat → HeaderDownload → Nat → Option HeaderDownload
  | 0, hd, _ => some hd
  | k + 1, hd, now =>
    (requestRound fuel timeout hd now).bind fun r =>
      requestRounds fuel timeout step k r.1 (now + step)

/-- The anchors `RequestMoreHeaders` considers at instant `currentTime`: the
anchors of the tree of non-zero height whose retry time is not after
`currentTime`, in the order of the tree. -/
def consideredAnchors (amem : List Anchor) (tree : List Nat) (currentTime : Nat) : List Nat :=
  tree.filter (fun a => decide ((getAnchor amem a).blockHeight ≠ 0) &&
    decide ((getAnchor amem a).nextRetryTime ≤ currentTime))

/-- The considered anchors with at least ten timeouts that come before the first
considered anchor with fewer. -/
def abandonedAnchors (amem : List Anchor) (tree : List Nat) (currentTime : Nat) : List Nat :=
  (consideredAnchors amem tree currentTime).takeWhile
    (fun a => decide ((getAnchor amem a).timeouts ≥ 10))

/-- The first considered anchor with fewer than ten timeouts. -/
def chosenAnchor (amem : List Anchor) (tree : List Nat) (currentTime : Nat) : Option Nat :=
  ((consideredAnchors amem tree currentTime).dropWhile
    (fun a => decide ((getAnchor amem a).timeouts ≥ 10))).head?

/-- The penalty for an abandoned anchor. -/
def abandonedPenalty (amem : List Anchor) (anchor : Nat) : PenaltyItem :=
  { Penalty := Penalty.AbandonedAnchorPenalty, PeerID := (getAnchor amem anchor).peerID }

/-- An engine with three anchors, in tree order: the anchor keyed by `0x0a` at
height 5 with 10 timeouts (peer 7), the anchor keyed by `0x14` at height 8 with 3
timeouts (peer 8), and the anchor keyed by `0x1e` at height 9 with 12 timeouts
(peer 9); each has one link below it. -/
def threeAnchorEngine : HeaderDownload :=
  { mem := [{ header := some header11.header, headerRaw := some [], hash := 11, blockHeight := 5,
              queueId := QueueID.EntryQueueID },
            { header := some header21.header, headerRaw := some [], hash := 21, blockHeight := 8,
              queueId := QueueID.EntryQueueID },
            { header := some { ParentHash := 30, Number := 9 }, headerRaw := some [], hash := 31,
              blockHeight := 9, queueId := QueueID.EntryQueueID }]
    amem := [{ peerID := 7, fLink := some 0, parentHash := 10, blockHeight := 5, timeouts := 10 },
             { peerID := 8, fLink := some 1, parentHash := 20, blockHeight := 8, timeouts := 3 },
             { peerID := 9, fLink := some 2, parentHash := 30, blockHeight := 9, timeouts := 12 }]
    links := [(31, 2), (21, 1), (11, 0)]
    anchors := [(30, 2), (20, 1), (10, 0)]
    anchorTree := [0, 1, 2]
    linkQueue := [0, 1, 2]
    anchorLimit := 4, linkLimit := 8, persistedLinkLimit := 8 }

/-! ## The header inserter -/

/-- Go `uint64` subtraction `a - b` for `b ≤ 2 ^ 64`: it wraps below zero. -/
def sub64 (a b : Nat) : Nat :=
  (a + (2 ^ 64 - b)) % 2 ^ 64

/-- The errors of the inserter and of the proof-of-stake download: an error
code `e` of the header reader, of the database layer or of the collector, passed
on or wrapped, and the errors they make themselves. -/
inductive InserterError
  | passed (e : Nat)
  | readingCanonicalHash (height : Nat) (e : Nat)
  | notFoundHeader (height : Nat) (hash : Hash)
  | noParent (parentHash : Hash) (height : Nat)
  | noParentTd (parentHash : Hash) (height : Nat)
  | failedWriteTd (e : Nat)
  | failedWriteHeaderRaw (e : Nat)
  | failedWriteHeader (e : Nat)
  | invalidBlockNumber (hash : Hash) (number : Nat) (parentNumber : Nat)
  | wrongGenesis
deriving DecidableEq, Repr

/-- Equality of results is decidable. -/
instance exceptDecEq {ε α : Type} [DecidableEq ε] [DecidableEq α] : DecidableEq (Except ε α)
  | .ok a, .ok b => if h : a = b then isTrue (by rw [h]) else isFalse (fun e => h (by cases e; rfl))
  | .error a, .error b =>
    if h : a = b then isTrue (by rw [h]) else isFalse (fun e => h (by cases e; rfl))
  | .ok _, .error _ => isFalse (fun e => by cases e)
  | .error _, .ok _ => isFalse (fun e => by cases e)

/-- The methods of `services.HeaderReader` the engine calls, over the state `σ`
of the database. `CanonicalHash` returns the hash and whether it was found. -/
structure HeaderReader (σ : Type) where
  HeaderByHash : σ → Hash → Except Nat (Option Header)
  CanonicalHash : σ → Nat → Except Nat (Hash × Bool)
  Header : σ → Hash → Nat → Except Nat (Option Header)

/-- The functions of package `rawdb` the inserter calls. -/
structure Rawdb (σ : Type) where
  ReadTd : σ → Hash → Nat → Except Nat (Option Int)
  WriteTd : σ → Hash → Nat → Int → Except Nat σ
  WriteHeaderRaw : σ → Nat → Hash → Option (List Nat) → Except Nat σ
  WriteHeader : σ → Header → Except Nat σ

/-- The cache `canonicalCache` (height to canonical hash): its capacity and its
entries, most recently used first. -/
structure CanonicalCache where
  size : Nat := 1000
  items : List (Nat × Hash) := []
deriving DecidableEq, Repr

/-- Cache lookup `Get`: a hit moves the entry to the front. -/
def CanonicalCache.Get (c : CanonicalCache) (key : Nat) : Option Hash × CanonicalCache :=
  match mapGet c.items key with
  | none => (none, c)
  | some value => (some value, { c with items := (key, value) :: mapDel c.items key })

/-- Cache insertion `Add`: the entry goes to the front, and the least recently
used entries beyond the capacity are dropped. -/
def CanonicalCache.Add (c : CanonicalCache) (key : Nat) (value : Hash) : CanonicalCache :=
  { c with items := ((key, value) :: mapDel c.items key).take c.size }

/-- Go `HeaderInserter`: the fields `header_algos.go` reads and writes. The
reader `hi.headerReader` is an argument of the functions that call it. -/
structure HeaderInserter where
  localTd : Int := 0
  prevHash : Hash := 0
  highestHash : Hash := 0
  newCanonical : Bool := false
  unwind : Bool := false
  unwindPoint : Nat := 0
  highest : Nat := 0
  highestTimestamp : Nat := 0
  canonicalCache : CanonicalCache := {}
deriving DecidableEq, Repr

/-- The second loop of `ForkingPoint` ("Now look in the DB"), from the ancestor
`ancestorHash` at `ancestorHeight`. -/
def forkingPointDb {σ : Type} (hr : HeaderReader σ) (db : σ) :
    Nat → Hash → Nat → Option (Except InserterError Nat)
  | 0, _, _ => none
  | fuel + 1, ancestorHash, ancestorHeight =>
    match hr.CanonicalHash db ancestorHeight with
    | .error e => some (.error (.readingCanonicalHash ancestorHeight e))
    | .ok (ch, _) =>
      if ch = ancestorHash then some (.ok ancestorHeight)
      else
        match hr.Header db ancestorHash ancestorHeight with
        | .error e => some (.error (.passed e))
        | .ok none => some (.error (.notFoundHeader ancestorHeight ancestorHash))
        | .ok (some ancestor) =>
          forkingPointDb hr db fuel ancestor.ParentHash (sub64 ancestorHeight 1)

/-- The first loop of `ForkingPoint` ("Look in the cache first"), followed by the
second. The first loop does not test the ancestor for nil: a missing ancestor is
a panic, `none`. -/
def forkingPointCache {σ : Type} (hr : HeaderReader σ) (db : σ) :
    Nat → CanonicalCache → Hash → Nat → Option (Except InserterError Nat × CanonicalCache)
  | 0, _, _, _ => none
  | fuel + 1, cache, ancestorHash, ancestorHeight =>
    match (cache.Get ancestorHeight).1 with
    | none =>
      (forkingPointDb hr db fuel ancestorHash ancestorHeight).map
        fun r => (r, (cache.Get ancestorHeight).2)
    | some ch =>
      if ch = ancestorHash then
        (forkingPointDb hr db fuel ancestorHash ancestorHeight).map
          fun r => (r, (cache.Get ancestorHeight).2)
      else
        match hr.Header db ancestorHash ancestorHeight with
        | .error e => some (.error (.passed e), (cache.Get ancestorHeight).2)
        | .ok none => none
        | .ok (some ancestor) =>
          forkingPointCache hr db fuel (cache.Get ancestorHeight).2 ancestor.ParentHash
            (sub64 ancestorHeight 1)

/-- The canonical hash at `height` as `ForkingPoint` first reads it: from the
cache, or else from the reader. -/
def firstCanonical {σ : Type} (hr : HeaderReader σ) (cache : CanonicalCache) (db : σ)
    (height : Nat) : Except InserterError Hash :=
  match (cache.Get height).1 with
  | some fromCache => .ok fromCache
  | none =>
    match hr.CanonicalHash db height with
    | .error e => .error (.readingCanonicalHash height e)
    | .ok (ch, _) => .ok ch

/-- Go `ForkingPoint`, with the reader `hr` of the inserter. -/
def ForkingPoint {σ : Type} (fuel : Nat) (hr : HeaderReader σ) (hi : HeaderInserter) (db : σ)
    (header parent : Header) : Option (Except InserterError Nat × HeaderInserter) :=
  let blockHeight := header.Number % 2 ^ 64
  let cache1 := (hi.canonicalCache.Get (sub64 blockHeight 1)).2
  match firstCanonical hr hi.canonicalCache db (sub64 blockHeight 1) with
  | .error e => some (.error e, { hi with canonicalCache := cache1 })
  | .ok ch =>
    if ch = header.ParentHash then
      some (.ok (sub64 blockHeight 1), { hi with canonicalCache := cache1 })
    else
      (forkingPointCache hr db fuel cache1 parent.ParentHash (sub64 blockHeight 2)).map
        fun r => (r.1, { hi with canonicalCache := r.2 })

/-- The decision of `FeedHeaderPoW` whether the header with total difficulty
`td` changes the canonical head (the value of `reorg`, false when
`td < localTd`). -/
def reorgNeeded (hi : HeaderInserter) (td : Int) (hash : Hash) (blockHeight : Nat) : Bool :=
  if td ≥ hi.localTd then
    if td = hi.localTd then
      if blockHeight > hi.highest then false
      else if blockHeight = hi.highest then decide (hi.highestHash < hash)
      else true
    else true
  else false

/-- Go `SetUnwindPoint`. -/
def SetUnwindPoint (hi : HeaderInserter) (v : Nat) : HeaderInserter :=
  { hi with unwindPoint := v }

/-- The updates of `FeedHeaderPoW` after `ForkingPoint` has returned
`forkingPoint`. -/
def switchHead (hi : HeaderInserter) (header : Header) (hash : Hash) (blockHeight : Nat)
    (td : Int) (forkingPoint : Nat) : HeaderInserter :=
  let hi1 := { hi with
               highest := blockHeight
               highestHash := hash
               highestTimestamp := header.Time
               canonicalCache := hi.canonicalCache.Add blockHeight hash }
  let hi2 := if forkingPoint < hi1.unwindPoint then
      { SetUnwindPoint hi1 forkingPoint with unwind := true } else hi1
  { hi2 with localTd := td }

/-- The end of `FeedHeaderPoW`: the two writes and the update of `prevHash`. A
write that fails leaves the state of the database as it was before it. -/
def writePoW {σ : Type} (rawdb : Rawdb σ) (hi : HeaderInserter) (db : σ)
    (headerRaw : Option (List Nat)) (hash : Hash) (blockHeight : Nat) (td : Int) :
    Except InserterError (Option Int) × HeaderInserter × σ :=
  match rawdb.WriteTd db hash blockHeight td with
  | .error e => (.error (.failedWriteTd e), hi, db)
  | .ok db1 =>
    match rawdb.WriteHeaderRaw db1 blockHeight hash headerRaw with
    | .error e => (.error (.failedWriteHeaderRaw e), hi, db1)
    | .ok db2 => (.ok (some td), { hi with prevHash := hash }, db2)

/-- Go `FeedHeaderPoW`, with the reader `hr` of the inserter (used by
`ForkingPoint`) and the reader `headerReader` it is given. The result holds the
returned total difficulty (`none` is nil) or error, the inserter and the state
of the database. -/
def FeedHeaderPoW {σ : Type} (fuel : Nat) (hr : HeaderReader σ) (rawdb : Rawdb σ)
    (headerReader : HeaderReader σ) (hi : HeaderInserter) (db : σ) (header : Header)
    (headerRaw : Option (List Nat)) (hash : Hash) (blockHeight : Nat) :
    Option (Except InserterError (Option Int) × HeaderInserter × σ) :=
  if hash = hi.prevHash then some (.ok none, hi, db)
  else
    match headerReader.Header db hash blockHeight with
    | .error e => some (.error (.passed e), hi, db)
    | .ok (some _) => some (.ok none, hi, db)
    | .ok none =>
      match headerReader.Header db header.ParentHash (sub64 blockHeight 1) with
      | .error e => some (.error (.passed e), hi, db)
      | .ok none => some (.error (.noParent header.ParentHash (sub64 blockHeight 1)), hi, db)
      | .ok (some parent) =>
        match rawdb.ReadTd db header.ParentHash (sub64 blockHeight 1) with
        | .error _ => some (.error (.noParentTd header.ParentHash (sub64 blockHeight 1)), hi, db)
        | .ok none => some (.error (.noParentTd header.ParentHash (sub64 blockHeight 1)), hi, db)
        | .ok (some parentTd) =>
          if reorgNeeded hi (parentTd + header.Difficulty) hash blockHeight then
            (ForkingPoint fuel hr { hi with newCanonical := true } db header parent).bind fun r =>
              match r.1 with
              | .error e => some (.error e, r.2, db)
              | .ok forkingPoint =>
                some (writePoW rawdb
                  (switchHead r.2 header hash blockHeight (parentTd + header.Difficulty)
                    forkingPoint)
                  db headerRaw hash blockHeight (parentTd + header.Difficulty))
          else
            some (writePoW rawdb hi db headerRaw hash blockHeight (parentTd + header.Difficulty))

/-- Go `FeedHeaderPoS`. -/
def FeedHeaderPoS {σ : Type} (rawdb : Rawdb σ) (hi : HeaderInserter) (db : σ) (header : Header)
    (hash : Hash) : Except InserterError Unit × HeaderInserter × σ :=
  match rawdb.ReadTd db header.ParentHash (sub64 (header.Number % 2 ^ 64) 1) with
  | .error _ =>
    (.error (.noParentTd header.ParentHash (sub64 (header.Number % 2 ^ 64) 1)), hi, db)
  | .ok none =>
    (.error (.noParentTd header.ParentHash (sub64 (header.Number % 2 ^ 64) 1)), hi, db)
  | .ok (some parentTd) =>
    match rawdb.WriteHeader db header with
    | .error e => (.error (.failedWriteHeader e), hi, db)
    | .ok db1 =>
      match rawdb.WriteTd db1 hash (header.Number % 2 ^ 64) (parentTd + header.Difficulty) with
      | .error e => (.error (.failedWriteTd e), hi, db1)
      | .ok db2 =>
        (.ok (), { hi with
                   highest := header.Number % 2 ^ 64
                   highestHash := hash
                   highestTimestamp := header.Time }, db2)

/-! ### A database in memory, for the examples -/

/-- The raw bytes of a header in the examples: its four fields. -/
def encodeHeader (h : Header) : List Nat :=
  [h.ParentHash, h.Number, h.Time, h.Difficulty]

/-- The header of raw bytes in the examples. -/
def decodeHeader : List Nat → Option Header
  | [p, n, t, d] => some { ParentHash := p, Number := n, Time := t, Difficulty := d }
  | _ => none

/-- A database in memory: the raw headers and the total difficulties by hash and
number, and the canonical hashes by number. -/
structure MemDb where
  headers : List ((Hash × Nat) × List Nat) := []
  tds : List ((Hash × Nat) × Int) := []
  canonical : List (Nat × Hash) := []
deriving DecidableEq, Repr

/-- The header reader of the database in memory; raw bytes that do not decode
are the error 1, a canonical hash that is not found is the zero hash. -/
def memReader : HeaderReader MemDb :=
  { Header := fun db hash number =>
      match db.headers.lookup (hash, number) with
      | none => .ok none
      | some raw =>
        match decodeHeader raw with
        | none => .error 1
        | some h => .ok (some h)
    HeaderByHash := fun db hash =>
      match db.headers.find? (fun e => decide (e.1.1 = hash)) with
      | none => .ok none
      | some e =>
        match decodeHeader e.2 with
        | none => .error 1
        | some h => .ok (some h)
    CanonicalHash := fun db number =>
      match mapGet db.canonical number with
      | none => .ok (0, false)
      | some h => .ok (h, true) }

/-- The database layer of the database in memory. `WriteHeader` computes the
hash of the header with `hashOf`. -/
def memRawdb (hashOf : Header → Hash) : Rawdb MemDb :=
  { ReadTd := fun db hash number => .ok (db.tds.lookup (hash, number))
    WriteTd := fun db hash number td => .ok { db with tds := ((hash, number), td) :: db.tds }
    WriteHeaderRaw := fun db number hash raw =>
      .ok { db with headers := ((hash, number), raw.getD []) :: db.headers }
    WriteHeader := fun db h =>
      .ok { db with
            headers := ((hashOf h, h.Number % 2 ^ 64), encodeHeader h) :: db.headers } }

/-- The hash of the headers of the examples whose hash is their parent hash
plus one. -/
def nextHash (h : Header) : Hash :=
  h.ParentHash + 1

/-- The database of the fork example. Chain A is canonical: the headers
`100 + i` at the heights `i = 0, ..., 10`, each of difficulty 1, so that the total
difficulty at height `i` is `i`. Chain B leaves A after height 5: the headers
`200 + i` at the heights `i = 6, ..., 9`, each of difficulty 2 (total difficulty
`5 + 2 * (i - 5)`), the parent of `206` being `105`. -/
def forkDb : MemDb :=
  { headers :=
      ((List.range 4).map fun j =>
        ((206 + j, 6 + j),
          encodeHeader { ParentHash := if j = 0 then 105 else 205 + j, Number := 6 + j,
                         Time := 60 + j, Difficulty := 2 })) ++
      ((List.range 11).map fun i =>
        ((100 + i, i),
          encodeHeader { ParentHash := if i = 0 then 0 else 99 + i, Number := i, Time := 10 * i,
                         Difficulty := 1 }))
    tds :=
      ((List.range 4).map fun j => ((206 + j, 6 + j), ((7 + 2 * j : Nat) : Int))) ++
      ((List.range 11).map fun i => ((100 + i, i), ((i : Nat) : Int)))
    canonical := (List.range 11).map fun i => (i, 100 + i) }

/-- The inserter that has fed chain A of the fork example: head `110` at height
10 with total difficulty 10, unwind point 10, and the canonical hashes of the
heights 8 to 10 in its cache. -/
def chainAInserter : HeaderInserter :=
  { localTd := 10, prevHash := 110, highestHash := 110, highest := 10, highestTimestamp := 100,
    unwindPoint := 10, canonicalCache := { size := 1000, items := [(10, 110), (9, 109), (8, 108)] } }

/-- The head `210` of chain B of the fork example, at height 10, of difficulty 2. -/
def headerB10 : Header :=
  { ParentHash := 209, Number := 10, Time := 64, Difficulty := 2 }

/-- The header `109` of chain A of the fork example, at height 9. -/
def headerA9 : Header :=
  { ParentHash := 108, Number := 9, Time := 90, Difficulty := 1 }

/-- The header `209` of chain B of the fork example, at height 9. -/
def headerB9 : Header :=
  { ParentHash := 208, Number := 9, Time := 63, Difficulty := 2 }

/-- A header at height 10 whose parent `999` is not in the database of the fork
example. -/
def orphanHeader : Header :=
  { ParentHash := 999, Number := 10, Time := 64, Difficulty := 2 }

/-- The header `111` at height 11, child of the head of chain A, of difficulty 0. -/
def headerA11 : Header :=
  { ParentHash := 110, Number := 11, Time := 110, Difficulty := 0 }

/-- A header at height 9 on top of `108`, of difficulty 1, other than `109`. -/
def headerX9 : Header :=
  { ParentHash := 108, Number := 9, Time := 91, Difficulty := 1 }

/-- Two headers at height 10 on top of `109`, both of difficulty 3, fed with the
hashes 1 and 2. -/
def tieHeader1 : Header :=
  { ParentHash := 109, Number := 10, Time := 101, Difficulty := 3 }

/-- The second header at height 10 on top of `109`. -/
def tieHeader2 : Header :=
  { ParentHash := 109, Number := 10, Time := 102, Difficulty := 3 }

/-- The database `db` after the writes of `FeedHeaderPoW` for one of the two
headers at height 10 of total difficulty 12. -/
def tieWrite (db : MemDb) (hash : Hash) (h : Header) : MemDb :=
  { db with
    tds := ((hash, 10), 12) :: db.tds
    headers := ((hash, 10), encodeHeader h) :: db.headers }

/-- The inserter of the fork example after one of the two headers at height 10
has become the head: `prev` is the last hash fed, `head` the hash of the head. -/
def tieHead (prev head : Hash) (time : Nat) : HeaderInserter :=
  { localTd := 12, prevHash := prev, highestHash := head, newCanonical := true, unwind := true,
    unwindPoint := 9, highest := 10, highestTimestamp := time,
    canonicalCache := { size := 1000, items := [(10, head), (9, 109), (8, 108)] } }

/-- The ancestors of the head `210` of chain B in the fork example, by height:
chain B above height 5, chain A up to it. -/
def ancestorB (k : Nat) : Header :=
  if k = 10 then headerB10
  else if 6 ≤ k then
    { ParentHash := if k = 6 then 105 else 199 + k, Number := k, Time := 54 + k, Difficulty := 2 }
  else { ParentHash := if k = 0 then 0 else 99 + k, Number := k, Time := 10 * k, Difficulty := 1 }

/-! ## Proof-of-stake download -/

/-- Go `SyncStatus`. -/
inductive SyncStatus
  | Idle
  | Syncing
  | Synced
deriving DecidableEq, Repr, Inhabited

/-- The engine with the fields of the proof-of-stake download; `κ` is the state
of the collector `headersCollector`, and `posAnchor` holds the anchor it points
to (`none` is nil). -/
structure PosHeaderDownload (κ : Type) extends HeaderDownload where
  posAnchor : Option Anchor := none
  posStatus : SyncStatus := SyncStatus.Idle
  posSync : Bool := false
  headersCollector : Option κ := none
deriving DecidableEq, Repr

/-- The loop of `ProcessHeadersPOS` over the headers of the segment. The result
holds the penalties, the error (`none` is nil) and the engine. `collect` is
`Collect` of the collector, with the number and the hash of the header key; `tx`
is the state of the database. A nil `posAnchor` or collector inside the loop
would be a nil dereference, `none`. -/
def processPOSLoop {σ κ : Type} (hr : HeaderReader σ)
    (collect : κ → Nat → Hash → List Nat → Except Nat κ) (tx : σ) (peerId : PeerID) :
    List ChainSegmentHeader → PosHeaderDownload κ →
      Option (List PenaltyItem × Option InserterError × PosHeaderDownload κ)
  | [], hd => some ([], none, hd)
  | sh :: rest, hd =>
    match hd.posAnchor, hd.headersCollector with
    | some anchor, some collector =>
      if sh.hash ≠ anchor.parentHash then processPOSLoop hr collect tx peerId rest hd
      else
        match collect collector (sh.header.Number % 2 ^ 64) sh.hash sh.headerRaw with
        | .error e => some ([], some (.passed e), hd)
        | .ok collector1 =>
          match hr.HeaderByHash tx sh.header.ParentHash with
          | .error e => some ([], some (.passed e), { hd with headersCollector := some collector1 })
          | .ok (some hh) =>
            if sh.header.Number % 2 ^ 64 ≠ (hh.Number % 2 ^ 64 + 1) % 2 ^ 64 then
              some ([], some (.invalidBlockNumber sh.hash (sh.header.Number % 2 ^ 64)
                  ((hh.Number % 2 ^ 64 + 1) % 2 ^ 64)),
                { hd with
                  headersCollector := some collector1
                  badPoSHeaders := mapSet hd.badPoSHeaders sh.hash sh.header.ParentHash })
            else
              some ([], none,
                { hd with
                  headersCollector := some collector1
                  posAnchor := none
                  posStatus := SyncStatus.Synced
                  deliveryNotify := true })
          | .ok none =>
            if sh.header.Number % 2 ^ 64 ≤ 1 then
              some ([], some .wrongGenesis,
                { hd with
                  headersCollector := some collector1
                  posAnchor := some { parentHash := sh.header.ParentHash
                                      blockHeight := sh.header.Number % 2 ^ 64
                                      peerID := peerId } })
            else
              processPOSLoop hr collect tx peerId rest
                { hd with
                  headersCollector := some collector1
                  posAnchor := some { parentHash := sh.header.ParentHash
                                      blockHeight := sh.header.Number % 2 ^ 64
                                      peerID := peerId } }
    | _, _ => none

/-- Go `ProcessHeadersPOS`, with the reader `hr` of the engine. -/
def ProcessHeadersPOS {σ κ : Type} (hr : HeaderReader σ)
    (collect : κ → Nat → Hash → List Nat → Except Nat κ) (tx : σ) (peerId : PeerID)
    (csHeaders : List ChainSegmentHeader) (hd : PosHeaderDownload κ) :
    Option (List PenaltyItem × Option InserterError × PosHeaderDownload κ) :=
  if csHeaders = [] then some ([], none, hd)
  else if hd.posAnchor = none then some ([], none, hd)
  else if hd.headersCollector.isNone then some ([], none, hd)
  else processPOSLoop hr collect tx peerId csHeaders hd

/-- A collector in memory, for the examples: the list of the collected headers,
the last one first. -/
def memCollect (c : List ((Nat × Hash) × List Nat)) (number : Nat) (hash : Hash)
    (raw : List Nat) : Except Nat (List ((Nat × Hash) × List Nat)) :=
  .ok (((number, hash), raw) :: c)

/-- An engine in proof-of-stake download that waits for the header `hash` below
`height`, with an empty collector. -/
def posEngine (hash : Hash) (height : Nat) : PosHeaderDownload (List ((Nat × Hash) × List Nat)) :=
  { posAnchor := some { parentHash := hash, blockHeight := height, peerID := 3 }
    posStatus := SyncStatus.Syncing
    posSync := true
    headersCollector := some [] }

/-- The segment header with hash `hash`, parent `parent` and number `number`. -/
def posHeader (hash parent : Hash) (number : Nat) : ChainSegmentHeader :=
  { header := { ParentHash := parent, Number := number, Time := 10 * number },
    headerRaw := encodeHeader { ParentHash := parent, Number := number, Time := 10 * number },
    hash := hash, number := number }

/-! ## Statistics and announces -/

/-- Go `ExtractStats`: the counters are returned and reset. -/
def ExtractStats (hd : HeaderDownload) : HeaderDownload × Stats :=
  ({ hd with stats := {} }, hd.stats)

/-- Modelled from the spec: `seenAnnounces.Add` (declared outside
header_algos.go) "adds a hash to a bounded set": a hash that is in the set leaves
it as it is, a new hash is added and the oldest hashes beyond the capacity `cap`
are dropped. `seenAnnounces.Pop`, in `noteInserted`, tells whether the hash is in
the set and takes it out. -/
def seenAdd (cap : Nat) (seen : List Hash) (hash : Hash) : List Hash :=
  if hash ∈ seen then seen else (seen ++ [hash]).drop (seen.length + 1 - cap)

/-- Go `SaveExternalAnnounce`; `cap` is the capacity of the set. -/
def SaveExternalAnnounce (cap : Nat) (hd : HeaderDownload) (hash : Hash) : HeaderDownload :=
  { hd with seenAnnounces := seenAdd cap hd.seenAnnounces hash }

/-- Go `GrabAnnounces`: the pending announces are returned and forgotten. -/
def GrabAnnounces (hd : HeaderDownload) : HeaderDownload × List (Hash × Nat) :=
  ({ hd with toAnnounce := [] }, hd.toAnnounce)

/-- The engine `readyEngine` after the hash `0x0b` was announced by a peer. -/
def announcedEngine : HeaderDownload :=
  SaveExternalAnnounce 1000 readyEngine 11

/-- The engine `readyEngine` in which the header of the front link `0x0b` has the
difficulty `d`. -/
def difficultyEngine (d : Nat) : HeaderDownload :=
  { readyEngine with
    mem := setLink readyEngine.mem 2
      { getLink readyEngine.mem 2 with header := some { header11.header with Difficulty := d } } }

/-- An engine without links and anchors whose database is at height 100000. -/
def engineAtHundredThousand : HeaderDownload :=
  { emptyEngine with highestInDb := 100000 }

/-- Header `0x4d` with number `n`, whose parent is `0x4c`. -/
def farHeader (n : Nat) : ChainSegmentHeader :=
  { hash := 77, number := n, header := { ParentHash := 76, Number := n } }

/-! ## Store closure -/

/-- The link at pointer `p` is in the link store, under its own hash. -/
def inStore (hd : HeaderDownload) (p : Nat) : Bool :=
  decide (mapGet hd.links (getLink hd.mem p).hash = some p)

/-- Every link of the child list of a stored link, and of the child list of an
anchor of the anchors map, is in the link store. -/
def storeClosed (hd : HeaderDownload) : Bool :=
  hd.links.all (fun e =>
    (childList hd.mem hd.mem.length (getLink hd.mem e.2).fChild).all (inStore hd)) &&
  hd.anchors.all (fun e =>
    (childList hd.mem hd.mem.length (getAnchor hd.amem e.2).fLink).all (inStore hd))

/-! ## The reverse walk of the proof-of-stake download -/

/-- Go `SetHeaderToDownloadPoS`: the anchor waits for the header `hash`, below the
height `height + 1`. -/
def SetHeaderToDownloadPoS {κ : Type} (hd : PosHeaderDownload κ) (hash : Hash) (height : Nat) :
    PosHeaderDownload κ :=
  { hd with posAnchor := some { parentHash := hash, blockHeight := (height + 1) % 2 ^ 64 } }

/-- The segment of the `n` headers `chain top`, `chain (top - 1)`, ..., in that
order. -/
def reverseSegment (chain : Nat → ChainSegmentHeader) : Nat → Nat → List ChainSegmentHeader
  | _, 0 => []
  | top, n + 1 => chain top :: reverseSegment chain (top - 1) n

/-- The chain of the reverse-walk example: the header `H_k` at height `k` has the
hash `1000 + k` and the parent `H_(k-1)`. -/
def walkChain (k : Nat) : ChainSegmentHeader :=
  posHeader (1000 + k) (999 + k) k

/-- The database of the reverse-walk example: of the chain, it holds `H_50`
only. -/
def walkDb : MemDb :=
  { headers := [((1050, 50), (walkChain 50).headerRaw)] }

/-! ## States for MarkAllVerified -/

/-- No link of the link queue is verified. -/
def linkQueueUnverified (hd : HeaderDownload) : Bool :=
  hd.linkQueue.all (fun p => !(getLink hd.mem p).verified)

/-- The state of `readyEngine` after two calls of `InsertHeader`: the first
persists `0x0b` and moves its child `0x0c` (pointer 1) to the insert queue, the
second verifies `0x0c` and fails in the callback. -/
def verifiedUnlinkedEngine : Option HeaderDownload :=
  (InsertHeader 10 verifyOk feedOk none readyEngine ([] : List Nat)).bind fun r1 =>
    (InsertHeader 10 verifyOk feedFail none r1.hd r1.db).map fun r2 => r2.hd

/-- The engine `readyEngine` with link `0x0c` (pointer 1) of the link queue
marked verified, a state in which the loop of `MarkAllVerified` cannot end. -/
def stuckEngine : HeaderDownload :=
  { readyEngine with
    mem := setLink readyEngine.mem 1 { getLink readyEngine.mem 1 with verified := true } }

/-! ## States for pruneLinkQueue -/

/-- Every child pointer and sibling pointer of links `mem` is below `n`. -/
def ClosedL (mem : List Link) (n : Nat) : Prop :=
  ∀ q c, ((getLink mem q).fChild = some c ∨ (getLink mem q).next = some c) → c < n

/-- Every first-link pointer of the anchors `amem` is below `n`. -/
def ClosedA (amem : List Anchor) (n : Nat) : Prop :=
  ∀ a c, (getAnchor amem a).fLink = some c → c < n

/-- The check of `ClosedL` and `ClosedA` on a state: every child pointer, sibling
pointer and first-link pointer points into the link heap. -/
def pointersClosed (hd : HeaderDownload) : Bool :=
  hd.mem.all (fun l => ptrBelow hd.mem.length l.fChild && ptrBelow hd.mem.length l.next) &&
  hd.amem.all (fun x => ptrBelow hd.mem.length x.fLink)

/-- The state invariant under which `MarkAllVerified` ends: every queue holds a
link at most once and only links whose tag names it, no link of the link queue
is verified, and every pointer points into the link heap. -/
def markInvariant (hd : HeaderDownload) : Bool :=
  queuesTagged hd && linkQueueUnverified hd && pointersClosed hd

/-- The property `markInvariant` checks. -/
def MarkInv (hd : HeaderDownload) : Prop :=
  QueuesOk hd ∧ (∀ p ∈ hd.linkQueue, (getLink hd.mem p).verified = false) ∧
    ClosedL hd.mem hd.mem.length ∧ ClosedA hd.amem hd.mem.length

/-! ## RecoverFromDb -/

/-- The first loop of `RecoverFromDb`, `for hd.persistedLinkQueue.Len() > 0`: the
root of the persisted queue is popped and deleted from the store, and its
children are cleared. -/
def drainPersisted : Nat → HeaderDownload → Option HeaderDownload
  | 0, hd => if hd.persistedLinkQueue.length > 0 then none else some hd
  | n + 1, hd =>
    if hd.persistedLinkQueue.length > 0 then
      match heapMin hd.mem hd.persistedLinkQueue with
      | none => none
      | some link =>
        let hd1 := { hd with
          persistedLinkQueue := hd.persistedLinkQueue.erase link,
          links := mapDel hd.links (getLink hd.mem link).hash }
        (ClearChildren n hd1.mem link).bind fun mem2 =>
          drainPersisted n { hd1 with mem := mem2 }
    else some hd

/-- The second loop of `RecoverFromDb`: the cursor walks the headers of the
database from the last key backwards (`headers` lists them in that order, as
decoded) while the persisted queue has room; a header that is not above
`highestInDb` becomes a persisted link. -/
def recoverHeaders : List ChainSegmentHeader → HeaderDownload → HeaderDownload
  | [], hd => hd
  | h :: rest, hd =>
    if (hd.persistedLinkQueue.length : Int) < hd.persistedLinkLimit then
      recoverHeaders rest
        (if h.header.Number ≤ hd.highestInDb then
          (addHeaderAsLink hd { h with number := h.header.Number } true).1
        else hd)
    else hd

/-- Go `RecoverFromDb`. `progress` is the stage progress that the database
holds; the errors of the database are left out. -/
def RecoverFromDb (fuel : Nat) (hd : HeaderDownload) (progress : Nat)
    (headers : List ChainSegmentHeader) : Option HeaderDownload :=
  (drainPersisted fuel hd).map fun hd1 =>
    recoverHeaders headers { hd1 with highestInDb := progress }
/-! ## Maps -/

theorem mapGet_mapDel_self {α : Type} (m : List (Hash × α)) (k : Hash) :
    mapGet (mapDel m k) k = none := by
  induction m with
  | nil => rfl
  | cons e rest ih =>
    by_cases h : e.1 = k
    · simpa [mapDel, h] using ih
    · simpa [mapDel, h, mapGet] using ih

theorem mapGet_mapDel_ne {α : Type} (m : List (Hash × α)) (k k2 : Hash) (hne : k ≠ k2) :
    mapGet (mapDel m k) k2 = mapGet m k2 := by
  induction m with
  | nil => rfl
  | cons e rest ih =>
    obtain ⟨a, b⟩ := e
    by_cases h : a = k
    · subst h
      simp only [mapDel, if_true, mapGet, hne, if_false]
      exact ih
    · by_cases h3 : a = k2
      · subst h3
        simp only [mapDel, h, if_false, mapGet, if_true]
      · simp only [mapDel, h, if_false, mapGet, h3]
        exact ih

theorem mapGet_mapSet_self {α : Type} (m : List (Hash × α)) (k : Hash) (v : α) :
    mapGet (mapSet m k v) k = some v := by
  simp [mapSet, mapGet]

theorem mapGet_mapSet_ne {α : Type} (m : List (Hash × α)) (k k2 : Hash) (v : α) (hne : k ≠ k2) :
    mapGet (mapSet m k v) k2 = mapGet m k2 := by
  simp [mapSet, mapGet, hne, mapGet_mapDel_ne m k k2 hne]

theorem mapDel_length_le {α : Type} (m : List (Hash × α)) (k : Hash) :
    (mapDel m k).length ≤ m.length := by
  induction m with
  | nil => simp [mapDel]
  | cons e rest ih =>
    by_cases h : e.1 = k
    · simp only [mapDel, h, if_true, List.length_cons]; omega
    · simp only [mapDel, h, if_false, List.length_cons]; omega

theorem mapDel_of_mapGet_none {α : Type} (m : List (Hash × α)) (k : Hash)
    (h : mapGet m k = none) : mapDel m k = m := by
  induction m with
  | nil => rfl
  | cons e rest ih =>
    by_cases h1 : e.1 = k
    · simp [mapGet, h1] at h
    · simp only [mapGet, h1, if_false] at h
      simp only [mapDel, h1, if_false, ih h]

theorem mapDel_length_lt {α : Type} (m : List (Hash × α)) (k : Hash) (v : α)
    (h : mapGet m k = some v) : (mapDel m k).length < m.length := by
  induction m with
  | nil => simp [mapGet] at h
  | cons e rest ih =>
    by_cases h1 : e.1 = k
    · have := mapDel_length_le rest k
      simp only [mapDel, h1, if_true, List.length_cons]
      omega
    · simp only [mapGet, h1, if_false] at h
      have := ih h
      simp only [mapDel, h1, if_false, List.length_cons]
      omega

theorem mapGet_mapDel_none {α : Type} (m : List (Hash × α)) (k k2 : Hash)
    (h : mapGet m k2 = none) : mapGet (mapDel m k) k2 = none := by
  by_cases hk : k = k2
  · subst hk; exact mapGet_mapDel_self m k
  · rw [mapGet_mapDel_ne m k k2 hk]; exact h

/-! ## Frame lemmas -/

@[simp] theorem moveLinkToQueue_links (hd : HeaderDownload) (p : Nat) (q : QueueID) :
    (moveLinkToQueue hd p q).links = hd.links := by
  unfold moveLinkToQueue queuePush queueRemove
  cases (getLink hd.mem p).queueId <;> cases q <;> rfl

@[simp] theorem moveLinkToQueue_anchors (hd : HeaderDownload) (p : Nat) (q : QueueID) :
    (moveLinkToQueue hd p q).anchors = hd.anchors := by
  unfold moveLinkToQueue queuePush queueRemove
  cases (getLink hd.mem p).queueId <;> cases q <;> rfl

@[simp] theorem moveLinkToQueue_amem (hd : HeaderDownload) (p : Nat) (q : QueueID) :
    (moveLinkToQueue hd p q).amem = hd.amem := by
  unfold moveLinkToQueue queuePush queueRemove
  cases (getLink hd.mem p).queueId <;> cases q <;> rfl

@[simp] theorem moveLinkToQueue_anchorTree (hd : HeaderDownload) (p : Nat) (q : QueueID) :
    (moveLinkToQueue hd p q).anchorTree = hd.anchorTree := by
  unfold moveLinkToQueue queuePush queueRemove
  cases (getLink hd.mem p).queueId <;> cases q <;> rfl

@[simp] theorem moveLinkToQueue_mem (hd : HeaderDownload) (p : Nat) (q : QueueID) :
    (moveLinkToQueue hd p q).mem = setLink hd.mem p { getLink hd.mem p with queueId := q } := by
  unfold moveLinkToQueue queuePush queueRemove
  cases (getLink hd.mem p).queueId <;> cases q <;> rfl

theorem moveLinkToQueue_sameRest (hd : HeaderDownload) (p : Nat) (q : QueueID) :
    SameRest hd (moveLinkToQueue hd p q) := by
  unfold moveLinkToQueue queuePush queueRemove SameRest
  cases (getLink hd.mem p).queueId <;> cases q <;> simp

theorem sameRest_refl (hd : HeaderDownload) : SameRest hd hd := by
  simp [SameRest]

theorem sameRest_trans {x y z : HeaderDownload} (h1 : SameRest x y) (h2 : SameRest y z) :
    SameRest x z := by
  unfold SameRest at *
  obtain ⟨a1, a2, a3, a4, a5, a6, a7, a8, a9, a10, a11, a12, a13⟩ := h1
  obtain ⟨b1, b2, b3, b4, b5, b6, b7, b8, b9, b10, b11, b12, b13⟩ := h2
  exact ⟨b1.trans a1, b2.trans a2, b3.trans a3, b4.trans a4, b5.trans a5, b6.trans a6,
    b7.trans a7, b8.trans a8, b9.trans a9, b10.trans a10, b11.trans a11, b12.trans a12,
    b13.trans a13⟩

theorem sameAnchors_refl (hd : HeaderDownload) : SameAnchors hd hd := by
  simp [SameAnchors]

theorem sameAnchors_trans {x y z : HeaderDownload} (h1 : SameAnchors x y)
    (h2 : SameAnchors y z) : SameAnchors x z := by
  unfold SameAnchors at *
  obtain ⟨a1, a2, a3⟩ := h1
  obtain ⟨b1, b2, b3⟩ := h2
  exact ⟨b1.trans a1, b2.trans a2, b3.trans a3⟩

theorem moveLinkToQueue_sameAnchors (hd : HeaderDownload) (p : Nat) (q : QueueID) :
    SameAnchors hd (moveLinkToQueue hd p q) := by
  simp [SameAnchors]

/-- The loop of `removeUpwards` touches neither the anchors nor anything outside
the forest. -/
theorem removeUpwardsLoop_frame (n : Nat) :
    ∀ (hd : HeaderDownload) (stack : List Nat) (hd2 : HeaderDownload),
      removeUpwardsLoop n hd stack = some hd2 → SameAnchors hd hd2 ∧ SameRest hd hd2 := by
  induction n with
  | zero =>
    intro hd stack hd2 h
    cases stack with
    | nil =>
      simp only [removeUpwardsLoop, Option.some.injEq] at h
      subst h
      exact ⟨sameAnchors_refl _, sameRest_refl _⟩
    | cons r rest => simp [removeUpwardsLoop] at h
  | succ n ih =>
    intro hd stack hd2 h
    cases stack with
    | nil =>
      simp only [removeUpwardsLoop, Option.some.injEq] at h
      subst h
      exact ⟨sameAnchors_refl _, sameRest_refl _⟩
    | cons r rest =>
      simp only [removeUpwardsLoop] at h
      split at h
      · simp at h
      · split at h
        · simp at h
        · have := ih _ _ _ h
          obtain ⟨ha, hr⟩ := this
          constructor
          · refine sameAnchors_trans ?_ ha
            simp [SameAnchors]
          · refine sameRest_trans ?_ hr
            have := moveLinkToQueue_sameRest
              { hd with links := mapDel hd.links (getLink hd.mem r).hash } r QueueID.NoQueue
            unfold SameRest at this ⊢
            simpa using this

/-- Go `removeUpwards` touches neither the anchors nor anything outside the
forest. -/
theorem removeUpwards_frame (n : Nat) (hd : HeaderDownload) (link : Nat) (hd2 : HeaderDownload)
    (h : removeUpwards n hd link = some hd2) : SameAnchors hd hd2 ∧ SameRest hd hd2 := by
  simp only [removeUpwards, Option.bind_eq_some] at h
  obtain ⟨hd1, hdet, hloop⟩ := h
  have hf := removeUpwardsLoop_frame n _ _ _ hloop
  have h1 : SameAnchors hd hd1 ∧ SameRest hd hd1 := by
    unfold detachFromParent at hdet
    split at hdet
    · simp only [Option.some.injEq] at hdet; subst hdet
      exact ⟨sameAnchors_refl _, sameRest_refl _⟩
    · split at hdet
      · simp only [Option.some.injEq] at hdet; subst hdet
        exact ⟨sameAnchors_refl _, sameRest_refl _⟩
      · simp only [Option.map_eq_some'] at hdet
        obtain ⟨m, _, hm⟩ := hdet
        subst hm
        exact ⟨by simp [SameAnchors], by simp [SameRest]⟩
  exact ⟨sameAnchors_trans h1.1 hf.1, sameRest_trans h1.2 hf.2⟩

/-! ## The object heaps -/

theorem getLink_append_lt (mem : List Link) (x : Link) (q : Nat) (h : q < mem.length) :
    getLink (mem ++ [x]) q = getLink mem q := by
  simp [getLink, List.getD_eq_getElem?_getD, List.getElem?_append_left h]

theorem getLink_append_length (mem : List Link) (x : Link) :
    getLink (mem ++ [x]) mem.length = x := by
  simp [getLink, List.getD_eq_getElem?_getD]

theorem getLink_setLink_same (mem : List Link) (p : Nat) (l : Link) (h : p < mem.length) :
    getLink (setLink mem p l) p = l := by
  simp [getLink, setLink, List.getD_eq_getElem?_getD, h]

theorem getLink_setLink_ne (mem : List Link) (p q : Nat) (l : Link) (h : p ≠ q) :
    getLink (setLink mem p l) q = getLink mem q := by
  simp [getLink, setLink, List.getD_eq_getElem?_getD, List.getElem?_set_ne h]

@[simp] theorem setLink_length (mem : List Link) (p : Nat) (l : Link) :
    (setLink mem p l).length = mem.length := by
  simp [setLink]

theorem setLink_append_length (mem : List Link) (x y : Link) :
    setLink (mem ++ [x]) mem.length y = mem ++ [y] := by
  induction mem with
  | nil => rfl
  | cons a rest ih =>
    simp only [setLink] at ih
    simp [setLink, ih]

theorem setLink_append_lt (mem : List Link) (x y : Link) (p : Nat) (h : p < mem.length) :
    setLink (mem ++ [x]) p y = setLink mem p y ++ [x] := by
  induction mem generalizing p with
  | nil => simp at h
  | cons a rest ih =>
    cases p with
    | zero => simp [setLink]
    | succ p =>
      have hp : p < rest.length := by simpa using h
      have := ih p hp
      simp only [setLink] at this
      simp [setLink, this]

theorem getLink_of_ge (mem : List Link) (q : Nat) (h : mem.length ≤ q) :
    getLink mem q = default := by
  simp [getLink, List.getD_eq_getElem?_getD, List.getElem?_eq_none h]

theorem getAnchor_append_lt (amem : List Anchor) (x : Anchor) (q : Nat) (h : q < amem.length) :
    getAnchor (amem ++ [x]) q = getAnchor amem q := by
  simp [getAnchor, List.getD_eq_getElem?_getD, List.getElem?_append_left h]

theorem getAnchor_append_length (amem : List Anchor) (x : Anchor) :
    getAnchor (amem ++ [x]) amem.length = x := by
  simp [getAnchor, List.getD_eq_getElem?_getD]

theorem getAnchor_setAnchor_same (amem : List Anchor) (p : Nat) (l : Anchor)
    (h : p < amem.length) : getAnchor (setAnchor amem p l) p = l := by
  simp [getAnchor, setAnchor, List.getD_eq_getElem?_getD, h]

theorem getAnchor_setAnchor_ne (amem : List Anchor) (p q : Nat) (l : Anchor) (h : p ≠ q) :
    getAnchor (setAnchor amem p l) q = getAnchor amem q := by
  simp [getAnchor, setAnchor, List.getD_eq_getElem?_getD, List.getElem?_set_ne h]

/-! ## ProcessHeader: the shape of the state after the link is added -/

/-- The link `addHeaderAsLink` builds for a header that is not persisted, once it
is queued and has taken over the children `fChild`. -/
theorem addHeaderAsLink_fresh (hd : HeaderDownload) (sh : ChainSegmentHeader) :
    addHeaderAsLink hd sh false =
      ({ hd with
          mem := hd.mem ++ [{ blockHeight := sh.number, hash := sh.hash,
                              header := some sh.header, headerRaw := some sh.headerRaw,
                              queueId := QueueID.EntryQueueID }]
          links := mapSet hd.links sh.hash hd.mem.length
          linkQueue := hd.linkQueue ++ [hd.mem.length] }, hd.mem.length) := by
  simp [addHeaderAsLink, moveLinkToQueue, getLink_append_length, queueRemove, queuePush,
    setLink_append_length]

theorem acceptLink_eq (hd : HeaderDownload) (sh : ChainSegmentHeader) :
    acceptLink hd sh =
      ({ hd with
          stats := updateRespStats hd.stats sh.number
          mem := hd.mem ++ [freshLink sh (adoptedChildren hd sh)]
          links := mapSet hd.links sh.hash hd.mem.length
          linkQueue := hd.linkQueue ++ [hd.mem.length]
          anchors := match mapGet hd.anchors sh.hash with
            | some a => mapDel hd.anchors (getAnchor hd.amem a).parentHash
            | none => hd.anchors
          anchorTree := match mapGet hd.anchors sh.hash with
            | some a => treeDelete hd.amem hd.anchorTree a
            | none => hd.anchorTree }, hd.mem.length) := by
  unfold acceptLink adoptedChildren freshLink
  rw [addHeaderAsLink_fresh]
  cases mapGet hd.anchors sh.hash with
  | none => simp [adoptAnchor]
  | some a => simp [adoptAnchor, removeAnchor, getLink_append_length, setLink_append_length]

theorem ProcessHeader_accepted (fuel thr : Nat) (hd : HeaderDownload) (sh : ChainSegmentHeader)
    (newBlock : Bool) (peerID : PeerID) (hnew : mapGet hd.links sh.hash = none)
    (hacc : ¬ Rejected hd sh) :
    ProcessHeader fuel thr hd sh newBlock peerID =
      attachLink fuel thr (acceptLink hd sh).1 sh peerID (acceptLink hd sh).2
        (mapGet hd.links sh.header.ParentHash) := by
  unfold Rejected at hacc
  simp only [ProcessHeader, hnew]
  rw [if_neg, if_neg]
  · intro h; exact hacc ⟨h.1, h.2.1, Or.inr h.2.2⟩
  · intro h; exact hacc ⟨h.1, h.2.1, Or.inl h.2.2⟩

theorem ProcessHeader_rejected (fuel thr : Nat) (hd : HeaderDownload) (sh : ChainSegmentHeader)
    (newBlock : Bool) (peerID : PeerID) (hnew : mapGet hd.links sh.hash = none)
    (hrej : Rejected hd sh) :
    ProcessHeader fuel thr hd sh newBlock peerID =
      some ({ hd with stats := updateRespStats hd.stats sh.number }, false) := by
  unfold Rejected at hrej
  obtain ⟨h1, h2, h3⟩ := hrej
  simp only [ProcessHeader, hnew]
  by_cases hlt : sh.number < hd.highestInDb
  · rw [if_pos ⟨h1, h2, hlt⟩]
  · rw [if_neg (fun h => hlt h.2.2), if_pos ⟨h1, h2, h3.resolve_left hlt⟩]

theorem updateRespStats_Duplicates (stats : Stats) (n : Nat) :
    (updateRespStats stats n).Duplicates = stats.Duplicates := by
  simp only [updateRespStats]
  split <;> split <;> rfl

theorem attachToParent_sameRest (hd : HeaderDownload) (link par : Nat) :
    SameRest hd (attachToParent hd link par) := by
  unfold attachToParent
  dsimp only
  split
  · refine sameRest_trans ?_ (moveLinkToQueue_sameRest _ _ _)
    simp [SameRest]
  · simp [SameRest]

theorem attachToParent_sameAnchors (hd : HeaderDownload) (link par : Nat) :
    SameAnchors hd (attachToParent hd link par) := by
  unfold attachToParent
  dsimp only
  split
  · refine sameAnchors_trans ?_ (moveLinkToQueue_sameAnchors _ _ _)
    simp [SameAnchors]
  · simp [SameAnchors]

/-- After the link is added, `ProcessHeader` changes nothing outside the forest. -/
theorem attachLink_frame (fuel thr : Nat) (hd : HeaderDownload) (sh : ChainSegmentHeader)
    (peerID : PeerID) (link : Nat) (parent : Option Nat) (hd2 : HeaderDownload) (r : Bool)
    (h : attachLink fuel thr hd sh peerID link parent = some (hd2, r)) : SameRest hd hd2 := by
  unfold attachLink at h
  split at h
  · simp only [Option.some.injEq, Prod.mk.injEq] at h
    obtain ⟨h, _⟩ := h; subst h
    simp [SameRest, attachToAnchor]
  · split at h
    · simp only [Option.some.injEq, Prod.mk.injEq] at h
      obtain ⟨h, _⟩ := h; subst h
      exact attachToParent_sameRest _ _ _
    · split at h
      · simp only [Option.map_eq_some', Prod.mk.injEq] at h
        obtain ⟨hd1, hrem, h, _⟩ := h
        subst h
        exact (removeUpwards_frame _ _ _ _ hrem).2
      · simp only [Option.some.injEq, Prod.mk.injEq] at h
        obtain ⟨h, _⟩ := h; subst h
        simp [SameRest, addAnchor]

/-- The duplicate branch of `ProcessHeader`. -/
theorem ProcessHeader_dup (fuel thr : Nat) (hd : HeaderDownload) (sh : ChainSegmentHeader)
    (newBlock : Bool) (peerID : PeerID) (hdup : mapGet hd.links sh.hash ≠ none) :
    ProcessHeader fuel thr hd sh newBlock peerID =
      some ({ hd with stats := { updateRespStats hd.stats sh.number with
                Duplicates := hd.stats.Duplicates + 1 } }, false) := by
  obtain ⟨p, hp⟩ := Option.ne_none_iff_exists'.mp hdup
  simp only [ProcessHeader, hp, updateRespStats_Duplicates]

/-- A header that is not a duplicate leaves the `Duplicates` counter alone. -/
theorem ProcessHeader_new_Duplicates (fuel thr : Nat) (hd : HeaderDownload)
    (sh : ChainSegmentHeader) (newBlock : Bool) (peerID : PeerID) (hd1 : HeaderDownload)
    (r1 : Bool) (hnew : mapGet hd.links sh.hash = none)
    (h1 : ProcessHeader fuel thr hd sh newBlock peerID = some (hd1, r1)) :
    hd1.stats.Duplicates = hd.stats.Duplicates := by
  by_cases hrej : Rejected hd sh
  · rw [ProcessHeader_rejected fuel thr hd sh newBlock peerID hnew hrej] at h1
    simp only [Option.some.injEq, Prod.mk.injEq] at h1
    obtain ⟨h1, _⟩ := h1
    subst h1
    exact updateRespStats_Duplicates _ _
  · rw [ProcessHeader_accepted fuel thr hd sh newBlock peerID hnew hrej] at h1
    have hf := attachLink_frame _ _ _ _ _ _ _ _ _ h1
    rw [hf.1, acceptLink_eq]
    exact updateRespStats_Duplicates _ _

/-! ## Well-formed states -/

theorem mapGet_mem {α : Type} (m : List (Hash × α)) (k : Hash) (v : α)
    (h : mapGet m k = some v) : (k, v) ∈ m := by
  induction m with
  | nil => simp [mapGet] at h
  | cons e rest ih =>
    obtain ⟨a, b⟩ := e
    by_cases h1 : a = k
    · subst h1
      simp only [mapGet, if_true, Option.some.injEq] at h
      subst h
      exact List.mem_cons_self _ _
    · simp only [mapGet, h1, if_false] at h
      exact List.mem_cons_of_mem _ (ih h)

theorem getLink_mem (mem : List Link) (q : Nat) (h : q < mem.length) : getLink mem q ∈ mem := by
  simp only [getLink, List.getD_eq_getElem?_getD, List.getElem?_eq_getElem h, Option.getD_some]
  exact List.getElem_mem h

theorem getAnchor_mem (amem : List Anchor) (q : Nat) (h : q < amem.length) :
    getAnchor amem q ∈ amem := by
  simp only [getAnchor, List.getD_eq_getElem?_getD, List.getElem?_eq_getElem h,
    Option.getD_some]
  exact List.getElem_mem h

theorem wf_links {hd : HeaderDownload} (h : wellFormed hd = true) {k : Hash} {p : Nat}
    (hp : mapGet hd.links k = some p) : p < hd.mem.length ∧ (getLink hd.mem p).hash = k := by
  simp only [wellFormed, Bool.and_eq_true, List.all_eq_true, decide_eq_true_eq] at h
  exact h.1.1.1.1.1.1.1 (k, p) (mapGet_mem _ _ _ hp)

theorem wf_anchors {hd : HeaderDownload} (h : wellFormed hd = true) {k : Hash} {a : Nat}
    (ha : mapGet hd.anchors k = some a) :
    a < hd.amem.length ∧ (getAnchor hd.amem a).parentHash = k := by
  simp only [wellFormed, Bool.and_eq_true, List.all_eq_true, decide_eq_true_eq] at h
  exact h.1.1.1.1.1.1.2 (k, a) (mapGet_mem _ _ _ ha)

theorem wf_next {hd : HeaderDownload} (h : wellFormed hd = true) {q c : Nat}
    (hq : q < hd.mem.length) (hc : (getLink hd.mem q).next = some c) : c < hd.mem.length := by
  simp only [wellFormed, Bool.and_eq_true, List.all_eq_true, decide_eq_true_eq] at h
  have := (h.1.1.1.1.1.2 _ (getLink_mem _ _ hq)).2
  rw [hc] at this
  simpa [ptrBelow] using this

theorem wf_fChild {hd : HeaderDownload} (h : wellFormed hd = true) {q c : Nat}
    (hq : q < hd.mem.length) (hc : (getLink hd.mem q).fChild = some c) : c < hd.mem.length := by
  simp only [wellFormed, Bool.and_eq_true, List.all_eq_true, decide_eq_true_eq] at h
  have := (h.1.1.1.1.1.2 _ (getLink_mem _ _ hq)).1
  rw [hc] at this
  simpa [ptrBelow] using this

theorem wf_fLink {hd : HeaderDownload} (h : wellFormed hd = true) {a c : Nat}
    (ha : a < hd.amem.length) (hc : (getAnchor hd.amem a).fLink = some c) :
    c < hd.mem.length := by
  simp only [wellFormed, Bool.and_eq_true, List.all_eq_true, decide_eq_true_eq] at h
  have := h.1.1.1.1.2 _ (getAnchor_mem _ _ ha)
  rw [hc] at this
  simpa [ptrBelow] using this

theorem wf_anchorTree {hd : HeaderDownload} (h : wellFormed hd = true) {a : Nat}
    (ha : a ∈ hd.anchorTree) : a < hd.amem.length := by
  simp only [wellFormed, Bool.and_eq_true, List.all_eq_true, decide_eq_true_eq] at h
  exact h.1.1.1.2 a ha

theorem wf_linkQueue {hd : HeaderDownload} (h : wellFormed hd = true) {p : Nat}
    (hp : p ∈ hd.linkQueue) : p < hd.mem.length := by
  simp only [wellFormed, Bool.and_eq_true, List.all_eq_true, decide_eq_true_eq] at h
  exact h.1.1.2 p hp

theorem wf_insertQueue {hd : HeaderDownload} (h : wellFormed hd = true) {p : Nat}
    (hp : p ∈ hd.insertQueue) : p < hd.mem.length := by
  simp only [wellFormed, Bool.and_eq_true, List.all_eq_true, decide_eq_true_eq] at h
  exact h.1.2 p hp

theorem wf_persistedLinkQueue {hd : HeaderDownload} (h : wellFormed hd = true) {p : Nat}
    (hp : p ∈ hd.persistedLinkQueue) : p < hd.mem.length := by
  simp only [wellFormed, Bool.and_eq_true, List.all_eq_true, decide_eq_true_eq] at h
  exact h.2 p hp

/-- A child list is not changed by a heap update that keeps the sibling pointers
of the links below `N`, when those pointers stay below `N`. -/
theorem childList_congr (mem mem2 : List Link) (N : Nat)
    (hsame : ∀ q, q < N → (getLink mem2 q).next = (getLink mem q).next)
    (hclosed : ∀ q c, q < N → (getLink mem q).next = some c → c < N) :
    ∀ (n : Nat) (o : Option Nat), ptrBelow N o = true →
      childList mem2 n o = childList mem n o := by
  intro n
  induction n with
  | zero => intro o _; rfl
  | succ n ih =>
    intro o ho
    cases o with
    | none => rfl
    | some c =>
      have hc : c < N := by simpa [ptrBelow] using ho
      simp only [childList, hsame c hc]
      congr 1
      apply ih
      cases hn : (getLink mem c).next with
      | none => rfl
      | some d => simpa [ptrBelow] using hclosed c d hc hn

theorem erase_append_self_of_not_mem (l : List Nat) (p : Nat) (h : p ∉ l) :
    (l ++ [p]).erase p = l := by
  induction l with
  | nil => simp
  | cons a rest ih =>
    have ha : a ≠ p := fun e => h (e ▸ List.mem_cons_self _ _)
    have hr : p ∉ rest := fun e => h (List.mem_cons_of_mem _ e)
    simp [List.erase_cons, ha, ih hr]

theorem mem_treeInsert (amem : List Anchor) (a x : Nat) (l : List Nat) :
    x ∈ treeInsert amem a l ↔ x = a ∨ x ∈ l := by
  induction l with
  | nil => simp [treeInsert]
  | cons b rest ih =>
    simp only [treeInsert]
    split
    · simp
    · simp only [List.mem_cons, ih]
      tauto

theorem anchorSameKey_self (x : Anchor) : anchorSameKey x x = true := by
  simp [anchorSameKey, anchorLess]

theorem getLink_setLink (mem : List Link) (p q : Nat) (l : Link) :
    getLink (setLink mem p l) q = if q = p ∧ p < mem.length then l else getLink mem q := by
  by_cases h : q = p
  · subst h
    by_cases hl : q < mem.length
    · simp [getLink_setLink_same _ _ _ hl, hl]
    · simp only [hl, and_false, if_false]
      rw [getLink_of_ge _ _ (by simpa using hl), getLink_of_ge _ _ (Nat.le_of_not_lt hl)]
  · simp only [h, false_and, if_false]
    exact getLink_setLink_ne _ _ _ _ (fun e => h e.symm)

/-- What `attachToParent` does to the heap: the link `p` gets the former first
child of `par` as its next sibling and, under a persisted parent, is linked and
tagged for the insert queue; `par` gets `p` as its first child. -/
theorem attachToParent_getLink (hd : HeaderDownload) (p par : Nat) (hp : p < hd.mem.length)
    (hpar : par < hd.mem.length) (hne : par ≠ p) (q : Nat) :
    getLink (attachToParent hd p par).mem q =
      if q = p then
        { getLink hd.mem p with
          next := (getLink hd.mem par).fChild
          linked := (getLink hd.mem par).persisted || (getLink hd.mem p).linked
          queueId := if (getLink hd.mem par).persisted then QueueID.InsertQueueID
                     else (getLink hd.mem p).queueId }
      else if q = par then { getLink hd.mem par with fChild := some p }
      else getLink hd.mem q := by
  have hne2 : p ≠ par := fun e => hne e.symm
  unfold attachToParent
  by_cases hpers : (getLink hd.mem par).persisted = true
  · by_cases h1 : q = p
    · subst h1
      simp [getLink_setLink, hp, hpar, hne, hne2, hpers]
    · by_cases h2 : q = par
      · subst h2
        simp [getLink_setLink, hp, hpar, hne, hne2, hpers]
      · simp [getLink_setLink, hp, hpar, hne, hne2, hpers, h1, h2]
  · by_cases h1 : q = p
    · subst h1
      simp [getLink_setLink, hp, hpar, hne, hne2, hpers]
    · by_cases h2 : q = par
      · subst h2
        simp [getLink_setLink, hp, hpar, hne, hne2, hpers]
      · simp [getLink_setLink, hp, hpar, hne, hne2, hpers, h1, h2]

theorem attachToParent_links (hd : HeaderDownload) (p par : Nat) :
    (attachToParent hd p par).links = hd.links := by
  unfold attachToParent
  dsimp only
  split <;> simp

/-- What `attachToParent` does to the queues of a link that sits in the entry
queue. -/
theorem attachToParent_queues (hd : HeaderDownload) (p par : Nat) (hp : p < hd.mem.length)
    (hpar : par < hd.mem.length) (hne : par ≠ p)
    (htag : (getLink hd.mem p).queueId = QueueID.EntryQueueID) :
    (attachToParent hd p par).persistedLinkQueue = hd.persistedLinkQueue ∧
    (attachToParent hd p par).linkQueue =
      (if (getLink hd.mem par).persisted then hd.linkQueue.erase p else hd.linkQueue) ∧
    (attachToParent hd p par).insertQueue =
      (if (getLink hd.mem par).persisted then hd.insertQueue ++ [p] else hd.insertQueue) := by
  have hne2 : p ≠ par := fun e => hne e.symm
  unfold attachToParent
  by_cases hpers : (getLink hd.mem par).persisted = true
  · simp [getLink_setLink, hp, hpar, hne, hne2, hpers, moveLinkToQueue, htag, queueRemove,
      queuePush]
  · simp [getLink_setLink, hp, hpar, hne, hne2, hpers]

/-- In a well-formed state the anchors map after `acceptLink` is the old map
without the key of the accepted header. -/
theorem acceptLink_anchors (hd : HeaderDownload) (sh : ChainSegmentHeader)
    (hwf : wellFormed hd = true) :
    (acceptLink hd sh).1.anchors = mapDel hd.anchors sh.hash := by
  rw [acceptLink_eq]
  dsimp only
  cases h : mapGet hd.anchors sh.hash with
  | none => exact (mapDel_of_mapGet_none _ _ h).symm
  | some a => simp only [(wf_anchors hwf h).2]

theorem acceptLink_getLink_old (hd : HeaderDownload) (sh : ChainSegmentHeader) (q : Nat)
    (hq : q < hd.mem.length) : getLink (acceptLink hd sh).1.mem q = getLink hd.mem q := by
  rw [acceptLink_eq]
  exact getLink_append_lt _ _ _ hq

theorem acceptLink_getLink_new (hd : HeaderDownload) (sh : ChainSegmentHeader) :
    getLink (acceptLink hd sh).1.mem hd.mem.length = freshLink sh (adoptedChildren hd sh) := by
  rw [acceptLink_eq]
  exact getLink_append_length _ _


/-! ## The claims on ProcessHeader -/

/-- C1. A segment header whose hash is already a key of the link store is a
duplicate: `ProcessHeader` returns false, the `Duplicates` counter grows by
exactly one, and the link store, the links, the anchors, the anchor tree and
the queues stay as they were. -/
theorem ProcessHeader_duplicate (fuel thr : Nat) (hd : HeaderDownload) (sh : ChainSegmentHeader)
    (newBlock : Bool) (peerID : PeerID) (hdup : mapGet hd.links sh.hash ≠ none) :
    ∃ hd2, ProcessHeader fuel thr hd sh newBlock peerID = some (hd2, false) ∧
      hd2.stats.Duplicates = hd.stats.Duplicates + 1 ∧ SameForest hd hd2 := by
  refine ⟨_, ProcessHeader_dup fuel thr hd sh newBlock peerID hdup, rfl, ?_⟩
  simp [SameForest]

/-- C1, at a concrete input: header `0x0b` arrives a second time. -/
theorem ProcessHeader_duplicate_witness :
    mapGet oneAnchorEngine.links header11.hash ≠ none ∧
    ∃ hd2, ProcessHeader 0 90000 oneAnchorEngine header11 false 7 = some (hd2, false) ∧
      hd2.stats.Duplicates = oneAnchorEngine.stats.Duplicates + 1 ∧
      SameForest oneAnchorEngine hd2 :=
  ⟨by decide, ProcessHeader_duplicate 0 90000 oneAnchorEngine header11 false 7 (by decide)⟩

/-- C2, as stated, fails: a header that `ProcessHeader` rejects is rejected twice
and no duplicate is counted; a header that is already stored is counted twice. -/
theorem ProcessHeader_twice_counterexample :
    mapGet engineAtTen.links header11.hash = none ∧
    (ingestTwice 0 90000 engineAtTen header11 false 7).map
        (fun r => r.2.stats.Duplicates) = some (engineAtTen.stats.Duplicates + 0) ∧
    (ingestTwice 0 90000 oneAnchorEngine header11 false 7).map
        (fun r => r.2.stats.Duplicates) = some (oneAnchorEngine.stats.Duplicates + 2) := by
  decide

/-- C2, amended. A header that is not in the link store and that the first
`ProcessHeader` leaves in the store (it is neither rejected nor dropped) is
a duplicate for the second `ProcessHeader`: over the two calls `Duplicates`
grows by exactly one, and the forest after the second call is the forest after
the first. -/
theorem ProcessHeader_twice (fuel thr : Nat) (hd : HeaderDownload) (sh : ChainSegmentHeader)
    (newBlock : Bool) (peerID : PeerID) (hd1 : HeaderDownload) (r1 : Bool)
    (hnew : mapGet hd.links sh.hash = none)
    (h1 : ProcessHeader fuel thr hd sh newBlock peerID = some (hd1, r1))
    (hstored : mapGet hd1.links sh.hash ≠ none) :
    ∃ hd2, ProcessHeader fuel thr hd1 sh newBlock peerID = some (hd2, false) ∧
      hd2.stats.Duplicates = hd.stats.Duplicates + 1 ∧ SameForest hd1 hd2 := by
  refine ⟨_, ProcessHeader_dup fuel thr hd1 sh newBlock peerID hstored, ?_, ?_⟩
  · simp [ProcessHeader_new_Duplicates fuel thr hd sh newBlock peerID hd1 r1 hnew h1]
  · simp [SameForest]

/-- C2, amended, at a concrete input: header `0x0b` arrives twice at an empty
engine. -/
theorem ProcessHeader_twice_witness :
    ∃ hd2, ProcessHeader 0 90000 oneAnchorEngine header11 false 7 = some (hd2, false) ∧
      hd2.stats.Duplicates = emptyEngine.stats.Duplicates + 1 ∧ SameForest oneAnchorEngine hd2 :=
  ProcessHeader_twice 0 90000 emptyEngine header11 false 7 oneAnchorEngine true
    (by decide) (by decide) (by decide)

/-- C3. A header that is not a duplicate, has no parent link and closes no
anchor is rejected when it is below `highestInDb` or when the anchor limit is
reached: `ProcessHeader` returns false, adds no link and no anchor, and the link
store, the anchors, the anchor tree and the queues stay as they were. -/
theorem ProcessHeader_reject_too_old_or_anchor_cap (fuel thr : Nat) (hd : HeaderDownload)
    (sh : ChainSegmentHeader) (newBlock : Bool) (peerID : PeerID)
    (hnew : mapGet hd.links sh.hash = none)
    (hparent : mapGet hd.links sh.header.ParentHash = none)
    (hanchor : mapGet hd.anchors sh.hash = none)
    (hcause : sh.number < hd.highestInDb ∨ (hd.anchors.length : Int) ≥ hd.anchorLimit) :
    ∃ hd2, ProcessHeader fuel thr hd sh newBlock peerID = some (hd2, false) ∧
      SameForest hd hd2 := by
  refine ⟨_, ProcessHeader_rejected fuel thr hd sh newBlock peerID hnew
    ⟨hparent, hanchor, hcause⟩, ?_⟩
  simp [SameForest]

/-- C3, at a concrete input: header `0x0b` at height 5 arrives at an engine whose
database is at height 10. -/
theorem ProcessHeader_reject_too_old_or_anchor_cap_witness :
    ∃ hd2, ProcessHeader 0 90000 engineAtTen header11 false 7 = some (hd2, false) ∧
      SameForest engineAtTen hd2 :=
  ProcessHeader_reject_too_old_or_anchor_cap 0 90000 engineAtTen header11 false 7
    (by decide) (by decide) (by decide) (Or.inl (by decide))

/-- C10. `ProcessHeader` never pushes the number of anchors above the limit:
whenever the anchor keyed by the header's hash carries that hash as its parent
hash (as every entry of the anchors map does), the anchor count after the call
is at most the larger of the count before and `anchorLimit`; a count within the
limit stays within the limit. -/
theorem ProcessHeader_anchor_count (fuel thr : Nat) (hd : HeaderDownload)
    (sh : ChainSegmentHeader) (newBlock : Bool) (peerID : PeerID) (hd2 : HeaderDownload)
    (r : Bool)
    (hkey : ∀ a, mapGet hd.anchors sh.hash = some a → (getAnchor hd.amem a).parentHash = sh.hash)
    (h : ProcessHeader fuel thr hd sh newBlock peerID = some (hd2, r)) :
    (hd2.anchors.length : Int) ≤ max (hd.anchors.length : Int) hd.anchorLimit ∧
      ((hd.anchors.length : Int) ≤ hd.anchorLimit →
        (hd2.anchors.length : Int) ≤ hd.anchorLimit) := by
  have key : (hd2.anchors.length : Int) ≤ max (hd.anchors.length : Int) hd.anchorLimit := by
    by_cases hdup : mapGet hd.links sh.hash = none
    · by_cases hrej : Rejected hd sh
      · rw [ProcessHeader_rejected fuel thr hd sh newBlock peerID hdup hrej] at h
        simp only [Option.some.injEq, Prod.mk.injEq] at h
        obtain ⟨h, _⟩ := h
        subst h
        exact le_max_left _ _
      · rw [ProcessHeader_accepted fuel thr hd sh newBlock peerID hdup hrej, acceptLink_eq] at h
        have hacc : ((match mapGet hd.anchors sh.hash with
            | some a => mapDel hd.anchors (getAnchor hd.amem a).parentHash
            | none => hd.anchors).length : Int) ≤ hd.anchors.length := by
          split
          · exact_mod_cast mapDel_length_le _ _
          · exact le_refl _
        unfold attachLink at h
        dsimp only at h
        split at h
        · simp only [Option.some.injEq, Prod.mk.injEq] at h
          obtain ⟨h, _⟩ := h; subst h
          simp only [attachToAnchor]
          exact le_trans hacc (le_max_left _ _)
        · split at h
          · simp only [Option.some.injEq, Prod.mk.injEq] at h
            obtain ⟨h, _⟩ := h; subst h
            rw [(attachToParent_sameAnchors _ _ _).1]
            exact le_trans hacc (le_max_left _ _)
          · split at h
            · simp only [Option.map_eq_some', Prod.mk.injEq] at h
              obtain ⟨hd1, hrem, h, _⟩ := h
              subst h
              rw [(removeUpwards_frame _ _ _ _ hrem).1.1]
              exact le_trans hacc (le_max_left _ _)
            · rename_i hpar _
              simp only [Option.some.injEq, Prod.mk.injEq] at h
              obtain ⟨h, _⟩ := h; subst h
              simp only [addAnchor, mapSet, List.length_cons]
              cases hanc : mapGet hd.anchors sh.hash with
              | some a =>
                have hlt := mapDel_length_lt hd.anchors sh.hash a hanc
                have hle := mapDel_length_le (mapDel hd.anchors sh.hash) sh.header.ParentHash
                simp only [hkey a hanc]
                have : (mapDel (mapDel hd.anchors sh.hash) sh.header.ParentHash).length + 1
                    ≤ hd.anchors.length := by omega
                exact le_trans (by exact_mod_cast this) (le_max_left _ _)
              | none =>
                have hle := mapDel_length_le hd.anchors sh.header.ParentHash
                have hlim : ¬ ((hd.anchors.length : Int) ≥ hd.anchorLimit) := by
                  intro hge
                  exact hrej ⟨hpar, hanc, Or.inr hge⟩
                simp only []
                have : ((mapDel hd.anchors sh.header.ParentHash).length : Int) + 1
                    ≤ hd.anchorLimit := by
                  have : ((mapDel hd.anchors sh.header.ParentHash).length : Int)
                      ≤ hd.anchors.length := by exact_mod_cast hle
                  omega
                exact le_trans (by exact_mod_cast this) (le_max_right _ _)
    · rw [ProcessHeader_dup fuel thr hd sh newBlock peerID hdup] at h
      simp only [Option.some.injEq, Prod.mk.injEq] at h
      obtain ⟨h, _⟩ := h
      subst h
      exact le_max_left _ _
  exact ⟨key, fun hle => le_trans key (max_le hle (le_refl _))⟩

/-- C10, at a concrete input: header `0x0a` closes the anchor of
`oneAnchorEngine` and becomes an anchor itself. -/
theorem ProcessHeader_anchor_count_witness :
    ((addAnchor (acceptLink oneAnchorEngine header10).1 header10 7 1).anchors.length : Int)
        ≤ max (oneAnchorEngine.anchors.length : Int) oneAnchorEngine.anchorLimit ∧
      ((oneAnchorEngine.anchors.length : Int) ≤ oneAnchorEngine.anchorLimit →
        ((addAnchor (acceptLink oneAnchorEngine header10).1 header10 7 1).anchors.length : Int)
          ≤ oneAnchorEngine.anchorLimit) :=
  ProcessHeader_anchor_count 0 90000 oneAnchorEngine header10 false 7
    (addAnchor (acceptLink oneAnchorEngine header10).1 header10 7 1) true
    (fun a ha => by
      have h0 : a = 0 := by
        simpa [oneAnchorEngine, header10, mapGet] using ha.symm
      subst h0
      rfl)
    (by decide)

/-- C6. An accepted header whose parent link is in the store, with no anchor
keyed by its parent hash: `ProcessHeader` returns false and puts the new link
in front of the parent's child list; under a persisted parent the new link is
linked and sits in the insert queue, otherwise it is unlinked and stays in the
entry queue. -/
theorem ProcessHeader_attach_to_parent (fuel thr : Nat) (hd : HeaderDownload)
    (sh : ChainSegmentHeader) (newBlock : Bool) (peerID : PeerID) (par : Nat)
    (hwf : wellFormed hd = true)
    (hnew : mapGet hd.links sh.hash = none)
    (hpar : mapGet hd.links sh.header.ParentHash = some par)
    (hnoanchor : mapGet hd.anchors sh.header.ParentHash = none) :
    ∃ hd2, ProcessHeader fuel thr hd sh newBlock peerID = some (hd2, false) ∧
      mapGet hd2.links sh.hash = some hd.mem.length ∧
      (getLink hd2.mem hd.mem.length).hash = sh.hash ∧
      (getLink hd2.mem par).fChild = some hd.mem.length ∧
      (getLink hd2.mem hd.mem.length).next = (getLink hd.mem par).fChild ∧
      (∀ n, childList hd2.mem (n + 1) (getLink hd2.mem par).fChild =
        hd.mem.length :: childList hd.mem n (getLink hd.mem par).fChild) ∧
      ((getLink hd.mem par).persisted = true →
        (getLink hd2.mem hd.mem.length).linked = true ∧
        (getLink hd2.mem hd.mem.length).queueId = QueueID.InsertQueueID ∧
        hd.mem.length ∈ hd2.insertQueue ∧ hd.mem.length ∉ hd2.linkQueue) ∧
      ((getLink hd.mem par).persisted = false →
        (getLink hd2.mem hd.mem.length).linked = false ∧
        (getLink hd2.mem hd.mem.length).queueId = QueueID.EntryQueueID ∧
        hd.mem.length ∈ hd2.linkQueue ∧ hd.mem.length ∉ hd2.insertQueue) := by
  have hparlt : par < hd.mem.length := (wf_links hwf hpar).1
  have hne : par ≠ hd.mem.length := Nat.ne_of_lt hparlt
  have hacc : ¬ Rejected hd sh := by
    intro h
    rw [h.1] at hpar
    exact Option.noConfusion hpar
  have hA : mapGet (acceptLink hd sh).1.anchors sh.header.ParentHash = none := by
    rw [acceptLink_anchors hd sh hwf]
    exact mapGet_mapDel_none _ _ _ hnoanchor
  have hsnd : (acceptLink hd sh).2 = hd.mem.length := by rw [acceptLink_eq]
  have hlen : (acceptLink hd sh).1.mem.length = hd.mem.length + 1 := by
    rw [acceptLink_eq]; simp
  have hplt : hd.mem.length < (acceptLink hd sh).1.mem.length := by omega
  have hparlt2 : par < (acceptLink hd sh).1.mem.length := by omega
  have hget := attachToParent_getLink (acceptLink hd sh).1 hd.mem.length par hplt hparlt2 hne
  have hq := attachToParent_queues (acceptLink hd sh).1 hd.mem.length par hplt hparlt2 hne
    (by rw [acceptLink_getLink_new]; rfl)
  rw [acceptLink_getLink_old hd sh par hparlt] at hq
  refine ⟨attachToParent (acceptLink hd sh).1 hd.mem.length par, ?_, ?_, ?_, ?_, ?_, ?_, ?_, ?_⟩
  · rw [ProcessHeader_accepted fuel thr hd sh newBlock peerID hnew hacc]
    unfold attachLink
    simp only [hA, hpar, hsnd]
  · rw [attachToParent_links, acceptLink_eq]
    exact mapGet_mapSet_self _ _ _
  · rw [hget, if_pos rfl, acceptLink_getLink_new]
    rfl
  · rw [hget, if_neg hne, if_pos rfl]
  · rw [hget, if_pos rfl, acceptLink_getLink_old hd sh par hparlt]
  · intro n
    rw [hget par, if_neg hne, if_pos rfl]
    simp only [childList]
    rw [hget, if_pos rfl]
    simp only [acceptLink_getLink_old hd sh par hparlt]
    congr 1
    apply childList_congr hd.mem _ hd.mem.length
    · intro q hq
      rw [hget q, if_neg (Nat.ne_of_lt hq)]
      by_cases hqp : q = par
      · rw [if_pos hqp, hqp, acceptLink_getLink_old hd sh par hparlt]
      · rw [if_neg hqp, acceptLink_getLink_old hd sh q hq]
    · intro q c hq hc
      exact wf_next hwf hq hc
    · cases hc : (getLink hd.mem par).fChild with
      | none => rfl
      | some c => simpa [ptrBelow] using wf_fChild hwf hparlt hc
  · intro hpers
    have hnotin : hd.mem.length ∉ hd.linkQueue := fun hin =>
      Nat.lt_irrefl _ (wf_linkQueue hwf hin)
    rw [hget, if_pos rfl, acceptLink_getLink_old hd sh par hparlt]
    rw [hq.2.2, hq.2.1]
    simp only [hpers, if_true, Bool.true_or, true_and]
    rw [acceptLink_eq]
    simp only [List.mem_append, List.mem_singleton, or_true, true_and]
    rw [erase_append_self_of_not_mem _ _ hnotin]
    exact hnotin
  · intro hpers
    have hnotin : hd.mem.length ∉ hd.insertQueue := fun hin =>
      Nat.lt_irrefl _ (wf_insertQueue hwf hin)
    rw [hget, if_pos rfl, acceptLink_getLink_old hd sh par hparlt]
    rw [hq.2.2, hq.2.1]
    simp only [hpers, Bool.false_eq_true, if_false, Bool.false_or]
    rw [acceptLink_getLink_new, acceptLink_eq]
    simp only [List.mem_append, List.mem_singleton, or_true, true_and]
    exact ⟨rfl, rfl, hnotin⟩

/-- C6, at a concrete input: header `0x0b` arrives when its parent `0x0a` is a
persisted link; the new link is linked and queued for insertion. -/
theorem ProcessHeader_attach_to_parent_witness :
    ∃ hd2, ProcessHeader 0 90000 persistedEngine header11 false 7 = some (hd2, false) ∧
      (getLink hd2.mem 0).fChild = some 1 ∧ (getLink hd2.mem 1).linked = true ∧
      1 ∈ hd2.insertQueue := by
  obtain ⟨hd2, h1, _, _, h4, _, _, h7, _⟩ :=
    ProcessHeader_attach_to_parent 0 90000 persistedEngine header11 false 7 0
      (by decide) (by decide) (by decide) (by decide)
  exact ⟨hd2, h1, h4, (h7 (by decide)).1, (h7 (by decide)).2.2.1⟩

theorem getAnchor_setAnchor (amem : List Anchor) (p q : Nat) (l : Anchor) :
    getAnchor (setAnchor amem p l) q =
      if q = p ∧ p < amem.length then l else getAnchor amem q := by
  by_cases h : q = p
  · subst h
    by_cases hl : q < amem.length
    · simp [getAnchor_setAnchor_same _ _ _ hl, hl]
    · simp only [hl, and_false, if_false]
      have h1 : amem.length ≤ q := Nat.le_of_not_lt hl
      have h2 : (amem.set q l).length ≤ q := by simpa using h1
      simp only [getAnchor, setAnchor, List.getD_eq_getElem?_getD, List.getElem?_eq_none h1,
        List.getElem?_eq_none h2]
  · simp only [h, false_and, if_false]
    exact getAnchor_setAnchor_ne _ _ _ _ (fun e => h e.symm)

/-- C5. An accepted header, distinct from its own parent, whose parent hash is
the key of an anchor: `ProcessHeader` returns false and puts the new link in
front of that anchor's child list, all former children kept in order; no anchor
is created, and the new link is unlinked and in the entry queue, not in the
insert queue. -/
theorem ProcessHeader_attach_to_anchor (fuel thr : Nat) (hd : HeaderDownload)
    (sh : ChainSegmentHeader) (newBlock : Bool) (peerID : PeerID) (pa : Nat)
    (hwf : wellFormed hd = true)
    (hnew : mapGet hd.links sh.hash = none)
    (hacc : ¬ Rejected hd sh)
    (hself : sh.hash ≠ sh.header.ParentHash)
    (hpa : mapGet hd.anchors sh.header.ParentHash = some pa) :
    ∃ hd2, ProcessHeader fuel thr hd sh newBlock peerID = some (hd2, false) ∧
      mapGet hd2.links sh.hash = some hd.mem.length ∧
      (getLink hd2.mem hd.mem.length).hash = sh.hash ∧
      (getAnchor hd2.amem pa).fLink = some hd.mem.length ∧
      (getLink hd2.mem hd.mem.length).next = (getAnchor hd.amem pa).fLink ∧
      (∀ n, childList hd2.mem (n + 1) (getAnchor hd2.amem pa).fLink =
        hd.mem.length :: childList hd.mem n (getAnchor hd.amem pa).fLink) ∧
      hd2.amem.length = hd.amem.length ∧ hd2.anchors = mapDel hd.anchors sh.hash ∧
      mapGet hd2.anchors sh.header.ParentHash = some pa ∧
      (getLink hd2.mem hd.mem.length).linked = false ∧
      (getLink hd2.mem hd.mem.length).queueId = QueueID.EntryQueueID ∧
      hd.mem.length ∈ hd2.linkQueue ∧ hd.mem.length ∉ hd2.insertQueue := by
  have hpalt : pa < hd.amem.length := (wf_anchors hwf hpa).1
  have hA : mapGet (acceptLink hd sh).1.anchors sh.header.ParentHash = some pa := by
    rw [acceptLink_anchors hd sh hwf, mapGet_mapDel_ne _ _ _ hself]
    exact hpa
  have hsnd : (acceptLink hd sh).2 = hd.mem.length := by rw [acceptLink_eq]
  have hamem : (acceptLink hd sh).1.amem = hd.amem := by rw [acceptLink_eq]
  have hlen : (acceptLink hd sh).1.mem.length = hd.mem.length + 1 := by
    rw [acceptLink_eq]; simp
  have hnotin : hd.mem.length ∉ hd.insertQueue := fun hin =>
    Nat.lt_irrefl _ (wf_insertQueue hwf hin)
  refine ⟨attachToAnchor (acceptLink hd sh).1 hd.mem.length pa, ?_, ?_, ?_, ?_, ?_, ?_, ?_, ?_,
    ?_, ?_, ?_, ?_, ?_⟩
  · rw [ProcessHeader_accepted fuel thr hd sh newBlock peerID hnew hacc]
    unfold attachLink
    simp only [hA, hsnd]
  · simp only [attachToAnchor]
    rw [acceptLink_eq]
    exact mapGet_mapSet_self _ _ _
  · simp only [attachToAnchor, getLink_setLink, hlen, Nat.lt_succ_self, and_self, if_true]
    rw [acceptLink_getLink_new]; rfl
  · simp only [attachToAnchor, hamem, getAnchor_setAnchor, hpalt, and_self, if_true]
  · simp only [attachToAnchor, getLink_setLink, hlen, Nat.lt_succ_self, and_self, if_true, hamem]
  · intro n
    simp only [attachToAnchor, hamem, getAnchor_setAnchor, hpalt, and_self, if_true, childList,
      getLink_setLink, hlen, Nat.lt_succ_self]
    congr 1
    apply childList_congr hd.mem _ hd.mem.length
    · intro q hq
      rw [getLink_setLink, if_neg (fun h => Nat.ne_of_lt hq h.1),
        acceptLink_getLink_old hd sh q hq]
    · intro q c hq hc
      exact wf_next hwf hq hc
    · cases hc : (getAnchor hd.amem pa).fLink with
      | none => rfl
      | some c => simpa [ptrBelow] using wf_fLink hwf hpalt hc
  · simp [attachToAnchor, hamem, setAnchor]
  · simp only [attachToAnchor]
    exact acceptLink_anchors hd sh hwf
  · simp only [attachToAnchor]
    exact hA
  · simp only [attachToAnchor, getLink_setLink, hlen, Nat.lt_succ_self, and_self, if_true]
    rw [acceptLink_getLink_new]; rfl
  · simp only [attachToAnchor, getLink_setLink, hlen, Nat.lt_succ_self, and_self, if_true]
    rw [acceptLink_getLink_new]; rfl
  · simp only [attachToAnchor]
    rw [acceptLink_eq]
    simp
  · simp only [attachToAnchor]
    rw [acceptLink_eq]
    exact hnotin

/-- C5, at a concrete input: header `0x0d`, a second child of the unknown header
`0x0a`, joins the anchor keyed by `0x0a` in front of link `0x0b`. -/
theorem ProcessHeader_attach_to_anchor_witness :
    ∃ hd2, ProcessHeader 0 90000 oneAnchorEngine header13 false 7 = some (hd2, false) ∧
      childList hd2.mem 2 (getAnchor hd2.amem 0).fLink = [1, 0] ∧
      hd2.amem.length = 1 ∧ (getLink hd2.mem 1).linked = false ∧ 1 ∉ hd2.insertQueue := by
  obtain ⟨hd2, h1, _, _, _, _, h6, h7, _, _, h10, _, _, h13⟩ :=
    ProcessHeader_attach_to_anchor 0 90000 oneAnchorEngine header13 false 7 0
      (by decide) (by decide) (by decide) (by decide) (by decide)
  exact ⟨hd2, h1, h6 1, h7, h10, h13⟩

/-- The loop of `removeUpwards` only deletes keys of the link store. -/
theorem removeUpwardsLoop_links_mono (n : Nat) :
    ∀ (hd : HeaderDownload) (stack : List Nat) (hd2 : HeaderDownload) (k : Hash),
      removeUpwardsLoop n hd stack = some hd2 → mapGet hd.links k = none →
        mapGet hd2.links k = none := by
  induction n with
  | zero =>
    intro hd stack hd2 k h hk
    cases stack with
    | nil =>
      simp only [removeUpwardsLoop, Option.some.injEq] at h
      subst h; exact hk
    | cons r rest => simp [removeUpwardsLoop] at h
  | succ n ih =>
    intro hd stack hd2 k h hk
    cases stack with
    | nil =>
      simp only [removeUpwardsLoop, Option.some.injEq] at h
      subst h; exact hk
    | cons r rest =>
      simp only [removeUpwardsLoop] at h
      split at h
      · simp at h
      · split at h
        · simp at h
        · refine ih _ _ _ k h ?_
          simp only [moveLinkToQueue_links]
          exact mapGet_mapDel_none _ _ _ hk

theorem pruned_refl (mem : List Link) : Pruned mem mem :=
  fun _ => ⟨rfl, rfl, Or.inl rfl⟩

theorem pruned_trans {m1 m2 m3 : List Link} (h12 : Pruned m1 m2) (h23 : Pruned m2 m3) :
    Pruned m1 m3 := by
  intro q
  obtain ⟨a1, a2, a3⟩ := h12 q
  obtain ⟨b1, b2, b3⟩ := h23 q
  refine ⟨b1.trans a1, b2.trans a2, ?_⟩
  rcases b3 with b3 | b3
  · rcases a3 with a3 | a3
    · exact Or.inl (b3.trans a3)
    · exact Or.inr (b3.trans a3)
  · exact Or.inr b3

theorem pruned_setLink_queueId (mem : List Link) (r : Nat) (t : QueueID) :
    Pruned mem (setLink mem r { getLink mem r with queueId := t }) := by
  intro q
  rw [getLink_setLink]
  split
  · rename_i h
    rw [h.1]
    exact ⟨rfl, rfl, Or.inl rfl⟩
  · exact ⟨rfl, rfl, Or.inl rfl⟩

theorem pruned_setLink_next (mem : List Link) (r : Nat) :
    Pruned mem (setLink mem r { getLink mem r with next := none }) := by
  intro q
  rw [getLink_setLink]
  split
  · rename_i h
    rw [h.1]
    exact ⟨rfl, rfl, Or.inr rfl⟩
  · exact ⟨rfl, rfl, Or.inl rfl⟩

theorem clearNext_pruned (n : Nat) :
    ∀ (mem : List Link) (o : Option Nat) (mem3 : List Link),
      clearNext n mem o = some mem3 → Pruned mem mem3 := by
  induction n with
  | zero =>
    intro mem o mem3 h
    cases o with
    | none =>
      simp only [clearNext, Option.some.injEq] at h
      subst h; exact pruned_refl _
    | some c => simp [clearNext] at h
  | succ n ih =>
    intro mem o mem3 h
    cases o with
    | none =>
      simp only [clearNext, Option.some.injEq] at h
      subst h; exact pruned_refl _
    | some c =>
      simp only [clearNext] at h
      exact pruned_trans (pruned_setLink_next mem c) (ih _ _ _ h)

theorem inChain_step {mem : List Link} {o : Option Nat} {p d : Nat} (h : InChain mem o p)
    (hd : (getLink mem p).next = some d) : InChain mem o d := by
  induction h with
  | here p =>
    apply InChain.sibling
    rw [hd]
    exact InChain.here d
  | sibling p q _ ih => exact InChain.sibling _ _ (ih hd)

theorem inChain_mono {mem mem2 : List Link} (hp : Pruned mem mem2) {o : Option Nat} {q : Nat}
    (h : InChain mem2 o q) : InChain mem o q := by
  induction h with
  | here p => exact InChain.here p
  | sibling p q h ih =>
    rcases (hp p).2.2 with h1 | h1
    · rw [h1] at ih
      exact InChain.sibling _ _ ih
    · rw [h1] at h
      cases h

theorem clearNext_outside (n : Nat) :
    ∀ (mem : List Link) (o : Option Nat) (mem3 : List Link),
      clearNext n mem o = some mem3 → ∀ q, ¬ InChain mem o q →
        getLink mem3 q = getLink mem q := by
  induction n with
  | zero =>
    intro mem o mem3 h q _
    cases o with
    | none =>
      simp only [clearNext, Option.some.injEq] at h
      subst h; rfl
    | some c => simp [clearNext] at h
  | succ n ih =>
    intro mem o mem3 h q hq
    cases o with
    | none =>
      simp only [clearNext, Option.some.injEq] at h
      subst h; rfl
    | some c =>
      simp only [clearNext] at h
      have hqc : q ≠ c := fun e => hq (by rw [e]; exact InChain.here c)
      have hrest : ¬ InChain (setLink mem c { getLink mem c with next := none })
          (getLink mem c).next q := by
        intro hin
        exact hq (InChain.sibling _ _ (inChain_mono (pruned_setLink_next mem c) hin))
      rw [ih _ _ _ h q hrest, getLink_setLink, if_neg (fun e => hqc e.1)]

theorem collectChildren_mem (n : Nat) :
    ∀ (mem : List Link) (o : Option Nat) (cs : List Nat),
      collectChildren n mem o = some cs → ∀ q, InChain mem o q → q ∈ cs := by
  induction n with
  | zero =>
    intro mem o cs h q hq
    cases o with
    | none => cases hq
    | some c => simp [collectChildren] at h
  | succ n ih =>
    intro mem o cs h q hq
    cases o with
    | none => cases hq
    | some c =>
      simp only [collectChildren, Option.map_eq_some'] at h
      obtain ⟨cs2, hcs2, hcs⟩ := h
      subst hcs
      cases hq with
      | here => exact List.mem_cons_self _ _
      | sibling _ _ hs => exact List.mem_cons_of_mem _ (ih _ _ _ hcs2 q hs)

theorem below_congr {mem mem2 : List Link}
    (hf : ∀ q, (getLink mem2 q).fChild = (getLink mem q).fChild ∧
      (getLink mem2 q).next = (getLink mem q).next)
    {o : Option Nat} {x : Nat} (h : Below mem o x) : Below mem2 o x := by
  induction h with
  | here p => exact Below.here p
  | child p x _ ih => exact Below.child p x (by rw [(hf p).1]; exact ih)
  | sibling p x _ ih => exact Below.sibling p x (by rw [(hf p).2]; exact ih)

/-- A link below a chain link, in the pruned heap, is in the subtree of a link of
the chain. -/
theorem below_chain_covered {mem mem2 : List Link} (hp : Pruned mem mem2) (o0 : Option Nat)
    {o : Option Nat} {x : Nat} (h : Below mem2 o x) :
    ∀ d, o = some d → InChain mem o0 d →
      ∃ c, InChain mem o0 c ∧ (x = c ∨ Below mem2 (getLink mem2 c).fChild x) := by
  induction h with
  | here p =>
    intro d hd hin
    cases hd
    exact ⟨p, hin, Or.inl rfl⟩
  | child p x h _ =>
    intro d hd hin
    cases hd
    exact ⟨p, hin, Or.inr h⟩
  | sibling p x h ih =>
    intro d hd hin
    cases hd
    cases hn : (getLink mem2 p).next with
    | none =>
      rw [hn] at h
      cases h
    | some e =>
      apply ih e hn
      apply inChain_step hin
      rcases (hp p).2.2 with h1 | h1
      · rw [← h1]; exact hn
      · rw [h1] at hn; cases hn

/-- Cutting the sibling pointers of a chain keeps every link below a list either
below that list or in the subtree of a link of the chain. -/
theorem below_cut {mem mem2 : List Link} (hp : Pruned mem mem2) (o0 : Option Nat)
    (hout : ∀ q, ¬ InChain mem o0 q → (getLink mem2 q).next = (getLink mem q).next)
    {o : Option Nat} {x : Nat} (h : Below mem o x) :
    Below mem2 o x ∨ ∃ c, InChain mem o0 c ∧ (x = c ∨ Below mem2 (getLink mem2 c).fChild x) := by
  induction h with
  | here p => exact Or.inl (Below.here p)
  | child p x _ ih =>
    rcases ih with ih | ih
    · left
      apply Below.child
      rw [(hp p).1]
      exact ih
    · exact Or.inr ih
  | sibling p x _ ih =>
    rcases ih with ih | ih
    · by_cases hin : InChain mem o0 p
      · right
        cases hn : (getLink mem p).next with
        | none =>
          rw [hn] at ih
          cases ih
        | some e =>
          rw [hn] at ih
          exact below_chain_covered hp o0 ih e rfl (inChain_step hin hn)
      · left
        apply Below.sibling
        rw [hout p hin]
        exact ih
    · exact Or.inr ih

theorem setLink_queueId_fields (mem : List Link) (r : Nat) (t : QueueID) (q : Nat) :
    (getLink (setLink mem r { getLink mem r with queueId := t }) q).fChild
        = (getLink mem q).fChild ∧
      (getLink (setLink mem r { getLink mem r with queueId := t }) q).next
        = (getLink mem q).next := by
  rw [getLink_setLink]
  split
  · rename_i h
    rw [h.1]
    exact ⟨rfl, rfl⟩
  · exact ⟨rfl, rfl⟩

/-- When the loop of `removeUpwards` returns, no link of the subtrees of the
links it started from is in the store. -/
theorem removeUpwardsLoop_removes (n : Nat) :
    ∀ (hd : HeaderDownload) (stack : List Nat) (hd2 : HeaderDownload),
      removeUpwardsLoop n hd stack = some hd2 →
        ∀ x, Covered hd.mem stack x → mapGet hd2.links (getLink hd.mem x).hash = none := by
  induction n with
  | zero =>
    intro hd stack hd2 h x hx
    cases stack with
    | nil =>
      obtain ⟨r, hr, _⟩ := hx
      cases hr
    | cons r rest => simp [removeUpwardsLoop] at h
  | succ n ih =>
    intro hd stack hd2 h x hx
    cases stack with
    | nil =>
      obtain ⟨r, hr, _⟩ := hx
      cases hr
    | cons r rest =>
      simp only [removeUpwardsLoop] at h
      split at h
      · simp at h
      · rename_i cs hcs
        split at h
        · simp at h
        · rename_i mem3 hclear
          simp only [moveLinkToQueue_mem] at hcs hclear h
          simp only [ClearChildren] at hclear
          have hP2 := pruned_setLink_queueId hd.mem r QueueID.NoQueue
          have hF2 := setLink_queueId_fields hd.mem r QueueID.NoQueue
          have hP3 := clearNext_pruned n _ _ _ hclear
          have hout := clearNext_outside n _ _ _ hclear
          have hhash : (getLink mem3 x).hash = (getLink hd.mem x).hash :=
            ((pruned_trans hP2 hP3) x).2.1
          have hmono := removeUpwardsLoop_links_mono n _ _ _ (getLink hd.mem r).hash h
            (by simp only [moveLinkToQueue_links]; exact mapGet_mapDel_self _ _)
          have hIH := ih _ _ _ h x
          rw [hhash] at hIH
          have cov_of_chain : ∀ c,
              InChain (setLink hd.mem r { getLink hd.mem r with queueId := QueueID.NoQueue })
                (getLink (setLink hd.mem r
                  { getLink hd.mem r with queueId := QueueID.NoQueue }) r).fChild c →
              (x = c ∨ Below mem3 (getLink mem3 c).fChild x) →
              Covered mem3 (cs.reverse ++ rest) x := by
            intro c hc hxc
            exact ⟨c, List.mem_append_left _
              (List.mem_reverse.mpr (collectChildren_mem n _ _ _ hcs c hc)), hxc⟩
          obtain ⟨r2, hr2, hx2⟩ := hx
          rcases hx2 with hx2 | hx2
          · rcases List.mem_cons.mp hr2 with hr | hr
            · rw [hx2, hr]; exact hmono
            · exact hIH ⟨r2, List.mem_append_right _ hr, Or.inl hx2⟩
          · have hb2 : Below (setLink hd.mem r { getLink hd.mem r with queueId := QueueID.NoQueue })
                (getLink (setLink hd.mem r
                  { getLink hd.mem r with queueId := QueueID.NoQueue }) r2).fChild x := by
              rw [(hF2 r2).1]
              exact below_congr hF2 hx2
            rcases below_cut hP3 _ (fun q hq => congrArg Link.next (hout q hq)) hb2 with hb3 | hb3
            · rcases List.mem_cons.mp hr2 with hr | hr
              · subst hr
                cases hf : (getLink (setLink hd.mem r2
                    { getLink hd.mem r2 with queueId := QueueID.NoQueue }) r2).fChild with
                | none =>
                  rw [hf] at hb3
                  cases hb3
                | some c1 =>
                  rw [hf] at hb3
                  obtain ⟨c, hc, hxc⟩ := below_chain_covered hP3 (some c1) hb3 c1 rfl
                    (InChain.here c1)
                  rw [← hf] at hc
                  exact hIH (cov_of_chain c hc hxc)
              · refine hIH ⟨r2, List.mem_append_right _ hr, Or.inr ?_⟩
                rw [(hP3 r2).1]
                exact hb3
            · obtain ⟨c, hc, hxc⟩ := hb3
              exact hIH (cov_of_chain c hc hxc)

/-! ## removeUpwards terminates on a forest without cycles -/

theorem ranked_of_pruned {mem mem2 : List Link} {rank : Nat → Nat} (hp : Pruned mem mem2)
    (hr : Ranked mem rank) : Ranked mem2 rank := by
  intro q c h
  rcases h with h | h
  · exact hr q c (Or.inl (by rw [← (hp q).1]; exact h))
  · rcases (hp q).2.2 with h1 | h1
    · exact hr q c (Or.inr (by rw [← h1]; exact h))
    · rw [h1] at h; cases h

theorem weight_cons (rank : Nat → Nat) (r : Nat) (rest : List Nat) :
    weight rank (r :: rest) = 2 ^ rank r + weight rank rest := by
  simp [weight]

theorem weight_append (rank : Nat → Nat) (xs ys : List Nat) :
    weight rank (xs ++ ys) = weight rank xs + weight rank ys := by
  simp [weight]

theorem weight_reverse (rank : Nat → Nat) (xs : List Nat) :
    weight rank xs.reverse = weight rank xs := by
  simp [weight, List.sum_reverse]

theorem collectChildren_total (rank : Nat → Nat) (mem : List Link) (hr : Ranked mem rank)
    (n : Nat) :
    ∀ (o : Option Nat) (k : Nat), (∀ c, o = some c → rank c < k) → k ≤ n →
      ∃ cs, collectChildren n mem o = some cs ∧ weight rank cs + 1 ≤ 2 ^ k := by
  induction n with
  | zero =>
    intro o k ho hk
    cases o with
    | none => exact ⟨[], rfl, by simpa [weight] using Nat.one_le_two_pow⟩
    | some c =>
      have := ho c rfl
      omega
  | succ n ih =>
    intro o k ho hk
    cases o with
    | none => exact ⟨[], rfl, by simpa [weight] using Nat.one_le_two_pow⟩
    | some c =>
      have hc := ho c rfl
      obtain ⟨cs, hcs, hw⟩ := ih (getLink mem c).next (rank c)
        (fun d hd => hr c d (Or.inr hd)) (by omega)
      refine ⟨c :: cs, by simp [collectChildren, hcs], ?_⟩
      rw [weight_cons]
      have h2 : 2 ^ (rank c + 1) ≤ 2 ^ k := Nat.pow_le_pow_right (by norm_num) hc
      rw [pow_succ] at h2
      omega

theorem clearNext_total (rank : Nat → Nat) (n : Nat) :
    ∀ (mem : List Link) (o : Option Nat) (k : Nat), Ranked mem rank →
      (∀ c, o = some c → rank c < k) → k ≤ n → ∃ mem3, clearNext n mem o = some mem3 := by
  induction n with
  | zero =>
    intro mem o k _ ho hk
    cases o with
    | none => exact ⟨mem, rfl⟩
    | some c =>
      have := ho c rfl
      omega
  | succ n ih =>
    intro mem o k hr ho hk
    cases o with
    | none => exact ⟨mem, rfl⟩
    | some c =>
      have hc := ho c rfl
      simp only [clearNext]
      exact ih _ _ (rank c) (ranked_of_pruned (pruned_setLink_next mem c) hr)
        (fun d hd => hr c d (Or.inr hd)) (by omega)

/-- The loop of `removeUpwards` returns when the fuel covers the weight of the
links to remove. -/
theorem removeUpwardsLoop_total (rank : Nat → Nat) (n : Nat) :
    ∀ (hd : HeaderDownload) (stack : List Nat), Ranked hd.mem rank → weight rank stack ≤ n →
      ∃ hd2, removeUpwardsLoop n hd stack = some hd2 := by
  induction n with
  | zero =>
    intro hd stack _ hw
    cases stack with
    | nil => exact ⟨hd, rfl⟩
    | cons r rest =>
      rw [weight_cons] at hw
      have : 1 ≤ 2 ^ rank r := Nat.one_le_two_pow
      omega
  | succ n ih =>
    intro hd stack hr hw
    cases stack with
    | nil => exact ⟨hd, rfl⟩
    | cons r rest =>
      rw [weight_cons] at hw
      have hlt : rank r < 2 ^ rank r := Nat.lt_two_pow _
      have hP2 := pruned_setLink_queueId hd.mem r QueueID.NoQueue
      have hr2 := ranked_of_pruned hP2 hr
      obtain ⟨cs, hcs, hwcs⟩ := collectChildren_total rank _ hr2 n
        (getLink (setLink hd.mem r { getLink hd.mem r with queueId := QueueID.NoQueue }) r).fChild
        (rank r) (fun c hc => hr2 r c (Or.inl hc)) (by omega)
      obtain ⟨mem3, hclear⟩ := clearNext_total rank n _
        (getLink (setLink hd.mem r { getLink hd.mem r with queueId := QueueID.NoQueue }) r).fChild
        (rank r) hr2 (fun c hc => hr2 r c (Or.inl hc)) (by omega)
      have hr3 := ranked_of_pruned (clearNext_pruned n _ _ _ hclear) hr2
      simp only [removeUpwardsLoop, moveLinkToQueue_mem, ClearChildren, hcs, hclear]
      apply ih
      · exact hr3
      · rw [weight_append, weight_reverse]
        omega

theorem acyclic_spec {mem : List Link} {rank : Nat → Nat} (h : acyclic mem rank = true)
    {q c : Nat} (hq : q < mem.length)
    (hc : (getLink mem q).fChild = some c ∨ (getLink mem q).next = some c) :
    rank c < rank q := by
  simp only [acyclic, List.all_eq_true, List.mem_range, Bool.and_eq_true] at h
  have := h q hq
  rcases hc with hc | hc
  · simpa [hc] using this.1
  · simpa [hc] using this.2

/-- A link below a list of a well-formed heap is a link of that heap, and stays
below the list when the heap grows. -/
theorem below_extend {mem mem2 : List Link}
    (hclosed : ∀ q c, q < mem.length →
      ((getLink mem q).fChild = some c ∨ (getLink mem q).next = some c) → c < mem.length)
    (hsame : ∀ q, q < mem.length → getLink mem2 q = getLink mem q)
    {o : Option Nat} {x : Nat} (h : Below mem o x) :
    ptrBelow mem.length o = true → Below mem2 o x ∧ x < mem.length := by
  induction h with
  | here p =>
    intro hp
    exact ⟨Below.here p, by simpa [ptrBelow] using hp⟩
  | child p x h ih =>
    intro hp
    have hp2 : p < mem.length := by simpa [ptrBelow] using hp
    have hc : ptrBelow mem.length (getLink mem p).fChild = true := by
      cases hf : (getLink mem p).fChild with
      | none => rfl
      | some c => simpa [ptrBelow] using hclosed p c hp2 (Or.inl hf)
    obtain ⟨h1, h2⟩ := ih hc
    exact ⟨Below.child p x (by rw [hsame p hp2]; exact h1), h2⟩
  | sibling p x h ih =>
    intro hp
    have hp2 : p < mem.length := by simpa [ptrBelow] using hp
    have hc : ptrBelow mem.length (getLink mem p).next = true := by
      cases hf : (getLink mem p).next with
      | none => rfl
      | some c => simpa [ptrBelow] using hclosed p c hp2 (Or.inr hf)
    obtain ⟨h1, h2⟩ := ih hc
    exact ⟨Below.sibling p x (by rw [hsame p hp2]; exact h1), h2⟩

theorem adoptedChildren_below (hd : HeaderDownload) (sh : ChainSegmentHeader)
    (hwf : wellFormed hd = true) : ptrBelow hd.mem.length (adoptedChildren hd sh) = true := by
  unfold adoptedChildren
  cases ha : mapGet hd.anchors sh.hash with
  | none => rfl
  | some a =>
    simp only []
    cases hc : (getAnchor hd.amem a).fLink with
    | none => rfl
    | some c =>
      simp only [ptrBelow, decide_eq_true_eq]
      exact wf_fLink hwf (wf_anchors hwf ha).1 hc

/-- An accepted header with no parent link and no anchor keyed by its parent
hash, with the sum the code computes, `(number + threshold) % 2 ^ 64`. When the
sum is not below `highestInDb`, `ProcessHeader` returns true and a new anchor,
keyed by the parent hash, with the header's number, retry time zero, no timeouts
and the given peer, is in the anchors map and in the anchor tree, the new link
its only child. When the sum is below `highestInDb`, in a well-formed state
without pointer cycles, `ProcessHeader` returns false and the new link and every
link of its subtree are out of the store. -/
theorem ProcessHeader_anchor_or_drop (thr : Nat) (hd : HeaderDownload)
    (sh : ChainSegmentHeader) (newBlock : Bool) (peerID : PeerID)
    (hnew : mapGet hd.links sh.hash = none)
    (hacc : ¬ Rejected hd sh)
    (hnoparent : mapGet hd.links sh.header.ParentHash = none)
    (hnoanchor : mapGet hd.anchors sh.header.ParentHash = none) :
    (¬ ((sh.number + thr) % 2 ^ 64 < hd.highestInDb) →
      ∀ fuel, ∃ hd2, ProcessHeader fuel thr hd sh newBlock peerID = some (hd2, true) ∧
        mapGet hd2.anchors sh.header.ParentHash = some hd.amem.length ∧
        hd.amem.length ∈ hd2.anchorTree ∧
        hd2.amem = hd.amem ++ [{ parentHash := sh.header.ParentHash, blockHeight := sh.number,
                                 nextRetryTime := 0, timeouts := 0, peerID := peerID,
                                 fLink := some hd.mem.length }] ∧
        mapGet hd2.links sh.hash = some hd.mem.length ∧
        (getLink hd2.mem hd.mem.length).hash = sh.hash ∧
        (getLink hd2.mem hd.mem.length).next = none ∧
        ∀ n, childList hd2.mem (n + 1) (getAnchor hd2.amem hd.amem.length).fLink
          = [hd.mem.length]) ∧
    ((sh.number + thr) % 2 ^ 64 < hd.highestInDb → wellFormed hd = true →
      ∀ rank, acyclic hd.mem rank = true →
      ∃ fuel0, ∀ fuel, fuel0 ≤ fuel →
        ∃ hd2, ProcessHeader fuel thr hd sh newBlock peerID = some (hd2, false) ∧
          mapGet hd2.links sh.hash = none ∧
          ∀ x, Below hd.mem (adoptedChildren hd sh) x →
            mapGet hd2.links (getLink hd.mem x).hash = none) := by
  have hsnd : (acceptLink hd sh).2 = hd.mem.length := by rw [acceptLink_eq]
  have hamem : (acceptLink hd sh).1.amem = hd.amem := by rw [acceptLink_eq]
  have hhigh : (acceptLink hd sh).1.highestInDb = hd.highestInDb := by rw [acceptLink_eq]
  have hA : mapGet (acceptLink hd sh).1.anchors sh.header.ParentHash = none := by
    rw [acceptLink_eq]
    dsimp only
    split
    · exact mapGet_mapDel_none _ _ _ hnoanchor
    · exact hnoanchor
  have hPH : ∀ fuel, ProcessHeader fuel thr hd sh newBlock peerID =
      if (sh.number + thr) % 2 ^ 64 < hd.highestInDb then
        (removeUpwards fuel (acceptLink hd sh).1 hd.mem.length).map (fun hd1 => (hd1, false))
      else some (addAnchor (acceptLink hd sh).1 sh peerID hd.mem.length, true) := by
    intro fuel
    rw [ProcessHeader_accepted fuel thr hd sh newBlock peerID hnew hacc]
    unfold attachLink
    simp only [hA, hnoparent, hsnd, hhigh]
  constructor
  · intro hnodrop fuel
    refine ⟨addAnchor (acceptLink hd sh).1 sh peerID hd.mem.length, ?_, ?_, ?_, ?_, ?_, ?_, ?_,
      ?_⟩
    · rw [hPH, if_neg hnodrop]
    · simp only [addAnchor, hamem]
      exact mapGet_mapSet_self _ _ _
    · simp only [addAnchor, hamem, treeReplaceOrInsert, mem_treeInsert, true_or]
    · simp only [addAnchor, hamem]
    · simp only [addAnchor]
      rw [acceptLink_eq]
      exact mapGet_mapSet_self _ _ _
    · simp only [addAnchor]
      rw [acceptLink_getLink_new]; rfl
    · simp only [addAnchor]
      rw [acceptLink_getLink_new]; rfl
    · intro n
      simp only [addAnchor, hamem, getAnchor_append_length, childList]
      rw [acceptLink_getLink_new]
      simp only [freshLink]
      cases n <;> rfl
  · intro hdrop hwf rank hacyc
    -- the rank of the new link lies above the rank of the child it took over
    let top : Nat := match adoptedChildren hd sh with
      | some c => rank c + 1
      | none => 0
    let rank2 : Nat → Nat := fun q => if q = hd.mem.length then top else rank q
    have hclosed : ∀ q c, q < hd.mem.length →
        ((getLink hd.mem q).fChild = some c ∨ (getLink hd.mem q).next = some c) →
          c < hd.mem.length := by
      intro q c hq hc
      rcases hc with hc | hc
      · exact wf_fChild hwf hq hc
      · exact wf_next hwf hq hc
    have hadopt := adoptedChildren_below hd sh hwf
    have hranked : Ranked (acceptLink hd sh).1.mem rank2 := by
      intro q c hc
      rcases Nat.lt_trichotomy q hd.mem.length with hq | hq | hq
      · rw [acceptLink_getLink_old hd sh q hq] at hc
        have hclt := hclosed q c hq hc
        have := acyclic_spec hacyc hq hc
        simp only [rank2, if_neg (Nat.ne_of_lt hq), if_neg (Nat.ne_of_lt hclt)]
        exact this
      · subst hq
        rw [acceptLink_getLink_new] at hc
        simp only [freshLink] at hc
        have hc : adoptedChildren hd sh = some c := by
          rcases hc with hc | hc
          · exact hc
          · cases hc
        have hclt : c < hd.mem.length := by
          rw [hc] at hadopt
          simpa [ptrBelow] using hadopt
        simp only [rank2, top, hc, if_neg (Nat.ne_of_lt hclt), if_true]
        exact Nat.lt_succ_self _
      · have hlen : (acceptLink hd sh).1.mem.length = hd.mem.length + 1 := by
          rw [acceptLink_eq]; simp
        rw [getLink_of_ge _ _ (by omega)] at hc
        rcases hc with hc | hc <;> cases hc
    have hdetach : ∀ fuel, detachFromParent fuel (acceptLink hd sh).1 hd.mem.length
        = some (acceptLink hd sh).1 := by
      intro fuel
      unfold detachFromParent
      rw [acceptLink_getLink_new]
      simp only [freshLink]
      by_cases hself : sh.hash = sh.header.ParentHash
      · -- a header that names itself as parent finds itself, without children
        have hl : mapGet (acceptLink hd sh).1.links sh.header.ParentHash
            = some hd.mem.length := by
          rw [acceptLink_eq, ← hself]
          exact mapGet_mapSet_self _ _ _
        have hnone : adoptedChildren hd sh = none := by
          unfold adoptedChildren
          rw [hself, hnoanchor]
        simp only [hl, linkRemoveChild]
        rw [acceptLink_getLink_new]
        simp only [freshLink, hnone]
        cases fuel <;> simp [detachNext]
      · have hl : mapGet (acceptLink hd sh).1.links sh.header.ParentHash = none := by
          rw [acceptLink_eq]
          simp only []
          rw [mapGet_mapSet_ne _ _ _ _ hself]
          exact hnoparent
        simp only [hl]
    refine ⟨weight rank2 [hd.mem.length], ?_⟩
    intro fuel hfuel
    obtain ⟨hd2, hloop⟩ := removeUpwardsLoop_total rank2 fuel (acceptLink hd sh).1
      [hd.mem.length] hranked hfuel
    have hrem := removeUpwardsLoop_removes fuel _ _ _ hloop
    refine ⟨hd2, ?_, ?_, ?_⟩
    · rw [hPH, if_pos hdrop]
      simp only [removeUpwards, hdetach, Option.some_bind, hloop, Option.map_some']
    · have := hrem hd.mem.length ⟨hd.mem.length, List.mem_singleton.mpr rfl, Or.inl rfl⟩
      rw [acceptLink_getLink_new] at this
      exact this
    · intro x hx
      obtain ⟨hb, hxlt⟩ := @below_extend hd.mem (acceptLink hd sh).1.mem hclosed
        (fun q hq => acceptLink_getLink_old hd sh q hq) _ _ hx hadopt
      have := hrem x ⟨hd.mem.length, List.mem_singleton.mpr rfl, Or.inr (by
        rw [acceptLink_getLink_new]
        exact hb)⟩
      rw [acceptLink_getLink_old hd sh x hxlt] at this
      exact this

/-- Claim C7, failing input. The claim holds whenever `number + threshold` fits
in 64 bits: for an accepted header with no parent link and no anchor keyed by its
parent hash, when `number + threshold` is at least `highestInDb` and below
`2 ^ 64`, `ProcessHeader` returns true and the new anchor (parent hash and number
of the header, retry time zero, no timeouts, the given peer) is in the anchors
map and the anchor tree with the new link as its only child; when
`number + threshold` is below `highestInDb`, in a well-formed state without
pointer cycles, `ProcessHeader` returns false and the new link and its subtree
are out of the store. It fails for a header whose sum passes `2 ^ 64`: with the
database at height 100000 and the threshold 90000, the header `0x4d` with number
`2 ^ 64 - 1000` is accepted, has no parent link and no anchor keyed by its parent
hash, and `number + threshold` is far above `highestInDb`, yet `ProcessHeader`
returns false, creates no anchor and takes the new link out of the store. -/
theorem ProcessHeader_anchor_sum_wraps :
    (∀ (thr : Nat) (hd : HeaderDownload) (sh : ChainSegmentHeader) (newBlock : Bool)
        (peerID : PeerID),
        mapGet hd.links sh.hash = none → ¬ Rejected hd sh →
        mapGet hd.links sh.header.ParentHash = none →
        mapGet hd.anchors sh.header.ParentHash = none →
        (hd.highestInDb ≤ sh.number + thr → sh.number + thr < 2 ^ 64 →
          ∀ fuel, ∃ hd2, ProcessHeader fuel thr hd sh newBlock peerID = some (hd2, true) ∧
            mapGet hd2.anchors sh.header.ParentHash = some hd.amem.length ∧
            hd.amem.length ∈ hd2.anchorTree ∧
            hd2.amem = hd.amem ++ [{ parentHash := sh.header.ParentHash, blockHeight := sh.number,
                                     nextRetryTime := 0, timeouts := 0, peerID := peerID,
                                     fLink := some hd.mem.length }] ∧
            mapGet hd2.links sh.hash = some hd.mem.length ∧
            (getLink hd2.mem hd.mem.length).hash = sh.hash ∧
            (getLink hd2.mem hd.mem.length).next = none ∧
            ∀ n, childList hd2.mem (n + 1) (getAnchor hd2.amem hd.amem.length).fLink
              = [hd.mem.length]) ∧
        (sh.number + thr < hd.highestInDb → wellFormed hd = true →
          ∀ rank, acyclic hd.mem rank = true →
          ∃ fuel0, ∀ fuel, fuel0 ≤ fuel →
            ∃ hd2, ProcessHeader fuel thr hd sh newBlock peerID = some (hd2, false) ∧
              mapGet hd2.links sh.hash = none ∧
              ∀ x, Below hd.mem (adoptedChildren hd sh) x →
                mapGet hd2.links (getLink hd.mem x).hash = none)) ∧
    (mapGet engineAtHundredThousand.links (farHeader (2 ^ 64 - 1000)).hash = none ∧
      ¬ Rejected engineAtHundredThousand (farHeader (2 ^ 64 - 1000)) ∧
      mapGet engineAtHundredThousand.links (farHeader (2 ^ 64 - 1000)).header.ParentHash = none ∧
      mapGet engineAtHundredThousand.anchors (farHeader (2 ^ 64 - 1000)).header.ParentHash
        = none) ∧
    engineAtHundredThousand.highestInDb ≤ (farHeader (2 ^ 64 - 1000)).number + 90000 ∧
    (ProcessHeader 10 90000 engineAtHundredThousand (farHeader (2 ^ 64 - 1000)) false 7).map
        (fun r => (r.2, r.1.anchors, r.1.anchorTree)) = some (false, [], []) ∧
    (ProcessHeader 10 90000 engineAtHundredThousand (farHeader (2 ^ 64 - 1000)) false 7).map
        (fun r => (mapGet r.1.links 77, r.1.amem)) = some (none, []) := by
  refine ⟨fun thr hd sh newBlock peerID hnew hacc hnoparent hnoanchor => ?_,
    ⟨by decide, by decide, by decide, by decide⟩, by decide, by decide, by decide⟩
  have h := ProcessHeader_anchor_or_drop thr hd sh newBlock peerID hnew hacc hnoparent hnoanchor
  refine ⟨fun hge hlt => h.1 ?_, fun hlt => h.2 ?_⟩
  · rw [Nat.mod_eq_of_lt hlt]
    omega
  · exact Nat.lt_of_le_of_lt (Nat.mod_le _ _) hlt

/-! ## The claims on the anchors invariant and on ProcessHeaders -/

theorem mem_mapDel {α : Type} (m : List (Hash × α)) (k : Hash) (e : Hash × α)
    (h : e ∈ mapDel m k) : e ∈ m ∧ e.1 ≠ k := by
  induction m with
  | nil => simp [mapDel] at h
  | cons x rest ih =>
    by_cases hx : x.1 = k
    · simp only [mapDel, hx, if_true] at h
      exact ⟨List.mem_cons_of_mem _ (ih h).1, (ih h).2⟩
    · simp only [mapDel, hx, if_false, List.mem_cons] at h
      rcases h with h | h
      · exact ⟨h ▸ List.mem_cons_self _ _, h ▸ hx⟩
      · exact ⟨List.mem_cons_of_mem _ (ih h).1, (ih h).2⟩

theorem removeUpwards_links_mono (n : Nat) (hd : HeaderDownload) (link : Nat)
    (hd2 : HeaderDownload) (k : Hash) (h : removeUpwards n hd link = some hd2)
    (hk : mapGet hd.links k = none) : mapGet hd2.links k = none := by
  simp only [removeUpwards, Option.bind_eq_some] at h
  obtain ⟨hd1, hdet, hloop⟩ := h
  refine removeUpwardsLoop_links_mono n _ _ _ k hloop ?_
  unfold detachFromParent at hdet
  split at hdet
  · simp only [Option.some.injEq] at hdet; subst hdet; exact hk
  · split at hdet
    · simp only [Option.some.injEq] at hdet; subst hdet; exact hk
    · simp only [Option.map_eq_some'] at hdet
      obtain ⟨m, _, hm⟩ := hdet
      subst hm
      exact hk

/-- `ProcessHeader`, the path that ingests headers from peers, keeps the anchors
unresolved: in a well-formed state, for a header distinct from its parent, no
anchor is left or created whose parent hash is the hash of a stored link. -/
theorem ProcessHeader_anchorsUnresolved (fuel thr : Nat) (hd : HeaderDownload)
    (sh : ChainSegmentHeader) (newBlock : Bool) (peerID : PeerID) (hd2 : HeaderDownload)
    (r : Bool) (hwf : wellFormed hd = true) (hself : sh.hash ≠ sh.header.ParentHash)
    (hinv : anchorsUnresolved hd = true)
    (h : ProcessHeader fuel thr hd sh newBlock peerID = some (hd2, r)) :
    anchorsUnresolved hd2 = true := by
  simp only [anchorsUnresolved, List.all_eq_true, Option.isNone_iff_eq_none] at hinv ⊢
  by_cases hdup : mapGet hd.links sh.hash = none
  · by_cases hrej : Rejected hd sh
    · rw [ProcessHeader_rejected fuel thr hd sh newBlock peerID hdup hrej] at h
      simp only [Option.some.injEq, Prod.mk.injEq] at h
      obtain ⟨h, _⟩ := h
      subst h
      exact hinv
    · rw [ProcessHeader_accepted fuel thr hd sh newBlock peerID hdup hrej] at h
      have hAanch := acceptLink_anchors hd sh hwf
      have hAlinks : (acceptLink hd sh).1.links = mapSet hd.links sh.hash hd.mem.length := by
        rw [acceptLink_eq]
      have hsnd : (acceptLink hd sh).2 = hd.mem.length := by rw [acceptLink_eq]
      have hAinv : ∀ e ∈ (acceptLink hd sh).1.anchors,
          mapGet (acceptLink hd sh).1.links e.1 = none := by
        intro e he
        rw [hAanch] at he
        obtain ⟨he1, he2⟩ := mem_mapDel _ _ _ he
        rw [hAlinks, mapGet_mapSet_ne _ _ _ _ (fun x => he2 x.symm)]
        exact hinv e he1
      unfold attachLink at h
      split at h
      · simp only [Option.some.injEq, Prod.mk.injEq] at h
        obtain ⟨h, _⟩ := h; subst h
        simpa only [attachToAnchor] using hAinv
      · split at h
        · simp only [Option.some.injEq, Prod.mk.injEq] at h
          obtain ⟨h, _⟩ := h; subst h
          rw [(attachToParent_sameAnchors _ _ _).1, attachToParent_links]
          exact hAinv
        · rename_i hnoanchor _ _
          split at h
          · simp only [Option.map_eq_some', Prod.mk.injEq] at h
            obtain ⟨hd1, hrem, h, _⟩ := h
            subst h
            rw [(removeUpwards_frame _ _ _ _ hrem).1.1]
            intro e he
            exact removeUpwards_links_mono _ _ _ _ _ hrem (hAinv e he)
          · simp only [Option.some.injEq, Prod.mk.injEq] at h
            obtain ⟨h, _⟩ := h; subst h
            simp only [addAnchor, mapSet, List.mem_cons]
            intro e he
            rcases he with he | he
            · subst he
              simp only []
              rw [hAlinks, mapGet_mapSet_ne _ _ _ _ hself]
              assumption
            · exact hAinv e (mem_mapDel _ _ _ he).1
  · rw [ProcessHeader_dup fuel thr hd sh newBlock peerID hdup] at h
    simp only [Option.some.injEq, Prod.mk.injEq] at h
    obtain ⟨h, _⟩ := h
    subst h
    exact hinv

/-- C8, at the failing input. Header `0x0b` arrives at the empty engine and
leaves an anchor keyed by its parent `0x0a`; `AddHeadersFromSnapshot` then loads
the frozen header `0x0a` as a persisted link and leaves the anchor in place:
the parent hash of an anchor is the hash of a stored link. -/
theorem AddHeadersFromSnapshot_keeps_resolved_anchor :
    anchorsUnresolved emptyEngine = true ∧
    ProcessHeader 0 90000 emptyEngine header11 false 7 = some (oneAnchorEngine, true) ∧
    anchorsUnresolved oneAnchorEngine = true ∧
    mapGet (AddHeadersFromSnapshot oneAnchorEngine 4 snapshotWith10).anchors 10 = some 0 ∧
    mapGet (AddHeadersFromSnapshot oneAnchorEngine 4 snapshotWith10).links 10 = some 1 ∧
    anchorsUnresolved (AddHeadersFromSnapshot oneAnchorEngine 4 snapshotWith10) = false := by
  decide

theorem ProcessHeader_linkLimit (fuel thr : Nat) (hd : HeaderDownload)
    (sh : ChainSegmentHeader) (newBlock : Bool) (peerID : PeerID) (hd2 : HeaderDownload)
    (r : Bool) (h : ProcessHeader fuel thr hd sh newBlock peerID = some (hd2, r)) :
    hd2.linkLimit = hd.linkLimit := by
  by_cases hdup : mapGet hd.links sh.hash = none
  · by_cases hrej : Rejected hd sh
    · rw [ProcessHeader_rejected fuel thr hd sh newBlock peerID hdup hrej] at h
      simp only [Option.some.injEq, Prod.mk.injEq] at h
      obtain ⟨h, _⟩ := h
      subst h; rfl
    · rw [ProcessHeader_accepted fuel thr hd sh newBlock peerID hdup hrej] at h
      have hf := attachLink_frame _ _ _ _ _ _ _ _ _ h
      rw [hf.2.2.2.2.2.1, acceptLink_eq]
  · rw [ProcessHeader_dup fuel thr hd sh newBlock peerID hdup] at h
    simp only [Option.some.injEq, Prod.mk.injEq] at h
    obtain ⟨h, _⟩ := h
    subst h; rfl

theorem processSegment_linkLimit (fuel thr : Nat) (newBlock : Bool) (peerID : PeerID)
    (seg : List ChainSegmentHeader) :
    ∀ (hd : HeaderDownload) (more : Bool) (hd2 : HeaderDownload) (r : Bool),
      processSegment fuel thr newBlock peerID hd seg more = some (hd2, r) →
        hd2.linkLimit = hd.linkLimit := by
  induction seg with
  | nil =>
    intro hd more hd2 r h
    simp only [processSegment, Option.some.injEq, Prod.mk.injEq] at h
    rw [← h.1]
  | cons sh rest ih =>
    intro hd more hd2 r h
    simp only [processSegment] at h
    split at h
    · simp at h
    · rename_i hd1 more1 h1
      rw [ih _ _ _ _ h]
      exact ProcessHeader_linkLimit _ _ _ _ _ _ _ _ h1

theorem pruneLink_linkQueue (n : Nat) (hd : HeaderDownload) (link : Nat)
    (hd2 : HeaderDownload) (h : pruneLink n hd link = some hd2) :
    hd2.linkQueue = hd.linkQueue ∧ hd2.linkLimit = hd.linkLimit := by
  simp only [pruneLink, Option.bind_eq_some] at h
  obtain ⟨mem2, _, h⟩ := h
  split at h
  · simp at h
  · simp only [Option.bind_eq_some] at h
    obtain ⟨hd3, h3, h⟩ := h
    have e3 : hd3.linkQueue = hd.linkQueue ∧ hd3.linkLimit = hd.linkLimit := by
      split at h3
      · simp only [Option.some.injEq] at h3
        subst h3; exact ⟨rfl, rfl⟩
      · simp only [Option.map_eq_some'] at h3
        obtain ⟨m, _, h3⟩ := h3
        subst h3; exact ⟨rfl, rfl⟩
    split at h
    · simp only [Option.some.injEq] at h
      subst h; exact e3
    · simp only [Option.map_eq_some'] at h
      obtain ⟨hd4, h4, h⟩ := h
      have e4 : hd4.linkQueue = hd3.linkQueue ∧ hd4.linkLimit = hd3.linkLimit := by
        unfold anchorRemoveChild at h4
        split at h4
        · simp only [Option.some.injEq] at h4
          subst h4; exact ⟨rfl, rfl⟩
        · simp only [Option.map_eq_some'] at h4
          obtain ⟨m, _, h4⟩ := h4
          subst h4; exact ⟨rfl, rfl⟩
      subst h
      split
      · simp only [removeAnchor]
        exact ⟨e4.1.trans e3.1, e4.2.trans e3.2⟩
      · exact ⟨e4.1.trans e3.1, e4.2.trans e3.2⟩

/-- When `pruneLinkQueue` returns, the link queue is within the limit. -/
theorem pruneLinkQueue_le (n : Nat) :
    ∀ (hd hd2 : HeaderDownload), pruneLinkQueue n hd = some hd2 →
      hd2.linkLimit = hd.linkLimit ∧ (hd2.linkQueue.length : Int) ≤ hd.linkLimit := by
  induction n with
  | zero =>
    intro hd hd2 h
    simp only [pruneLinkQueue] at h
    split at h
    · simp at h
    · rename_i hle
      simp only [Option.some.injEq] at h
      subst h
      exact ⟨rfl, not_lt.mp hle⟩
  | succ n ih =>
    intro hd hd2 h
    simp only [pruneLinkQueue] at h
    split at h
    · split at h
      · simp at h
      · simp only [Option.bind_eq_some] at h
        obtain ⟨hd1, h1, h⟩ := h
        have e1 := pruneLink_linkQueue _ _ _ _ h1
        have := ih _ _ h
        rw [e1.2] at this
        exact this
    · rename_i hle
      simp only [Option.some.injEq] at h
      subst h
      exact ⟨rfl, not_lt.mp hle⟩

/-- C9. When `ProcessHeaders` returns, the link queue holds at most `linkLimit`
links, for every engine state, every segment and every limit. -/
theorem ProcessHeaders_linkQueue_le (fuel thr : Nat) (hd : HeaderDownload)
    (csHeaders : List ChainSegmentHeader) (newBlock : Bool) (peerID : PeerID)
    (hd2 : HeaderDownload) (r : Bool)
    (h : ProcessHeaders fuel thr hd csHeaders newBlock peerID = some (hd2, r)) :
    hd2.linkLimit = hd.linkLimit ∧ (hd2.linkQueue.length : Int) ≤ hd.linkLimit := by
  simp only [ProcessHeaders] at h
  split at h
  · simp at h
  · rename_i hd1 more hseg
    have hlim := processSegment_linkLimit _ _ _ _ _ _ _ _ _ hseg
    split at h
    · simp at h
    · rename_i hd3 hpr
      simp only [Option.some.injEq, Prod.mk.injEq] at h
      obtain ⟨h, _⟩ := h
      subst h
      simp only []
      split at hpr
      · have := pruneLinkQueue_le _ _ _ hpr
        simp only [] at this
        rw [hlim] at this
        exact this
      · rename_i hle
        simp only [Option.some.injEq] at hpr
        subst hpr
        simp only []
        rw [hlim] at hle
        exact ⟨hlim, not_lt.mp hle⟩

/-- C9, at a concrete input: two children of the unknown header `0x0a` arrive at
an engine whose link queue holds one link; the queue is pruned to one link. -/
theorem ProcessHeaders_linkQueue_le_witness :
    ∃ hd2 r, ProcessHeaders 4 90000 tightEngine [header11, header13] false 7 = some (hd2, r) ∧
      hd2.linkLimit = 1 ∧ (hd2.linkQueue.length : Int) ≤ 1 := by
  have hs : (ProcessHeaders 4 90000 tightEngine [header11, header13] false 7).isSome = true := by
    decide
  obtain ⟨⟨hd2, r⟩, h⟩ := Option.isSome_iff_exists.mp hs
  exact ⟨hd2, r, h,
    ProcessHeaders_linkQueue_le 4 90000 tightEngine [header11, header13] false 7 hd2 r h⟩

/-! ## InsertHeader: the returns before the link is persisted -/

theorem readyEngine_reached :
    ((ProcessHeader 10 90000 persistedEngine header12 false 7).bind
      fun r => ProcessHeader 10 90000 r.1 header11 false 7) = some (readyEngine, false) := by
  decide

theorem setLink_getLink (mem : List Link) (p : Nat) (l : Link) (h : getLink mem p = l) :
    setLink mem p l = mem := by
  subst h
  unfold setLink getLink
  apply List.ext_getElem?
  intro i
  rw [List.getElem?_set]
  split
  · next e =>
    subst e
    split
    · next hlt => simp [List.getD, List.getElem?_eq_getElem hlt]
    · next hge => simp [List.getElem?_eq_none (Nat.le_of_not_lt hge)]
  · rfl

/-- Claim C12, counterexample: the front link `0x0b` of `readyEngine` is not
verified and the verifier reports a future block; the call leaves the link where
it is, yet the PoS bad-map, empty before, holds `0x0b ↦ 0x0a` afterwards. -/
theorem InsertHeader_future_block_counterexample :
    readyEngine.badPoSHeaders = [] ∧
    (InsertHeader 10 verifyFuture feedOk none readyEngine ([] : List Nat)).map
        (fun r => (r.hd.badPoSHeaders, r.more, r.err)) =
      some ([(11, 10)], false, none) := by
  decide

/-- Claim C12, amended: when the front link of the insert queue is not bad, is
not verified, and the verifier reports a future block, `InsertHeader` returns
`more = false` without error, does not call the callback (the database is the
one given, whatever the callback), and changes nothing of the engine but the
PoS bad-map, which now maps the hash of the link to its parent hash: the link
stays first in the insert queue, unverified and not persisted. -/
theorem InsertHeader_future_block {σ ε : Type} (fuel : Nat) (verify : Header → VerifyResult)
    (hf : FeedHeaderFunc σ ε) (ttd : Option Int) (hd : HeaderDownload) (db : σ)
    (link : Nat) (h : Header)
    (hfront : heapMin hd.mem hd.insertQueue = some link)
    (hbad : isBad hd (getLink hd.mem link) = some false)
    (hhdr : (getLink hd.mem link).header = some h)
    (hver : (getLink hd.mem link).verified = false)
    (hfut : verify h = VerifyResult.futureBlock) :
    InsertHeader fuel verify hf ttd hd db =
      some { hd := { hd with
                     badPoSHeaders := mapSet hd.badPoSHeaders (getLink hd.mem link).hash h.ParentHash },
             db := db, more := false, force := false, blocksToTTD := 0, lastTime := 0,
             err := none } := by
  unfold InsertHeader
  simp only [hfront, hbad, hhdr, hver, hfut]
  rfl

/-- Claim C12, amended, at a concrete input: the verifier finds the front link
`0x0b` of `readyEngine` to be in the future. -/
theorem InsertHeader_future_block_witness :
    InsertHeader 10 verifyFuture feedOk (some 50) readyEngine ([] : List Nat) =
      some { hd := { readyEngine with badPoSHeaders := [(11, 10)] },
             db := [], more := false, force := false, blocksToTTD := 0, lastTime := 0,
             err := none } :=
  InsertHeader_future_block 10 verifyFuture feedOk (some 50) readyEngine [] 2 header11.header
    (by decide) (by decide) (by decide) (by decide) (by decide)

/-- Claim C14, counterexample: the front link `0x0b` of `readyEngine` is not
verified, the verifier accepts it and the callback fails; the error is returned
and the link stays in the insert queue, but it is marked verified: the engine
is not the one before the call. -/
theorem InsertHeader_callback_error_counterexample :
    (getLink readyEngine.mem 2).verified = false ∧
    (InsertHeader 10 verifyOk feedFail none readyEngine ([] : List Nat)).map
        (fun r => ((getLink r.hd.mem 2).verified, decide (r.hd = readyEngine), r.err)) =
      some (true, false, some 1) := by
  decide

/-- Claim C14, amended: when the front link of the insert queue is not bad, is
verified already or passes the verifier, and the callback returns an error,
`InsertHeader` returns that error with `more = false`, and the engine is the one
before the call except that the front link is marked verified (the mark is set
before the callback runs): the link is still first in the insert queue and not
persisted, the queues, the store, `highestInDb`, both bad-header maps and the
counters are unchanged, and when the link was verified already the engine is
the one before the call. -/
theorem InsertHeader_callback_error {σ ε : Type} (fuel : Nat) (verify : Header → VerifyResult)
    (hf : FeedHeaderFunc σ ε) (ttd : Option Int) (hd : HeaderDownload) (db db1 : σ)
    (link : Nat) (h : Header) (e : ε)
    (hfront : heapMin hd.mem hd.insertQueue = some link)
    (hbad : isBad hd (getLink hd.mem link) = some false)
    (hhdr : (getLink hd.mem link).header = some h)
    (hver : (getLink hd.mem link).verified = true ∨ verify h = VerifyResult.valid)
    (herr : hf h (getLink hd.mem link).headerRaw (getLink hd.mem link).hash
        (getLink hd.mem link).blockHeight db = (Except.error e, db1)) :
    InsertHeader fuel verify hf ttd hd db =
        some { hd := { hd with
                       mem := setLink hd.mem link { getLink hd.mem link with verified := true } },
               db := db1, more := false, force := false, blocksToTTD := 0, lastTime := 0,
               err := some e } ∧
      ((getLink hd.mem link).verified = true →
        { hd with mem := setLink hd.mem link { getLink hd.mem link with verified := true } } = hd) := by
  constructor
  · have hv : (if (getLink hd.mem link).verified = true then VerifyResult.valid else verify h) =
        VerifyResult.valid := by
      rcases hver with hv | hv
      · simp [hv]
      · simp [hv]
    unfold InsertHeader
    simp only [hfront, hbad, hhdr, hv, herr]
  · intro hv
    have : setLink hd.mem link { getLink hd.mem link with verified := true } = hd.mem := by
      apply setLink_getLink
      rw [← hv]
    rw [this]

/-- Claim C14, amended, at a concrete input: the callback fails on the front
link `0x0b` of `readyEngine`. -/
theorem InsertHeader_callback_error_witness :
    InsertHeader 10 verifyOk feedFail (some 50) readyEngine ([] : List Nat) =
        some { hd := { readyEngine with
                       mem := setLink readyEngine.mem 2
                         { getLink readyEngine.mem 2 with verified := true } },
               db := [], more := false, force := false, blocksToTTD := 0, lastTime := 0,
               err := some 1 } ∧
      ((getLink readyEngine.mem 2).verified = true →
        { readyEngine with
          mem := setLink readyEngine.mem 2
            { getLink readyEngine.mem 2 with verified := true } } = readyEngine) :=
  InsertHeader_callback_error 10 verifyOk feedFail (some 50) readyEngine [] [] 2 header11.header 1
    (by decide) (by decide) (by decide) (Or.inr (by decide)) rfl

/-! ## InsertHeader: frame lemmas -/

theorem moveChildren_frame (n : Nat) :
    ∀ (hd : HeaderDownload) (o : Option Nat) (hd2 : HeaderDownload),
      moveChildren n hd o = some hd2 →
        SameRest hd hd2 ∧ SameAnchors hd hd2 ∧ hd2.links = hd.links := by
  induction n with
  | zero =>
    intro hd o hd2 h
    cases o with
    | none =>
      simp only [moveChildren, Option.some.injEq] at h
      subst h
      exact ⟨sameRest_refl _, sameAnchors_refl _, rfl⟩
    | some c => simp [moveChildren] at h
  | succ n ih =>
    intro hd o hd2 h
    cases o with
    | none =>
      simp only [moveChildren, Option.some.injEq] at h
      subst h
      exact ⟨sameRest_refl _, sameAnchors_refl _, rfl⟩
    | some c =>
      simp only [moveChildren] at h
      obtain ⟨h1, h2, h3⟩ := ih _ _ _ h
      by_cases hp : (getLink hd.mem c).persisted = true
      · simp only [hp, if_true] at h1 h2 h3
        exact ⟨h1, h2, h3⟩
      · simp only [hp] at h1 h2 h3
        refine ⟨sameRest_trans (moveLinkToQueue_sameRest _ _ _) h1,
          sameAnchors_trans (moveLinkToQueue_sameAnchors _ _ _) h2, ?_⟩
        rw [h3]
        simp

theorem persistLink_highestInDb (n : Nat) (hd : HeaderDownload) (link : Nat)
    (hd2 : HeaderDownload) (h : persistLink n hd link = some hd2) :
    hd2.highestInDb = max hd.highestInDb (getLink hd.mem link).blockHeight ∧
      hd2.persistedLinkLimit = hd.persistedLinkLimit ∧
      hd2.latestMinedBlockNumber = hd.latestMinedBlockNumber := by
  unfold persistLink at h
  obtain ⟨h1, _, _⟩ := moveChildren_frame _ _ _ _ h
  have h2 := moveLinkToQueue_sameRest
    ({ (if (getLink hd.mem link).blockHeight > hd.highestInDb then
          { hd with highestInDb := (getLink hd.mem link).blockHeight } else hd) with
        mem := setLink (if (getLink hd.mem link).blockHeight > hd.highestInDb then
          { hd with highestInDb := (getLink hd.mem link).blockHeight } else hd).mem link
          { getLink (if (getLink hd.mem link).blockHeight > hd.highestInDb then
              { hd with highestInDb := (getLink hd.mem link).blockHeight } else hd).mem link with
            persisted := true, header := none, headerRaw := none } }) link
    QueueID.PersistedQueueID
  have h3 := sameRest_trans h2 h1
  unfold SameRest at h3
  obtain ⟨_, e2, _, e4, _, _, e7, _⟩ := h3
  rw [e2, e4, e7]
  by_cases hgt : (getLink hd.mem link).blockHeight > hd.highestInDb
  · simp only [hgt, if_true]
    exact ⟨(max_eq_right (Nat.le_of_lt hgt)).symm, trivial, trivial⟩
  · simp only [hgt, if_false]
    exact ⟨(max_eq_left (Nat.le_of_not_lt hgt)).symm, trivial, trivial⟩

theorem evictPersisted_frame (n : Nat) :
    ∀ (hd hd2 : HeaderDownload), evictPersisted n hd = some hd2 →
      SameRest hd hd2 ∧ SameAnchors hd hd2 ∧ hd2.linkQueue = hd.linkQueue ∧
        hd2.insertQueue = hd.insertQueue := by
  induction n with
  | zero =>
    intro hd hd2 h
    simp only [evictPersisted] at h
    split at h
    · simp at h
    · simp only [Option.some.injEq] at h
      subst h
      exact ⟨sameRest_refl _, sameAnchors_refl _, rfl, rfl⟩
  | succ n ih =>
    intro hd hd2 h
    simp only [evictPersisted] at h
    split at h
    · split at h
      · simp at h
      · simp only [Option.bind_eq_some] at h
        obtain ⟨mem2, _, h⟩ := h
        obtain ⟨h1, h2, h3, h4⟩ := ih _ _ h
        exact ⟨h1, h2, h3, h4⟩
    · simp only [Option.some.injEq] at h
      subst h
      exact ⟨sameRest_refl _, sameAnchors_refl _, rfl, rfl⟩

theorem finishInsert_frame {σ ε : Type} (fuel : Nat) (ttd : Option Int)
    (pending : Option (Int × Nat)) (lastTime : Nat) (hd : HeaderDownload) (db : σ)
    (r : InsertOutcome σ ε) (h : finishInsert fuel ttd pending lastTime hd db = some r) :
    evictPersisted fuel hd = some r.hd ∧ r.db = db ∧ r.force = false ∧ r.err = none ∧
      r.lastTime = lastTime := by
  simp only [finishInsert, Option.bind_eq_some, Option.map_eq_some'] at h
  obtain ⟨hd1, h1, b, _, h⟩ := h
  subst h
  exact ⟨h1, rfl, rfl, rfl, rfl⟩

/-- The branches of `InsertHeader`, read off a call that returned. -/
theorem InsertHeader_cases {σ ε : Type} (fuel : Nat) (verify : Header → VerifyResult)
    (hf : FeedHeaderFunc σ ε) (ttd : Option Int) (hd : HeaderDownload) (db : σ)
    (r : InsertOutcome σ ε) (h : InsertHeader fuel verify hf ttd hd db = some r) :
    (heapMin hd.mem hd.insertQueue = none ∧ finishInsert fuel ttd none 0 hd db = some r) ∨
    ∃ link, heapMin hd.mem hd.insertQueue = some link ∧
      ((isBad hd (getLink hd.mem link) = some true ∧
          ∃ hd1, removeUpwards fuel hd link = some hd1 ∧
            r = { hd := { hd1 with
                          stats := { hd1.stats with
                                     RejectedBadHeaders := hd1.stats.RejectedBadHeaders + 1 } },
                  db := db, more := true, force := false, blocksToTTD := 0, lastTime := 0,
                  err := none }) ∨
        (isBad hd (getLink hd.mem link) = some false ∧
          ∃ hdr, (getLink hd.mem link).header = some hdr ∧
            (((getLink hd.mem link).verified = false ∧ verify hdr = VerifyResult.futureBlock ∧
                r = { hd := { hd with
                              badPoSHeaders :=
                                mapSet hd.badPoSHeaders (getLink hd.mem link).hash hdr.ParentHash },
                      db := db, more := false, force := false, blocksToTTD := 0, lastTime := 0,
                      err := none }) ∨
              ((getLink hd.mem link).verified = false ∧ verify hdr = VerifyResult.invalid ∧
                ∃ hd1, removeUpwards fuel
                    { hd with
                      badPoSHeaders :=
                        mapSet hd.badPoSHeaders (getLink hd.mem link).hash hdr.ParentHash }
                    link = some hd1 ∧
                  r = { hd := { hd1 with
                                stats := { hd1.stats with
                                           InvalidHeaders := hd1.stats.InvalidHeaders + 1 } },
                        db := db, more := true, force := false, blocksToTTD := 0, lastTime := 0,
                        err := none }) ∨
              (((getLink hd.mem link).verified = true ∨ verify hdr = VerifyResult.valid) ∧
                ((∃ e db1, hf hdr (getLink hd.mem link).headerRaw (getLink hd.mem link).hash
                      (getLink hd.mem link).blockHeight db = (Except.error e, db1) ∧
                    r = { hd := { hd with
                                  mem := setLink hd.mem link
                                    { getLink hd.mem link with verified := true } },
                          db := db1, more := false, force := false, blocksToTTD := 0,
                          lastTime := 0, err := some e }) ∨
                  (∃ td db1, hf hdr (getLink hd.mem link).headerRaw (getLink hd.mem link).hash
                      (getLink hd.mem link).blockHeight db = (Except.ok td, db1) ∧
                    afterFeed fuel ttd
                      { hd with
                        mem := setLink hd.mem link
                          { getLink hd.mem link with verified := true } }
                      link hdr td db1 = some r)))))) := by
  unfold InsertHeader at h
  split at h
  · rename_i hq
    exact Or.inl ⟨hq, h⟩
  · rename_i link hq
    refine Or.inr ⟨link, hq, ?_⟩
    dsimp only at h
    split at h
    · simp at h
    · rename_i hb
      simp only [Option.map_eq_some'] at h
      obtain ⟨hd1, h1, h⟩ := h
      exact Or.inl ⟨hb, hd1, h1, h.symm⟩
    · rename_i hb
      refine Or.inr ⟨hb, ?_⟩
      split at h
      · simp at h
      · rename_i hdr hh
        refine ⟨hdr, hh, ?_⟩
        split at h
        · rename_i hv
          have hvv : (getLink hd.mem link).verified = false ∧ verify hdr = VerifyResult.futureBlock := by
            by_cases e : (getLink hd.mem link).verified = true
            · simp [e] at hv
            · simp only [e] at hv
              exact ⟨by simpa using e, by simpa using hv⟩
          simp only [Option.some.injEq] at h
          exact Or.inl ⟨hvv.1, hvv.2, h.symm⟩
        · rename_i hv
          have hvv : (getLink hd.mem link).verified = false ∧ verify hdr = VerifyResult.invalid := by
            by_cases e : (getLink hd.mem link).verified = true
            · simp [e] at hv
            · simp only [e] at hv
              exact ⟨by simpa using e, by simpa using hv⟩
          simp only [Option.map_eq_some'] at h
          obtain ⟨hd1, h1, h⟩ := h
          exact Or.inr (Or.inl ⟨hvv.1, hvv.2, hd1, h1, h.symm⟩)
        · rename_i hv
          have hvv : (getLink hd.mem link).verified = true ∨ verify hdr = VerifyResult.valid := by
            by_cases e : (getLink hd.mem link).verified = true
            · exact Or.inl e
            · simp only [e] at hv
              exact Or.inr (by simpa using hv)
          refine Or.inr (Or.inr ⟨hvv, ?_⟩)
          split at h
          · rename_i e db1 he
            simp only [Option.some.injEq] at h
            exact Or.inl ⟨e, db1, he, h.symm⟩
          · rename_i td db1 he
            exact Or.inr ⟨td, db1, he, h⟩

theorem noteInserted_frame (hd : HeaderDownload) (link : Nat) (td : Option Int) :
    SameForest hd (noteInserted hd link td) ∧
      (noteInserted hd link td).stats = hd.stats ∧
      (noteInserted hd link td).highestInDb = hd.highestInDb ∧
      (noteInserted hd link td).latestMinedBlockNumber = hd.latestMinedBlockNumber ∧
      (noteInserted hd link td).persistedLinkLimit = hd.persistedLinkLimit ∧
      (noteInserted hd link td).badHeaders = hd.badHeaders := by
  unfold noteInserted
  cases td with
  | none => simp [SameForest]
  | some t =>
    dsimp only
    split <;> simp [SameForest]

/-- The branches of `InsertHeader` after the callback returned without error. -/
theorem afterFeed_cases {σ ε : Type} (fuel : Nat) (ttd : Option Int) (hd : HeaderDownload)
    (link : Nat) (hdr : Header) (td : Option Int) (db : σ) (r : InsertOutcome σ ε)
    (h : afterFeed fuel ttd hd link hdr td db = some r) :
    (r = { hd := { noteInserted hd link td with highestInDb := (getLink hd.mem link).blockHeight },
           db := db, more := true, force := true, blocksToTTD := 0, lastTime := 0,
           err := none }) ∨
      (∃ hd4, persistLink fuel (noteInserted hd link td) link = some hd4 ∧
        (((getLink hd.mem link).blockHeight = hd4.latestMinedBlockNumber ∧
            r = { hd := hd4, db := db, more := false, force := true, blocksToTTD := 0,
                  lastTime := hdr.Time, err := none }) ∨
          ((getLink hd.mem link).blockHeight ≠ hd4.latestMinedBlockNumber ∧
            ∃ pending, finishInsert fuel ttd pending hdr.Time hd4 db = some r))) := by
  unfold afterFeed at h
  dsimp only at h
  split at h
  · simp only [Option.some.injEq] at h
    exact Or.inl h.symm
  · simp only [Option.bind_eq_some] at h
    obtain ⟨hd4, h4, h⟩ := h
    refine Or.inr ⟨hd4, h4, ?_⟩
    split at h
    · rename_i e
      simp only [Option.some.injEq] at h
      exact Or.inl ⟨e, h.symm⟩
    · rename_i e
      exact Or.inr ⟨e, _, h⟩

/-! ## highestInDb -/

theorem ProcessHeader_highestInDb (fuel thr : Nat) (hd : HeaderDownload)
    (sh : ChainSegmentHeader) (newBlock : Bool) (peerID : PeerID) (hd2 : HeaderDownload)
    (r : Bool) (h : ProcessHeader fuel thr hd sh newBlock peerID = some (hd2, r)) :
    hd2.highestInDb = hd.highestInDb := by
  by_cases hdup : mapGet hd.links sh.hash = none
  · by_cases hrej : Rejected hd sh
    · rw [ProcessHeader_rejected fuel thr hd sh newBlock peerID hdup hrej] at h
      simp only [Option.some.injEq, Prod.mk.injEq] at h
      obtain ⟨h, _⟩ := h
      subst h; rfl
    · rw [ProcessHeader_accepted fuel thr hd sh newBlock peerID hdup hrej] at h
      have hf := attachLink_frame _ _ _ _ _ _ _ _ _ h
      rw [hf.2.1, acceptLink_eq]
  · rw [ProcessHeader_dup fuel thr hd sh newBlock peerID hdup] at h
    simp only [Option.some.injEq, Prod.mk.injEq] at h
    obtain ⟨h, _⟩ := h
    subst h; rfl

theorem processSegment_highestInDb (fuel thr : Nat) (newBlock : Bool) (peerID : PeerID)
    (seg : List ChainSegmentHeader) :
    ∀ (hd : HeaderDownload) (more : Bool) (hd2 : HeaderDownload) (r : Bool),
      processSegment fuel thr newBlock peerID hd seg more = some (hd2, r) →
        hd2.highestInDb = hd.highestInDb := by
  induction seg with
  | nil =>
    intro hd more hd2 r h
    simp only [processSegment, Option.some.injEq, Prod.mk.injEq] at h
    rw [← h.1]
  | cons sh rest ih =>
    intro hd more hd2 r h
    simp only [processSegment] at h
    split at h
    · simp at h
    · rename_i hd1 more1 h1
      rw [ih _ _ _ _ h]
      exact ProcessHeader_highestInDb _ _ _ _ _ _ _ _ h1

theorem pruneLink_highestInDb (n : Nat) (hd : HeaderDownload) (link : Nat)
    (hd2 : HeaderDownload) (h : pruneLink n hd link = some hd2) :
    hd2.highestInDb = hd.highestInDb := by
  simp only [pruneLink, Option.bind_eq_some] at h
  obtain ⟨mem2, _, h⟩ := h
  split at h
  · simp at h
  · simp only [Option.bind_eq_some] at h
    obtain ⟨hd3, h3, h⟩ := h
    have e3 : hd3.highestInDb = hd.highestInDb := by
      split at h3
      · simp only [Option.some.injEq] at h3
        subst h3; rfl
      · simp only [Option.map_eq_some'] at h3
        obtain ⟨m, _, h3⟩ := h3
        subst h3; rfl
    split at h
    · simp only [Option.some.injEq] at h
      subst h; exact e3
    · simp only [Option.map_eq_some'] at h
      obtain ⟨hd4, h4, h⟩ := h
      have e4 : hd4.highestInDb = hd3.highestInDb := by
        unfold anchorRemoveChild at h4
        split at h4
        · simp only [Option.some.injEq] at h4
          subst h4; rfl
        · simp only [Option.map_eq_some'] at h4
          obtain ⟨m, _, h4⟩ := h4
          subst h4; rfl
      subst h
      split
      · simp only [removeAnchor]
        exact e4.trans e3
      · exact e4.trans e3

theorem pruneLinkQueue_highestInDb (n : Nat) :
    ∀ (hd hd2 : HeaderDownload), pruneLinkQueue n hd = some hd2 →
      hd2.highestInDb = hd.highestInDb := by
  induction n with
  | zero =>
    intro hd hd2 h
    simp only [pruneLinkQueue] at h
    split at h
    · simp at h
    · simp only [Option.some.injEq] at h
      subst h; rfl
  | succ n ih =>
    intro hd hd2 h
    simp only [pruneLinkQueue] at h
    split at h
    · split at h
      · simp at h
      · simp only [Option.bind_eq_some] at h
        obtain ⟨hd1, h1, h⟩ := h
        rw [ih _ _ h, pruneLink_highestInDb _ _ _ _ h1]
    · simp only [Option.some.injEq] at h
      subst h; rfl

theorem ProcessHeaders_highestInDb (fuel thr : Nat) (hd : HeaderDownload)
    (csHeaders : List ChainSegmentHeader) (newBlock : Bool) (peerID : PeerID)
    (hd2 : HeaderDownload) (r : Bool)
    (h : ProcessHeaders fuel thr hd csHeaders newBlock peerID = some (hd2, r)) :
    hd2.highestInDb = hd.highestInDb := by
  simp only [ProcessHeaders] at h
  split at h
  · simp at h
  · rename_i hd1 more hseg
    have hseg2 := processSegment_highestInDb _ _ _ _ _ _ _ _ _ hseg
    split at h
    · simp at h
    · rename_i hd3 hpr
      simp only [Option.some.injEq, Prod.mk.injEq] at h
      obtain ⟨h, _⟩ := h
      subst h
      simp only []
      split at hpr
      · have := pruneLinkQueue_highestInDb _ _ _ hpr
        simp only [] at this
        rw [this, hseg2]
      · simp only [Option.some.injEq] at hpr
        subst hpr
        exact hseg2

theorem finishInsert_highestInDb {σ ε : Type} (fuel : Nat) (ttd : Option Int)
    (pending : Option (Int × Nat)) (lastTime : Nat) (hd : HeaderDownload) (db : σ)
    (r : InsertOutcome σ ε) (h : finishInsert fuel ttd pending lastTime hd db = some r) :
    r.hd.highestInDb = hd.highestInDb := by
  have h1 := (finishInsert_frame _ _ _ _ _ _ _ h).1
  exact (evictPersisted_frame _ _ _ h1).1.2.1

/-- How `InsertHeader` moves `highestInDb`. -/
theorem InsertHeader_highestInDb {σ ε : Type} (fuel : Nat) (verify : Header → VerifyResult)
    (hf : FeedHeaderFunc σ ε) (ttd : Option Int) (hd : HeaderDownload) (db : σ)
    (r : InsertOutcome σ ε) (h : InsertHeader fuel verify hf ttd hd db = some r) :
    (r.more = true ∧ r.force = true →
        ∃ link, heapMin hd.mem hd.insertQueue = some link ∧
          r.hd.highestInDb = (getLink hd.mem link).blockHeight) ∧
      (¬ (r.more = true ∧ r.force = true) → hd.highestInDb ≤ r.hd.highestInDb) := by
  rcases InsertHeader_cases _ _ _ _ _ _ _ h with ⟨_, hfin⟩ | ⟨link, hq, hc⟩
  · have e := finishInsert_highestInDb _ _ _ _ _ _ _ hfin
    have f := (finishInsert_frame _ _ _ _ _ _ _ hfin).2.2.1
    exact ⟨fun hmf => by simp [f] at hmf, fun _ => by rw [e]⟩
  · rcases hc with ⟨_, hd1, h1, hr⟩ | ⟨_, hdr, hh, hc⟩
    · subst hr
      have e := (removeUpwards_frame _ _ _ _ h1).2.2.1
      exact ⟨fun hmf => by simp at hmf, fun _ => by simp [e]⟩
    · rcases hc with ⟨_, _, hr⟩ | ⟨_, _, hd1, h1, hr⟩ | ⟨_, hc⟩
      · subst hr
        exact ⟨fun hmf => by simp at hmf, fun _ => by simp⟩
      · subst hr
        have e := (removeUpwards_frame _ _ _ _ h1).2.2.1
        exact ⟨fun hmf => by simp at hmf, fun _ => by simp [e]⟩
      · rcases hc with ⟨e, db1, _, hr⟩ | ⟨td, db1, _, haf⟩
        · subst hr
          exact ⟨fun hmf => by simp at hmf, fun _ => by simp⟩
        · have hn := noteInserted_frame
            { hd with mem := setLink hd.mem link { getLink hd.mem link with verified := true } }
            link td
          have hbh : (getLink (setLink hd.mem link { getLink hd.mem link with verified := true })
              link).blockHeight = (getLink hd.mem link).blockHeight := by
            rw [getLink_setLink]
            split <;> rfl
          rcases afterFeed_cases _ _ _ _ _ _ _ _ haf with hr | ⟨hd4, h4, hc⟩
          · subst hr
            exact ⟨fun _ => ⟨link, hq, hbh⟩, fun hmf => by simp at hmf⟩
          · have e4 := (persistLink_highestInDb _ _ _ _ h4).1
            rw [hn.2.2.1] at e4
            rcases hc with ⟨_, hr⟩ | ⟨_, pending, hfin⟩
            · subst hr
              exact ⟨fun hmf => by simp at hmf, fun _ => by
                show hd.highestInDb ≤ hd4.highestInDb
                rw [e4]; exact le_max_left _ _⟩
            · have e := finishInsert_highestInDb _ _ _ _ _ _ _ hfin
              have f := (finishInsert_frame _ _ _ _ _ _ _ hfin).2.2.1
              exact ⟨fun hmf => by simp [f] at hmf, fun _ => by
                rw [e, e4]; exact le_max_left _ _⟩

/-- Claim C15, counterexample: the database is at height 10, the front link of
the insert queue is at height 5, a terminal total difficulty of 50 is set and
the callback returns the total difficulty 100; `InsertHeader` returns the
terminal result and `highestInDb` is 5. -/
theorem InsertHeader_highestInDb_counterexample :
    aheadEngine.highestInDb = 10 ∧
    (InsertHeader 10 verifyOk (feedTd 100) (some 50) aheadEngine ([] : List Nat)).map
        (fun r => (r.hd.highestInDb, r.more, r.force)) = some (5, true, true) := by
  decide

/-- Claim C15, amended: after `InsertHeader`, `highestInDb` is at least what it
was before, except when the call ends in the terminal hand-off (the callback
returned a total difficulty that reaches the terminal total difficulty; the
call returns `more = true`, `force = true`), where `highestInDb` is set to the
block height of the front link whatever it was; `ProcessHeader` and
`ProcessHeaders` leave `highestInDb` as it is. -/
theorem highestInDb_monotone_but_terminal :
    (∀ (σ ε : Type) (fuel : Nat) (verify : Header → VerifyResult) (hf : FeedHeaderFunc σ ε)
        (ttd : Option Int) (hd : HeaderDownload) (db : σ) (r : InsertOutcome σ ε),
        InsertHeader fuel verify hf ttd hd db = some r →
          (r.more = true ∧ r.force = true →
            ∃ link, heapMin hd.mem hd.insertQueue = some link ∧
              r.hd.highestInDb = (getLink hd.mem link).blockHeight) ∧
          (¬ (r.more = true ∧ r.force = true) → hd.highestInDb ≤ r.hd.highestInDb)) ∧
    (∀ (fuel thr : Nat) (hd : HeaderDownload) (sh : ChainSegmentHeader) (newBlock : Bool)
        (peerID : PeerID) (hd2 : HeaderDownload) (more : Bool),
        ProcessHeader fuel thr hd sh newBlock peerID = some (hd2, more) →
          hd2.highestInDb = hd.highestInDb) ∧
    (∀ (fuel thr : Nat) (hd : HeaderDownload) (csHeaders : List ChainSegmentHeader)
        (newBlock : Bool) (peerID : PeerID) (hd2 : HeaderDownload) (more : Bool),
        ProcessHeaders fuel thr hd csHeaders newBlock peerID = some (hd2, more) →
          hd2.highestInDb = hd.highestInDb) :=
  ⟨fun _ _ fuel verify hf ttd hd db r h => InsertHeader_highestInDb fuel verify hf ttd hd db r h,
   fun fuel thr hd sh newBlock peerID hd2 more h =>
     ProcessHeader_highestInDb fuel thr hd sh newBlock peerID hd2 more h,
   fun fuel thr hd cs newBlock peerID hd2 more h =>
     ProcessHeaders_highestInDb fuel thr hd cs newBlock peerID hd2 more h⟩

/-- Claim C15, amended, at concrete inputs: an insertion below the terminal total
difficulty, an ingest of one header and an ingest of a segment. -/
theorem highestInDb_monotone_but_terminal_witness :
    (∃ r, InsertHeader 10 verifyOk feedOk (some 50) aheadEngine ([] : List Nat) = some r ∧
        aheadEngine.highestInDb ≤ r.hd.highestInDb) ∧
    (∃ r, ProcessHeader 10 90000 persistedEngine header11 false 7 = some r ∧
        r.1.highestInDb = persistedEngine.highestInDb) ∧
    (∃ r, ProcessHeaders 10 90000 persistedEngine [header12, header11] false 7 = some r ∧
        r.1.highestInDb = persistedEngine.highestInDb) := by
  obtain ⟨r1, h1⟩ := Option.isSome_iff_exists.mp
    (by decide : (InsertHeader 10 verifyOk feedOk (some 50) aheadEngine ([] : List Nat)).isSome = true)
  obtain ⟨r2, h2⟩ := Option.isSome_iff_exists.mp
    (by decide : (ProcessHeader 10 90000 persistedEngine header11 false 7).isSome = true)
  obtain ⟨r3, h3⟩ := Option.isSome_iff_exists.mp
    (by decide :
      (ProcessHeaders 10 90000 persistedEngine [header12, header11] false 7).isSome = true)
  have hm : ¬ (r1.more = true ∧ r1.force = true) := by
    have : (InsertHeader 10 verifyOk feedOk (some 50) aheadEngine ([] : List Nat)).map
        (fun r => r.force) = some false := by decide
    rw [h1] at this
    simp only [Option.map_some', Option.some.injEq] at this
    simp [this]
  exact ⟨⟨r1, h1, (highestInDb_monotone_but_terminal.1 _ _ _ _ _ _ _ _ r1 h1).2 hm⟩,
    ⟨r2, h2, highestInDb_monotone_but_terminal.2.1 _ _ _ _ _ _ r2.1 r2.2 h2⟩,
    ⟨r3, h3, highestInDb_monotone_but_terminal.2.2 _ _ _ _ _ _ r3.1 r3.2 h3⟩⟩

/-! ## InsertHeader: the link is persisted -/

/-- Claim C16 at the failing input `readyEngine`: `InsertHeader` persists the
front link `0x0b` (pointer 2), which ends persisted, without header and raw
bytes, in the persisted queue; its child `0x0c` (pointer 1), not persisted, is
moved to the insert queue, but its flag `linked` is still false. -/
theorem InsertHeader_child_not_linked :
    (InsertHeader 10 verifyOk feedOk none readyEngine ([] : List Nat)).map
        (fun r => ((getLink r.hd.mem 2).persisted, (getLink r.hd.mem 2).header,
          (getLink r.hd.mem 2).headerRaw, r.hd.persistedLinkQueue)) =
      some (true, none, none, [0, 2]) ∧
    (InsertHeader 10 verifyOk feedOk none readyEngine ([] : List Nat)).map
        (fun r => ((getLink r.hd.mem 2).fChild, (getLink r.hd.mem 1).persisted,
          r.hd.insertQueue, (getLink r.hd.mem 1).linked)) =
      some (some 1, false, [1], false) := by
  decide

/-- Claim C17 at the failing run: the empty engine loads the persisted link
`0x0a`, headers `0x0c` and `0x0b` are ingested and `InsertHeader` is called
twice; link `0x0c` (pointer 1) is in the store and persisted, in the persisted
queue only, verified and without header, and its flag `linked` is false. -/
theorem InsertHeader_persisted_not_linked :
    (ingestTwoInsertTwo loadedEngine header12 header11).map
        (fun r => (mapGet r.hd.links 12, (getLink r.hd.mem 1).persisted,
          (getLink r.hd.mem 1).verified, (getLink r.hd.mem 1).header)) =
      some (some 1, true, true, none) ∧
    (ingestTwoInsertTwo loadedEngine header12 header11).map
        (fun r => (r.hd.persistedLinkQueue, r.hd.insertQueue, r.hd.linkQueue,
          (getLink r.hd.mem 1).linked)) =
      some ([0, 2, 1], [], [], false) := by
  decide

/-- Claim C19 at the failing input `minedEngine`: the persisted queue holds one
link, which is the limit, and the front link of the insert queue is at the
height of the latest mined block; `InsertHeader` persists it and returns
`more = false`, `force = true` with two links in the persisted queue. With any
other latest mined block (`narrowEngine`) the same call evicts the link of
lowest height, `0x0a`, from the queue and from the store. -/
theorem InsertHeader_mined_return_over_limit :
    (minedEngine.persistedLinkQueue, minedEngine.persistedLinkLimit) = ([0], 1) ∧
    (InsertHeader 10 verifyOk feedOk none minedEngine ([] : List Nat)).map
        (fun r => (r.hd.persistedLinkQueue, r.hd.persistedLinkLimit, r.more, r.force)) =
      some ([0, 2], 1, false, true) ∧
    (InsertHeader 10 verifyOk feedOk none narrowEngine ([] : List Nat)).map
        (fun r => (r.hd.persistedLinkQueue, r.hd.persistedLinkLimit, mapGet r.hd.links 10)) =
      some ([2], 1, none) := by
  decide

theorem heapMin_spec (mem : List Link) :
    ∀ (l : List Nat) (p : Nat), heapMin mem l = some p →
      p ∈ l ∧ ∀ q ∈ l, (getLink mem p).blockHeight ≤ (getLink mem q).blockHeight := by
  intro l
  induction l with
  | nil => intro p h; simp [heapMin] at h
  | cons a l ih =>
    intro p h
    simp only [heapMin] at h
    split at h
    · rename_i hn
      simp only [Option.some.injEq] at h
      subst h
      have hl : l = [] := by
        cases l with
        | nil => rfl
        | cons b l =>
          simp only [heapMin] at hn
          split at hn
          · simp at hn
          · split at hn <;> simp at hn
      subst hl
      simp
    · rename_i q hq
      obtain ⟨hqm, hqmin⟩ := ih q hq
      split at h
      · rename_i hle
        simp only [Option.some.injEq] at h
        subst h
        refine ⟨List.mem_cons_self _ _, ?_⟩
        intro x hx
        rcases List.mem_cons.mp hx with e | e
        · subst e; exact le_refl _
        · exact le_trans hle (hqmin x e)
      · rename_i hle
        simp only [Option.some.injEq] at h
        subst h
        refine ⟨List.mem_cons_of_mem _ hqm, ?_⟩
        intro x hx
        rcases List.mem_cons.mp hx with e | e
        · subst e; exact Nat.le_of_lt (Nat.lt_of_not_le hle)
        · exact hqmin x e

theorem finishInsert_db {σ ε : Type} (fuel : Nat) (ttd : Option Int)
    (pending : Option (Int × Nat)) (lastTime : Nat) (hd : HeaderDownload) (db : σ)
    (r : InsertOutcome σ ε) (h : finishInsert fuel ttd pending lastTime hd db = some r) :
    r.db = db :=
  (finishInsert_frame _ _ _ _ _ _ _ h).2.1

/-- Claim C20, counterexample: with two headers of height 5 below the persisted
`0x0a`, two calls of `InsertHeader` hand the heights 5 and 5 to the callback;
with header `0x15` of height 8 ingested before the first call and header `0x0b`
of height 5 ingested between the calls, they hand it 8 and then 5. -/
theorem InsertHeader_heights_counterexample :
    (ingestTwoInsertTwo persistedEngine header11 header13).map (fun r => r.db) = some [5, 5] ∧
    (ingestInsertTwice twoPersistedEngine header21 header11).map (fun r => r.db) =
      some [8, 5] := by
  decide

/-- Claim C20, amended: the link handled by a call of `InsertHeader`, the root
of the insert queue, is a member of the insert queue of least block height
among its members at that moment, and a call that returns has either not called
the callback or called it once, with the header, raw bytes, hash and block
height of that link. Nothing is said about the heights of successive calls:
links that enter the queue between two calls may be lower. -/
theorem InsertHeader_front_min (hd : HeaderDownload) (link : Nat)
    (hfront : heapMin hd.mem hd.insertQueue = some link) :
    link ∈ hd.insertQueue ∧
    (∀ q ∈ hd.insertQueue, (getLink hd.mem link).blockHeight ≤ (getLink hd.mem q).blockHeight) ∧
    ∀ (σ ε : Type) (fuel : Nat) (verify : Header → VerifyResult) (hf : FeedHeaderFunc σ ε)
      (ttd : Option Int) (db : σ) (r : InsertOutcome σ ε),
      InsertHeader fuel verify hf ttd hd db = some r →
        r.db = db ∨
        ∃ hdr, (getLink hd.mem link).header = some hdr ∧
          r.db = (hf hdr (getLink hd.mem link).headerRaw (getLink hd.mem link).hash
            (getLink hd.mem link).blockHeight db).2 := by
  obtain ⟨hm, hmin⟩ := heapMin_spec _ _ _ hfront
  refine ⟨hm, hmin, ?_⟩
  intro σ ε fuel verify hf ttd db r h
  rcases InsertHeader_cases _ _ _ _ _ _ _ h with ⟨hq, _⟩ | ⟨link2, hq, hc⟩
  · rw [hfront] at hq; simp at hq
  · rw [hfront] at hq
    simp only [Option.some.injEq] at hq
    subst hq
    rcases hc with ⟨_, hd1, h1, hr⟩ | ⟨_, hdr, hh, hc⟩
    · subst hr; exact Or.inl rfl
    · rcases hc with ⟨_, _, hr⟩ | ⟨_, _, hd1, h1, hr⟩ | ⟨_, hc⟩
      · subst hr; exact Or.inl rfl
      · subst hr; exact Or.inl rfl
      · refine Or.inr ⟨hdr, hh, ?_⟩
        rcases hc with ⟨e, db1, he, hr⟩ | ⟨td, db1, he, haf⟩
        · subst hr
          rw [he]
        · rw [he]
          rcases afterFeed_cases _ _ _ _ _ _ _ _ haf with hr | ⟨hd4, h4, hc⟩
          · subst hr; rfl
          · rcases hc with ⟨_, hr⟩ | ⟨_, pending, hfin⟩
            · subst hr; rfl
            · exact finishInsert_db _ _ _ _ _ _ _ hfin

/-- Claim C20, amended, at a concrete input: the front link `0x0b` of
`readyEngine` and a call with the callback `feedOk`. -/
theorem InsertHeader_front_min_witness :
    2 ∈ readyEngine.insertQueue ∧
    (∀ q ∈ readyEngine.insertQueue,
      (getLink readyEngine.mem 2).blockHeight ≤ (getLink readyEngine.mem q).blockHeight) ∧
    ∃ r, InsertHeader 10 verifyOk feedOk none readyEngine ([] : List Nat) = some r ∧
      (r.db = [] ∨
        ∃ hdr, (getLink readyEngine.mem 2).header = some hdr ∧
          r.db = (feedOk hdr (getLink readyEngine.mem 2).headerRaw (getLink readyEngine.mem 2).hash
            (getLink readyEngine.mem 2).blockHeight []).2) := by
  obtain ⟨r, h⟩ := Option.isSome_iff_exists.mp
    (by decide : (InsertHeader 10 verifyOk feedOk none readyEngine ([] : List Nat)).isSome = true)
  have w := InsertHeader_front_min readyEngine 2 (by decide)
  exact ⟨w.1, w.2.1, r, h, w.2.2 _ _ _ _ _ _ _ r h⟩

/-! ## Operations that only move pointers and queue tags -/

theorem sameLinks_refl (mem : List Link) : SameLinks mem mem :=
  fun _ => rfl

theorem sameLinks_trans {m1 m2 m3 : List Link} (h12 : SameLinks m1 m2) (h23 : SameLinks m2 m3) :
    SameLinks m1 m3 :=
  fun q => (h23 q).trans (h12 q)

theorem sameLinks_setLink (mem : List Link) (p : Nat) (l : Link)
    (h : content l = content (getLink mem p)) : SameLinks mem (setLink mem p l) := by
  intro q
  rw [getLink_setLink]
  split
  · rename_i e
    rw [e.1, h]
  · rfl

theorem sameLinks_linked {mem mem2 : List Link} (h : SameLinks mem mem2) (q : Nat) :
    (getLink mem2 q).linked = (getLink mem q).linked ∧
      (getLink mem2 q).persisted = (getLink mem q).persisted ∧
      (getLink mem2 q).verified = (getLink mem q).verified ∧
      (getLink mem2 q).hash = (getLink mem q).hash ∧
      (getLink mem2 q).blockHeight = (getLink mem q).blockHeight ∧
      (getLink mem2 q).header = (getLink mem q).header ∧
      (getLink mem2 q).headerRaw = (getLink mem q).headerRaw := by
  have e := h q
  have e1 := congrArg Link.linked e
  have e2 := congrArg Link.persisted e
  have e3 := congrArg Link.verified e
  have e4 := congrArg Link.hash e
  have e5 := congrArg Link.blockHeight e
  have e6 := congrArg Link.header e
  have e7 := congrArg Link.headerRaw e
  exact ⟨e1, e2, e3, e4, e5, e6, e7⟩

theorem moveLinkToQueue_sameLinks (hd : HeaderDownload) (p : Nat) (t : QueueID) :
    SameLinks hd.mem (moveLinkToQueue hd p t).mem := by
  rw [moveLinkToQueue_mem]
  exact sameLinks_setLink _ _ _ rfl

theorem clearNext_sameLinks (n : Nat) :
    ∀ (mem : List Link) (o : Option Nat) (mem2 : List Link),
      clearNext n mem o = some mem2 → SameLinks mem mem2 := by
  induction n with
  | zero =>
    intro mem o mem2 h
    cases o with
    | none =>
      simp only [clearNext, Option.some.injEq] at h
      subst h; exact sameLinks_refl _
    | some c => simp [clearNext] at h
  | succ n ih =>
    intro mem o mem2 h
    cases o with
    | none =>
      simp only [clearNext, Option.some.injEq] at h
      subst h; exact sameLinks_refl _
    | some c =>
      simp only [clearNext] at h
      have h1 := ih _ _ _ h
      refine sameLinks_trans ?_ h1
      exact sameLinks_setLink mem c _ rfl

theorem detachNext_sameLinks (n : Nat) :
    ∀ (mem : List Link) (o : Option Nat) (link : Nat) (mem2 : List Link),
      detachNext n mem o link = some mem2 → SameLinks mem mem2 := by
  induction n with
  | zero =>
    intro mem o link mem2 h
    cases o with
    | none =>
      simp only [detachNext, Option.some.injEq] at h
      subst h; exact sameLinks_refl _
    | some c => simp [detachNext] at h
  | succ n ih =>
    intro mem o link mem2 h
    cases o with
    | none =>
      simp only [detachNext, Option.some.injEq] at h
      subst h; exact sameLinks_refl _
    | some c =>
      simp only [detachNext] at h
      split at h
      · simp only [Option.some.injEq] at h
        subst h
        exact sameLinks_setLink mem c _ rfl
      · exact ih _ _ _ _ h

theorem linkRemoveChild_sameLinks (n : Nat) (mem : List Link) (par link : Nat)
    (mem2 : List Link) (h : linkRemoveChild n mem par link = some mem2) : SameLinks mem mem2 := by
  unfold linkRemoveChild at h
  split at h
  · simp only [Option.some.injEq] at h
    subst h
    exact sameLinks_setLink mem par _ rfl
  · exact detachNext_sameLinks _ _ _ _ _ h

theorem removeUpwardsLoop_sameLinks (n : Nat) :
    ∀ (hd : HeaderDownload) (stack : List Nat) (hd2 : HeaderDownload),
      removeUpwardsLoop n hd stack = some hd2 → SameLinks hd.mem hd2.mem := by
  induction n with
  | zero =>
    intro hd stack hd2 h
    cases stack with
    | nil =>
      simp only [removeUpwardsLoop, Option.some.injEq] at h
      subst h; exact sameLinks_refl _
    | cons r rest => simp [removeUpwardsLoop] at h
  | succ n ih =>
    intro hd stack hd2 h
    cases stack with
    | nil =>
      simp only [removeUpwardsLoop, Option.some.injEq] at h
      subst h; exact sameLinks_refl _
    | cons r rest =>
      simp only [removeUpwardsLoop] at h
      split at h
      · simp at h
      · split at h
        · simp at h
        · rename_i mem3 hclear
          have h1 := ih _ _ _ h
          have h2 := clearNext_sameLinks _ _ _ _ hclear
          have h3 := moveLinkToQueue_sameLinks
            { hd with links := mapDel hd.links (getLink hd.mem r).hash } r QueueID.NoQueue
          exact sameLinks_trans h3 (sameLinks_trans h2 h1)

theorem detachFromParent_sameLinks (n : Nat) (hd : HeaderDownload) (link : Nat)
    (hd1 : HeaderDownload) (h : detachFromParent n hd link = some hd1) :
    SameLinks hd.mem hd1.mem ∧ hd1.links = hd.links ∧ hd1.linkQueue = hd.linkQueue ∧
      hd1.insertQueue = hd.insertQueue ∧ hd1.persistedLinkQueue = hd.persistedLinkQueue := by
  unfold detachFromParent at h
  split at h
  · simp only [Option.some.injEq] at h; subst h
    exact ⟨sameLinks_refl _, rfl, rfl, rfl, rfl⟩
  · split at h
    · simp only [Option.some.injEq] at h; subst h
      exact ⟨sameLinks_refl _, rfl, rfl, rfl, rfl⟩
    · simp only [Option.map_eq_some'] at h
      obtain ⟨m, hm, h⟩ := h
      subst h
      exact ⟨linkRemoveChild_sameLinks _ _ _ _ _ hm, rfl, rfl, rfl, rfl⟩

theorem removeUpwards_sameLinks (n : Nat) (hd : HeaderDownload) (link : Nat)
    (hd2 : HeaderDownload) (h : removeUpwards n hd link = some hd2) :
    SameLinks hd.mem hd2.mem := by
  simp only [removeUpwards, Option.bind_eq_some] at h
  obtain ⟨hd1, hdet, hloop⟩ := h
  exact sameLinks_trans (detachFromParent_sameLinks _ _ _ _ hdet).1
    (removeUpwardsLoop_sameLinks _ _ _ _ hloop)

theorem moveChildren_sameLinks (n : Nat) :
    ∀ (hd : HeaderDownload) (o : Option Nat) (hd2 : HeaderDownload),
      moveChildren n hd o = some hd2 → SameLinks hd.mem hd2.mem := by
  induction n with
  | zero =>
    intro hd o hd2 h
    cases o with
    | none =>
      simp only [moveChildren, Option.some.injEq] at h
      subst h; exact sameLinks_refl _
    | some c => simp [moveChildren] at h
  | succ n ih =>
    intro hd o hd2 h
    cases o with
    | none =>
      simp only [moveChildren, Option.some.injEq] at h
      subst h; exact sameLinks_refl _
    | some c =>
      simp only [moveChildren] at h
      have h1 := ih _ _ _ h
      by_cases hp : (getLink hd.mem c).persisted = true
      · simp only [hp, if_true] at h1
        exact h1
      · simp only [hp] at h1
        exact sameLinks_trans (moveLinkToQueue_sameLinks _ _ _) h1

theorem evictPersisted_sameLinks (n : Nat) :
    ∀ (hd hd2 : HeaderDownload), evictPersisted n hd = some hd2 → SameLinks hd.mem hd2.mem := by
  induction n with
  | zero =>
    intro hd hd2 h
    simp only [evictPersisted] at h
    split at h
    · simp at h
    · simp only [Option.some.injEq] at h
      subst h; exact sameLinks_refl _
  | succ n ih =>
    intro hd hd2 h
    simp only [evictPersisted] at h
    split at h
    · split at h
      · simp at h
      · simp only [Option.bind_eq_some] at h
        obtain ⟨mem2, hc, h⟩ := h
        exact sameLinks_trans (clearNext_sameLinks _ _ _ _ hc) (ih _ _ h)
    · simp only [Option.some.injEq] at h
      subst h; exact sameLinks_refl _

/-! ## Where the flag linked is set -/

theorem append_getLink_flags (mem : List Link) (x : Link) (q : Nat)
    (hx : x.linked = false ∧ x.persisted = false) :
    ((getLink (mem ++ [x]) q).linked = true → q < mem.length ∧ (getLink mem q).linked = true) ∧
    ((getLink (mem ++ [x]) q).persisted = true →
      q < mem.length ∧ (getLink mem q).persisted = true) := by
  rcases Nat.lt_trichotomy q mem.length with h | h | h
  · rw [getLink_append_lt _ _ _ h]
    exact ⟨fun e => ⟨h, e⟩, fun e => ⟨h, e⟩⟩
  · subst h
    rw [getLink_append_length]
    refine ⟨fun e => ?_, fun e => ?_⟩
    · rw [hx.1] at e; cases e
    · rw [hx.2] at e; cases e
  · have hge : (mem ++ [x]).length ≤ q := by
      simp only [List.length_append, List.length_singleton]
      omega
    rw [getLink_of_ge _ _ hge]
    refine ⟨fun e => ?_, fun e => ?_⟩
    · cases e
    · cases e

theorem attachToParent_linked (hd : HeaderDownload) (p par q : Nat)
    (h : (getLink (attachToParent hd p par).mem q).linked = true) :
    (getLink hd.mem q).linked = true ∨ (q = p ∧ (getLink hd.mem par).persisted = true) := by
  have s1 : SameLinks hd.mem
      (setLink hd.mem p { getLink hd.mem p with next := (getLink hd.mem par).fChild }) :=
    sameLinks_setLink hd.mem p _ rfl
  have s2 : SameLinks
      (setLink hd.mem p { getLink hd.mem p with next := (getLink hd.mem par).fChild })
      (setLink (setLink hd.mem p { getLink hd.mem p with next := (getLink hd.mem par).fChild }) par
        { getLink (setLink hd.mem p { getLink hd.mem p with next := (getLink hd.mem par).fChild })
            par with fChild := some p }) :=
    sameLinks_setLink _ par _ rfl
  have s := sameLinks_trans s1 s2
  unfold attachToParent at h
  dsimp only at h
  split at h
  · rename_i hpers
    rw [(sameLinks_linked s par).2.1] at hpers
    have s3 := moveLinkToQueue_sameLinks
      { hd with
        mem := setLink
          (setLink (setLink hd.mem p { getLink hd.mem p with next := (getLink hd.mem par).fChild })
            par
            { getLink (setLink hd.mem p
                { getLink hd.mem p with next := (getLink hd.mem par).fChild }) par with
              fChild := some p })
          p
          { getLink
              (setLink (setLink hd.mem p
                  { getLink hd.mem p with next := (getLink hd.mem par).fChild }) par
                { getLink (setLink hd.mem p
                    { getLink hd.mem p with next := (getLink hd.mem par).fChild }) par with
                  fChild := some p }) p with
            linked := true } }
      p QueueID.InsertQueueID
    rw [(sameLinks_linked s3 q).1] at h
    dsimp only at h
    rw [getLink_setLink] at h
    split at h
    · rename_i e
      exact Or.inr ⟨e.1, hpers⟩
    · rw [(sameLinks_linked s q).1] at h
      exact Or.inl h
  · rw [(sameLinks_linked s q).1] at h
    exact Or.inl h

theorem ProcessHeader_linked (fuel thr : Nat) (hd : HeaderDownload) (sh : ChainSegmentHeader)
    (newBlock : Bool) (peerID : PeerID) (hd2 : HeaderDownload) (more : Bool)
    (h : ProcessHeader fuel thr hd sh newBlock peerID = some (hd2, more)) (q : Nat)
    (hl : (getLink hd2.mem q).linked = true) :
    (getLink hd.mem q).linked = true ∨
      (q = hd.mem.length ∧ ∃ par, mapGet hd.links sh.header.ParentHash = some par ∧
        (getLink hd.mem par).persisted = true) := by
  by_cases hdup : mapGet hd.links sh.hash = none
  · by_cases hrej : Rejected hd sh
    · rw [ProcessHeader_rejected fuel thr hd sh newBlock peerID hdup hrej] at h
      simp only [Option.some.injEq, Prod.mk.injEq] at h
      obtain ⟨h, _⟩ := h
      subst h
      exact Or.inl hl
    · rw [ProcessHeader_accepted fuel thr hd sh newBlock peerID hdup hrej] at h
      have hmem : (acceptLink hd sh).1.mem = hd.mem ++ [freshLink sh (adoptedChildren hd sh)] := by
        rw [acceptLink_eq]
      have hp : (acceptLink hd sh).2 = hd.mem.length := by rw [acceptLink_eq]
      have hfl := append_getLink_flags hd.mem (freshLink sh (adoptedChildren hd sh))
      unfold attachLink at h
      split at h
      · rename_i pa _
        simp only [Option.some.injEq, Prod.mk.injEq] at h
        obtain ⟨h, _⟩ := h
        subst h
        have s : SameLinks (acceptLink hd sh).1.mem
            (attachToAnchor (acceptLink hd sh).1 (acceptLink hd sh).2 pa).mem := by
          unfold attachToAnchor
          exact sameLinks_setLink _ _ _ rfl
        rw [(sameLinks_linked s q).1, hmem] at hl
        exact Or.inl ((hfl q ⟨rfl, rfl⟩).1 hl).2
      · split at h
        · rename_i par hpar
          simp only [Option.some.injEq, Prod.mk.injEq] at h
          obtain ⟨h, _⟩ := h
          subst h
          rcases attachToParent_linked _ _ _ _ hl with h1 | ⟨h1, h2⟩
          · rw [hmem] at h1
            exact Or.inl ((hfl q ⟨rfl, rfl⟩).1 h1).2
          · rw [hmem] at h2
            exact Or.inr ⟨h1.trans hp, par, hpar, ((hfl par ⟨rfl, rfl⟩).2 h2).2⟩
        · split at h
          · simp only [Option.map_eq_some', Prod.mk.injEq] at h
            obtain ⟨hd1, hrem, h, _⟩ := h
            subst h
            have s := removeUpwards_sameLinks _ _ _ _ hrem
            rw [(sameLinks_linked s q).1, hmem] at hl
            exact Or.inl ((hfl q ⟨rfl, rfl⟩).1 hl).2
          · simp only [Option.some.injEq, Prod.mk.injEq] at h
            obtain ⟨h, _⟩ := h
            subst h
            have hl2 : (getLink (acceptLink hd sh).1.mem q).linked = true := hl
            rw [hmem] at hl2
            exact Or.inl ((hfl q ⟨rfl, rfl⟩).1 hl2).2
  · rw [ProcessHeader_dup fuel thr hd sh newBlock peerID hdup] at h
    simp only [Option.some.injEq, Prod.mk.injEq] at h
    obtain ⟨h, _⟩ := h
    subst h
    exact Or.inl hl

theorem setLink_linked (mem : List Link) (p : Nat) (l : Link)
    (h : l.linked = (getLink mem p).linked) (q : Nat) :
    (getLink (setLink mem p l) q).linked = (getLink mem q).linked := by
  rw [getLink_setLink]
  split
  · rename_i e
    rw [e.1, h]
  · rfl

theorem persistLink_linked (n : Nat) (hd : HeaderDownload) (link : Nat) (hd2 : HeaderDownload)
    (h : persistLink n hd link = some hd2) (q : Nat) :
    (getLink hd2.mem q).linked = (getLink hd.mem q).linked := by
  unfold persistLink at h
  have s1 := moveChildren_sameLinks _ _ _ _ h
  rw [(sameLinks_linked s1 q).1]
  have hm : (if (getLink hd.mem link).blockHeight > hd.highestInDb then
      { hd with highestInDb := (getLink hd.mem link).blockHeight } else hd).mem = hd.mem := by
    split <;> rfl
  have s2 := moveLinkToQueue_sameLinks
    ({ (if (getLink hd.mem link).blockHeight > hd.highestInDb then
          { hd with highestInDb := (getLink hd.mem link).blockHeight } else hd) with
        mem := setLink (if (getLink hd.mem link).blockHeight > hd.highestInDb then
          { hd with highestInDb := (getLink hd.mem link).blockHeight } else hd).mem link
          { getLink (if (getLink hd.mem link).blockHeight > hd.highestInDb then
              { hd with highestInDb := (getLink hd.mem link).blockHeight } else hd).mem link with
            persisted := true, header := none, headerRaw := none } }) link
    QueueID.PersistedQueueID
  rw [(sameLinks_linked s2 q).1]
  dsimp only
  rw [hm]
  apply setLink_linked
  rfl

/-- A call of `InsertHeader` changes the flag `linked` of no link. -/
theorem InsertHeader_linked {σ ε : Type} (fuel : Nat) (verify : Header → VerifyResult)
    (hf : FeedHeaderFunc σ ε) (ttd : Option Int) (hd : HeaderDownload) (db : σ)
    (r : InsertOutcome σ ε) (h : InsertHeader fuel verify hf ttd hd db = some r) (q : Nat) :
    (getLink r.hd.mem q).linked = (getLink hd.mem q).linked := by
  have hfin : ∀ (pending : Option (Int × Nat)) (t : Nat) (hdx : HeaderDownload) (dbx : σ),
      finishInsert fuel ttd pending t hdx dbx = some r →
        (getLink r.hd.mem q).linked = (getLink hdx.mem q).linked := by
    intro pending t hdx dbx hx
    have h1 := (finishInsert_frame _ _ _ _ _ _ _ hx).1
    exact (sameLinks_linked (evictPersisted_sameLinks _ _ _ h1) q).1
  rcases InsertHeader_cases _ _ _ _ _ _ _ h with ⟨_, hx⟩ | ⟨link, hq, hc⟩
  · exact hfin _ _ _ _ hx
  · rcases hc with ⟨_, hd1, h1, hr⟩ | ⟨_, hdr, hh, hc⟩
    · subst hr
      exact (sameLinks_linked (removeUpwards_sameLinks _ _ _ _ h1) q).1
    · rcases hc with ⟨_, _, hr⟩ | ⟨_, _, hd1, h1, hr⟩ | ⟨_, hc⟩
      · subst hr; rfl
      · subst hr
        exact (sameLinks_linked (removeUpwards_sameLinks _ _ _ _ h1) q).1
      · have hv : (getLink (setLink hd.mem link { getLink hd.mem link with verified := true })
            q).linked = (getLink hd.mem q).linked := by
          apply setLink_linked
          rfl
        rcases hc with ⟨e, db1, _, hr⟩ | ⟨td, db1, _, haf⟩
        · subst hr
          exact hv
        · have hn := (noteInserted_frame
            { hd with mem := setLink hd.mem link { getLink hd.mem link with verified := true } }
            link td).1.2.1
          rcases afterFeed_cases _ _ _ _ _ _ _ _ haf with hr | ⟨hd4, h4, hc⟩
          · subst hr
            show (getLink (noteInserted _ link td).mem q).linked = _
            rw [hn]
            exact hv
          · have e4 := persistLink_linked _ _ _ _ h4 q
            rw [hn] at e4
            rcases hc with ⟨_, hr⟩ | ⟨_, pending, hx⟩
            · subst hr
              exact e4.trans hv
            · exact (hfin _ _ _ _ hx).trans (e4.trans hv)

theorem UnlinkHeader_linked (fuel : Nat) (hd : HeaderDownload) (headerHash : Hash)
    (hd2 : HeaderDownload) (h : UnlinkHeader fuel hd headerHash = some hd2) (q : Nat) :
    (getLink hd2.mem q).linked = (getLink hd.mem q).linked := by
  unfold UnlinkHeader at h
  split at h
  · simp only [Option.some.injEq] at h
    subst h; rfl
  · exact (sameLinks_linked (removeUpwards_sameLinks _ _ _ _ h) q).1

theorem addHeaderAsLink_linked (hd : HeaderDownload) (sh : ChainSegmentHeader)
    (persisted : Bool) (q : Nat)
    (h : (getLink (addHeaderAsLink hd sh persisted).1.mem q).linked = true) :
    (getLink hd.mem q).linked = true ∨
      (q = hd.mem.length ∧ persisted = true ∧
        (getLink (addHeaderAsLink hd sh persisted).1.mem q).persisted = true) := by
  unfold addHeaderAsLink at h ⊢
  dsimp only at h ⊢
  have s := moveLinkToQueue_sameLinks
    { hd with
      mem := hd.mem ++ [{ blockHeight := sh.number, hash := sh.hash,
                          header := if persisted = true then none else some sh.header,
                          headerRaw := if persisted = true then none else some sh.headerRaw,
                          persisted := persisted, linked := persisted, verified := persisted }],
      links := mapSet hd.links sh.hash hd.mem.length }
    hd.mem.length (if persisted = true then QueueID.PersistedQueueID else QueueID.EntryQueueID)
  rw [(sameLinks_linked s q).1] at h
  rw [(sameLinks_linked s q).2.1]
  dsimp only at h ⊢
  rcases Nat.lt_trichotomy q hd.mem.length with hq | hq | hq
  · rw [getLink_append_lt _ _ _ hq] at h
    exact Or.inl h
  · subst hq
    rw [getLink_append_length] at h ⊢
    exact Or.inr ⟨rfl, h, h⟩
  · rw [getLink_of_ge _ _ (by simp only [List.length_append, List.length_singleton]; omega)] at h
    cases h

theorem markVerified_linked (mem : List Link) (p q : Nat)
    (h : (getLink (markVerified mem p) q).linked = true) :
    (getLink mem q).linked = true ∨ q = p := by
  unfold markVerified at h
  split at h
  · exact Or.inl h
  · rw [getLink_setLink] at h
    split at h
    · rename_i e
      exact Or.inr e.1
    · exact Or.inl h

theorem foldl_markVerified_linked (q : Nat) :
    ∀ (l : List Nat) (mem : List Link),
      (getLink (l.foldl markVerified mem) q).linked = true →
        (getLink mem q).linked = true ∨ q ∈ l := by
  intro l
  induction l with
  | nil => intro mem h; exact Or.inl h
  | cons p l ih =>
    intro mem h
    simp only [List.foldl_cons] at h
    rcases ih _ h with h1 | h1
    · rcases markVerified_linked _ _ _ h1 with h2 | h2
      · exact Or.inl h2
      · exact Or.inr (h2 ▸ List.mem_cons_self _ _)
    · exact Or.inr (List.mem_cons_of_mem _ h1)

theorem moveLinkToQueue_insert_linkQueue (hd : HeaderDownload) (p x : Nat)
    (h : x ∈ (moveLinkToQueue hd p QueueID.InsertQueueID).linkQueue) : x ∈ hd.linkQueue := by
  unfold moveLinkToQueue queuePush queueRemove at h
  cases ht : (getLink hd.mem p).queueId <;> simp only [ht] at h
  · exact h
  · exact List.mem_of_mem_erase h
  · exact h
  · exact h

theorem markLinkQueue_linked (q : Nat) (n : Nat) :
    ∀ (hd hd2 : HeaderDownload), markLinkQueue n hd = some hd2 →
      (getLink hd2.mem q).linked = true →
        (getLink hd.mem q).linked = true ∨ q ∈ hd.linkQueue := by
  induction n with
  | zero =>
    intro hd hd2 h hl
    simp only [markLinkQueue] at h
    split at h
    · simp at h
    · simp only [Option.some.injEq] at h
      subst h
      exact Or.inl hl
  | succ n ih =>
    intro hd hd2 h hl
    simp only [markLinkQueue] at h
    split at h
    · simp only [Option.some.injEq] at h
      subst h
      exact Or.inl hl
    · rename_i link hmin
      have hmem := (heapMin_spec _ _ _ hmin).1
      split at h
      · exact ih _ _ h hl
      · rcases ih _ _ h hl with h1 | h1
        · rw [(sameLinks_linked (moveLinkToQueue_sameLinks _ _ _) q).1] at h1
          rcases markVerified_linked _ _ _ h1 with h2 | h2
          · exact Or.inl h2
          · exact Or.inr (h2 ▸ hmem)
        · have h2 := moveLinkToQueue_insert_linkQueue _ _ _ h1
          exact Or.inr h2

/-- The links `MarkAllVerified` marks as linked are links of the insert queue
or of the link queue. -/
theorem MarkAllVerified_linked (fuel : Nat) (hd hd2 : HeaderDownload)
    (h : MarkAllVerified fuel hd = some hd2) (q : Nat)
    (hl : (getLink hd2.mem q).linked = true) :
    (getLink hd.mem q).linked = true ∨ q ∈ hd.insertQueue ∨ q ∈ hd.linkQueue := by
  unfold MarkAllVerified at h
  rcases markLinkQueue_linked q fuel _ _ h hl with h1 | h1
  · rcases foldl_markVerified_linked q _ _ h1 with h2 | h2
    · exact Or.inl h2
    · exact Or.inr (Or.inl h2)
  · exact Or.inr (Or.inr h1)

/-- Claim C18, counterexample: (a) the engine has loaded the persisted link
`0x0a` and has room for one persisted link; headers `0x0b` and `0x0d`, both children of
`0x0a`, are ingested and linked, and `InsertHeader` persists `0x0b` and evicts
`0x0a`: link `0x0d` (pointer 2) is in the store, linked and not persisted, and
its parent `0x0a` is not in the store. (b) `MarkAllVerified` on an engine whose
only link `0x0b` hangs below an anchor: the link is linked, and its parent
`0x0a` is not in the store. -/
theorem linked_parent_counterexample :
    (ingestTwoInsert loadedSmallEngine header11 header13).map
        (fun r => (mapGet r.hd.links 13, (getLink r.hd.mem 2).linked,
          (getLink r.hd.mem 2).persisted)) =
      some (some 2, true, false) ∧
    (ingestTwoInsert loadedSmallEngine header11 header13).map
        (fun r => ((getLink r.hd.mem 2).header.map (fun h => h.ParentHash),
          mapGet r.hd.links 10)) =
      some (some 10, none) ∧
    (MarkAllVerified 10 oneAnchorEngine).map
        (fun hd => (mapGet hd.links 11, (getLink hd.mem 0).linked, (getLink hd.mem 0).persisted)) =
      some (some 0, true, false) ∧
    (MarkAllVerified 10 oneAnchorEngine).map
        (fun hd => ((getLink hd.mem 0).header.map (fun h => h.ParentHash), mapGet hd.links 10)) =
      some (some 10, none) := by
  decide

/-- Claim C18, amended: the flag `linked` records how a link entered the forest,
not where its parent is now. `ProcessHeader` gives `linked = true` to no link
but the one it adds, and to that one only when its parent link is in the store
and persisted at that moment; `addHeaderAsLink` gives it to no link but the one
it adds, and only when it adds it as persisted; `InsertHeader` takes the flag
from no link (so a link stays linked when `InsertHeader` evicts its parent from
the persisted queue and the store) and gives it to no link other than the
children of the link it takes from the insert queue and persists;
`UnlinkHeader` changes the flag of no link; `MarkAllVerified` gives it to links
of the insert queue and of the link queue only, whatever their parent. -/
theorem linked_set_only_below_persisted :
    (∀ (fuel thr : Nat) (hd : HeaderDownload) (sh : ChainSegmentHeader) (newBlock : Bool)
        (peerID : PeerID) (hd2 : HeaderDownload) (more : Bool) (q : Nat),
        ProcessHeader fuel thr hd sh newBlock peerID = some (hd2, more) →
        (getLink hd2.mem q).linked = true →
          (getLink hd.mem q).linked = true ∨
            (q = hd.mem.length ∧ ∃ par, mapGet hd.links sh.header.ParentHash = some par ∧
              (getLink hd.mem par).persisted = true)) ∧
    (∀ (hd : HeaderDownload) (sh : ChainSegmentHeader) (persisted : Bool) (q : Nat),
        (getLink (addHeaderAsLink hd sh persisted).1.mem q).linked = true →
          (getLink hd.mem q).linked = true ∨
            (q = hd.mem.length ∧ persisted = true ∧
              (getLink (addHeaderAsLink hd sh persisted).1.mem q).persisted = true)) ∧
    (∀ (σ ε : Type) (fuel : Nat) (verify : Header → VerifyResult) (hf : FeedHeaderFunc σ ε)
        (ttd : Option Int) (hd : HeaderDownload) (db : σ) (r : InsertOutcome σ ε) (q : Nat),
        InsertHeader fuel verify hf ttd hd db = some r →
          ((getLink hd.mem q).linked = true → (getLink r.hd.mem q).linked = true) ∧
          ((getLink r.hd.mem q).linked = true →
            (getLink hd.mem q).linked = true ∨
              ∃ link, heapMin hd.mem hd.insertQueue = some link ∧
                (getLink r.hd.mem link).persisted = true ∧
                InChain hd.mem (getLink hd.mem link).fChild q)) ∧
    (∀ (fuel : Nat) (hd : HeaderDownload) (headerHash : Hash) (hd2 : HeaderDownload) (q : Nat),
        UnlinkHeader fuel hd headerHash = some hd2 →
          (getLink hd2.mem q).linked = (getLink hd.mem q).linked) ∧
    (∀ (fuel : Nat) (hd hd2 : HeaderDownload) (q : Nat),
        MarkAllVerified fuel hd = some hd2 → (getLink hd2.mem q).linked = true →
          (getLink hd.mem q).linked = true ∨ q ∈ hd.insertQueue ∨ q ∈ hd.linkQueue) :=
  ⟨fun fuel thr hd sh newBlock peerID hd2 more q h hl =>
      ProcessHeader_linked fuel thr hd sh newBlock peerID hd2 more h q hl,
   fun hd sh persisted q h => addHeaderAsLink_linked hd sh persisted q h,
   fun _ _ fuel verify hf ttd hd db r q h =>
     ⟨fun hl => (InsertHeader_linked fuel verify hf ttd hd db r h q).trans hl,
      fun hl => Or.inl ((InsertHeader_linked fuel verify hf ttd hd db r h q).symm.trans hl)⟩,
   fun fuel hd headerHash hd2 q h => UnlinkHeader_linked fuel hd headerHash hd2 h q,
   fun fuel hd hd2 q h hl => MarkAllVerified_linked fuel hd hd2 h q hl⟩

/-- Claim C18, amended, at concrete inputs: header `0x0b` is linked by
`ProcessHeader` below the persisted `0x0a`, and `InsertHeader` on `readyEngine`,
which persists `0x0b`, leaves `0x0b` linked. -/
theorem linked_set_only_below_persisted_witness :
    (∃ r, ProcessHeader 10 90000 persistedEngine header11 false 7 = some r ∧
      (getLink r.1.mem 1).linked = true ∧
      ∃ par, mapGet persistedEngine.links header11.header.ParentHash = some par ∧
        (getLink persistedEngine.mem par).persisted = true) ∧
    (∃ r, InsertHeader 10 verifyOk feedOk none readyEngine ([] : List Nat) = some r ∧
      (getLink readyEngine.mem 2).linked = true ∧ (getLink r.hd.mem 2).linked = true) := by
  obtain ⟨r1, h1⟩ := Option.isSome_iff_exists.mp
    (by decide : (ProcessHeader 10 90000 persistedEngine header11 false 7).isSome = true)
  obtain ⟨r2, h2⟩ := Option.isSome_iff_exists.mp
    (by decide : (InsertHeader 10 verifyOk feedOk none readyEngine ([] : List Nat)).isSome = true)
  have hl : (getLink r1.1.mem 1).linked = true := by
    have : (ProcessHeader 10 90000 persistedEngine header11 false 7).map
        (fun r => (getLink r.1.mem 1).linked) = some true := by decide
    rw [h1] at this
    simpa using this
  have w := linked_set_only_below_persisted.1 10 90000 persistedEngine header11 false 7
    r1.1 r1.2 1 h1 hl
  have hold : ¬ (getLink persistedEngine.mem 1).linked = true := by decide
  exact ⟨⟨r1, h1, hl, (w.resolve_left hold).2⟩,
    ⟨r2, h2, by decide,
      (linked_set_only_below_persisted.2.2.1 _ _ _ _ _ _ _ _ r2 2 h2).1 (by decide)⟩⟩

/-! ## removeUpwards takes the subtree out of the queues -/

theorem queuesTagged_spec {hd : HeaderDownload} (h : queuesTagged hd = true) : QueuesOk hd := by
  unfold queuesTagged at h
  simp only [Bool.and_eq_true, decide_eq_true_eq, List.all_eq_true] at h
  obtain ⟨⟨⟨⟨⟨h1, h2⟩, h3⟩, h4⟩, h5⟩, h6⟩ := h
  exact ⟨h1, h2, h3, h4, h5, h6⟩

theorem clearNext_queueId (n : Nat) :
    ∀ (mem : List Link) (o : Option Nat) (mem2 : List Link),
      clearNext n mem o = some mem2 → ∀ q, (getLink mem2 q).queueId = (getLink mem q).queueId := by
  induction n with
  | zero =>
    intro mem o mem2 h q
    cases o with
    | none =>
      simp only [clearNext, Option.some.injEq] at h
      subst h; rfl
    | some c => simp [clearNext] at h
  | succ n ih =>
    intro mem o mem2 h q
    cases o with
    | none =>
      simp only [clearNext, Option.some.injEq] at h
      subst h; rfl
    | some c =>
      simp only [clearNext] at h
      rw [ih _ _ _ h q, getLink_setLink]
      split
      · rename_i e
        rw [e.1]
      · rfl

theorem detachNext_queueId (n : Nat) :
    ∀ (mem : List Link) (o : Option Nat) (link : Nat) (mem2 : List Link),
      detachNext n mem o link = some mem2 →
        ∀ q, (getLink mem2 q).queueId = (getLink mem q).queueId := by
  induction n with
  | zero =>
    intro mem o link mem2 h q
    cases o with
    | none =>
      simp only [detachNext, Option.some.injEq] at h
      subst h; rfl
    | some c => simp [detachNext] at h
  | succ n ih =>
    intro mem o link mem2 h q
    cases o with
    | none =>
      simp only [detachNext, Option.some.injEq] at h
      subst h; rfl
    | some c =>
      simp only [detachNext] at h
      split at h
      · simp only [Option.some.injEq] at h
        subst h
        rw [getLink_setLink]
        split
        · rename_i e
          rw [e.1]
        · rfl
      · exact ih _ _ _ _ h q

theorem linkRemoveChild_queueId (n : Nat) (mem : List Link) (par link : Nat)
    (mem2 : List Link) (h : linkRemoveChild n mem par link = some mem2) (q : Nat) :
    (getLink mem2 q).queueId = (getLink mem q).queueId := by
  unfold linkRemoveChild at h
  split at h
  · simp only [Option.some.injEq] at h
    subst h
    rw [getLink_setLink]
    split
    · rename_i e
      rw [e.1]
    · rfl
  · exact detachNext_queueId _ _ _ _ _ h q

/-- Taking a link out of its queue: in a state whose queues agree with the tags,
the link is in no queue afterwards, the queues only shrink, and they still
agree with the tags. -/
theorem moveLinkToQueue_noQueue (hd : HeaderDownload) (r : Nat) (hq : QueuesOk hd) :
    QueuesOk (moveLinkToQueue hd r QueueID.NoQueue) ∧
      inNoQueue (moveLinkToQueue hd r QueueID.NoQueue) r ∧
      (∀ x, x ∈ (moveLinkToQueue hd r QueueID.NoQueue).linkQueue → x ∈ hd.linkQueue) ∧
      (∀ x, x ∈ (moveLinkToQueue hd r QueueID.NoQueue).insertQueue → x ∈ hd.insertQueue) ∧
      (∀ x, x ∈ (moveLinkToQueue hd r QueueID.NoQueue).persistedLinkQueue →
        x ∈ hd.persistedLinkQueue) := by
  obtain ⟨n1, n2, n3, t1, t2, t3⟩ := hq
  have htag : ∀ q, q ≠ r →
      (getLink (setLink hd.mem r { getLink hd.mem r with queueId := QueueID.NoQueue }) q).queueId =
        (getLink hd.mem q).queueId := by
    intro q hne
    rw [getLink_setLink_ne _ _ _ _ (fun e => hne e.symm)]
  unfold QueuesOk inNoQueue
  cases ht : (getLink hd.mem r).queueId with
  | NoQueue =>
    have e1 : r ∉ hd.linkQueue := fun hm => by have := t1 r hm; rw [ht] at this; cases this
    have e2 : r ∉ hd.insertQueue := fun hm => by have := t2 r hm; rw [ht] at this; cases this
    have e3 : r ∉ hd.persistedLinkQueue := fun hm => by
      have := t3 r hm; rw [ht] at this; cases this
    simp only [moveLinkToQueue, ht, queueRemove, queuePush]
    refine ⟨⟨n1, n2, n3, ?_, ?_, ?_⟩, ⟨e1, e2, e3⟩, fun _ h => h, fun _ h => h, fun _ h => h⟩
    · intro p hp
      rw [htag p (fun e => e1 (e ▸ hp))]; exact t1 p hp
    · intro p hp
      rw [htag p (fun e => e2 (e ▸ hp))]; exact t2 p hp
    · intro p hp
      rw [htag p (fun e => e3 (e ▸ hp))]; exact t3 p hp
  | EntryQueueID =>
    have e1 : r ∉ hd.linkQueue.erase r := fun hm => (List.Nodup.mem_erase_iff n1).mp hm |>.1 rfl
    have e2 : r ∉ hd.insertQueue := fun hm => by have := t2 r hm; rw [ht] at this; cases this
    have e3 : r ∉ hd.persistedLinkQueue := fun hm => by
      have := t3 r hm; rw [ht] at this; cases this
    simp only [moveLinkToQueue, ht, queueRemove, queuePush]
    refine ⟨⟨n1.erase r, n2, n3, ?_, ?_, ?_⟩, ⟨e1, e2, e3⟩,
      fun _ h => List.mem_of_mem_erase h, fun _ h => h, fun _ h => h⟩
    · intro p hp
      rw [htag p (fun e => e1 (e ▸ hp))]; exact t1 p (List.mem_of_mem_erase hp)
    · intro p hp
      rw [htag p (fun e => e2 (e ▸ hp))]; exact t2 p hp
    · intro p hp
      rw [htag p (fun e => e3 (e ▸ hp))]; exact t3 p hp
  | InsertQueueID =>
    have e1 : r ∉ hd.linkQueue := fun hm => by have := t1 r hm; rw [ht] at this; cases this
    have e2 : r ∉ hd.insertQueue.erase r := fun hm =>
      (List.Nodup.mem_erase_iff n2).mp hm |>.1 rfl
    have e3 : r ∉ hd.persistedLinkQueue := fun hm => by
      have := t3 r hm; rw [ht] at this; cases this
    simp only [moveLinkToQueue, ht, queueRemove, queuePush]
    refine ⟨⟨n1, n2.erase r, n3, ?_, ?_, ?_⟩, ⟨e1, e2, e3⟩,
      fun _ h => h, fun _ h => List.mem_of_mem_erase h, fun _ h => h⟩
    · intro p hp
      rw [htag p (fun e => e1 (e ▸ hp))]; exact t1 p hp
    · intro p hp
      rw [htag p (fun e => e2 (e ▸ hp))]; exact t2 p (List.mem_of_mem_erase hp)
    · intro p hp
      rw [htag p (fun e => e3 (e ▸ hp))]; exact t3 p hp
  | PersistedQueueID =>
    have e1 : r ∉ hd.linkQueue := fun hm => by have := t1 r hm; rw [ht] at this; cases this
    have e2 : r ∉ hd.insertQueue := fun hm => by have := t2 r hm; rw [ht] at this; cases this
    have e3 : r ∉ hd.persistedLinkQueue.erase r := fun hm =>
      (List.Nodup.mem_erase_iff n3).mp hm |>.1 rfl
    simp only [moveLinkToQueue, ht, queueRemove, queuePush]
    refine ⟨⟨n1, n2, n3.erase r, ?_, ?_, ?_⟩, ⟨e1, e2, e3⟩,
      fun _ h => h, fun _ h => h, fun _ h => List.mem_of_mem_erase h⟩
    · intro p hp
      rw [htag p (fun e => e1 (e ▸ hp))]; exact t1 p hp
    · intro p hp
      rw [htag p (fun e => e2 (e ▸ hp))]; exact t2 p hp
    · intro p hp
      rw [htag p (fun e => e3 (e ▸ hp))]; exact t3 p (List.mem_of_mem_erase hp)

theorem queuesOk_of_mem {hd : HeaderDownload} (hq : QueuesOk hd) (mem3 : List Link)
    (h : ∀ q, (getLink mem3 q).queueId = (getLink hd.mem q).queueId) :
    QueuesOk { hd with mem := mem3 } := by
  obtain ⟨n1, n2, n3, t1, t2, t3⟩ := hq
  refine ⟨n1, n2, n3, ?_, ?_, ?_⟩
  · intro p hp
    show (getLink mem3 p).queueId = _
    rw [h p]; exact t1 p hp
  · intro p hp
    show (getLink mem3 p).queueId = _
    rw [h p]; exact t2 p hp
  · intro p hp
    show (getLink mem3 p).queueId = _
    rw [h p]; exact t3 p hp

theorem queuesOk_of_links {hd : HeaderDownload} (hq : QueuesOk hd) (l : List (Hash × Nat)) :
    QueuesOk { hd with links := l } := hq

/-- The loop of `removeUpwards` keeps the queues in agreement with the tags and
adds no link to a queue. -/
theorem removeUpwardsLoop_queues (n : Nat) :
    ∀ (hd : HeaderDownload) (stack : List Nat) (hd2 : HeaderDownload),
      QueuesOk hd → removeUpwardsLoop n hd stack = some hd2 →
        QueuesOk hd2 ∧ (∀ x, x ∈ hd2.linkQueue → x ∈ hd.linkQueue) ∧
          (∀ x, x ∈ hd2.insertQueue → x ∈ hd.insertQueue) ∧
          (∀ x, x ∈ hd2.persistedLinkQueue → x ∈ hd.persistedLinkQueue) := by
  induction n with
  | zero =>
    intro hd stack hd2 hq h
    cases stack with
    | nil =>
      simp only [removeUpwardsLoop, Option.some.injEq] at h
      subst h
      exact ⟨hq, fun _ h => h, fun _ h => h, fun _ h => h⟩
    | cons r rest => simp [removeUpwardsLoop] at h
  | succ n ih =>
    intro hd stack hd2 hq h
    cases stack with
    | nil =>
      simp only [removeUpwardsLoop, Option.some.injEq] at h
      subst h
      exact ⟨hq, fun _ h => h, fun _ h => h, fun _ h => h⟩
    | cons r rest =>
      simp only [removeUpwardsLoop] at h
      split at h
      · simp at h
      · split at h
        · simp at h
        · rename_i mem3 hclear
          simp only [ClearChildren] at hclear
          obtain ⟨q1, _, s1, s2, s3⟩ := moveLinkToQueue_noQueue
            { hd with links := mapDel hd.links (getLink hd.mem r).hash } r
            (queuesOk_of_links hq _)
          have q2 := queuesOk_of_mem q1 mem3 (clearNext_queueId _ _ _ _ hclear)
          obtain ⟨q3, u1, u2, u3⟩ := ih _ _ _ q2 h
          exact ⟨q3, fun x hx => s1 x (u1 x hx), fun x hx => s2 x (u2 x hx),
            fun x hx => s3 x (u3 x hx)⟩

/-- One turn of the loop of `removeUpwards` keeps every link of the subtrees in
reach: a link covered by the stack is the link just removed or is covered by
the next stack. -/
theorem covered_step (n : Nat) (mem : List Link) (r : Nat) (rest cs : List Nat)
    (mem3 : List Link)
    (hcs : collectChildren n (setLink mem r { getLink mem r with queueId := QueueID.NoQueue })
      (getLink (setLink mem r { getLink mem r with queueId := QueueID.NoQueue }) r).fChild =
        some cs)
    (hclear : clearNext n (setLink mem r { getLink mem r with queueId := QueueID.NoQueue })
      (getLink (setLink mem r { getLink mem r with queueId := QueueID.NoQueue }) r).fChild =
        some mem3)
    (x : Nat) (hx : Covered mem (r :: rest) x) :
    x = r ∨ Covered mem3 (cs.reverse ++ rest) x := by
  have hP2 := pruned_setLink_queueId mem r QueueID.NoQueue
  have hF2 := setLink_queueId_fields mem r QueueID.NoQueue
  have hP3 := clearNext_pruned n _ _ _ hclear
  have hout := clearNext_outside n _ _ _ hclear
  have cov_of_chain : ∀ c,
      InChain (setLink mem r { getLink mem r with queueId := QueueID.NoQueue })
        (getLink (setLink mem r { getLink mem r with queueId := QueueID.NoQueue }) r).fChild c →
      (x = c ∨ Below mem3 (getLink mem3 c).fChild x) →
      Covered mem3 (cs.reverse ++ rest) x := by
    intro c hc hxc
    exact ⟨c, List.mem_append_left _
      (List.mem_reverse.mpr (collectChildren_mem n _ _ _ hcs c hc)), hxc⟩
  obtain ⟨r2, hr2, hx2⟩ := hx
  rcases hx2 with hx2 | hx2
  · rcases List.mem_cons.mp hr2 with hr | hr
    · left; rw [hx2, hr]
    · exact Or.inr ⟨r2, List.mem_append_right _ hr, Or.inl hx2⟩
  · have hb2 : Below (setLink mem r { getLink mem r with queueId := QueueID.NoQueue })
        (getLink (setLink mem r { getLink mem r with queueId := QueueID.NoQueue }) r2).fChild x := by
      rw [(hF2 r2).1]
      exact below_congr hF2 hx2
    rcases below_cut hP3 _ (fun q hq => congrArg Link.next (hout q hq)) hb2 with hb3 | hb3
    · rcases List.mem_cons.mp hr2 with hr | hr
      · subst hr
        cases hf : (getLink (setLink mem r2
            { getLink mem r2 with queueId := QueueID.NoQueue }) r2).fChild with
        | none =>
          rw [hf] at hb3
          cases hb3
        | some c1 =>
          rw [hf] at hb3
          obtain ⟨c, hc, hxc⟩ := below_chain_covered hP3 (some c1) hb3 c1 rfl
            (InChain.here c1)
          rw [← hf] at hc
          exact Or.inr (cov_of_chain c hc hxc)
      · refine Or.inr ⟨r2, List.mem_append_right _ hr, Or.inr ?_⟩
        rw [(hP3 r2).1]
        exact hb3
    · obtain ⟨c, hc, hxc⟩ := hb3
      exact Or.inr (cov_of_chain c hc hxc)

/-- When the loop of `removeUpwards` returns, no link of the subtrees of the
links it started from is in a queue, provided the queues agreed with the tags. -/
theorem removeUpwardsLoop_unqueues (n : Nat) :
    ∀ (hd : HeaderDownload) (stack : List Nat) (hd2 : HeaderDownload),
      QueuesOk hd → removeUpwardsLoop n hd stack = some hd2 →
        ∀ x, Covered hd.mem stack x → inNoQueue hd2 x := by
  induction n with
  | zero =>
    intro hd stack hd2 _ h x hx
    cases stack with
    | nil =>
      obtain ⟨r, hr, _⟩ := hx
      cases hr
    | cons r rest => simp [removeUpwardsLoop] at h
  | succ n ih =>
    intro hd stack hd2 hq h x hx
    cases stack with
    | nil =>
      obtain ⟨r, hr, _⟩ := hx
      cases hr
    | cons r rest =>
      simp only [removeUpwardsLoop] at h
      split at h
      · simp at h
      · rename_i cs hcs
        split at h
        · simp at h
        · rename_i mem3 hclear
          obtain ⟨q1, hno, _, _, _⟩ := moveLinkToQueue_noQueue
            { hd with links := mapDel hd.links (getLink hd.mem r).hash } r
            (queuesOk_of_links hq _)
          simp only [ClearChildren] at hclear
          have q2 := queuesOk_of_mem q1 mem3 (clearNext_queueId _ _ _ _ hclear)
          obtain ⟨_, u1, u2, u3⟩ := removeUpwardsLoop_queues n _ _ _ q2 h
          simp only [moveLinkToQueue_mem] at hcs hclear
          rcases covered_step n hd.mem r rest cs mem3 hcs hclear x hx with e | hc
          · subst e
            exact ⟨fun hm => hno.1 (u1 _ hm), fun hm => hno.2.1 (u2 _ hm),
              fun hm => hno.2.2 (u3 _ hm)⟩
          · exact ih _ _ _ q2 h x hc

/-! ## removeUpwards as a whole -/

theorem ranked_setLink {mem : List Link} {rank : Nat → Nat} (hr : Ranked mem rank) (z : Nat)
    (l : Link) (h : ∀ c, (l.fChild = some c ∨ l.next = some c) → rank c < rank z) :
    Ranked (setLink mem z l) rank := by
  intro q c hqc
  rw [getLink_setLink] at hqc
  split at hqc
  · rename_i e
    rw [e.1]
    exact h c hqc
  · exact hr q c hqc

/-- Replacing a pointer to `link` by the next sibling of `link` keeps the ranks
and leaves every link of rank at most that of `link` as it is. -/
theorem skip_link_spec {mem : List Link} {rank : Nat → Nat} (hr : Ranked mem rank)
    (z link : Nat) (l : Link)
    (hz : (getLink mem z).fChild = some link ∨ (getLink mem z).next = some link)
    (hl : (l.fChild = (getLink mem z).fChild ∧ l.next = (getLink mem link).next) ∨
      (l.fChild = (getLink mem link).next ∧ l.next = (getLink mem z).next)) :
    Ranked (setLink mem z l) rank ∧
      ∀ y, rank y ≤ rank link → getLink (setLink mem z l) y = getLink mem y := by
  have hlz : rank link < rank z := hr z link hz
  constructor
  · apply ranked_setLink hr
    intro c hc
    rcases hl with ⟨h1, h2⟩ | ⟨h1, h2⟩
    · rcases hc with hc | hc
      · rw [h1] at hc
        exact hr z c (Or.inl hc)
      · rw [h2] at hc
        exact lt_trans (hr link c (Or.inr hc)) hlz
    · rcases hc with hc | hc
      · rw [h1] at hc
        exact lt_trans (hr link c (Or.inr hc)) hlz
      · rw [h2] at hc
        exact hr z c (Or.inr hc)
  · intro y hy
    apply getLink_setLink_ne
    intro e
    subst e
    omega

theorem detachNext_spec (rank : Nat → Nat) (n : Nat) :
    ∀ (mem : List Link) (o : Option Nat) (link : Nat), Ranked mem rank →
      (∀ c, o = some c → rank c < n) →
        ∃ mem1, detachNext n mem o link = some mem1 ∧ Ranked mem1 rank ∧
          ∀ y, rank y ≤ rank link → getLink mem1 y = getLink mem y := by
  induction n with
  | zero =>
    intro mem o link hr ho
    cases o with
    | none => exact ⟨mem, rfl, hr, fun _ _ => rfl⟩
    | some c => exact absurd (ho c rfl) (Nat.not_lt_zero _)
  | succ n ih =>
    intro mem o link hr ho
    cases o with
    | none => exact ⟨mem, rfl, hr, fun _ _ => rfl⟩
    | some c =>
      simp only [detachNext]
      by_cases hn : (getLink mem c).next = some link
      · rw [if_pos hn]
        obtain ⟨h1, h2⟩ := skip_link_spec hr c link
          { getLink mem c with next := (getLink mem link).next } (Or.inr hn)
          (Or.inl ⟨rfl, rfl⟩)
        exact ⟨_, rfl, h1, h2⟩
      · rw [if_neg hn]
        apply ih _ _ _ hr
        intro d hd
        have := hr c d (Or.inr hd)
        have := ho c rfl
        omega

theorem linkRemoveChild_spec (rank : Nat → Nat) (n : Nat) (mem : List Link) (par link : Nat)
    (hr : Ranked mem rank) (hn : rank par ≤ n) :
    ∃ mem1, linkRemoveChild n mem par link = some mem1 ∧ Ranked mem1 rank ∧
      ∀ y, rank y ≤ rank link → getLink mem1 y = getLink mem y := by
  unfold linkRemoveChild
  by_cases hf : (getLink mem par).fChild = some link
  · rw [if_pos hf]
    obtain ⟨h1, h2⟩ := skip_link_spec hr par link
      { getLink mem par with fChild := (getLink mem link).next } (Or.inl hf)
      (Or.inr ⟨rfl, rfl⟩)
    exact ⟨_, rfl, h1, h2⟩
  · rw [if_neg hf]
    apply detachNext_spec rank n _ _ _ hr
    intro c hc
    have := hr par c (Or.inl hc)
    omega

theorem detachFromParent_spec (rank : Nat → Nat) (n : Nat) (hd : HeaderDownload) (link : Nat)
    (hr : Ranked hd.mem rank)
    (hn : ∀ h par, (getLink hd.mem link).header = some h →
      mapGet hd.links h.ParentHash = some par → rank par ≤ n) :
    ∃ hd1, detachFromParent n hd link = some hd1 ∧ Ranked hd1.mem rank ∧
      ∀ y, rank y ≤ rank link → getLink hd1.mem y = getLink hd.mem y := by
  unfold detachFromParent
  cases hh : (getLink hd.mem link).header with
  | none => exact ⟨hd, rfl, hr, fun _ _ => rfl⟩
  | some h =>
    dsimp only
    cases hp : mapGet hd.links h.ParentHash with
    | none => exact ⟨hd, rfl, hr, fun _ _ => rfl⟩
    | some par =>
      dsimp only
      obtain ⟨mem1, h1, h2, h3⟩ := linkRemoveChild_spec rank n hd.mem par link hr (hn h par hh hp)
      exact ⟨{ hd with mem := mem1 }, by rw [h1]; rfl, h2, h3⟩

theorem detachFromParent_queuesOk (n : Nat) (hd : HeaderDownload) (link : Nat)
    (hd1 : HeaderDownload) (h : detachFromParent n hd link = some hd1) (hq : QueuesOk hd) :
    QueuesOk hd1 := by
  unfold detachFromParent at h
  split at h
  · simp only [Option.some.injEq] at h; subst h; exact hq
  · split at h
    · simp only [Option.some.injEq] at h; subst h; exact hq
    · simp only [Option.map_eq_some'] at h
      obtain ⟨m, hm, h⟩ := h
      subst h
      exact queuesOk_of_mem hq m (linkRemoveChild_queueId _ _ _ _ _ hm)

/-- Links below a child list whose members have rank below `R` stay below it
when only links of rank at least `R` change. -/
theorem below_stable {mem mem1 : List Link} {rank : Nat → Nat} (hr : Ranked mem rank) (R : Nat)
    (hsame : ∀ y, rank y < R → getLink mem1 y = getLink mem y) {o : Option Nat} {x : Nat}
    (h : Below mem o x) : (∀ c, o = some c → rank c < R) → Below mem1 o x := by
  induction h with
  | here p => intro _; exact Below.here p
  | child p x _ ih =>
    intro ho
    have hp := ho p rfl
    apply Below.child
    rw [hsame p hp]
    exact ih (fun c hc => lt_trans (hr p c (Or.inl hc)) hp)
  | sibling p x _ ih =>
    intro ho
    have hp := ho p rfl
    apply Below.sibling
    rw [hsame p hp]
    exact ih (fun c hc => lt_trans (hr p c (Or.inr hc)) hp)

/-- Go `removeUpwards` on a forest without cycles whose queues agree with the
tags: with enough fuel it returns, and the link and every link below it are out
of the store and out of every queue. -/
theorem removeUpwards_spec (rank : Nat → Nat) (n : Nat) (hd : HeaderDownload) (link : Nat)
    (hr : Ranked hd.mem rank) (hq : QueuesOk hd)
    (hn : ∀ h par, (getLink hd.mem link).header = some h →
      mapGet hd.links h.ParentHash = some par → rank par ≤ n)
    (hw : 2 ^ rank link ≤ n) :
    ∃ hd2, removeUpwards n hd link = some hd2 ∧
      ∀ x, (x = link ∨ Below hd.mem (getLink hd.mem link).fChild x) →
        mapGet hd2.links (getLink hd.mem x).hash = none ∧ inNoQueue hd2 x := by
  obtain ⟨hd1, h1, hr1, hsame⟩ := detachFromParent_spec rank n hd link hr hn
  have hq1 := detachFromParent_queuesOk _ _ _ _ h1 hq
  have hs1 := (detachFromParent_sameLinks _ _ _ _ h1).1
  obtain ⟨hd2, h2⟩ := removeUpwardsLoop_total rank n hd1 [link] hr1
    (by simp only [weight, List.map_cons, List.map_nil, List.sum_cons, List.sum_nil]; omega)
  refine ⟨hd2, by simp only [removeUpwards, h1, Option.some_bind, h2], ?_⟩
  intro x hx
  have hcov : Covered hd1.mem [link] x := by
    refine ⟨link, List.mem_singleton.mpr rfl, ?_⟩
    rcases hx with e | hb
    · exact Or.inl e
    · right
      rw [hsame link (le_refl _)]
      exact below_stable hr (rank link) (fun y hy => hsame y (Nat.le_of_lt hy)) hb
        (fun c hc => hr link c (Or.inl hc))
  have e1 := removeUpwardsLoop_removes n hd1 [link] hd2 h2 x hcov
  rw [(sameLinks_linked hs1 x).2.2.2.1] at e1
  exact ⟨e1, removeUpwardsLoop_unqueues n hd1 [link] hd2 hq1 h2 x hcov⟩

theorem ranked_of_acyclic {mem : List Link} {rank : Nat → Nat} (h : acyclic mem rank = true) :
    Ranked mem rank := by
  intro q c hc
  by_cases hq : q < mem.length
  · exact acyclic_spec h hq hc
  · rw [getLink_of_ge _ _ (Nat.le_of_not_lt hq)] at hc
    rcases hc with hc | hc <;> cases hc

theorem badChainEngine_reached :
    ProcessHeaders 10 90000 { persistedEngine with badHeaders := [11] }
        [header11, header12, header16, header17, header18] false 7 =
      some (badChainEngine, false) := by
  decide

/-- The fuel that `removeUpwards` needs at most on `link`, by the rank of the
forest. -/
theorem removeUpwards_fuel (rank : Nat → Nat) (hd : HeaderDownload) (link : Nat) :
    ∃ fuel0, ∀ fuel, fuel0 ≤ fuel →
      (∀ h par, (getLink hd.mem link).header = some h →
        mapGet hd.links h.ParentHash = some par → rank par ≤ fuel) ∧ 2 ^ rank link ≤ fuel := by
  cases hh : (getLink hd.mem link).header with
  | none =>
    refine ⟨2 ^ rank link, fun fuel hf => ⟨?_, hf⟩⟩
    intro h par e
    cases e
  | some h0 =>
    cases hp : mapGet hd.links h0.ParentHash with
    | none =>
      refine ⟨2 ^ rank link, fun fuel hf => ⟨?_, hf⟩⟩
      intro h par e e2
      cases e
      rw [hp] at e2
      cases e2
    | some p0 =>
      refine ⟨2 ^ rank link + rank p0, fun fuel hf =>
        ⟨?_, le_trans (Nat.le_add_right _ _) hf⟩⟩
      intro h par e e2
      cases e
      rw [hp] at e2
      cases e2
      exact le_trans (Nat.le_add_left _ _) hf

/-! ## InsertHeader: bad and invalid headers -/

/-- Claim C11: when the front link of the insert queue has its own hash among the
bad headers, or is not persisted and has the parent hash of its header among
them, then, on a forest without cycles whose queues agree with the tags and
with enough fuel, `InsertHeader` returns `more = true` without error; the state
it returns is the same for every verifier and every callback and the database
is the one given (neither is called); the link and every link below it are out
of the store and out of every queue; `RejectedBadHeaders` has grown by exactly
one and `highestInDb` is unchanged. -/
theorem InsertHeader_bad_header {σ ε : Type} (rank : Nat → Nat) (hd : HeaderDownload)
    (link : Nat) (hrk : acyclic hd.mem rank = true) (hqt : queuesTagged hd = true)
    (hfront : heapMin hd.mem hd.insertQueue = some link)
    (hbad : (getLink hd.mem link).hash ∈ hd.badHeaders ∨
      ((getLink hd.mem link).persisted = false ∧
        ∃ h, (getLink hd.mem link).header = some h ∧ h.ParentHash ∈ hd.badHeaders)) :
    ∃ fuel0, ∀ fuel, fuel0 ≤ fuel → ∃ hd2,
      (∀ (verify : Header → VerifyResult) (hf : FeedHeaderFunc σ ε) (ttd : Option Int) (db : σ),
        InsertHeader fuel verify hf ttd hd db =
          some { hd := hd2, db := db, more := true, force := false, blocksToTTD := 0,
                 lastTime := 0, err := none }) ∧
      hd2.stats.RejectedBadHeaders = hd.stats.RejectedBadHeaders + 1 ∧
      hd2.highestInDb = hd.highestInDb ∧
      ∀ x, (x = link ∨ Below hd.mem (getLink hd.mem link).fChild x) →
        mapGet hd2.links (getLink hd.mem x).hash = none ∧ inNoQueue hd2 x := by
  have hb : isBad hd (getLink hd.mem link) = some true := by
    unfold isBad
    rcases hbad with h1 | ⟨h1, h, h2, h3⟩
    · rw [if_pos h1]
    · by_cases h0 : (getLink hd.mem link).hash ∈ hd.badHeaders
      · rw [if_pos h0]
      · rw [if_neg h0, h1, h2]
        simp [h3]
  obtain ⟨fuel0, hfuel⟩ := removeUpwards_fuel rank hd link
  refine ⟨fuel0, fun fuel hge => ?_⟩
  obtain ⟨hn, hw⟩ := hfuel fuel hge
  obtain ⟨hd1, h1, hrem⟩ := removeUpwards_spec rank fuel hd link (ranked_of_acyclic hrk)
    (queuesTagged_spec hqt) hn hw
  have hfr := (removeUpwards_frame _ _ _ _ h1).2
  refine ⟨{ hd1 with
            stats := { hd1.stats with RejectedBadHeaders := hd1.stats.RejectedBadHeaders + 1 } },
    ?_, ?_, ?_, ?_⟩
  · intro verify hf ttd db
    unfold InsertHeader
    simp only [hfront, hb, h1, Option.map_some']
  · show hd1.stats.RejectedBadHeaders + 1 = _
    rw [hfr.1]
  · exact hfr.2.1
  · intro x hx
    exact hrem x hx

/-- Claim C11 at a concrete input: header `0x0b` is marked bad and is the root of
a chain of five links; `InsertHeader` removes all five from the store and from
the queues, whatever the verifier and the callback. -/
theorem InsertHeader_bad_header_witness :
    ∃ fuel0, ∀ fuel, fuel0 ≤ fuel → ∃ hd2,
      (∀ (verify : Header → VerifyResult) (hf : FeedHeaderFunc (List Nat) Nat) (ttd : Option Int)
          (db : List Nat),
        InsertHeader fuel verify hf ttd badChainEngine db =
          some { hd := hd2, db := db, more := true, force := false, blocksToTTD := 0,
                 lastTime := 0, err := none }) ∧
      hd2.stats.RejectedBadHeaders = 1 ∧ hd2.highestInDb = 4 ∧
      (mapGet hd2.links 11 = none ∧ mapGet hd2.links 12 = none ∧ mapGet hd2.links 16 = none ∧
        mapGet hd2.links 17 = none ∧ mapGet hd2.links 18 = none) ∧
      (inNoQueue hd2 1 ∧ inNoQueue hd2 2 ∧ inNoQueue hd2 3 ∧ inNoQueue hd2 4 ∧
        inNoQueue hd2 5) := by
  obtain ⟨fuel0, h⟩ := @InsertHeader_bad_header (List Nat) Nat (fun q => 10 - q) badChainEngine 1
    (by decide) (by decide) (by decide) (Or.inl (by decide))
  refine ⟨fuel0, fun fuel hge => ?_⟩
  obtain ⟨hd2, h1, h2, h3, h4⟩ := h fuel hge
  have b2 : Below badChainEngine.mem (getLink badChainEngine.mem 1).fChild 2 := Below.here 2
  have b3 : Below badChainEngine.mem (getLink badChainEngine.mem 1).fChild 3 :=
    Below.child 2 3 (Below.here 3)
  have b4 : Below badChainEngine.mem (getLink badChainEngine.mem 1).fChild 4 :=
    Below.child 2 4 (Below.child 3 4 (Below.here 4))
  have b5 : Below badChainEngine.mem (getLink badChainEngine.mem 1).fChild 5 :=
    Below.child 2 5 (Below.child 3 5 (Below.child 4 5 (Below.here 5)))
  exact ⟨hd2, h1, h2, h3,
    ⟨(h4 1 (Or.inl rfl)).1, (h4 2 (Or.inr b2)).1, (h4 3 (Or.inr b3)).1, (h4 4 (Or.inr b4)).1,
      (h4 5 (Or.inr b5)).1⟩,
    ⟨(h4 1 (Or.inl rfl)).2, (h4 2 (Or.inr b2)).2, (h4 3 (Or.inr b3)).2, (h4 4 (Or.inr b4)).2,
      (h4 5 (Or.inr b5)).2⟩⟩

/-- Claim C13: when the front link of the insert queue is not bad, is not
verified, and the verifier returns an error other than the future-block error,
then, on a forest without cycles whose queues agree with the tags and with
enough fuel, `InsertHeader` returns `more = true` without error; the state it
returns is the same for every callback and the database is the one given (the
callback is not called); the PoS bad-map maps the hash of the link to the
parent hash of its header; the link and every link below it are out of the
store and out of every queue; `InvalidHeaders` has grown by exactly one. -/
theorem InsertHeader_invalid_header {σ ε : Type} (rank : Nat → Nat) (hd : HeaderDownload)
    (link : Nat) (h : Header) (verify : Header → VerifyResult)
    (hrk : acyclic hd.mem rank = true) (hqt : queuesTagged hd = true)
    (hfront : heapMin hd.mem hd.insertQueue = some link)
    (hbad : isBad hd (getLink hd.mem link) = some false)
    (hhdr : (getLink hd.mem link).header = some h)
    (hver : (getLink hd.mem link).verified = false)
    (hinv : verify h = VerifyResult.invalid) :
    ∃ fuel0, ∀ fuel, fuel0 ≤ fuel → ∃ hd2,
      (∀ (hf : FeedHeaderFunc σ ε) (ttd : Option Int) (db : σ),
        InsertHeader fuel verify hf ttd hd db =
          some { hd := hd2, db := db, more := true, force := false, blocksToTTD := 0,
                 lastTime := 0, err := none }) ∧
      mapGet hd2.badPoSHeaders (getLink hd.mem link).hash = some h.ParentHash ∧
      hd2.stats.InvalidHeaders = hd.stats.InvalidHeaders + 1 ∧
      ∀ x, (x = link ∨ Below hd.mem (getLink hd.mem link).fChild x) →
        mapGet hd2.links (getLink hd.mem x).hash = none ∧ inNoQueue hd2 x := by
  obtain ⟨fuel0, hfuel⟩ := removeUpwards_fuel rank hd link
  refine ⟨fuel0, fun fuel hge => ?_⟩
  obtain ⟨hn, hw⟩ := hfuel fuel hge
  obtain ⟨hd1, h1, hrem⟩ := removeUpwards_spec rank fuel
    { hd with badPoSHeaders := mapSet hd.badPoSHeaders (getLink hd.mem link).hash h.ParentHash }
    link (ranked_of_acyclic hrk) (queuesTagged_spec hqt) hn hw
  have hfr := (removeUpwards_frame _ _ _ _ h1).2
  refine ⟨{ hd1 with
            stats := { hd1.stats with InvalidHeaders := hd1.stats.InvalidHeaders + 1 } },
    ?_, ?_, ?_, ?_⟩
  · intro hf ttd db
    unfold InsertHeader
    simp only [hfront, hbad, hhdr, hver, hinv, h1, Option.map_some']
    rfl
  · show mapGet hd1.badPoSHeaders _ = _
    rw [hfr.2.2.2.2.2.2.2.2.2.2.1]
    exact mapGet_mapSet_self _ _ _
  · show hd1.stats.InvalidHeaders + 1 = _
    rw [hfr.1]
  · intro x hx
    exact hrem x hx

/-- Claim C13 at a concrete input: the verifier rejects the front link `0x0b` of
`readyEngine`; `InsertHeader` records `0x0b ↦ 0x0a` in the PoS bad-map and
removes `0x0b` and its child `0x0c` from the store and from the queues. -/
theorem InsertHeader_invalid_header_witness :
    ∃ fuel0, ∀ fuel, fuel0 ≤ fuel → ∃ hd2,
      (∀ (hf : FeedHeaderFunc (List Nat) Nat) (ttd : Option Int) (db : List Nat),
        InsertHeader fuel verifyInvalid hf ttd readyEngine db =
          some { hd := hd2, db := db, more := true, force := false, blocksToTTD := 0,
                 lastTime := 0, err := none }) ∧
      mapGet hd2.badPoSHeaders 11 = some 10 ∧ hd2.stats.InvalidHeaders = 1 ∧
      mapGet hd2.links 11 = none ∧ mapGet hd2.links 12 = none ∧
      inNoQueue hd2 2 ∧ inNoQueue hd2 1 := by
  obtain ⟨fuel0, h⟩ := @InsertHeader_invalid_header (List Nat) Nat readyRank readyEngine 2
    header11.header verifyInvalid (by decide) (by decide) (by decide) (by decide) (by decide)
    (by decide) (by decide)
  refine ⟨fuel0, fun fuel hge => ?_⟩
  obtain ⟨hd2, h1, h2, h3, h4⟩ := h fuel hge
  have b1 : Below readyEngine.mem (getLink readyEngine.mem 2).fChild 1 := Below.here 1
  exact ⟨hd2, h1, h2, h3, (h4 2 (Or.inl rfl)).1, (h4 1 (Or.inr b1)).1, (h4 2 (Or.inl rfl)).2,
    (h4 1 (Or.inr b1)).2⟩

/-! ## Requests -/

/-- Claim C27: for every value of `highestInDb` and `initialCycle`,
`RequestSkeleton` returns the request with `Number = max 1 (highestInDb - 1)`
(the subtraction is only made above 1, so `Number = 1` for `highestInDb` 0, 1
and 2), `Length = 192`, `Skip = 192` in the initial cycle and 0 otherwise,
`Reverse = false`, no hash and no anchor, and it leaves the engine as it is. -/
theorem RequestSkeleton_spec (hd : HeaderDownload) :
    (RequestSkeleton hd).1 = hd ∧
    (RequestSkeleton hd).2 =
      { Number := max 1 (hd.highestInDb - 1), Length := 192,
        Skip := if hd.initialCycle then 192 else 0, Reverse := false } ∧
    (hd.highestInDb ≤ 2 → (RequestSkeleton hd).2.Number = 1) ∧
    (2 ≤ hd.highestInDb → (RequestSkeleton hd).2.Number + 1 = hd.highestInDb) := by
  have e : (if hd.highestInDb ≤ 1 then 1 else hd.highestInDb - 1) = max 1 (hd.highestInDb - 1) := by
    split
    · rename_i h
      have : hd.highestInDb - 1 = 0 := by omega
      rw [this]; rfl
    · rename_i h
      rw [max_eq_right]
      omega
  refine ⟨rfl, ?_, ?_, ?_⟩
  · simp only [RequestSkeleton, e]
  · intro h
    simp only [RequestSkeleton]
    split <;> omega
  · intro h
    simp only [RequestSkeleton]
    split <;> omega

/-! ## removeUpwards and the links outside the subtree -/

/-- The loop of `removeUpwards` and the rest of the heap: a link below some list
before the loop is out of the store afterwards or still below that list. -/
theorem removeUpwardsLoop_outside (n : Nat) :
    ∀ (hd : HeaderDownload) (stack : List Nat) (hd2 : HeaderDownload),
      removeUpwardsLoop n hd stack = some hd2 →
        ∀ (o : Option Nat) (x : Nat), Below hd.mem o x →
          mapGet hd2.links (getLink hd.mem x).hash = none ∨ Below hd2.mem o x := by
  induction n with
  | zero =>
    intro hd stack hd2 h o x hx
    cases stack with
    | nil =>
      simp only [removeUpwardsLoop, Option.some.injEq] at h
      subst h
      exact Or.inr hx
    | cons r rest => simp [removeUpwardsLoop] at h
  | succ n ih =>
    intro hd stack hd2 h o x hx
    cases stack with
    | nil =>
      simp only [removeUpwardsLoop, Option.some.injEq] at h
      subst h
      exact Or.inr hx
    | cons r rest =>
      simp only [removeUpwardsLoop] at h
      split at h
      · simp at h
      · rename_i cs hcs
        split at h
        · simp at h
        · rename_i mem3 hclear
          simp only [moveLinkToQueue_mem] at hcs hclear h
          simp only [ClearChildren] at hclear
          have hP2 := pruned_setLink_queueId hd.mem r QueueID.NoQueue
          have hF2 := setLink_queueId_fields hd.mem r QueueID.NoQueue
          have hP3 := clearNext_pruned n _ _ _ hclear
          have hout := clearNext_outside n _ _ _ hclear
          have hhash : (getLink mem3 x).hash = (getLink hd.mem x).hash :=
            ((pruned_trans hP2 hP3) x).2.1
          have hb2 : Below (setLink hd.mem r { getLink hd.mem r with queueId := QueueID.NoQueue })
              o x := below_congr hF2 hx
          rcases below_cut hP3 _ (fun q hq => congrArg Link.next (hout q hq)) hb2 with hb3 | hb3
          · have := ih _ _ _ h o x hb3
            rw [hhash] at this
            exact this
          · obtain ⟨c, hc, hxc⟩ := hb3
            left
            have hcov : Covered mem3 (cs.reverse ++ rest) x :=
              ⟨c, List.mem_append_left _
                (List.mem_reverse.mpr (collectChildren_mem n _ _ _ hcs c hc)), hxc⟩
            have := removeUpwardsLoop_removes n _ _ _ h x hcov
            rw [hhash] at this
            exact this

theorem inChain_rank {mem : List Link} {rank : Nat → Nat} (hr : Ranked mem rank) (R : Nat)
    {o : Option Nat} {q : Nat} (h : InChain mem o q) :
    (∀ c, o = some c → rank c < R) → rank q < R := by
  induction h with
  | here p => intro ho; exact ho p rfl
  | sibling p q _ ih =>
    intro ho
    exact ih (fun c hc => lt_trans (hr p c (Or.inr hc)) (ho p rfl))

theorem collectChildren_sound (n : Nat) :
    ∀ (mem : List Link) (o : Option Nat) (cs : List Nat),
      collectChildren n mem o = some cs → ∀ q, q ∈ cs → InChain mem o q := by
  induction n with
  | zero =>
    intro mem o cs h q hq
    cases o with
    | none =>
      simp only [collectChildren, Option.some.injEq] at h
      subst h
      cases hq
    | some c => simp [collectChildren] at h
  | succ n ih =>
    intro mem o cs h q hq
    cases o with
    | none =>
      simp only [collectChildren, Option.some.injEq] at h
      subst h
      cases hq
    | some c =>
      simp only [collectChildren, Option.map_eq_some'] at h
      obtain ⟨cs1, h1, h2⟩ := h
      subst h2
      rcases List.mem_cons.mp hq with e | e
      · rw [e]; exact InChain.here c
      · exact InChain.sibling c q (ih _ _ _ h1 q e)

/-- The loop of `removeUpwards` leaves the sibling pointer of every link whose
rank is at least that of the links still to remove. -/
theorem removeUpwardsLoop_top (rank : Nat → Nat) (n : Nat) :
    ∀ (hd : HeaderDownload) (stack : List Nat) (hd2 : HeaderDownload),
      Ranked hd.mem rank → removeUpwardsLoop n hd stack = some hd2 →
        ∀ y, (∀ r ∈ stack, rank r ≤ rank y) →
          (getLink hd2.mem y).next = (getLink hd.mem y).next := by
  induction n with
  | zero =>
    intro hd stack hd2 _ h y _
    cases stack with
    | nil =>
      simp only [removeUpwardsLoop, Option.some.injEq] at h
      subst h; rfl
    | cons r rest => simp [removeUpwardsLoop] at h
  | succ n ih =>
    intro hd stack hd2 hr h y hy
    cases stack with
    | nil =>
      simp only [removeUpwardsLoop, Option.some.injEq] at h
      subst h; rfl
    | cons r rest =>
      simp only [removeUpwardsLoop] at h
      split at h
      · simp at h
      · rename_i cs hcs
        split at h
        · simp at h
        · rename_i mem3 hclear
          simp only [moveLinkToQueue_mem] at hcs hclear h
          simp only [ClearChildren] at hclear
          have hP2 := pruned_setLink_queueId hd.mem r QueueID.NoQueue
          have hF2 := setLink_queueId_fields hd.mem r QueueID.NoQueue
          have hr2 := ranked_of_pruned hP2 hr
          have hP3 := clearNext_pruned n _ _ _ hclear
          have hr3 := ranked_of_pruned hP3 hr2
          have hout := clearNext_outside n _ _ _ hclear
          have hry : rank r ≤ rank y := hy r (List.mem_cons_self _ _)
          have hchain : ∀ q,
              InChain (setLink hd.mem r { getLink hd.mem r with queueId := QueueID.NoQueue })
                (getLink (setLink hd.mem r
                  { getLink hd.mem r with queueId := QueueID.NoQueue }) r).fChild q →
              rank q < rank r := fun q hq =>
            inChain_rank hr2 (rank r) hq (fun c hc => hr2 r c (Or.inl hc))
          have hny : ¬ InChain
              (setLink hd.mem r { getLink hd.mem r with queueId := QueueID.NoQueue })
              (getLink (setLink hd.mem r
                { getLink hd.mem r with queueId := QueueID.NoQueue }) r).fChild y := by
            intro hin
            have := hchain y hin
            omega
          have e3 : (getLink mem3 y).next = (getLink hd.mem y).next := by
            rw [hout y hny, (hF2 y).2]
          rw [← e3]
          apply ih _ _ _ hr3 h y
          intro q hq
          rcases List.mem_append.mp hq with hq | hq
          · have hin := List.mem_reverse.mp hq
            have : rank q < rank r := hchain q (collectChildren_sound n _ _ _ hcs q hin)
            omega
          · exact hy q (List.mem_cons_of_mem _ hq)

/-- What `RemoveChild` does to the heap: nothing, or one pointer to `link` (the
first-child pointer or the sibling pointer of some link `z`) now holds the next
sibling of `link`. -/
theorem detachNext_cases (n : Nat) :
    ∀ (mem : List Link) (o : Option Nat) (link : Nat) (mem1 : List Link),
      detachNext n mem o link = some mem1 →
        mem1 = mem ∨ ∃ z, (getLink mem z).next = some link ∧
          mem1 = setLink mem z { getLink mem z with next := (getLink mem link).next } := by
  induction n with
  | zero =>
    intro mem o link mem1 h
    cases o with
    | none =>
      simp only [detachNext, Option.some.injEq] at h
      exact Or.inl h.symm
    | some c => simp [detachNext] at h
  | succ n ih =>
    intro mem o link mem1 h
    cases o with
    | none =>
      simp only [detachNext, Option.some.injEq] at h
      exact Or.inl h.symm
    | some c =>
      simp only [detachNext] at h
      split at h
      · rename_i hn
        simp only [Option.some.injEq] at h
        exact Or.inr ⟨c, hn, h.symm⟩
      · exact ih _ _ _ _ h

theorem linkRemoveChild_cases (n : Nat) (mem : List Link) (par link : Nat) (mem1 : List Link)
    (h : linkRemoveChild n mem par link = some mem1) :
    mem1 = mem ∨
      (∃ z, (getLink mem z).next = some link ∧
        mem1 = setLink mem z { getLink mem z with next := (getLink mem link).next }) ∨
      (∃ z, (getLink mem z).fChild = some link ∧
        mem1 = setLink mem z { getLink mem z with fChild := (getLink mem link).next }) := by
  unfold linkRemoveChild at h
  split at h
  · rename_i hf
    simp only [Option.some.injEq] at h
    exact Or.inr (Or.inr ⟨par, hf, h.symm⟩)
  · rcases detachNext_cases _ _ _ _ _ h with h1 | h1
    · exact Or.inl h1
    · exact Or.inr (Or.inl h1)

/-- A link below a list stays below it when a sibling pointer to `c` is made to
skip `c`, unless it is `c` or below `c`. -/
theorem skip_next_below {mem : List Link} (z c : Nat) (hzc : z ≠ c)
    (hz : (getLink mem z).next = some c) {o : Option Nat} {x : Nat} (h : Below mem o x) :
    x = c ∨
      Below (setLink mem z { getLink mem z with next := (getLink mem c).next })
        (getLink mem c).fChild x ∨
      Below (setLink mem z { getLink mem z with next := (getLink mem c).next }) o x := by
  have hc : getLink (setLink mem z { getLink mem z with next := (getLink mem c).next }) c =
      getLink mem c := getLink_setLink_ne _ _ _ _ hzc
  have hf : ∀ p, (getLink (setLink mem z { getLink mem z with next := (getLink mem c).next })
      p).fChild = (getLink mem p).fChild := by
    intro p
    rw [getLink_setLink]
    split
    · rename_i e
      rw [e.1]
    · rfl
  induction h with
  | here p => exact Or.inr (Or.inr (Below.here p))
  | child p x _ ih =>
    rcases ih with ih | ih | ih
    · exact Or.inl ih
    · exact Or.inr (Or.inl ih)
    · refine Or.inr (Or.inr (Below.child p x ?_))
      rw [hf p]
      exact ih
  | sibling p x _ ih =>
    rcases ih with ih | ih | ih
    · exact Or.inl ih
    · exact Or.inr (Or.inl ih)
    · by_cases e : p = z ∧ z < mem.length
      · have hpz : p = z := e.1
        subst hpz
        have hnew : (getLink (setLink mem p
            { getLink mem p with next := (getLink mem c).next }) p).next =
            (getLink mem c).next := by
          rw [getLink_setLink, if_pos ⟨rfl, e.2⟩]
        rw [hz] at ih
        cases ih with
        | here _ => exact Or.inl rfl
        | child _ _ h1 =>
          rw [hc] at h1
          exact Or.inr (Or.inl h1)
        | sibling _ _ h1 =>
          rw [hc] at h1
          refine Or.inr (Or.inr (Below.sibling p x ?_))
          rw [hnew]
          exact h1
      · refine Or.inr (Or.inr (Below.sibling p x ?_))
        rw [getLink_setLink, if_neg e]
        exact ih

/-- A link below a list stays below it when a first-child pointer to `c` is made
to skip `c`, unless it is `c` or below `c`. -/
theorem skip_fChild_below {mem : List Link} (z c : Nat) (hzc : z ≠ c)
    (hz : (getLink mem z).fChild = some c) {o : Option Nat} {x : Nat} (h : Below mem o x) :
    x = c ∨
      Below (setLink mem z { getLink mem z with fChild := (getLink mem c).next })
        (getLink mem c).fChild x ∨
      Below (setLink mem z { getLink mem z with fChild := (getLink mem c).next }) o x := by
  have hc : getLink (setLink mem z { getLink mem z with fChild := (getLink mem c).next }) c =
      getLink mem c := getLink_setLink_ne _ _ _ _ hzc
  have hf : ∀ p, (getLink (setLink mem z { getLink mem z with fChild := (getLink mem c).next })
      p).next = (getLink mem p).next := by
    intro p
    rw [getLink_setLink]
    split
    · rename_i e
      rw [e.1]
    · rfl
  induction h with
  | here p => exact Or.inr (Or.inr (Below.here p))
  | sibling p x _ ih =>
    rcases ih with ih | ih | ih
    · exact Or.inl ih
    · exact Or.inr (Or.inl ih)
    · refine Or.inr (Or.inr (Below.sibling p x ?_))
      rw [hf p]
      exact ih
  | child p x _ ih =>
    rcases ih with ih | ih | ih
    · exact Or.inl ih
    · exact Or.inr (Or.inl ih)
    · by_cases e : p = z ∧ z < mem.length
      · have hpz : p = z := e.1
        subst hpz
        have hnew : (getLink (setLink mem p
            { getLink mem p with fChild := (getLink mem c).next }) p).fChild =
            (getLink mem c).next := by
          rw [getLink_setLink, if_pos ⟨rfl, e.2⟩]
        rw [hz] at ih
        cases ih with
        | here _ => exact Or.inl rfl
        | child _ _ h1 =>
          rw [hc] at h1
          exact Or.inr (Or.inl h1)
        | sibling _ _ h1 =>
          rw [hc] at h1
          refine Or.inr (Or.inr (Below.child p x ?_))
          rw [hnew]
          exact h1
      · refine Or.inr (Or.inr (Below.child p x ?_))
        rw [getLink_setLink, if_neg e]
        exact ih

/-- Cutting the sibling pointer of `c`: a link below a list is still below it or
is below the former next sibling of `c`. -/
theorem cut_next_below {mem : List Link} (c : Nat) {o : Option Nat} {x : Nat}
    (h : Below mem o x) :
    Below (setLink mem c { getLink mem c with next := none }) o x ∨
      Below (setLink mem c { getLink mem c with next := none }) (getLink mem c).next x := by
  induction h with
  | here p => exact Or.inl (Below.here p)
  | child p x _ ih =>
    rcases ih with ih | ih
    · refine Or.inl (Below.child p x ?_)
      have : (getLink (setLink mem c { getLink mem c with next := none }) p).fChild =
          (getLink mem p).fChild := by
        rw [getLink_setLink]
        split
        · rename_i e
          rw [e.1]
        · rfl
      rw [this]
      exact ih
    · exact Or.inr ih
  | sibling p x _ ih =>
    rcases ih with ih | ih
    · by_cases e : p = c ∧ c < mem.length
      · rw [e.1] at ih
        exact Or.inr ih
      · refine Or.inl (Below.sibling p x ?_)
        rw [getLink_setLink, if_neg e]
        exact ih
    · exact Or.inr ih

theorem detachFromParent_below {rank : Nat → Nat} (n : Nat) (hd : HeaderDownload) (c : Nat)
    (hd1 : HeaderDownload) (hr : Ranked hd.mem rank) (h : detachFromParent n hd c = some hd1)
    {o : Option Nat} {x : Nat} (hx : Below hd.mem o x) :
    x = c ∨ Below hd1.mem (getLink hd.mem c).fChild x ∨ Below hd1.mem o x := by
  unfold detachFromParent at h
  split at h
  · simp only [Option.some.injEq] at h; subst h
    exact Or.inr (Or.inr hx)
  · split at h
    · simp only [Option.some.injEq] at h; subst h
      exact Or.inr (Or.inr hx)
    · simp only [Option.map_eq_some'] at h
      obtain ⟨m, hm, h⟩ := h
      subst h
      rcases linkRemoveChild_cases _ _ _ _ _ hm with e | ⟨z, hz, e⟩ | ⟨z, hz, e⟩
      · rw [e]
        exact Or.inr (Or.inr hx)
      · rw [e]
        have hzc : z ≠ c := by
          intro e2
          have := hr z c (Or.inr hz)
          rw [e2] at this
          exact Nat.lt_irrefl _ this
        exact skip_next_below z c hzc hz hx
      · rw [e]
        have hzc : z ≠ c := by
          intro e2
          have := hr z c (Or.inl hz)
          rw [e2] at this
          exact Nat.lt_irrefl _ this
        exact skip_fChild_below z c hzc hz hx

theorem removeUpwardsLoop_ranked (rank : Nat → Nat) (n : Nat) :
    ∀ (hd : HeaderDownload) (stack : List Nat) (hd2 : HeaderDownload),
      Ranked hd.mem rank → removeUpwardsLoop n hd stack = some hd2 → Ranked hd2.mem rank := by
  induction n with
  | zero =>
    intro hd stack hd2 hr h
    cases stack with
    | nil =>
      simp only [removeUpwardsLoop, Option.some.injEq] at h
      subst h; exact hr
    | cons r rest => simp [removeUpwardsLoop] at h
  | succ n ih =>
    intro hd stack hd2 hr h
    cases stack with
    | nil =>
      simp only [removeUpwardsLoop, Option.some.injEq] at h
      subst h; exact hr
    | cons r rest =>
      simp only [removeUpwardsLoop] at h
      split at h
      · simp at h
      · split at h
        · simp at h
        · rename_i mem3 hclear
          simp only [moveLinkToQueue_mem] at hclear h
          simp only [ClearChildren] at hclear
          have hr2 := ranked_of_pruned (pruned_setLink_queueId hd.mem r QueueID.NoQueue) hr
          have hr3 := ranked_of_pruned (clearNext_pruned n _ _ _ hclear) hr2
          exact ih _ _ _ hr3 h

/-- Go `removeUpwards` on a forest without cycles, with enough fuel: it returns,
the link and every link below it are out of the store, the ranks are kept, the
sibling pointer of the link is kept, and every other link that was below some
list is out of the store or still below that list. -/
theorem removeUpwards_step (rank : Nat → Nat) (n : Nat) (hd : HeaderDownload) (c : Nat)
    (hr : Ranked hd.mem rank)
    (hn : ∀ h par, (getLink hd.mem c).header = some h →
      mapGet hd.links h.ParentHash = some par → rank par ≤ n)
    (hw : 2 ^ rank c ≤ n) :
    ∃ hd2, removeUpwards n hd c = some hd2 ∧ Ranked hd2.mem rank ∧
      (getLink hd2.mem c).next = (getLink hd.mem c).next ∧
      (∀ x, (x = c ∨ Below hd.mem (getLink hd.mem c).fChild x) →
        mapGet hd2.links (getLink hd.mem x).hash = none) ∧
      (∀ (o : Option Nat) (x : Nat), Below hd.mem o x →
        mapGet hd2.links (getLink hd.mem x).hash = none ∨ Below hd2.mem o x) := by
  obtain ⟨hd1, h1, hr1, hsame⟩ := detachFromParent_spec rank n hd c hr hn
  have hs1 := (detachFromParent_sameLinks _ _ _ _ h1).1
  obtain ⟨hd2, h2⟩ := removeUpwardsLoop_total rank n hd1 [c] hr1
    (by simp only [weight, List.map_cons, List.map_nil, List.sum_cons, List.sum_nil]; omega)
  have hcov : ∀ x, (x = c ∨ Below hd1.mem (getLink hd.mem c).fChild x) →
      mapGet hd2.links (getLink hd.mem x).hash = none := by
    intro x hx
    have hc : Covered hd1.mem [c] x := by
      refine ⟨c, List.mem_singleton.mpr rfl, ?_⟩
      rw [hsame c (le_refl _)]
      exact hx
    have e1 := removeUpwardsLoop_removes n hd1 [c] hd2 h2 x hc
    rw [(sameLinks_linked hs1 x).2.2.2.1] at e1
    exact e1
  refine ⟨hd2, by simp only [removeUpwards, h1, Option.some_bind, h2],
    removeUpwardsLoop_ranked rank n _ _ _ hr1 h2, ?_, ?_, ?_⟩
  · rw [removeUpwardsLoop_top rank n _ _ _ hr1 h2 c
      (fun r hr => by rw [List.mem_singleton.mp hr]), hsame c (le_refl _)]
  · intro x hx
    rcases hx with e | hb
    · exact hcov x (Or.inl e)
    · exact hcov x (Or.inr (below_stable hr (rank c) (fun y hy => hsame y (Nat.le_of_lt hy)) hb
        (fun d hd => hr c d (Or.inl hd))))
  · intro o x hx
    rcases detachFromParent_below n hd c hd1 hr h1 hx with e | hb | hb
    · exact Or.inl (hcov x (Or.inl e))
    · exact Or.inl (hcov x (Or.inr hb))
    · have := removeUpwardsLoop_outside n _ _ _ h2 o x hb
      rw [(sameLinks_linked hs1 x).2.2.2.1] at this
      exact this

/-! ## invalidateAnchor -/

/-- The loop of `invalidateAnchor` on a forest without cycles whose ranks are at
most `B`, with fuel `2 ^ B + B` for `removeUpwards`: it returns, every link
below the list is out of the store, and every other link that was below some
list is out of the store or still below that list. -/
theorem invalidateChildren_spec (rank : Nat → Nat) (B f : Nat) (hB : ∀ q, rank q ≤ B)
    (hf : 2 ^ B + B ≤ f) (n : Nat) :
    ∀ (hd : HeaderDownload) (o : Option Nat), Ranked hd.mem rank →
      (∀ c, o = some c → rank c < n) →
      ∃ hd2, invalidateChildren f n hd o = some hd2 ∧ Ranked hd2.mem rank ∧
        SameLinks hd.mem hd2.mem ∧ SameAnchors hd hd2 ∧ SameRest hd hd2 ∧
        (∀ k, mapGet hd.links k = none → mapGet hd2.links k = none) ∧
        (∀ x, Below hd.mem o x → mapGet hd2.links (getLink hd.mem x).hash = none) ∧
        (∀ (o2 : Option Nat) (x : Nat), Below hd.mem o2 x →
          mapGet hd2.links (getLink hd.mem x).hash = none ∨ Below hd2.mem o2 x) := by
  induction n with
  | zero =>
    intro hd o hr ho
    cases o with
    | none =>
      refine ⟨hd, rfl, hr, sameLinks_refl _, sameAnchors_refl _, sameRest_refl _, fun _ h => h,
        ?_, fun _ _ hx => Or.inr hx⟩
      intro x hx
      cases hx
    | some c => exact absurd (ho c rfl) (Nat.not_lt_zero _)
  | succ n ih =>
    intro hd o hr ho
    cases o with
    | none =>
      refine ⟨hd, rfl, hr, sameLinks_refl _, sameAnchors_refl _, sameRest_refl _, fun _ h => h,
        ?_, fun _ _ hx => Or.inr hx⟩
      intro x hx
      cases hx
    | some c =>
      have hpow : 2 ^ rank c ≤ f :=
        le_trans (Nat.pow_le_pow_right (by decide) (hB c)) (le_trans (Nat.le_add_right _ _) hf)
      obtain ⟨hd1, h1, hr1, hnext, hrem, hout⟩ := removeUpwards_step rank f hd c hr
        (fun _ par _ _ => le_trans (hB par) (le_trans (Nat.le_add_left _ _) hf)) hpow
      have hs1 := removeUpwards_sameLinks _ _ _ _ h1
      have hf1 := removeUpwards_frame _ _ _ _ h1
      have hr1c : Ranked (setLink hd1.mem c { getLink hd1.mem c with next := none }) rank :=
        ranked_of_pruned (pruned_setLink_next hd1.mem c) hr1
      have hs1c : SameLinks hd1.mem (setLink hd1.mem c { getLink hd1.mem c with next := none }) :=
        sameLinks_setLink hd1.mem c _ rfl
      obtain ⟨hd2, h2, hr2, hs2, ha2, hrest2, hm2, hrem2, hout2⟩ := ih
        { hd1 with mem := setLink hd1.mem c { getLink hd1.mem c with next := none } }
        (getLink hd1.mem c).next hr1c
        (fun e he => by
          rw [hnext] at he
          have := hr c e (Or.inr he)
          have := ho c rfl
          omega)
      have hsall : SameLinks hd.mem hd2.mem := sameLinks_trans hs1 (sameLinks_trans hs1c hs2)
      have hmono : ∀ k, mapGet hd.links k = none → mapGet hd2.links k = none := by
        intro k hk
        have h3 := removeUpwards_links_mono _ _ _ _ k h1 hk
        exact hm2 k h3
      have hhash : ∀ x, (getLink (setLink hd1.mem c { getLink hd1.mem c with next := none })
          x).hash = (getLink hd.mem x).hash := fun x =>
        (sameLinks_linked (sameLinks_trans hs1 hs1c) x).2.2.2.1
      have hsib : ∀ x, Below hd1.mem (getLink hd1.mem c).next x →
          mapGet hd2.links (getLink hd.mem x).hash = none := by
        intro x hx
        have h3 : Below (setLink hd1.mem c { getLink hd1.mem c with next := none })
            (getLink hd1.mem c).next x := by
          rcases cut_next_below c hx with h4 | h4
          · exact h4
          · exact h4
        have := hrem2 x h3
        rw [hhash x] at this
        exact this
      have hother : ∀ (o2 : Option Nat) (x : Nat), Below hd.mem o2 x →
          mapGet hd2.links (getLink hd.mem x).hash = none ∨ Below hd2.mem o2 x := by
        intro o2 x hx
        rcases hout o2 x hx with h3 | h3
        · exact Or.inl (hm2 _ h3)
        · rcases cut_next_below c h3 with h4 | h4
          · have := hout2 o2 x h4
            rw [hhash x] at this
            exact this
          · have := hrem2 x h4
            rw [hhash x] at this
            exact Or.inl this
      refine ⟨hd2, by simp only [invalidateChildren, h1, Option.some_bind, h2], hr2, hsall,
        sameAnchors_trans hf1.1 ha2, sameRest_trans hf1.2 hrest2, hmono, ?_, hother⟩
      intro x hx
      cases hx with
      | here _ => exact hm2 _ (hrem c (Or.inl rfl))
      | child _ _ h3 => exact hm2 _ (hrem x (Or.inr h3))
      | sibling _ _ h3 =>
        rcases hout _ x h3 with h4 | h4
        · exact hm2 _ h4
        · rw [← hnext] at h4
          exact hsib x h4

/-- Go `invalidateAnchor` on a forest without cycles whose ranks are at most `B`,
with fuel at least `2 ^ B + B`: it returns, the anchor is out of the map and the
tree, every link below the anchor is out of the store, and nothing else changes
but the forest. -/
theorem invalidateAnchor_spec (rank : Nat → Nat) (B f : Nat) (hB : ∀ q, rank q ≤ B)
    (hf : 2 ^ B + B ≤ f) (hd : HeaderDownload) (a : Nat) (hr : Ranked hd.mem rank) :
    ∃ hd2, invalidateAnchor f hd a = some hd2 ∧ Ranked hd2.mem rank ∧
      SameLinks hd.mem hd2.mem ∧ SameRest hd hd2 ∧ hd2.amem = hd.amem ∧
      hd2.anchors = mapDel hd.anchors (getAnchor hd.amem a).parentHash ∧
      hd2.anchorTree = treeDelete hd.amem hd.anchorTree a ∧
      (∀ k, mapGet hd.links k = none → mapGet hd2.links k = none) ∧
      (∀ x, Below hd.mem (getAnchor hd.amem a).fLink x →
        mapGet hd2.links (getLink hd.mem x).hash = none) ∧
      (∀ (o2 : Option Nat) (x : Nat), Below hd.mem o2 x →
        mapGet hd2.links (getLink hd.mem x).hash = none ∨ Below hd2.mem o2 x) := by
  have hlt : ∀ c, (getAnchor hd.amem a).fLink = some c → rank c < f := by
    intro c _
    have h1 := hB c
    have h2 : 0 < 2 ^ B := Nat.two_pow_pos B
    omega
  obtain ⟨hd2, h2, hr2, hs2, ha2, hrest2, hm2, hrem2, hout2⟩ :=
    invalidateChildren_spec rank B f hB hf f (removeAnchor hd a) (getAnchor hd.amem a).fLink hr hlt
  refine ⟨hd2, h2, hr2, hs2, ?_, ha2.2.1, ha2.1, ha2.2.2, hm2, hrem2, hout2⟩
  unfold SameRest at hrest2 ⊢
  simpa [removeAnchor] using hrest2

/-! ## RequestMoreHeaders -/

theorem requestSpec_skip (amem : List Anchor) (a : Nat) (rest : List Nat) (now : Nat)
    (h : (getAnchor amem a).blockHeight = 0 ∨ (getAnchor amem a).nextRetryTime > now) :
    abandonedAnchors amem (a :: rest) now = abandonedAnchors amem rest now ∧
      chosenAnchor amem (a :: rest) now = chosenAnchor amem rest now := by
  have e : consideredAnchors amem (a :: rest) now = consideredAnchors amem rest now := by
    unfold consideredAnchors
    rw [List.filter_cons]
    rcases h with h | h
    · simp [h]
    · have : ¬ (getAnchor amem a).nextRetryTime ≤ now := by omega
      simp [this]
  unfold abandonedAnchors chosenAnchor
  rw [e]
  exact ⟨rfl, rfl⟩

theorem requestSpec_abandon (amem : List Anchor) (a : Nat) (rest : List Nat) (now : Nat)
    (h1 : (getAnchor amem a).blockHeight ≠ 0) (h2 : ¬ (getAnchor amem a).nextRetryTime > now)
    (h3 : (getAnchor amem a).timeouts ≥ 10) :
    abandonedAnchors amem (a :: rest) now = a :: abandonedAnchors amem rest now ∧
      chosenAnchor amem (a :: rest) now = chosenAnchor amem rest now := by
  have e : consideredAnchors amem (a :: rest) now = a :: consideredAnchors amem rest now := by
    unfold consideredAnchors
    rw [List.filter_cons]
    have : (getAnchor amem a).nextRetryTime ≤ now := by omega
    simp [h1, this]
  unfold abandonedAnchors chosenAnchor
  rw [e]
  simp [h3]

theorem requestSpec_choose (amem : List Anchor) (a : Nat) (rest : List Nat) (now : Nat)
    (h1 : (getAnchor amem a).blockHeight ≠ 0) (h2 : ¬ (getAnchor amem a).nextRetryTime > now)
    (h3 : ¬ (getAnchor amem a).timeouts ≥ 10) :
    abandonedAnchors amem (a :: rest) now = [] ∧ chosenAnchor amem (a :: rest) now = some a := by
  have e : consideredAnchors amem (a :: rest) now = a :: consideredAnchors amem rest now := by
    unfold consideredAnchors
    rw [List.filter_cons]
    have : (getAnchor amem a).nextRetryTime ≤ now := by omega
    simp [h1, this]
  unfold abandonedAnchors chosenAnchor
  rw [e]
  simp [h3]

/-- The walk of `RequestMoreHeaders` when no anchor is to be invalidated before
the first one that yields a request: the walk from index `i` returns that
request, or nil, and leaves the state and the penalties as they are. -/
theorem ascendAnchors_quiet (fuel now : Nat) (hd : HeaderDownload) (pens : List PenaltyItem) :
    ∀ (n i : Nat), hd.anchorTree.length ≤ n + i →
      abandonedAnchors hd.amem (hd.anchorTree.drop i) now = [] →
      ascendAnchors fuel now n i hd pens =
        some (hd, (chosenAnchor hd.amem (hd.anchorTree.drop i) now).map (anchorRequest hd.amem),
          pens) := by
  intro n
  induction n with
  | zero =>
    intro i hlen _
    have hle : hd.anchorTree.length ≤ i := by omega
    rw [List.drop_eq_nil_of_le hle]
    simp only [ascendAnchors, if_neg (Nat.not_lt.mpr hle)]
    rfl
  | succ n ih =>
    intro i hlen hab
    by_cases hi : i < hd.anchorTree.length
    · have hdrop : hd.anchorTree.drop i = hd.anchorTree[i] :: hd.anchorTree.drop (i + 1) :=
        List.drop_eq_getElem_cons hi
      have hget : hd.anchorTree[i]? = some hd.anchorTree[i] := List.getElem?_eq_getElem hi
      rw [hdrop] at hab ⊢
      simp only [ascendAnchors, hget]
      by_cases h1 : (getAnchor hd.amem hd.anchorTree[i]).blockHeight = 0
      · obtain ⟨e1, e2⟩ := requestSpec_skip hd.amem hd.anchorTree[i]
          (hd.anchorTree.drop (i + 1)) now (Or.inl h1)
        rw [if_pos h1, e2]
        exact ih (i + 1) (by omega) (e1 ▸ hab)
      · rw [if_neg h1]
        by_cases h2 : (getAnchor hd.amem hd.anchorTree[i]).nextRetryTime > now
        · obtain ⟨e1, e2⟩ := requestSpec_skip hd.amem hd.anchorTree[i]
            (hd.anchorTree.drop (i + 1)) now (Or.inr h2)
          rw [if_pos h2, e2]
          exact ih (i + 1) (by omega) (e1 ▸ hab)
        · rw [if_neg h2]
          by_cases h3 : (getAnchor hd.amem hd.anchorTree[i]).timeouts ≥ 10
          · obtain ⟨e1, _⟩ := requestSpec_abandon hd.amem hd.anchorTree[i]
              (hd.anchorTree.drop (i + 1)) now h1 h2 h3
            rw [e1] at hab
            cases hab
          · obtain ⟨_, e2⟩ := requestSpec_choose hd.amem hd.anchorTree[i]
              (hd.anchorTree.drop (i + 1)) now h1 h2 h3
            rw [if_neg h3, e2]
            rfl
    · have hle : hd.anchorTree.length ≤ i := Nat.le_of_not_lt hi
      have hget : hd.anchorTree[i]? = none := List.getElem?_eq_none hle
      rw [List.drop_eq_nil_of_le hle]
      simp only [ascendAnchors, hget]
      rfl

/-- The walk of `RequestMoreHeaders` returns: on a forest without cycles whose
ranks are at most `B`, with fuel at least `2 ^ B + B` for the removals and as
many turns left as the tree has items from index `i` on. -/
theorem ascendAnchors_returns (rank : Nat → Nat) (B f : Nat) (hB : ∀ q, rank q ≤ B)
    (hf : 2 ^ B + B ≤ f) (now : Nat) :
    ∀ (n i : Nat) (hd : HeaderDownload) (pens : List PenaltyItem), Ranked hd.mem rank →
      hd.anchorTree.length ≤ n + i → ∃ r, ascendAnchors f now n i hd pens = some r := by
  intro n
  induction n with
  | zero =>
    intro i hd pens _ hlen
    have hle : ¬ i < hd.anchorTree.length := by omega
    exact ⟨(hd, none, pens), by simp only [ascendAnchors, if_neg hle]⟩
  | succ n ih =>
    intro i hd pens hr hlen
    cases hget : hd.anchorTree[i]? with
    | none => exact ⟨(hd, none, pens), by simp only [ascendAnchors, hget]⟩
    | some a =>
      simp only [ascendAnchors, hget]
      by_cases h1 : (getAnchor hd.amem a).blockHeight = 0
      · rw [if_pos h1]
        exact ih (i + 1) hd pens hr (by omega)
      · rw [if_neg h1]
        by_cases h2 : (getAnchor hd.amem a).nextRetryTime > now
        · rw [if_pos h2]
          exact ih (i + 1) hd pens hr (by omega)
        · rw [if_neg h2]
          by_cases h3 : (getAnchor hd.amem a).timeouts ≥ 10
          · rw [if_pos h3]
            obtain ⟨hd1, e1, hr1, _, _, _, _, ht, _⟩ :=
              invalidateAnchor_spec rank B f hB hf hd a hr
            rw [e1]
            simp only [Option.some_bind]
            refine ih (i + 1) hd1 _ hr1 ?_
            have hl : hd1.anchorTree.length ≤ hd.anchorTree.length := by
              rw [ht]
              exact List.length_filter_le _ _
            omega
          · rw [if_neg h3]
            exact ⟨_, rfl⟩

/-- Go `RequestMoreHeaders` returns on a forest without cycles, with enough fuel
for the removals. -/
theorem RequestMoreHeaders_returns (rank : Nat → Nat) (B fuel : Nat) (hB : ∀ q, rank q ≤ B)
    (hf : 2 ^ B + B ≤ fuel) (hd : HeaderDownload) (now : Nat) (hr : Ranked hd.mem rank) :
    ∃ r, RequestMoreHeaders fuel hd now = some r :=
  ascendAnchors_returns rank B fuel hB hf now _ 0 hd [] hr (by omega)

/-- Claim C28, failing input. As long as no anchor is to be invalidated, the
call does what the claim says: when no considered anchor (non-zero height, retry
time not after `now`) with at least ten timeouts comes before the first
considered anchor with fewer, `RequestMoreHeaders` returns the request
`Hash = parentHash`, `Number = blockHeight - 1`, `Length = 192`, `Skip = 0`,
`Reverse = true` for that anchor, or nil when there is none, with no penalty and
the state as it was. It fails once an anchor is invalidated, because the anchor
leaves the tree while `Ascend` walks it and the walk steps over its successor.
On three anchors with 10, 3 and 12 timeouts (peers 7, 8, 9), all due, the claim
asks for the first to be invalidated, the request for the second and the third
untouched; the call returns no request and the penalties for peers 7 and 9, the
first and the third anchor and the links below them are gone, and the second
anchor, which has 3 timeouts, was never looked at. -/
theorem RequestMoreHeaders_skips_after_invalidated :
    (∀ (fuel : Nat) (hd : HeaderDownload) (now : Nat),
        abandonedAnchors hd.amem hd.anchorTree now = [] →
        RequestMoreHeaders fuel hd now =
          some (hd,
            (chosenAnchor hd.amem hd.anchorTree now).map (fun a =>
              { Anchor := some a, Hash := (getAnchor hd.amem a).parentHash,
                Number := (getAnchor hd.amem a).blockHeight - 1, Length := 192, Skip := 0,
                Reverse := true }),
            [])) ∧
    abandonedAnchors threeAnchorEngine.amem threeAnchorEngine.anchorTree 100 = [0] ∧
    chosenAnchor threeAnchorEngine.amem threeAnchorEngine.anchorTree 100 = some 1 ∧
    (threeAnchorEngine.anchors, threeAnchorEngine.anchorTree, threeAnchorEngine.links) =
      ([(30, 2), (20, 1), (10, 0)], [0, 1, 2], [(31, 2), (21, 1), (11, 0)]) ∧
    (RequestMoreHeaders 10 threeAnchorEngine 100).map (fun r => (r.2.1, r.2.2)) =
      some (none, [{ Penalty := Penalty.AbandonedAnchorPenalty, PeerID := 7 },
                   { Penalty := Penalty.AbandonedAnchorPenalty, PeerID := 9 }]) ∧
    (RequestMoreHeaders 10 threeAnchorEngine 100).map
        (fun r => (r.1.anchors, r.1.anchorTree, r.1.links)) =
      some ([(20, 1)], [1], [(21, 1)]) := by
  refine ⟨fun fuel hd now hab => ?_, by decide, by decide, by decide, by decide, by decide⟩
  unfold RequestMoreHeaders
  rw [ascendAnchors_quiet fuel now hd [] hd.anchorTree.length 0 (by omega)
    (by rw [List.drop_zero]; exact hab), List.drop_zero]
  rfl

/-! ## The anchor timeout scenario -/

/-- Claim C29, counterexample: a fresh anchor at height 5, requests repeated every
31 time units with a timeout of 30 and no response. After nine rounds the anchor
has 9 timeouts, and the tenth call of `RequestMoreHeaders` still returns the
request for it, without penalty, and the anchor stays in the map; after ten
rounds, the eleventh call invalidates it. -/
theorem RequestMoreHeaders_tenth_counterexample :
    ((requestRounds 10 30 31 9 oneAnchorEngine 100).bind
        (fun hd => RequestMoreHeaders 10 hd (100 + 9 * 31))).map
        (fun r => (r.2.1, r.2.2, mapGet r.1.anchors 10, mapGet r.1.links 11)) =
      some (some { Anchor := some 0, Hash := 10, Number := 4, Length := 192, Skip := 0,
                   Reverse := true }, [], some 0, some 0) ∧
    ((requestRounds 10 30 31 10 oneAnchorEngine 100).bind
        (fun hd => RequestMoreHeaders 10 hd (100 + 10 * 31))).map
        (fun r => (r.2.1, r.2.2, mapGet r.1.anchors 10, mapGet r.1.links 11)) =
      some (none, [{ Penalty := Penalty.AbandonedAnchorPenalty, PeerID := 7 }], none, none) := by
  decide

/-- One round of the scenario on an engine whose tree holds the single anchor
`a`, with fewer than ten timeouts and a retry time that has come. -/
theorem requestRound_single (fuel timeout : Nat) (hd : HeaderDownload) (a now : Nat)
    (htree : hd.anchorTree = [a]) (hh : (getAnchor hd.amem a).blockHeight ≠ 0)
    (hretry : (getAnchor hd.amem a).nextRetryTime ≤ now)
    (ht : (getAnchor hd.amem a).timeouts < 10) :
    RequestMoreHeaders fuel hd now = some (hd, some (anchorRequest hd.amem a), []) ∧
      requestRound fuel timeout hd now =
        some ({ hd with
                amem := setAnchor hd.amem a
                  { getAnchor hd.amem a with
                    timeouts := (getAnchor hd.amem a).timeouts + 1
                    nextRetryTime := now + timeout } },
          some (anchorRequest hd.amem a), []) := by
  have h1 : RequestMoreHeaders fuel hd now = some (hd, some (anchorRequest hd.amem a), []) := by
    unfold RequestMoreHeaders
    have hget : hd.anchorTree[0]? = some a := by rw [htree]; rfl
    have hlen : hd.anchorTree.length = 1 := by rw [htree]; rfl
    have h2 : ¬ (getAnchor hd.amem a).nextRetryTime > now := by omega
    have h3 : ¬ (getAnchor hd.amem a).timeouts ≥ 10 := by omega
    rw [hlen]
    simp only [ascendAnchors, hget, hh, h2, h3, if_false]
  refine ⟨h1, ?_⟩
  unfold requestRound
  rw [h1]
  simp only [Option.some_bind, UpdateRetryTime, anchorRequest, Option.map_some']

theorem getAnchor_lt_of_height {amem : List Anchor} {a : Nat}
    (h : (getAnchor amem a).blockHeight ≠ 0) : a < amem.length := by
  by_contra hge
  apply h
  unfold getAnchor
  rw [List.getD_eq_default _ _ (Nat.le_of_not_lt hge)]
  rfl

/-- The engine after `k ≤ 10` rounds of the scenario: only the anchor has
changed, it has `k` timeouts, and its retry time has come at the next round. -/
theorem requestRounds_single (fuel timeout step : Nat) (hstep : timeout ≤ step) (a : Nat)
    (hd0 : HeaderDownload) :
    ∀ (k : Nat) (hd : HeaderDownload) (now : Nat), hd.anchorTree = [a] →
      (getAnchor hd.amem a).blockHeight ≠ 0 → (getAnchor hd.amem a).nextRetryTime ≤ now →
      (getAnchor hd.amem a).timeouts + k ≤ 10 →
      hd.mem = hd0.mem ∧ hd.links = hd0.links ∧ hd.anchors = hd0.anchors →
      ∃ hdk, requestRounds fuel timeout step k hd now = some hdk ∧ hdk.anchorTree = [a] ∧
        (hdk.mem = hd0.mem ∧ hdk.links = hd0.links ∧ hdk.anchors = hd0.anchors) ∧
        (getAnchor hdk.amem a).timeouts = (getAnchor hd.amem a).timeouts + k ∧
        (getAnchor hdk.amem a).nextRetryTime ≤ now + k * step ∧
        (getAnchor hdk.amem a).blockHeight = (getAnchor hd.amem a).blockHeight ∧
        (getAnchor hdk.amem a).parentHash = (getAnchor hd.amem a).parentHash ∧
        (getAnchor hdk.amem a).peerID = (getAnchor hd.amem a).peerID ∧
        (getAnchor hdk.amem a).fLink = (getAnchor hd.amem a).fLink := by
  intro k
  induction k with
  | zero =>
    intro hd now htree _ hretry _ hsame
    exact ⟨hd, rfl, htree, hsame, rfl, by omega, rfl, rfl, rfl, rfl⟩
  | succ k ih =>
    intro hd now htree hh hretry ht hsame
    have hlt := getAnchor_lt_of_height hh
    obtain ⟨_, h2⟩ := requestRound_single fuel timeout hd a now htree hh hretry (by omega)
    have hget : getAnchor (setAnchor hd.amem a
        { getAnchor hd.amem a with
          timeouts := (getAnchor hd.amem a).timeouts + 1
          nextRetryTime := now + timeout }) a =
        { getAnchor hd.amem a with
          timeouts := (getAnchor hd.amem a).timeouts + 1
          nextRetryTime := now + timeout } := getAnchor_setAnchor_same _ _ _ hlt
    obtain ⟨hdk, g1, g2, g3, g4, g5, g6, g7, g8, g9⟩ := ih
      { hd with
        amem := setAnchor hd.amem a
          { getAnchor hd.amem a with
            timeouts := (getAnchor hd.amem a).timeouts + 1
            nextRetryTime := now + timeout } }
      (now + step) htree (by rw [hget]; exact hh) (by rw [hget]; show now + timeout ≤ _; omega)
      (by rw [hget]; show (getAnchor hd.amem a).timeouts + 1 + k ≤ 10; omega) hsame
    rw [hget] at g4 g6 g7 g8 g9
    refine ⟨hdk, ?_, g2, g3, ?_, ?_, g6, g7, g8, g9⟩
    · simp only [requestRounds, h2, Option.some_bind]
      exact g1
    · rw [g4]
      show (getAnchor hd.amem a).timeouts + 1 + k = _
      omega
    · have : now + step + k * step = now + (k + 1) * step := by
        rw [Nat.add_mul, Nat.one_mul]
        omega
      rw [← this]
      exact g5

/-- Claim C29, amended: from an engine whose tree holds one anchor of non-zero
height with no timeout yet and a retry time that has come, with rounds
`step ≥ timeout` apart, each request followed by `UpdateRetryTime` and no
response: each of the first ten calls of `RequestMoreHeaders` returns the request
for the anchor, without penalty and without touching the map and the store; the
eleventh call returns no request, one `AbandonedAnchorPenalty` for the peer of
the anchor, and removes the anchor from the map and the tree and every link of
its subtree from the store. -/
theorem RequestMoreHeaders_timeout_scenario (rank : Nat → Nat) (B timeout step : Nat)
    (hd : HeaderDownload) (a now : Nat) (hrk : acyclic hd.mem rank = true)
    (hB : ∀ q, rank q ≤ B) (hstep : timeout ≤ step) (htree : hd.anchorTree = [a])
    (hh : (getAnchor hd.amem a).blockHeight ≠ 0)
    (hretry : (getAnchor hd.amem a).nextRetryTime ≤ now)
    (ht : (getAnchor hd.amem a).timeouts = 0) :
    ∃ fuel0, ∀ fuel, fuel0 ≤ fuel →
      (∀ k, k < 10 → ∃ hdk, requestRounds fuel timeout step k hd now = some hdk ∧
        (getAnchor hdk.amem a).timeouts = k ∧
        RequestMoreHeaders fuel hdk (now + k * step) =
          some (hdk, some { Anchor := some a, Hash := (getAnchor hd.amem a).parentHash,
                            Number := (getAnchor hd.amem a).blockHeight - 1, Length := 192,
                            Skip := 0, Reverse := true }, []) ∧
        hdk.anchors = hd.anchors ∧ hdk.links = hd.links ∧ hdk.anchorTree = [a]) ∧
      ∃ hd10 hd11, requestRounds fuel timeout step 10 hd now = some hd10 ∧
        (getAnchor hd10.amem a).timeouts = 10 ∧
        RequestMoreHeaders fuel hd10 (now + 10 * step) =
          some (hd11, none, [{ Penalty := Penalty.AbandonedAnchorPenalty,
                               PeerID := (getAnchor hd.amem a).peerID }]) ∧
        mapGet hd11.anchors (getAnchor hd.amem a).parentHash = none ∧
        hd11.anchorTree = [] ∧
        ∀ x, Below hd.mem (getAnchor hd.amem a).fLink x →
          mapGet hd11.links (getLink hd.mem x).hash = none := by
  refine ⟨2 ^ B + B, fun fuel hfuel => ⟨?_, ?_⟩⟩
  · intro k hk
    obtain ⟨hdk, g1, g2, ⟨_, g3l, g3a⟩, g4, g5, g6, g7, _, _⟩ :=
      requestRounds_single fuel timeout step hstep a hd k hd now htree hh hretry
        (by omega) ⟨rfl, rfl, rfl⟩
    have h1 := (requestRound_single fuel timeout hdk a (now + k * step) g2
      (by rw [g6]; exact hh) g5 (by omega)).1
    refine ⟨hdk, g1, by omega, ?_, g3a, g3l, g2⟩
    rw [h1]
    simp only [anchorRequest, g6, g7]
  · obtain ⟨hd10, g1, g2, ⟨g3m, _, _⟩, g4, g5, g6, g7, g8, g9⟩ :=
      requestRounds_single fuel timeout step hstep a hd 10 hd now htree hh hretry
        (by omega) ⟨rfl, rfl, rfl⟩
    have hr : Ranked hd10.mem rank := by
      rw [g3m]
      exact ranked_of_acyclic hrk
    obtain ⟨hd11, h1, _, _, _, h5, h6, h7, _, h9, _⟩ :=
      invalidateAnchor_spec rank B fuel hB hfuel hd10 a hr
    have htree11 : hd11.anchorTree = [] := by
      rw [h7, g2]
      simp [treeDelete, anchorSameKey_self]
    refine ⟨hd10, hd11, g1, by omega, ?_, ?_, htree11, ?_⟩
    · unfold RequestMoreHeaders
      have hget : hd10.anchorTree[0]? = some a := by rw [g2]; rfl
      have hlen : hd10.anchorTree.length = 1 := by rw [g2]; rfl
      have c1 : (getAnchor hd10.amem a).blockHeight ≠ 0 := by rw [g6]; exact hh
      have c2 : ¬ (getAnchor hd10.amem a).nextRetryTime > now + 10 * step := by omega
      have c3 : (getAnchor hd10.amem a).timeouts ≥ 10 := by omega
      rw [hlen]
      simp only [ascendAnchors, hget, c1, c2, c3, if_true, if_false, h1, Option.some_bind,
        htree11, List.length_nil, Nat.not_lt_zero, List.nil_append, h5, g8]
    · rw [h6, g7]
      exact mapGet_mapDel_self _ _
    · intro x hx
      have := h9 x (by rw [g3m, g9]; exact hx)
      rw [g3m] at this
      exact this

/-- Claim C29, amended, on the engine with one anchor at height 5: rounds 31
apart with a timeout of 30. -/
theorem RequestMoreHeaders_timeout_scenario_witness :
    ∃ fuel0, ∀ fuel, fuel0 ≤ fuel →
      (∀ k, k < 10 → ∃ hdk, requestRounds fuel 30 31 k oneAnchorEngine 100 = some hdk ∧
        (getAnchor hdk.amem 0).timeouts = k ∧
        RequestMoreHeaders fuel hdk (100 + k * 31) =
          some (hdk, some { Anchor := some 0,
                            Hash := (getAnchor oneAnchorEngine.amem 0).parentHash,
                            Number := (getAnchor oneAnchorEngine.amem 0).blockHeight - 1,
                            Length := 192, Skip := 0, Reverse := true }, []) ∧
        hdk.anchors = oneAnchorEngine.anchors ∧ hdk.links = oneAnchorEngine.links ∧
        hdk.anchorTree = [0]) ∧
      ∃ hd10 hd11, requestRounds fuel 30 31 10 oneAnchorEngine 100 = some hd10 ∧
        (getAnchor hd10.amem 0).timeouts = 10 ∧
        RequestMoreHeaders fuel hd10 (100 + 10 * 31) =
          some (hd11, none, [{ Penalty := Penalty.AbandonedAnchorPenalty,
                               PeerID := (getAnchor oneAnchorEngine.amem 0).peerID }]) ∧
        mapGet hd11.anchors (getAnchor oneAnchorEngine.amem 0).parentHash = none ∧
        hd11.anchorTree = [] ∧
        ∀ x, Below oneAnchorEngine.mem (getAnchor oneAnchorEngine.amem 0).fLink x →
          mapGet hd11.links (getLink oneAnchorEngine.mem x).hash = none :=
  RequestMoreHeaders_timeout_scenario (fun q => 10 - q) 10 30 31 oneAnchorEngine 0 100
    (by decide) (fun q => Nat.sub_le 10 q) (by decide) (by decide) (by decide) (by decide)
    (by decide)

/-! ## The header inserter -/

theorem sub64_of_le (a b : Nat) (hb : b ≤ a) (ha : a < 2 ^ 64) : sub64 a b = a - b := by
  unfold sub64
  have e : a + (2 ^ 64 - b) = (a - b) + 2 ^ 64 := by omega
  rw [e, Nat.add_mod_right, Nat.mod_eq_of_lt (by omega)]

theorem cacheGet_fst (c : CanonicalCache) (k : Nat) : (c.Get k).1 = mapGet c.items k := by
  unfold CanonicalCache.Get
  cases mapGet c.items k <;> rfl

/-- A lookup changes no entry of the cache. -/
theorem cacheGet_items (c : CanonicalCache) (k j : Nat) :
    mapGet (c.Get k).2.items j = mapGet c.items j := by
  unfold CanonicalCache.Get
  cases h : mapGet c.items k with
  | none => rfl
  | some v =>
    show mapGet ((k, v) :: mapDel c.items k) j = _
    by_cases hj : k = j
    · subst hj
      simp only [mapGet, if_true, h]
    · have : mapGet ((k, v) :: mapDel c.items k) j = mapGet (mapDel c.items k) j := by
        simp only [mapGet, hj, if_false]
      rw [this, mapGet_mapDel_ne _ _ _ hj]

/-- The cache loop and the database loop of `ForkingPoint` change the cache
only. -/
theorem ForkingPoint_frame {σ : Type} (fuel : Nat) (hr : HeaderReader σ) (hi : HeaderInserter)
    (db : σ) (header parent : Header) (r : Except InserterError Nat) (hi2 : HeaderInserter)
    (h : ForkingPoint fuel hr hi db header parent = some (r, hi2)) :
    hi2 = { hi with canonicalCache := hi2.canonicalCache } := by
  unfold ForkingPoint at h
  simp only at h
  split at h
  · cases h
    rfl
  · split at h
    · cases h
      rfl
    · simp only [Option.map_eq_some'] at h
      obtain ⟨x, _, hx⟩ := h
      cases hx
      rfl

/-- The end of `FeedHeaderPoW` changes `prevHash` only. -/
theorem writePoW_frame {σ : Type} (rawdb : Rawdb σ) (hi : HeaderInserter) (db : σ)
    (headerRaw : Option (List Nat)) (hash : Hash) (blockHeight : Nat) (td : Int) :
    (writePoW rawdb hi db headerRaw hash blockHeight td).2.1 =
      { hi with prevHash := (writePoW rawdb hi db headerRaw hash blockHeight td).2.1.prevHash } := by
  unfold writePoW
  split
  · rfl
  · split <;> rfl

theorem writePoW_ok {σ : Type} (rawdb : Rawdb σ) (hi : HeaderInserter) (db db1 db2 : σ)
    (headerRaw : Option (List Nat)) (hash : Hash) (blockHeight : Nat) (td : Int)
    (h1 : rawdb.WriteTd db hash blockHeight td = .ok db1)
    (h2 : rawdb.WriteHeaderRaw db1 blockHeight hash headerRaw = .ok db2) :
    writePoW rawdb hi db headerRaw hash blockHeight td =
      (.ok (some td), { hi with prevHash := hash }, db2) := by
  unfold writePoW
  simp only [h1, h2]

/-- The run of `FeedHeaderPoW` on a header that is new and has its parent and the
total difficulty of its parent in the database. -/
theorem FeedHeaderPoW_new {σ : Type} (fuel : Nat) (hr : HeaderReader σ) (rawdb : Rawdb σ)
    (headerReader : HeaderReader σ) (hi : HeaderInserter) (db : σ) (header : Header)
    (headerRaw : Option (List Nat)) (hash : Hash) (blockHeight : Nat) (parent : Header)
    (parentTd : Int) (hnew : hash ≠ hi.prevHash)
    (hold : headerReader.Header db hash blockHeight = .ok none)
    (hparent : headerReader.Header db header.ParentHash (sub64 blockHeight 1) = .ok (some parent))
    (hptd : rawdb.ReadTd db header.ParentHash (sub64 blockHeight 1) = .ok (some parentTd)) :
    FeedHeaderPoW fuel hr rawdb headerReader hi db header headerRaw hash blockHeight =
      if reorgNeeded hi (parentTd + header.Difficulty) hash blockHeight then
        (ForkingPoint fuel hr { hi with newCanonical := true } db header parent).bind fun r =>
          match r.1 with
          | .error e => some (.error e, r.2, db)
          | .ok forkingPoint =>
            some (writePoW rawdb
              (switchHead r.2 header hash blockHeight (parentTd + header.Difficulty) forkingPoint)
              db headerRaw hash blockHeight (parentTd + header.Difficulty))
      else
        some (writePoW rawdb hi db headerRaw hash blockHeight (parentTd + header.Difficulty)) := by
  unfold FeedHeaderPoW
  simp only [hnew, if_false, hold, hparent, hptd]

/-- The decision of `FeedHeaderPoW`, as a condition on the total difficulty, the
height and the hash. -/
theorem reorgNeeded_iff (hi : HeaderInserter) (td : Int) (hash : Hash) (blockHeight : Nat) :
    reorgNeeded hi td hash blockHeight = true ↔
      (td > hi.localTd ∨ (td = hi.localTd ∧
        (blockHeight < hi.highest ∨ (blockHeight = hi.highest ∧ hi.highestHash < hash)))) := by
  unfold reorgNeeded
  split_ifs with h1 h2 h3 h4
  · simp only [Bool.false_eq_true, false_iff]
    omega
  · simp only [decide_eq_true_eq]
    constructor
    · intro h
      exact Or.inr ⟨h2, Or.inr ⟨h4, h⟩⟩
    · rintro (h | ⟨_, h | ⟨_, h⟩⟩)
      · omega
      · omega
      · exact h
  · simp only [true_iff]
    omega
  · simp only [true_iff]
    omega
  · simp only [Bool.false_eq_true, false_iff]
    omega

/-- Claim C25: `FeedHeaderPoW` on a header whose hash is the previously fed hash,
or that the reader finds stored, returns a nil total difficulty and leaves the
inserter and the database as they were; on a header that is neither, when the
parent header or the total difficulty of the parent is missing, it returns an
error and leaves the inserter and the database as they were; and when both are
present (and `ForkingPoint` returns a forking point if the head changes, and
the two writes succeed) it returns `parentTd + header.Difficulty`, and the
database is the one after the write of this total difficulty and of the raw
header under the hash and the height, whether the head changes or not. -/
theorem FeedHeaderPoW_total_difficulty {σ : Type} (fuel : Nat) (hr : HeaderReader σ)
    (rawdb : Rawdb σ) (headerReader : HeaderReader σ) (hi : HeaderInserter) (db : σ)
    (header : Header) (headerRaw : Option (List Nat)) (hash : Hash) (blockHeight : Nat) :
    ((hash = hi.prevHash ∨ ∃ oldH, headerReader.Header db hash blockHeight = .ok (some oldH)) →
      FeedHeaderPoW fuel hr rawdb headerReader hi db header headerRaw hash blockHeight =
        some (.ok none, hi, db)) ∧
    (hash ≠ hi.prevHash → headerReader.Header db hash blockHeight = .ok none →
      (headerReader.Header db header.ParentHash (sub64 blockHeight 1) = .ok none ∨
        ((∃ parent, headerReader.Header db header.ParentHash (sub64 blockHeight 1) =
            .ok (some parent)) ∧
          (rawdb.ReadTd db header.ParentHash (sub64 blockHeight 1) = .ok none ∨
            ∃ e, rawdb.ReadTd db header.ParentHash (sub64 blockHeight 1) = .error e))) →
      ∃ err, FeedHeaderPoW fuel hr rawdb headerReader hi db header headerRaw hash blockHeight =
        some (.error err, hi, db)) ∧
    (∀ (parent : Header) (parentTd : Int) (db1 db2 : σ), hash ≠ hi.prevHash →
      headerReader.Header db hash blockHeight = .ok none →
      headerReader.Header db header.ParentHash (sub64 blockHeight 1) = .ok (some parent) →
      rawdb.ReadTd db header.ParentHash (sub64 blockHeight 1) = .ok (some parentTd) →
      (reorgNeeded hi (parentTd + header.Difficulty) hash blockHeight = true →
        ∃ f hi3, ForkingPoint fuel hr { hi with newCanonical := true } db header parent =
          some (.ok f, hi3)) →
      rawdb.WriteTd db hash blockHeight (parentTd + header.Difficulty) = .ok db1 →
      rawdb.WriteHeaderRaw db1 blockHeight hash headerRaw = .ok db2 →
      ∃ hi2, FeedHeaderPoW fuel hr rawdb headerReader hi db header headerRaw hash blockHeight =
          some (.ok (some (parentTd + header.Difficulty)), hi2, db2) ∧
        hi2.prevHash = hash) := by
  refine ⟨?_, ?_, ?_⟩
  · intro h
    unfold FeedHeaderPoW
    by_cases hp : hash = hi.prevHash
    · simp only [hp, if_true]
    · rcases h with h | ⟨oldH, h⟩
      · exact absurd h hp
      · simp only [hp, if_false, h]
  · intro hnew hold h
    unfold FeedHeaderPoW
    rcases h with h | ⟨⟨parent, hparent⟩, h | ⟨e, h⟩⟩
    · simp only [hnew, if_false, hold, h]
      exact ⟨_, rfl⟩
    · simp only [hnew, if_false, hold, hparent, h]
      exact ⟨_, rfl⟩
    · simp only [hnew, if_false, hold, hparent, h]
      exact ⟨_, rfl⟩
  · intro parent parentTd db1 db2 hnew hold hparent hptd hfp hw1 hw2
    rw [FeedHeaderPoW_new fuel hr rawdb headerReader hi db header headerRaw hash blockHeight
      parent parentTd hnew hold hparent hptd]
    by_cases hre : reorgNeeded hi (parentTd + header.Difficulty) hash blockHeight = true
    · obtain ⟨f, hi3, h3⟩ := hfp hre
      simp only [hre, if_true, h3, Option.some_bind]
      rw [writePoW_ok rawdb _ db db1 db2 headerRaw hash blockHeight _ hw1 hw2]
      exact ⟨_, rfl, rfl⟩
    · simp only [hre, if_false]
      rw [writePoW_ok rawdb _ db db1 db2 headerRaw hash blockHeight _ hw1 hw2]
      exact ⟨_, rfl, rfl⟩

/-- Claim C25 on the fork example: the header `109`, stored, is skipped; the
header whose parent `999` is missing is an error; the head `210` of chain B
returns the total difficulty `13 + 2`, written with its raw header. -/
theorem FeedHeaderPoW_total_difficulty_witness :
    FeedHeaderPoW 20 memReader (memRawdb nextHash) memReader chainAInserter forkDb headerA9
        (some (encodeHeader headerA9)) 109 9 = some (.ok none, chainAInserter, forkDb) ∧
    (∃ err, FeedHeaderPoW 20 memReader (memRawdb nextHash) memReader chainAInserter forkDb
        orphanHeader (some (encodeHeader orphanHeader)) 300 10 =
          some (.error err, chainAInserter, forkDb)) ∧
    (∃ hi2, FeedHeaderPoW 20 memReader (memRawdb nextHash) memReader chainAInserter forkDb
        headerB10 (some (encodeHeader headerB10)) 210 10 =
          some (.ok (some (13 + headerB10.Difficulty)), hi2,
            { forkDb with
              tds := ((210, 10), 15) :: forkDb.tds
              headers := ((210, 10), encodeHeader headerB10) :: forkDb.headers }) ∧
        hi2.prevHash = 210) :=
  ⟨(FeedHeaderPoW_total_difficulty 20 memReader (memRawdb nextHash) memReader chainAInserter
      forkDb headerA9 (some (encodeHeader headerA9)) 109 9).1 (Or.inr ⟨headerA9, by decide⟩),
   (FeedHeaderPoW_total_difficulty 20 memReader (memRawdb nextHash) memReader chainAInserter
      forkDb orphanHeader (some (encodeHeader orphanHeader)) 300 10).2.1 (by decide) (by decide)
      (Or.inl (by decide)),
   (FeedHeaderPoW_total_difficulty 20 memReader (memRawdb nextHash) memReader chainAInserter
      forkDb headerB10 (some (encodeHeader headerB10)) 210 10).2.2 headerB9 13
      { forkDb with tds := ((210, 10), 15) :: forkDb.tds }
      { forkDb with
        tds := ((210, 10), 15) :: forkDb.tds
        headers := ((210, 10), encodeHeader headerB10) :: forkDb.headers }
      (by decide) (by decide) (by decide) (by decide)
      (fun _ => ⟨5, { chainAInserter with
                      newCanonical := true
                      canonicalCache := { size := 1000, items := [(8, 108), (9, 109), (10, 110)] } },
        by decide⟩)
      (by decide) (by decide)⟩

/-- Claim C26: `FeedHeaderPoS` returns an error when the total difficulty of the
parent is absent (or cannot be read), and then the inserter and the database are
as they were; when it is present and the two writes succeed, the database is the
one after the write of the header and of `parentTd + header.Difficulty` under
the hash and the height, and `highest`, `highestHash`, `highestTimestamp` are the
height, the hash and the time of the header, the other fields being as they
were. -/
theorem FeedHeaderPoS_spec {σ : Type} (rawdb : Rawdb σ) (hi : HeaderInserter) (db : σ)
    (header : Header) (hash : Hash) :
    ((rawdb.ReadTd db header.ParentHash (sub64 (header.Number % 2 ^ 64) 1) = .ok none ∨
        ∃ e, rawdb.ReadTd db header.ParentHash (sub64 (header.Number % 2 ^ 64) 1) = .error e) →
      ∃ err, FeedHeaderPoS rawdb hi db header hash = (.error err, hi, db)) ∧
    (∀ (parentTd : Int) (db1 db2 : σ),
      rawdb.ReadTd db header.ParentHash (sub64 (header.Number % 2 ^ 64) 1) = .ok (some parentTd) →
      rawdb.WriteHeader db header = .ok db1 →
      rawdb.WriteTd db1 hash (header.Number % 2 ^ 64) (parentTd + header.Difficulty) = .ok db2 →
      FeedHeaderPoS rawdb hi db header hash =
        (.ok (), { hi with
                   highest := header.Number % 2 ^ 64
                   highestHash := hash
                   highestTimestamp := header.Time }, db2)) := by
  refine ⟨?_, ?_⟩
  · intro h
    unfold FeedHeaderPoS
    rcases h with h | ⟨e, h⟩
    · simp only [h]
      exact ⟨_, rfl⟩
    · simp only [h]
      exact ⟨_, rfl⟩
  · intro parentTd db1 db2 h1 h2 h3
    unfold FeedHeaderPoS
    simp only [h1, h2, h3]

/-- Claim C26 on the fork example: the header whose parent `999` has no total
difficulty is an error; the header `111` at height 11, child of the head `110`,
is written with the total difficulty `10 + 0` and becomes the highest. -/
theorem FeedHeaderPoS_spec_witness :
    (∃ err, FeedHeaderPoS (memRawdb nextHash) chainAInserter forkDb orphanHeader 300 =
        (.error err, chainAInserter, forkDb)) ∧
    FeedHeaderPoS (memRawdb nextHash) chainAInserter forkDb headerA11 111 =
      (.ok (), { chainAInserter with highest := 11, highestHash := 111, highestTimestamp := 110 },
        { forkDb with
          headers := ((111, 11), encodeHeader headerA11) :: forkDb.headers
          tds := ((111, 11), 10) :: forkDb.tds }) :=
  ⟨(FeedHeaderPoS_spec (memRawdb nextHash) chainAInserter forkDb orphanHeader 300).1
      (Or.inl (by decide)),
   (FeedHeaderPoS_spec (memRawdb nextHash) chainAInserter forkDb headerA11 111).2 10
      { forkDb with headers := ((111, 11), encodeHeader headerA11) :: forkDb.headers }
      { forkDb with
        headers := ((111, 11), encodeHeader headerA11) :: forkDb.headers
        tds := ((111, 11), 10) :: forkDb.tds }
      (by decide) (by decide) (by decide)⟩

/-- The runs of `FeedHeaderPoW` that return: the header is skipped or refused
with the inserter and the database as they were; or the head does not change and
the writes follow; or `ForkingPoint` fails; or the head changes and the writes
follow. -/
theorem FeedHeaderPoW_cases {σ : Type} (fuel : Nat) (hr : HeaderReader σ) (rawdb : Rawdb σ)
    (headerReader : HeaderReader σ) (hi : HeaderInserter) (db : σ) (header : Header)
    (headerRaw : Option (List Nat)) (hash : Hash) (blockHeight : Nat)
    (res : Except InserterError (Option Int)) (hi2 : HeaderInserter) (db2 : σ)
    (h : FeedHeaderPoW fuel hr rawdb headerReader hi db header headerRaw hash blockHeight =
      some (res, hi2, db2)) :
    (hi2 = hi ∧ db2 = db ∧ (res = .ok none ∨ ∃ e, res = .error e)) ∨
    (∃ (parent : Header) (parentTd : Int),
      headerReader.Header db header.ParentHash (sub64 blockHeight 1) = .ok (some parent) ∧
      rawdb.ReadTd db header.ParentHash (sub64 blockHeight 1) = .ok (some parentTd) ∧
      ((reorgNeeded hi (parentTd + header.Difficulty) hash blockHeight = false ∧
          (res, hi2, db2) =
            writePoW rawdb hi db headerRaw hash blockHeight (parentTd + header.Difficulty)) ∨
        (reorgNeeded hi (parentTd + header.Difficulty) hash blockHeight = true ∧
          ∃ hi3, (∃ e, ForkingPoint fuel hr { hi with newCanonical := true } db header parent =
                some (.error e, hi3) ∧ res = .error e ∧ hi2 = hi3 ∧ db2 = db) ∨
            (∃ f, ForkingPoint fuel hr { hi with newCanonical := true } db header parent =
                some (.ok f, hi3) ∧
              (res, hi2, db2) =
                writePoW rawdb
                  (switchHead hi3 header hash blockHeight (parentTd + header.Difficulty) f)
                  db headerRaw hash blockHeight (parentTd + header.Difficulty))))) := by
  unfold FeedHeaderPoW at h
  by_cases hp : hash = hi.prevHash
  · simp only [hp, if_true, Option.some.injEq, Prod.mk.injEq] at h
    obtain ⟨h1, h2, h3⟩ := h
    exact Or.inl ⟨h2.symm, h3.symm, Or.inl h1.symm⟩
  · simp only [hp, if_false] at h
    cases hold : headerReader.Header db hash blockHeight with
    | error e =>
      simp only [hold, Option.some.injEq, Prod.mk.injEq] at h
      obtain ⟨h1, h2, h3⟩ := h
      exact Or.inl ⟨h2.symm, h3.symm, Or.inr ⟨_, h1.symm⟩⟩
    | ok oldH =>
      cases oldH with
      | some o =>
        simp only [hold, Option.some.injEq, Prod.mk.injEq] at h
        obtain ⟨h1, h2, h3⟩ := h
        exact Or.inl ⟨h2.symm, h3.symm, Or.inl h1.symm⟩
      | none =>
        simp only [hold] at h
        cases hparent : headerReader.Header db header.ParentHash (sub64 blockHeight 1) with
        | error e =>
          simp only [hparent, Option.some.injEq, Prod.mk.injEq] at h
          obtain ⟨h1, h2, h3⟩ := h
          exact Or.inl ⟨h2.symm, h3.symm, Or.inr ⟨_, h1.symm⟩⟩
        | ok p =>
          cases p with
          | none =>
            simp only [hparent, Option.some.injEq, Prod.mk.injEq] at h
            obtain ⟨h1, h2, h3⟩ := h
            exact Or.inl ⟨h2.symm, h3.symm, Or.inr ⟨_, h1.symm⟩⟩
          | some parent =>
            simp only [hparent] at h
            cases hptd : rawdb.ReadTd db header.ParentHash (sub64 blockHeight 1) with
            | error e =>
              simp only [hptd, Option.some.injEq, Prod.mk.injEq] at h
              obtain ⟨h1, h2, h3⟩ := h
              exact Or.inl ⟨h2.symm, h3.symm, Or.inr ⟨_, h1.symm⟩⟩
            | ok t =>
              cases t with
              | none =>
                simp only [hptd, Option.some.injEq, Prod.mk.injEq] at h
                obtain ⟨h1, h2, h3⟩ := h
                exact Or.inl ⟨h2.symm, h3.symm, Or.inr ⟨_, h1.symm⟩⟩
              | some parentTd =>
                simp only [hptd] at h
                refine Or.inr ⟨parent, parentTd, rfl, rfl, ?_⟩
                by_cases hre : reorgNeeded hi (parentTd + header.Difficulty) hash blockHeight = true
                · simp only [hre, if_true, Option.bind_eq_some] at h
                  obtain ⟨r, hr1, hr2⟩ := h
                  obtain ⟨r1, hi3⟩ := r
                  refine Or.inr ⟨hre, hi3, ?_⟩
                  cases r1 with
                  | error e =>
                    simp only [Option.some.injEq, Prod.mk.injEq] at hr2
                    obtain ⟨h1, h2, h3⟩ := hr2
                    exact Or.inl ⟨e, hr1, h1.symm, h2.symm, h3.symm⟩
                  | ok f =>
                    simp only [Option.some.injEq] at hr2
                    exact Or.inr ⟨f, hr1, hr2.symm⟩
                · have hre2 : reorgNeeded hi (parentTd + header.Difficulty) hash blockHeight =
                      false := by simpa using hre
                  rw [hre2] at h
                  simp only [Bool.false_eq_true, if_false, Option.some.injEq] at h
                  exact Or.inl ⟨hre2, h.symm⟩

theorem switchHead_fields (hi : HeaderInserter) (header : Header) (hash : Hash)
    (blockHeight : Nat) (td : Int) (f : Nat) :
    (switchHead hi header hash blockHeight td f).highest = blockHeight ∧
    (switchHead hi header hash blockHeight td f).highestHash = hash ∧
    (switchHead hi header hash blockHeight td f).highestTimestamp = header.Time ∧
    (switchHead hi header hash blockHeight td f).localTd = td ∧
    (switchHead hi header hash blockHeight td f).newCanonical = hi.newCanonical ∧
    (switchHead hi header hash blockHeight td f).prevHash = hi.prevHash ∧
    (switchHead hi header hash blockHeight td f).unwindPoint = min hi.unwindPoint f ∧
    (switchHead hi header hash blockHeight td f).unwind = (decide (f < hi.unwindPoint) || hi.unwind) := by
  unfold switchHead SetUnwindPoint
  by_cases hf : f < hi.unwindPoint
  · simp only [hf, if_true, decide_True, Bool.true_or, Nat.min_eq_right (Nat.le_of_lt hf),
      and_self]
  · simp only [hf, if_false, decide_False, Bool.false_or, Nat.min_eq_left (Nat.le_of_not_lt hf),
      and_self]

/-- The run of `FeedHeaderPoW` that changes the head, with the forking point `f`. -/
theorem FeedHeaderPoW_reorg_fields {σ : Type} (fuel : Nat) (hr : HeaderReader σ)
    (rawdb : Rawdb σ) (headerReader : HeaderReader σ) (hi : HeaderInserter) (db : σ)
    (header : Header) (headerRaw : Option (List Nat)) (hash : Hash) (blockHeight : Nat)
    (parent : Header) (parentTd : Int) (f : Nat) (hi3 : HeaderInserter)
    (hnew : hash ≠ hi.prevHash)
    (hold : headerReader.Header db hash blockHeight = .ok none)
    (hparent : headerReader.Header db header.ParentHash (sub64 blockHeight 1) = .ok (some parent))
    (hptd : rawdb.ReadTd db header.ParentHash (sub64 blockHeight 1) = .ok (some parentTd))
    (hre : reorgNeeded hi (parentTd + header.Difficulty) hash blockHeight = true)
    (hfp : ForkingPoint fuel hr { hi with newCanonical := true } db header parent =
      some (.ok f, hi3)) :
    ∃ res hi2 db2,
      FeedHeaderPoW fuel hr rawdb headerReader hi db header headerRaw hash blockHeight =
        some (res, hi2, db2) ∧
      hi2.highest = blockHeight ∧ hi2.highestHash = hash ∧ hi2.highestTimestamp = header.Time ∧
      hi2.localTd = parentTd + header.Difficulty ∧ hi2.newCanonical = true ∧
      hi2.unwindPoint = min hi.unwindPoint f ∧
      hi2.unwind = (decide (f < hi.unwindPoint) || hi.unwind) := by
  have hfr := ForkingPoint_frame fuel hr _ db header parent _ hi3 hfp
  obtain ⟨s1, s2, s3, s4, s5, _, s7, s8⟩ :=
    switchHead_fields hi3 header hash blockHeight (parentTd + header.Difficulty) f
  have hw := writePoW_frame rawdb
    (switchHead hi3 header hash blockHeight (parentTd + header.Difficulty) f) db headerRaw hash
    blockHeight (parentTd + header.Difficulty)
  have e1 : hi3.newCanonical = true := by rw [hfr]
  have e2 : hi3.unwindPoint = hi.unwindPoint := by rw [hfr]
  have e3 : hi3.unwind = hi.unwind := by rw [hfr]
  refine ⟨(writePoW rawdb
      (switchHead hi3 header hash blockHeight (parentTd + header.Difficulty) f) db headerRaw hash
      blockHeight (parentTd + header.Difficulty)).1,
    (writePoW rawdb
      (switchHead hi3 header hash blockHeight (parentTd + header.Difficulty) f) db headerRaw hash
      blockHeight (parentTd + header.Difficulty)).2.1,
    (writePoW rawdb
      (switchHead hi3 header hash blockHeight (parentTd + header.Difficulty) f) db headerRaw hash
      blockHeight (parentTd + header.Difficulty)).2.2, ?_, ?_, ?_, ?_, ?_, ?_, ?_, ?_⟩
  · rw [FeedHeaderPoW_new fuel hr rawdb headerReader hi db header headerRaw hash blockHeight
      parent parentTd hnew hold hparent hptd]
    simp only [hre, if_true, hfp, Option.some_bind]
  · rw [hw]; exact s1
  · rw [hw]; exact s2
  · rw [hw]; exact s3
  · rw [hw]; exact s4
  · rw [hw]; exact s5.trans e1
  · rw [hw]
    exact s7.trans (by rw [e2])
  · rw [hw]
    exact s8.trans (by rw [e2, e3])

/-- The run of `FeedHeaderPoW` that keeps the head: it changes `prevHash` at
most. -/
theorem FeedHeaderPoW_keep_fields {σ : Type} (fuel : Nat) (hr : HeaderReader σ)
    (rawdb : Rawdb σ) (headerReader : HeaderReader σ) (hi : HeaderInserter) (db : σ)
    (header : Header) (headerRaw : Option (List Nat)) (hash : Hash) (blockHeight : Nat)
    (parent : Header) (parentTd : Int) (hnew : hash ≠ hi.prevHash)
    (hold : headerReader.Header db hash blockHeight = .ok none)
    (hparent : headerReader.Header db header.ParentHash (sub64 blockHeight 1) = .ok (some parent))
    (hptd : rawdb.ReadTd db header.ParentHash (sub64 blockHeight 1) = .ok (some parentTd))
    (hre : reorgNeeded hi (parentTd + header.Difficulty) hash blockHeight = false) :
    ∃ res hi2 db2,
      FeedHeaderPoW fuel hr rawdb headerReader hi db header headerRaw hash blockHeight =
        some (res, hi2, db2) ∧
      hi2 = { hi with prevHash := hi2.prevHash } := by
  refine ⟨(writePoW rawdb hi db headerRaw hash blockHeight (parentTd + header.Difficulty)).1,
    (writePoW rawdb hi db headerRaw hash blockHeight (parentTd + header.Difficulty)).2.1,
    (writePoW rawdb hi db headerRaw hash blockHeight (parentTd + header.Difficulty)).2.2, ?_, ?_⟩
  · rw [FeedHeaderPoW_new fuel hr rawdb headerReader hi db header headerRaw hash blockHeight
      parent parentTd hnew hold hparent hptd]
    rw [hre]
    simp only [Bool.false_eq_true, if_false]
  · exact writePoW_frame rawdb hi db headerRaw hash blockHeight (parentTd + header.Difficulty)

/-- Claim C21: for a new header whose parent and parent total difficulty are in
the database, with `td = parentTd + header.Difficulty` (and `ForkingPoint`
returning a forking point when it is called), `FeedHeaderPoW` takes the branch
that changes the head if and only if `td > localTd`, or `td = localTd` and the
height is below `highest`, or equal to it with `highestHash` smaller than the
hash; then `highest`, `highestHash`, `highestTimestamp`, `localTd` are those of
the header and `newCanonical` is set; otherwise these fields, the unwind point
and the unwind flag are as they were. -/
theorem FeedHeaderPoW_switch {σ : Type} (fuel : Nat) (hr : HeaderReader σ)
    (rawdb : Rawdb σ) (headerReader : HeaderReader σ) (hi : HeaderInserter) (db : σ)
    (header : Header) (headerRaw : Option (List Nat)) (hash : Hash) (blockHeight : Nat)
    (parent : Header) (parentTd : Int) (hnew : hash ≠ hi.prevHash)
    (hold : headerReader.Header db hash blockHeight = .ok none)
    (hparent : headerReader.Header db header.ParentHash (sub64 blockHeight 1) = .ok (some parent))
    (hptd : rawdb.ReadTd db header.ParentHash (sub64 blockHeight 1) = .ok (some parentTd))
    (hfp : reorgNeeded hi (parentTd + header.Difficulty) hash blockHeight = true →
      ∃ f hi3, ForkingPoint fuel hr { hi with newCanonical := true } db header parent =
        some (.ok f, hi3)) :
    ∃ res hi2 db2,
      FeedHeaderPoW fuel hr rawdb headerReader hi db header headerRaw hash blockHeight =
        some (res, hi2, db2) ∧
      (reorgNeeded hi (parentTd + header.Difficulty) hash blockHeight = true ↔
        (parentTd + header.Difficulty > hi.localTd ∨
          (parentTd + header.Difficulty = hi.localTd ∧
            (blockHeight < hi.highest ∨
              (blockHeight = hi.highest ∧ hi.highestHash < hash))))) ∧
      ((parentTd + header.Difficulty > hi.localTd ∨
          (parentTd + header.Difficulty = hi.localTd ∧
            (blockHeight < hi.highest ∨
              (blockHeight = hi.highest ∧ hi.highestHash < hash)))) →
        hi2.highest = blockHeight ∧ hi2.highestHash = hash ∧
        hi2.highestTimestamp = header.Time ∧ hi2.localTd = parentTd + header.Difficulty ∧
        hi2.newCanonical = true) ∧
      (¬ (parentTd + header.Difficulty > hi.localTd ∨
          (parentTd + header.Difficulty = hi.localTd ∧
            (blockHeight < hi.highest ∨
              (blockHeight = hi.highest ∧ hi.highestHash < hash)))) →
        hi2.highest = hi.highest ∧ hi2.highestHash = hi.highestHash ∧
        hi2.highestTimestamp = hi.highestTimestamp ∧ hi2.localTd = hi.localTd ∧
        hi2.newCanonical = hi.newCanonical ∧ hi2.unwindPoint = hi.unwindPoint ∧
        hi2.unwind = hi.unwind) := by
  have hiff := reorgNeeded_iff hi (parentTd + header.Difficulty) hash blockHeight
  by_cases hre : reorgNeeded hi (parentTd + header.Difficulty) hash blockHeight = true
  · obtain ⟨f, hi3, h3⟩ := hfp hre
    obtain ⟨res, hi2, db2, g, g1, g2, g3, g4, g5, _, _⟩ :=
      FeedHeaderPoW_reorg_fields fuel hr rawdb headerReader hi db header headerRaw hash blockHeight
        parent parentTd f hi3 hnew hold hparent hptd hre h3
    exact ⟨res, hi2, db2, g, hiff, fun _ => ⟨g1, g2, g3, g4, g5⟩,
      fun hc => absurd (hiff.mp hre) hc⟩
  · have hre2 : reorgNeeded hi (parentTd + header.Difficulty) hash blockHeight = false := by
      simpa using hre
    obtain ⟨res, hi2, db2, g, g1⟩ :=
      FeedHeaderPoW_keep_fields fuel hr rawdb headerReader hi db header headerRaw hash blockHeight
        parent parentTd hnew hold hparent hptd hre2
    refine ⟨res, hi2, db2, g, hiff, fun hc => absurd (hiff.mpr hc) hre, fun _ => ?_⟩
    rw [g1]
    exact ⟨rfl, rfl, rfl, rfl, rfl, rfl, rfl⟩

/-- No run of `FeedHeaderPoW` that returns raises the unwind point. -/
theorem FeedHeaderPoW_unwindPoint_le {σ : Type} (fuel : Nat) (hr : HeaderReader σ)
    (rawdb : Rawdb σ) (headerReader : HeaderReader σ) (hi : HeaderInserter) (db : σ)
    (header : Header) (headerRaw : Option (List Nat)) (hash : Hash) (blockHeight : Nat)
    (res : Except InserterError (Option Int)) (hi2 : HeaderInserter) (db2 : σ)
    (h : FeedHeaderPoW fuel hr rawdb headerReader hi db header headerRaw hash blockHeight =
      some (res, hi2, db2)) :
    hi2.unwindPoint ≤ hi.unwindPoint := by
  rcases FeedHeaderPoW_cases fuel hr rawdb headerReader hi db header headerRaw hash blockHeight
    res hi2 db2 h with ⟨h1, _, _⟩ | ⟨parent, parentTd, _, _, ⟨_, hw⟩ | ⟨_, hi3, h3⟩⟩
  · rw [h1]
  · have hf := writePoW_frame rawdb hi db headerRaw hash blockHeight
      (parentTd + header.Difficulty)
    rw [← hw] at hf
    have hf2 : hi2 = { hi with prevHash := hi2.prevHash } := hf
    exact Nat.le_of_eq (by rw [hf2])
  · rcases h3 with ⟨e, hfp, _, h2, _⟩ | ⟨f, hfp, hw⟩
    · have hfr := ForkingPoint_frame fuel hr _ db header parent _ hi3 hfp
      rw [h2, hfr]
    · have hfr := ForkingPoint_frame fuel hr _ db header parent _ hi3 hfp
      have hf := writePoW_frame rawdb
        (switchHead hi3 header hash blockHeight (parentTd + header.Difficulty) f) db headerRaw
        hash blockHeight (parentTd + header.Difficulty)
      rw [← hw] at hf
      have hf2 : hi2 =
          { switchHead hi3 header hash blockHeight (parentTd + header.Difficulty) f with
            prevHash := hi2.prevHash } := hf
      have e1 : hi2.unwindPoint =
          (switchHead hi3 header hash blockHeight (parentTd + header.Difficulty) f).unwindPoint := by
        rw [hf2]
      have e2 : hi3.unwindPoint = hi.unwindPoint := by rw [hfr]
      rw [e1, (switchHead_fields hi3 header hash blockHeight _ f).2.2.2.2.2.2.1, e2]
      exact Nat.min_le_left _ _

/-- Claim C23: for a new header whose parent and parent total difficulty are in
the database, `FeedHeaderPoW` leaves an unwind point that is at most the old
one: when the head changes and `ForkingPoint` returns `f`, the unwind point is
`min old f` and the unwind flag is set when `f < old` and kept otherwise; when
the head does not change, the unwind point and the flag are as they were. And
no call of `FeedHeaderPoW` from this inserter that returns, on any header,
raises the unwind point. -/
theorem FeedHeaderPoW_unwindPoint {σ : Type} (fuel : Nat) (hr : HeaderReader σ)
    (rawdb : Rawdb σ) (headerReader : HeaderReader σ) (hi : HeaderInserter) (db : σ)
    (header : Header) (headerRaw : Option (List Nat)) (hash : Hash) (blockHeight : Nat)
    (parent : Header) (parentTd : Int) (f : Nat) (hi3 : HeaderInserter)
    (hnew : hash ≠ hi.prevHash)
    (hold : headerReader.Header db hash blockHeight = .ok none)
    (hparent : headerReader.Header db header.ParentHash (sub64 blockHeight 1) = .ok (some parent))
    (hptd : rawdb.ReadTd db header.ParentHash (sub64 blockHeight 1) = .ok (some parentTd))
    (hfp : reorgNeeded hi (parentTd + header.Difficulty) hash blockHeight = true →
      ForkingPoint fuel hr { hi with newCanonical := true } db header parent =
        some (.ok f, hi3)) :
    ∃ res hi2 db2,
      FeedHeaderPoW fuel hr rawdb headerReader hi db header headerRaw hash blockHeight =
        some (res, hi2, db2) ∧
      hi2.unwindPoint ≤ hi.unwindPoint ∧
      (reorgNeeded hi (parentTd + header.Difficulty) hash blockHeight = true →
        hi2.unwindPoint = min hi.unwindPoint f ∧
        hi2.unwind = (decide (f < hi.unwindPoint) || hi.unwind)) ∧
      (reorgNeeded hi (parentTd + header.Difficulty) hash blockHeight = false →
        hi2.unwindPoint = hi.unwindPoint ∧ hi2.unwind = hi.unwind) ∧
      (∀ (header0 : Header) (raw0 : Option (List Nat)) (hash0 : Hash) (height0 : Nat)
          (res0 : Except InserterError (Option Int)) (hi0 : HeaderInserter) (db0 : σ),
        FeedHeaderPoW fuel hr rawdb headerReader hi db header0 raw0 hash0 height0 =
          some (res0, hi0, db0) →
        hi0.unwindPoint ≤ hi.unwindPoint) := by
  have hall : ∀ (header0 : Header) (raw0 : Option (List Nat)) (hash0 : Hash) (height0 : Nat)
      (res0 : Except InserterError (Option Int)) (hi0 : HeaderInserter) (db0 : σ),
      FeedHeaderPoW fuel hr rawdb headerReader hi db header0 raw0 hash0 height0 =
        some (res0, hi0, db0) →
      hi0.unwindPoint ≤ hi.unwindPoint :=
    fun header0 raw0 hash0 height0 res0 hi0 db0 h0 =>
      FeedHeaderPoW_unwindPoint_le fuel hr rawdb headerReader hi db header0 raw0 hash0 height0
        res0 hi0 db0 h0
  by_cases hre : reorgNeeded hi (parentTd + header.Difficulty) hash blockHeight = true
  · obtain ⟨res, hi2, db2, g, _, _, _, _, _, g6, g7⟩ :=
      FeedHeaderPoW_reorg_fields fuel hr rawdb headerReader hi db header headerRaw hash blockHeight
        parent parentTd f hi3 hnew hold hparent hptd hre (hfp hre)
    refine ⟨res, hi2, db2, g, ?_, fun _ => ⟨g6, g7⟩, fun hc => ?_, hall⟩
    · rw [g6]
      exact Nat.min_le_left _ _
    · rw [hre] at hc
      cases hc
  · have hre2 : reorgNeeded hi (parentTd + header.Difficulty) hash blockHeight = false := by
      simpa using hre
    obtain ⟨res, hi2, db2, g, g1⟩ :=
      FeedHeaderPoW_keep_fields fuel hr rawdb headerReader hi db header headerRaw hash blockHeight
        parent parentTd hnew hold hparent hptd hre2
    refine ⟨res, hi2, db2, g, ?_, fun hc => absurd hc hre, fun _ => ?_, hall⟩
    · exact Nat.le_of_eq (by rw [g1])
    · rw [g1]
      exact ⟨rfl, rfl⟩

/-- Claim C21 on the fork example: the head `210` of chain B, with total
difficulty 15 above the local 10, becomes the head; the header `309` at height 9
with total difficulty 9 does not. -/
theorem FeedHeaderPoW_switch_witness :
    (∃ res hi2 db2,
      FeedHeaderPoW 20 memReader (memRawdb nextHash) memReader chainAInserter forkDb headerB10
        (some (encodeHeader headerB10)) 210 10 = some (res, hi2, db2) ∧
      hi2.highest = 10 ∧ hi2.highestHash = 210 ∧ hi2.highestTimestamp = headerB10.Time ∧
      hi2.localTd = 13 + headerB10.Difficulty ∧ hi2.newCanonical = true) ∧
    (∃ res hi2 db2,
      FeedHeaderPoW 20 memReader (memRawdb nextHash) memReader chainAInserter forkDb headerX9
        (some (encodeHeader headerX9)) 309 9 = some (res, hi2, db2) ∧
      hi2.highest = 10 ∧ hi2.highestHash = 110 ∧ hi2.highestTimestamp = 100 ∧
      hi2.localTd = 10 ∧ hi2.newCanonical = false ∧ hi2.unwindPoint = 10 ∧
      hi2.unwind = false) := by
  constructor
  · obtain ⟨res, hi2, db2, g, _, g1, _⟩ :=
      FeedHeaderPoW_switch 20 memReader (memRawdb nextHash) memReader chainAInserter forkDb
        headerB10 (some (encodeHeader headerB10)) 210 10 headerB9 13 (by decide) (by decide)
        (by decide) (by decide)
        (fun _ => ⟨5, { chainAInserter with
                        newCanonical := true
                        canonicalCache :=
                          { size := 1000, items := [(8, 108), (9, 109), (10, 110)] } },
          by decide⟩)
    exact ⟨res, hi2, db2, g, g1 (Or.inl (by decide))⟩
  · obtain ⟨res, hi2, db2, g, _, _, g2⟩ :=
      FeedHeaderPoW_switch 20 memReader (memRawdb nextHash) memReader chainAInserter forkDb
        headerX9 (some (encodeHeader headerX9)) 309 9
        { ParentHash := 107, Number := 8, Time := 80, Difficulty := 1 } 8 (by decide) (by decide)
        (by decide) (by decide) (fun h => absurd h (by decide))
    exact ⟨res, hi2, db2, g, g2 (by decide)⟩

/-- Claim C23 on the fork example: chain A is the head at height 10 with unwind
point 10; the head `210` of chain B, which left A after height 5, overtakes at
height 10, and the unwind point goes down to 5 with the unwind flag set. -/
theorem FeedHeaderPoW_unwindPoint_witness :
    ∃ res hi2 db2,
      FeedHeaderPoW 20 memReader (memRawdb nextHash) memReader chainAInserter forkDb headerB10
        (some (encodeHeader headerB10)) 210 10 = some (res, hi2, db2) ∧
      hi2.unwindPoint = 5 ∧ hi2.unwind = true := by
  obtain ⟨res, hi2, db2, g, _, g1, _, _⟩ :=
    FeedHeaderPoW_unwindPoint 20 memReader (memRawdb nextHash) memReader chainAInserter forkDb
      headerB10 (some (encodeHeader headerB10)) 210 10 headerB9 13 5
      { chainAInserter with
        newCanonical := true
        canonicalCache := { size := 1000, items := [(8, 108), (9, 109), (10, 110)] } }
      (by decide) (by decide) (by decide) (by decide) (fun _ => by decide)
  exact ⟨res, hi2, db2, g, g1 (by decide)⟩

theorem writePoW_inv {σ : Type} (rawdb : Rawdb σ) (hi : HeaderInserter) (db : σ)
    (headerRaw : Option (List Nat)) (hash : Hash) (blockHeight : Nat) (td T : Int)
    (hi2 : HeaderInserter) (db2 : σ)
    (h : (Except.ok (some T), hi2, db2) = writePoW rawdb hi db headerRaw hash blockHeight td) :
    T = td ∧ hi2 = { hi with prevHash := hash } := by
  unfold writePoW at h
  split at h
  · simp only [Prod.mk.injEq] at h
    cases h.1
  · split at h
    · simp only [Prod.mk.injEq] at h
      cases h.1
    · simp only [Prod.mk.injEq, Except.ok.injEq, Option.some.injEq] at h
      exact ⟨h.1, h.2.1⟩

/-- The inserter after a run of `FeedHeaderPoW` that returns the total
difficulty `T`. -/
theorem FeedHeaderPoW_ok_fields {σ : Type} (fuel : Nat) (hr : HeaderReader σ) (rawdb : Rawdb σ)
    (headerReader : HeaderReader σ) (hi : HeaderInserter) (db : σ) (header : Header)
    (headerRaw : Option (List Nat)) (hash : Hash) (blockHeight : Nat) (T : Int)
    (hi2 : HeaderInserter) (db2 : σ)
    (h : FeedHeaderPoW fuel hr rawdb headerReader hi db header headerRaw hash blockHeight =
      some (.ok (some T), hi2, db2)) :
    (reorgNeeded hi T hash blockHeight = true ∧ hi2.highest = blockHeight ∧
        hi2.highestHash = hash ∧ hi2.localTd = T) ∨
      (reorgNeeded hi T hash blockHeight = false ∧ hi2.highest = hi.highest ∧
        hi2.highestHash = hi.highestHash ∧ hi2.localTd = hi.localTd) := by
  rcases FeedHeaderPoW_cases fuel hr rawdb headerReader hi db header headerRaw hash blockHeight
    _ hi2 db2 h with ⟨_, _, h1 | ⟨e, h1⟩⟩ | ⟨parent, parentTd, _, _, ⟨hre, hw⟩ | ⟨hre, hi3, h3⟩⟩
  · cases h1
  · cases h1
  · obtain ⟨e1, e2⟩ := writePoW_inv rawdb hi db headerRaw hash blockHeight _ T hi2 db2 hw
    rw [← e1] at hre
    rw [e2]
    exact Or.inr ⟨hre, rfl, rfl, rfl⟩
  · rcases h3 with ⟨e, _, h1, _⟩ | ⟨f, _, hw⟩
    · cases h1
    · obtain ⟨e1, e2⟩ := writePoW_inv rawdb _ db headerRaw hash blockHeight _ T hi2 db2 hw
      obtain ⟨s1, s2, _, s4, _⟩ :=
        switchHead_fields hi3 header hash blockHeight (parentTd + header.Difficulty) f
      rw [← e1] at hre s4
      rw [e2]
      exact Or.inl ⟨hre, s1, s2, by rw [← e1]; exact s4⟩

/-- Claim C22: two headers with the hashes `a` and `b` at the same height whose
total difficulty is the same `T`, above the local total difficulty of the
inserter: fed to `FeedHeaderPoW` one after the other, in either order, with both
calls returning `T`, they leave `highestHash` at the greater of `a` and `b`, with
`highest` at their height and `localTd` at `T`. (A second call with the hash of
the first returns nil, so the hashes of such runs are distinct.) -/
theorem FeedHeaderPoW_tie_break {σ : Type} (fuel : Nat) (hr : HeaderReader σ)
    (rawdb : Rawdb σ) (headerReader : HeaderReader σ) (hi : HeaderInserter) (db : σ)
    (h1 h2 : Header) (raw1 raw2 : Option (List Nat)) (a b : Hash) (n : Nat) (T : Int)
    (hiA hiAB hiB hiBA : HeaderInserter) (dbA dbAB dbB dbBA : σ)
    (hT : hi.localTd < T)
    (e1 : FeedHeaderPoW fuel hr rawdb headerReader hi db h1 raw1 a n =
      some (.ok (some T), hiA, dbA))
    (e2 : FeedHeaderPoW fuel hr rawdb headerReader hiA dbA h2 raw2 b n =
      some (.ok (some T), hiAB, dbAB))
    (e3 : FeedHeaderPoW fuel hr rawdb headerReader hi db h2 raw2 b n =
      some (.ok (some T), hiB, dbB))
    (e4 : FeedHeaderPoW fuel hr rawdb headerReader hiB dbB h1 raw1 a n =
      some (.ok (some T), hiBA, dbBA)) :
    hiAB.highestHash = max a b ∧ hiBA.highestHash = max a b ∧
      hiAB.highest = n ∧ hiBA.highest = n ∧ hiAB.localTd = T ∧ hiBA.localTd = T := by
  have first : ∀ (x : Hash) (hx : Header) (rawx : Option (List Nat)) (hiX : HeaderInserter)
      (dbX : σ), FeedHeaderPoW fuel hr rawdb headerReader hi db hx rawx x n =
        some (.ok (some T), hiX, dbX) →
      hiX.highest = n ∧ hiX.highestHash = x ∧ hiX.localTd = T := by
    intro x hx rawx hiX dbX e
    rcases FeedHeaderPoW_ok_fields fuel hr rawdb headerReader hi db hx rawx x n T hiX dbX e with
      ⟨_, g1, g2, g3⟩ | ⟨hre, _⟩
    · exact ⟨g1, g2, g3⟩
    · exfalso
      have := (reorgNeeded_iff hi T x n).mpr (Or.inl hT)
      rw [hre] at this
      cases this
  have second : ∀ (x y : Hash) (hy : Header) (rawy : Option (List Nat))
      (hiX hiXY : HeaderInserter) (dbX dbXY : σ),
      hiX.highest = n ∧ hiX.highestHash = x ∧ hiX.localTd = T →
      FeedHeaderPoW fuel hr rawdb headerReader hiX dbX hy rawy y n =
        some (.ok (some T), hiXY, dbXY) →
      hiXY.highestHash = max x y ∧ hiXY.highest = n ∧ hiXY.localTd = T := by
    intro x y hy rawy hiX hiXY dbX dbXY ⟨k1, k2, k3⟩ e
    rcases FeedHeaderPoW_ok_fields fuel hr rawdb headerReader hiX dbX hy rawy y n T hiXY dbXY e
      with ⟨hre, g1, g2, g3⟩ | ⟨hre, g1, g2, g3⟩
    · have hc := (reorgNeeded_iff hiX T y n).mp hre
      rw [k1, k2, k3] at hc
      refine ⟨?_, g1, g3⟩
      rw [g2]
      rcases hc with hc | ⟨_, hc | ⟨_, hc⟩⟩
      · omega
      · omega
      · exact (Nat.max_eq_right (Nat.le_of_lt hc)).symm
    · have hc : ¬ (T > hiX.localTd ∨ (T = hiX.localTd ∧
          (n < hiX.highest ∨ (n = hiX.highest ∧ hiX.highestHash < y)))) := by
        intro hc
        have := (reorgNeeded_iff hiX T y n).mpr hc
        rw [hre] at this
        cases this
      rw [k1, k2, k3] at hc
      refine ⟨?_, g1.trans k1, g3.trans k3⟩
      rw [g2, k2]
      have hyx : ¬ x < y := fun hlt => hc (Or.inr ⟨rfl, Or.inr ⟨rfl, hlt⟩⟩)
      exact (Nat.max_eq_left (Nat.le_of_not_lt hyx)).symm
  obtain ⟨p1, p2, p3⟩ := second a b h2 raw2 hiA hiAB dbA dbAB (first a h1 raw1 hiA dbA e1) e2
  obtain ⟨q1, q2, q3⟩ := second b a h1 raw1 hiB hiBA dbB dbBA
    (first b h2 raw2 hiB dbB e3) e4
  rw [Nat.max_comm] at q1
  exact ⟨p1, q1, p2, q2, p3, q3⟩

/-- Claim C22 on the fork example: the hashes 1 and 2 at height 10, both with
total difficulty 12 above the local 10, leave the head at hash 2 in either
order. -/
theorem FeedHeaderPoW_tie_break_witness :
    FeedHeaderPoW 20 memReader (memRawdb nextHash) memReader chainAInserter forkDb tieHeader1
        (some (encodeHeader tieHeader1)) 1 10 =
      some (.ok (some 12), tieHead 1 1 101, tieWrite forkDb 1 tieHeader1) ∧
    FeedHeaderPoW 20 memReader (memRawdb nextHash) memReader (tieHead 1 1 101)
        (tieWrite forkDb 1 tieHeader1) tieHeader2 (some (encodeHeader tieHeader2)) 2 10 =
      some (.ok (some 12), tieHead 2 2 102,
        tieWrite (tieWrite forkDb 1 tieHeader1) 2 tieHeader2) ∧
    FeedHeaderPoW 20 memReader (memRawdb nextHash) memReader chainAInserter forkDb tieHeader2
        (some (encodeHeader tieHeader2)) 2 10 =
      some (.ok (some 12), tieHead 2 2 102, tieWrite forkDb 2 tieHeader2) ∧
    FeedHeaderPoW 20 memReader (memRawdb nextHash) memReader (tieHead 2 2 102)
        (tieWrite forkDb 2 tieHeader2) tieHeader1 (some (encodeHeader tieHeader1)) 1 10 =
      some (.ok (some 12), tieHead 1 2 102,
        tieWrite (tieWrite forkDb 2 tieHeader2) 1 tieHeader1) ∧
    ((tieHead 2 2 102).highestHash = max 1 2 ∧ (tieHead 1 2 102).highestHash = max 1 2 ∧
      (tieHead 2 2 102).highest = 10 ∧ (tieHead 1 2 102).highest = 10 ∧
      (tieHead 2 2 102).localTd = 12 ∧ (tieHead 1 2 102).localTd = 12) :=
  ⟨by decide, by decide, by decide, by decide,
    FeedHeaderPoW_tie_break 20 memReader (memRawdb nextHash) memReader chainAInserter forkDb
      tieHeader1 tieHeader2 (some (encodeHeader tieHeader1)) (some (encodeHeader tieHeader2)) 1 2
      10 12 (tieHead 1 1 101) (tieHead 2 2 102) (tieHead 2 2 102) (tieHead 1 2 102)
      (tieWrite forkDb 1 tieHeader1) (tieWrite (tieWrite forkDb 1 tieHeader1) 2 tieHeader2)
      (tieWrite forkDb 2 tieHeader2) (tieWrite (tieWrite forkDb 2 tieHeader2) 1 tieHeader1)
      (by decide) (by decide) (by decide) (by decide) (by decide)⟩

/-! ### The forking point -/

/-- The database loop of `ForkingPoint`, started `d` heights above the greatest
height `hstar` at which the canonical hash is the hash of the ancestor. -/
theorem forkingPointDb_spec {σ : Type} (hr : HeaderReader σ) (db : σ) (can : Nat → Hash)
    (ancestor : Nat → Header) (hstar n : Nat) (hn : n < 2 ^ 64)
    (hcan : ∀ k, k < n → ∃ found, hr.CanonicalHash db k = .ok (can k, found))
    (hanc : ∀ k, hstar < k → k + 2 ≤ n →
      hr.Header db (ancestor (k + 1)).ParentHash k = .ok (some (ancestor k)))
    (hmatch : can hstar = (ancestor (hstar + 1)).ParentHash)
    (hgreatest : ∀ k, hstar < k → k < n → can k ≠ (ancestor (k + 1)).ParentHash) :
    ∀ (d k fuel : Nat), k = hstar + d → k + 2 ≤ n → d + 1 ≤ fuel →
      forkingPointDb hr db fuel (ancestor (k + 1)).ParentHash k = some (.ok hstar) := by
  intro d
  induction d with
  | zero =>
    intro k fuel hk hkn hfuel
    obtain ⟨f, rfl⟩ : ∃ f, fuel = f + 1 := ⟨fuel - 1, by omega⟩
    have hk2 : k = hstar := by omega
    subst hk2
    obtain ⟨found, hc⟩ := hcan k (by omega)
    simp only [forkingPointDb, hc, hmatch, if_true]
  | succ d ih =>
    intro k fuel hk hkn hfuel
    obtain ⟨f, rfl⟩ : ∃ f, fuel = f + 1 := ⟨fuel - 1, by omega⟩
    obtain ⟨found, hc⟩ := hcan k (by omega)
    have hne := hgreatest k (by omega) (by omega)
    have hh := hanc k (by omega) hkn
    have hs : sub64 k 1 = k - 1 := sub64_of_le k 1 (by omega) (by omega)
    have hk1 : k = (k - 1) + 1 := by omega
    simp only [forkingPointDb, hc, hne, if_false, hh, hs]
    have := ih (k - 1) f (by omega) (by omega) (by omega)
    rw [← hk1] at this
    exact this

/-- The cache loop of `ForkingPoint` followed by the database loop, on a cache
that agrees with the canonical hashes of the reader. -/
theorem forkingPointCache_spec {σ : Type} (hr : HeaderReader σ) (db : σ) (can : Nat → Hash)
    (ancestor : Nat → Header) (hstar n : Nat) (hn : n < 2 ^ 64)
    (hcan : ∀ k, k < n → ∃ found, hr.CanonicalHash db k = .ok (can k, found))
    (hanc : ∀ k, hstar < k → k + 2 ≤ n →
      hr.Header db (ancestor (k + 1)).ParentHash k = .ok (some (ancestor k)))
    (hmatch : can hstar = (ancestor (hstar + 1)).ParentHash)
    (hgreatest : ∀ k, hstar < k → k < n → can k ≠ (ancestor (k + 1)).ParentHash) :
    ∀ (d k fuel : Nat) (cache : CanonicalCache), k = hstar + d → k + 2 ≤ n → d + 2 ≤ fuel →
      (∀ j, j < n → mapGet cache.items j = none ∨ mapGet cache.items j = some (can j)) →
      ∃ cache2, forkingPointCache hr db fuel cache (ancestor (k + 1)).ParentHash k =
        some (.ok hstar, cache2) := by
  intro d
  induction d with
  | zero =>
    intro k fuel cache hk hkn hfuel hag
    obtain ⟨f, rfl⟩ : ∃ f, fuel = f + 1 := ⟨fuel - 1, by omega⟩
    have hdb := forkingPointDb_spec hr db can ancestor hstar n hn hcan hanc hmatch hgreatest
      0 k f hk hkn (by omega)
    have hk2 : k = hstar := by omega
    unfold forkingPointCache
    rw [cacheGet_fst]
    rcases hag k (by omega) with hg | hg
    · simp only [hg, hdb, Option.map_some']
      exact ⟨_, rfl⟩
    · have : can k = (ancestor (k + 1)).ParentHash := by rw [hk2]; exact hmatch
      simp only [hg, this, if_true, hdb, Option.map_some']
      exact ⟨_, rfl⟩
  | succ d ih =>
    intro k fuel cache hk hkn hfuel hag
    obtain ⟨f, rfl⟩ : ∃ f, fuel = f + 1 := ⟨fuel - 1, by omega⟩
    have hdb := forkingPointDb_spec hr db can ancestor hstar n hn hcan hanc hmatch hgreatest
      (d + 1) k f hk hkn (by omega)
    unfold forkingPointCache
    rw [cacheGet_fst]
    rcases hag k (by omega) with hg | hg
    · simp only [hg, hdb, Option.map_some']
      exact ⟨_, rfl⟩
    · have hne := hgreatest k (by omega) (by omega)
      have hh := hanc k (by omega) hkn
      have hs : sub64 k 1 = k - 1 := sub64_of_le k 1 (by omega) (by omega)
      have hk1 : k = (k - 1) + 1 := by omega
      simp only [hg, hne, if_false, hh, hs]
      have := ih (k - 1) f (cache.Get k).2 (by omega) (by omega) (by omega)
        (fun j hj => by rw [cacheGet_items]; exact hag j hj)
      rw [← hk1] at this
      exact this

/-- Claim C24: a header with number `n`, `1 ≤ n < 2 ^ 64`, with its ancestors
`ancestor k` (the header itself at `n`, `parent` at `n - 1`), those at the
heights above `hstar` and below `n - 1` being returned by the reader; the reader
returns the canonical hash `can k` at every height below `n`, and the cache
holds no other hash at these heights. If `hstar < n` is the greatest height at
which the canonical hash is the hash of the ancestor at that height, then
`ForkingPoint` returns `hstar` with enough fuel, changing the cache of the
inserter only; and `hstar` is `n - 1` when the canonical hash at `n - 1` is the
parent hash of the header. -/
theorem ForkingPoint_spec {σ : Type} (hr : HeaderReader σ) (hi : HeaderInserter) (db : σ)
    (header parent : Header) (can : Nat → Hash) (ancestor : Nat → Header) (hstar : Nat)
    (hn : header.Number < 2 ^ 64) (hlt : hstar < header.Number)
    (hcan : ∀ k, k < header.Number → ∃ found, hr.CanonicalHash db k = .ok (can k, found))
    (hcache : ∀ k, k < header.Number →
      mapGet hi.canonicalCache.items k = none ∨ mapGet hi.canonicalCache.items k = some (can k))
    (htop : ancestor header.Number = header)
    (hparent : ancestor (header.Number - 1) = parent)
    (hanc : ∀ k, k < header.Number - 1 → hstar < k →
      hr.Header db (ancestor (k + 1)).ParentHash k = .ok (some (ancestor k)))
    (hmatch : can hstar = (ancestor (hstar + 1)).ParentHash)
    (hgreatest : ∀ k, k < header.Number → hstar < k →
      can k ≠ (ancestor (k + 1)).ParentHash) :
    (∃ fuel0, ∀ fuel, fuel0 ≤ fuel →
      ∃ hi2, ForkingPoint fuel hr hi db header parent = some (.ok hstar, hi2) ∧
        hi2 = { hi with canonicalCache := hi2.canonicalCache }) ∧
    (can (header.Number - 1) = header.ParentHash → hstar = header.Number - 1) := by
  have htop2 : (ancestor (header.Number - 1 + 1)).ParentHash = header.ParentHash := by
    have : header.Number - 1 + 1 = header.Number := by omega
    rw [this, htop]
  have hlast : can (header.Number - 1) = header.ParentHash → hstar = header.Number - 1 := by
    intro hc
    by_contra hne
    apply hgreatest (header.Number - 1) (by omega) (by omega)
    show can (header.Number - 1) = (ancestor (header.Number - 1 + 1)).ParentHash
    rw [htop2]
    exact hc
  refine ⟨⟨header.Number + 2, fun fuel hfuel => ?_⟩, hlast⟩
  have hmod : header.Number % 2 ^ 64 = header.Number := Nat.mod_eq_of_lt hn
  have hs1 : sub64 header.Number 1 = header.Number - 1 :=
    sub64_of_le header.Number 1 (by omega) hn
  have hfirst : firstCanonical hr hi.canonicalCache db (header.Number - 1) =
      .ok (can (header.Number - 1)) := by
    unfold firstCanonical
    rw [cacheGet_fst]
    obtain ⟨found, hc⟩ := hcan (header.Number - 1) (by omega)
    rcases hcache (header.Number - 1) (by omega) with hg | hg
    · simp only [hg, hc]
    · simp only [hg]
  have key : ∃ r, ForkingPoint fuel hr hi db header parent = some (.ok hstar, r) := by
    unfold ForkingPoint
    simp only [hmod, hs1, hfirst]
    by_cases hc : can (header.Number - 1) = header.ParentHash
    · have e := hlast hc
      rw [if_pos hc]
      exact ⟨_, by rw [e]⟩
    · have hlt2 : hstar < header.Number - 1 := by
        by_contra hge
        have e : hstar = header.Number - 1 := by omega
        apply hc
        rw [← e, hmatch, e, htop2]
      have hs2 : sub64 header.Number 2 = header.Number - 2 :=
        sub64_of_le header.Number 2 (by omega) hn
      have hpar : parent.ParentHash = (ancestor (header.Number - 2 + 1)).ParentHash := by
        have : header.Number - 2 + 1 = header.Number - 1 := by omega
        rw [this, hparent]
      obtain ⟨cache2, h2⟩ := forkingPointCache_spec hr db can ancestor hstar header.Number hn hcan
        (fun k h1 h2 => hanc k (by omega) h1) hmatch (fun k h1 h2 => hgreatest k h2 h1)
        (header.Number - 2 - hstar) (header.Number - 2) fuel
        (hi.canonicalCache.Get (header.Number - 1)).2 (by omega) (by omega) (by omega)
        (fun j hj => by rw [cacheGet_items]; exact hcache j hj)
      simp only [hc, if_false, hs2, hpar, h2, Option.map_some']
      exact ⟨_, rfl⟩
  obtain ⟨r, hr2⟩ := key
  exact ⟨r, hr2, ForkingPoint_frame fuel hr hi db header parent _ r hr2⟩

/-- Claim C24 on the fork example: for the head `210` of chain B at height 10,
whose ancestors are on chain B down to height 6 and on the canonical chain A from
height 5 down, `ForkingPoint` returns 5. -/
theorem ForkingPoint_spec_witness :
    (∃ fuel0, ∀ fuel, fuel0 ≤ fuel →
      ∃ hi2, ForkingPoint fuel memReader chainAInserter forkDb headerB10 headerB9 =
          some (.ok 5, hi2) ∧
        hi2 = { chainAInserter with canonicalCache := hi2.canonicalCache }) ∧
    ((fun k => 100 + k) (headerB10.Number - 1) = headerB10.ParentHash →
      5 = headerB10.Number - 1) :=
  ForkingPoint_spec memReader chainAInserter forkDb headerB10 headerB9 (fun k => 100 + k)
    ancestorB 5 (by decide) (by decide) (by decide) (by decide) (by decide) (by decide)
    (by decide) (by decide) (by decide)

/-! ## Proof-of-stake download -/

/-- With an anchor and a collector, `ProcessHeadersPOS` is its loop. -/
theorem ProcessHeadersPOS_eq_loop {σ κ : Type} (hr : HeaderReader σ)
    (collect : κ → Nat → Hash → List Nat → Except Nat κ) (tx : σ) (peerId : PeerID)
    (seg : List ChainSegmentHeader) (hd : PosHeaderDownload κ) (anchor : Anchor) (collector : κ)
    (ha : hd.posAnchor = some anchor) (hc : hd.headersCollector = some collector) :
    ProcessHeadersPOS hr collect tx peerId seg hd = processPOSLoop hr collect tx peerId seg hd := by
  unfold ProcessHeadersPOS
  cases seg with
  | nil => simp only [if_true, processPOSLoop]
  | cons sh rest =>
    have h1 : ¬ (sh :: rest = []) := by simp
    have h2 : ¬ (hd.posAnchor = none) := by rw [ha]; simp
    have h3 : ¬ (hd.headersCollector.isNone = true) := by rw [hc]; simp
    rw [if_neg h1, if_neg h2, if_neg h3]

/-- The loop of `ProcessHeadersPOS` returns, with no penalty. -/
theorem processPOSLoop_total {σ κ : Type} (hr : HeaderReader σ)
    (collect : κ → Nat → Hash → List Nat → Except Nat κ) (tx : σ) (peerId : PeerID) :
    ∀ (seg : List ChainSegmentHeader) (hd : PosHeaderDownload κ) (anchor : Anchor)
      (collector : κ), hd.posAnchor = some anchor → hd.headersCollector = some collector →
      ∃ err hd2, processPOSLoop hr collect tx peerId seg hd = some ([], err, hd2) := by
  intro seg
  induction seg with
  | nil =>
    intro hd _ _ _ _
    exact ⟨none, hd, rfl⟩
  | cons sh rest ih =>
    intro hd anchor collector ha hc
    unfold processPOSLoop
    simp only [ha, hc]
    by_cases h1 : sh.hash ≠ anchor.parentHash
    · rw [if_pos h1]
      exact ih hd anchor collector ha hc
    · rw [if_neg h1]
      cases collect collector (sh.header.Number % 2 ^ 64) sh.hash sh.headerRaw with
      | error e => exact ⟨_, _, rfl⟩
      | ok collector1 =>
        cases hr.HeaderByHash tx sh.header.ParentHash with
        | error e => exact ⟨_, _, rfl⟩
        | ok o =>
          cases o with
          | some hh =>
            by_cases h2 : sh.header.Number % 2 ^ 64 ≠ (hh.Number % 2 ^ 64 + 1) % 2 ^ 64
            · simp only []
              rw [if_pos h2]
              exact ⟨_, _, rfl⟩
            · simp only []
              rw [if_neg h2]
              exact ⟨_, _, rfl⟩
          | none =>
            by_cases h3 : sh.header.Number % 2 ^ 64 ≤ 1
            · simp only []
              rw [if_pos h3]
              exact ⟨_, _, rfl⟩
            · simp only []
              rw [if_neg h3]
              exact ih _ _ collector1 rfl rfl

/-- Claim C30: `ProcessHeadersPOS` on the segment `sh :: rest`, with the anchor
`anchor` and a collector. A header whose hash is not the parent hash of the
anchor is skipped: the call is the call on `rest` from the same engine. A header
whose hash is the parent hash of the anchor is collected, and its parent hash is
looked up in the reader: found with the number of the header one above the
number found, the anchor becomes nil, the status `Synced`, the driver is
notified and `rest` is ignored; found with another number, the pair of the hash
and the parent hash is recorded in `badPoSHeaders` and an error is returned; not
found, the anchor becomes the parent hash and the number of the header with the
peer, and the call returns an error if the number is at most 1 and goes on with
`rest` otherwise. Every call returns, with an empty list of penalties. -/
theorem ProcessHeadersPOS_step {σ κ : Type} (hr : HeaderReader σ)
    (collect : κ → Nat → Hash → List Nat → Except Nat κ) (tx : σ) (peerId : PeerID)
    (hd : PosHeaderDownload κ) (anchor : Anchor) (collector : κ) (sh : ChainSegmentHeader)
    (rest : List ChainSegmentHeader) (ha : hd.posAnchor = some anchor)
    (hc : hd.headersCollector = some collector) :
    (sh.hash ≠ anchor.parentHash →
      ProcessHeadersPOS hr collect tx peerId (sh :: rest) hd =
        ProcessHeadersPOS hr collect tx peerId rest hd) ∧
    (sh.hash = anchor.parentHash → ∀ collector1,
      collect collector (sh.header.Number % 2 ^ 64) sh.hash sh.headerRaw = .ok collector1 →
      (∀ hh, hr.HeaderByHash tx sh.header.ParentHash = .ok (some hh) →
        (sh.header.Number % 2 ^ 64 = (hh.Number % 2 ^ 64 + 1) % 2 ^ 64 →
          ProcessHeadersPOS hr collect tx peerId (sh :: rest) hd =
            some ([], none,
              { hd with
                headersCollector := some collector1
                posAnchor := none
                posStatus := SyncStatus.Synced
                deliveryNotify := true })) ∧
        (sh.header.Number % 2 ^ 64 ≠ (hh.Number % 2 ^ 64 + 1) % 2 ^ 64 →
          ∃ err, ProcessHeadersPOS hr collect tx peerId (sh :: rest) hd =
            some ([], some err,
              { hd with
                headersCollector := some collector1
                badPoSHeaders := mapSet hd.badPoSHeaders sh.hash sh.header.ParentHash }))) ∧
      (hr.HeaderByHash tx sh.header.ParentHash = .ok none →
        (sh.header.Number % 2 ^ 64 ≤ 1 →
          ∃ err, ProcessHeadersPOS hr collect tx peerId (sh :: rest) hd =
            some ([], some err,
              { hd with
                headersCollector := some collector1
                posAnchor := some { parentHash := sh.header.ParentHash
                                    blockHeight := sh.header.Number % 2 ^ 64
                                    peerID := peerId } })) ∧
        (1 < sh.header.Number % 2 ^ 64 →
          ProcessHeadersPOS hr collect tx peerId (sh :: rest) hd =
            ProcessHeadersPOS hr collect tx peerId rest
              { hd with
                headersCollector := some collector1
                posAnchor := some { parentHash := sh.header.ParentHash
                                    blockHeight := sh.header.Number % 2 ^ 64
                                    peerID := peerId } }))) ∧
    (∀ (seg : List ChainSegmentHeader) (hd0 : PosHeaderDownload κ),
      ∃ err hd2, ProcessHeadersPOS hr collect tx peerId seg hd0 = some ([], err, hd2)) := by
  have hl := ProcessHeadersPOS_eq_loop hr collect tx peerId (sh :: rest) hd anchor collector ha hc
  refine ⟨?_, ?_, ?_⟩
  · intro hne
    rw [hl, ProcessHeadersPOS_eq_loop hr collect tx peerId rest hd anchor collector ha hc]
    conv => lhs; unfold processPOSLoop
    simp only [ha, hc]
    rw [if_pos hne]
  · intro heq collector1 hcol
    have hne : ¬ (sh.hash ≠ anchor.parentHash) := fun h => h heq
    refine ⟨fun hh hfound => ⟨fun hnum => ?_, fun hnum => ?_⟩, fun hnone => ⟨fun hle => ?_, fun hgt => ?_⟩⟩
    · have hnum2 : ¬ (sh.header.Number % 2 ^ 64 ≠ (hh.Number % 2 ^ 64 + 1) % 2 ^ 64) :=
        fun h => h hnum
      rw [hl]
      unfold processPOSLoop
      simp only [ha, hc]
      rw [if_neg hne]
      simp only [hcol, hfound]
      rw [if_neg hnum2]
    · rw [hl]
      unfold processPOSLoop
      simp only [ha, hc]
      rw [if_neg hne]
      simp only [hcol, hfound]
      rw [if_pos hnum]
      exact ⟨_, rfl⟩
    · rw [hl]
      unfold processPOSLoop
      simp only [ha, hc]
      rw [if_neg hne]
      simp only [hcol, hnone]
      rw [if_pos hle]
      exact ⟨_, rfl⟩
    · have hgt2 : ¬ (sh.header.Number % 2 ^ 64 ≤ 1) := by omega
      rw [hl, ProcessHeadersPOS_eq_loop hr collect tx peerId rest _
        { parentHash := sh.header.ParentHash, blockHeight := sh.header.Number % 2 ^ 64,
          peerID := peerId } collector1 rfl rfl]
      conv => lhs; unfold processPOSLoop
      simp only [ha, hc]
      rw [if_neg hne]
      simp only [hcol, hnone]
      rw [if_neg hgt2]
  · intro seg hd0
    unfold ProcessHeadersPOS
    by_cases h1 : seg = []
    · rw [if_pos h1]
      exact ⟨_, _, rfl⟩
    · rw [if_neg h1]
      by_cases h2 : hd0.posAnchor = none
      · rw [if_pos h2]
        exact ⟨_, _, rfl⟩
      · rw [if_neg h2]
        by_cases h3 : hd0.headersCollector.isNone = true
        · rw [if_pos h3]
          exact ⟨_, _, rfl⟩
        · rw [if_neg h3]
          obtain ⟨a, ha0⟩ := Option.ne_none_iff_exists'.mp h2
          obtain ⟨c, hc0⟩ : ∃ c, hd0.headersCollector = some c := by
            cases hcc : hd0.headersCollector with
            | none => rw [hcc] at h3; exact absurd rfl h3
            | some c => exact ⟨c, rfl⟩
          exact processPOSLoop_total hr collect tx peerId seg hd0 a c ha0 hc0

/-- Claim C30 on the database of the fork example, which holds the headers `100`
to `110`. An engine that waits for `115` skips the header `999` and, on `115`
whose parent `114` is unknown, moves its anchor to `114` at height 15. An engine
that waits for `111` is `Synced` on the header `111` of number 11 whose parent
`110` is known at height 10, and records `111` as bad when its number is 13. An
engine that waits for `301` returns an error on the header `301` of number 1
whose parent is unknown. -/
theorem ProcessHeadersPOS_step_witness :
    ProcessHeadersPOS memReader memCollect forkDb 4
        [posHeader 999 998 14, posHeader 115 114 15] (posEngine 115 16) =
      ProcessHeadersPOS memReader memCollect forkDb 4 [posHeader 115 114 15] (posEngine 115 16) ∧
    ProcessHeadersPOS memReader memCollect forkDb 4 [posHeader 115 114 15] (posEngine 115 16) =
      ProcessHeadersPOS memReader memCollect forkDb 4 []
        { posEngine 115 16 with
          headersCollector := some [((15, 115), (posHeader 115 114 15).headerRaw)]
          posAnchor := some { parentHash := 114, blockHeight := 15, peerID := 4 } } ∧
    ProcessHeadersPOS memReader memCollect forkDb 4
        [posHeader 111 110 11, posHeader 110 109 10] (posEngine 111 12) =
      some ([], none,
        { posEngine 111 12 with
          headersCollector := some [((11, 111), (posHeader 111 110 11).headerRaw)]
          posAnchor := none
          posStatus := SyncStatus.Synced
          deliveryNotify := true }) ∧
    (∃ err, ProcessHeadersPOS memReader memCollect forkDb 4
        [posHeader 111 110 13, posHeader 110 109 10] (posEngine 111 12) =
      some ([], some err,
        { posEngine 111 12 with
          headersCollector := some [((13, 111), (posHeader 111 110 13).headerRaw)]
          badPoSHeaders := [(111, 110)] })) ∧
    (∃ err, ProcessHeadersPOS memReader memCollect forkDb 4 [posHeader 301 300 1]
        (posEngine 301 2) =
      some ([], some err,
        { posEngine 301 2 with
          headersCollector := some [((1, 301), (posHeader 301 300 1).headerRaw)]
          posAnchor := some { parentHash := 300, blockHeight := 1, peerID := 4 } })) :=
  ⟨(ProcessHeadersPOS_step memReader memCollect forkDb 4 (posEngine 115 16)
      { parentHash := 115, blockHeight := 16, peerID := 3 } [] (posHeader 999 998 14)
      [posHeader 115 114 15] rfl rfl).1 (by decide),
   (((ProcessHeadersPOS_step memReader memCollect forkDb 4 (posEngine 115 16)
      { parentHash := 115, blockHeight := 16, peerID := 3 } [] (posHeader 115 114 15)
      [] rfl rfl).2.1 (by decide) [((15, 115), (posHeader 115 114 15).headerRaw)]
      (by decide)).2 (by decide)).2 (by decide),
   (((ProcessHeadersPOS_step memReader memCollect forkDb 4 (posEngine 111 12)
      { parentHash := 111, blockHeight := 12, peerID := 3 } [] (posHeader 111 110 11)
      [posHeader 110 109 10] rfl rfl).2.1 (by decide)
      [((11, 111), (posHeader 111 110 11).headerRaw)] (by decide)).1
      { ParentHash := 109, Number := 10, Time := 100, Difficulty := 1 } (by decide)).1 (by decide),
   (((ProcessHeadersPOS_step memReader memCollect forkDb 4 (posEngine 111 12)
      { parentHash := 111, blockHeight := 12, peerID := 3 } [] (posHeader 111 110 13)
      [posHeader 110 109 10] rfl rfl).2.1 (by decide)
      [((13, 111), (posHeader 111 110 13).headerRaw)] (by decide)).1
      { ParentHash := 109, Number := 10, Time := 100, Difficulty := 1 } (by decide)).2 (by decide),
   (((ProcessHeadersPOS_step memReader memCollect forkDb 4 (posEngine 301 2)
      { parentHash := 301, blockHeight := 2, peerID := 3 } [] (posHeader 301 300 1)
      [] rfl rfl).2.1 (by decide) [((1, 301), (posHeader 301 300 1).headerRaw)]
      (by decide)).2 (by decide)).1 (by decide)⟩

/-! ## Statistics and announces -/

/-- Claim C35: `ExtractStats` returns the counters of the engine and leaves an
engine that differs only in its counters, which are all zero; a second call in
succession returns the all-zero counters. -/
theorem ExtractStats_spec (hd : HeaderDownload) :
    (ExtractStats hd).2 = hd.stats ∧
    (ExtractStats hd).1 = { hd with stats := {} } ∧
    (ExtractStats hd).1.stats =
      { SkeletonRequests := 0, Requests := 0, Responses := 0, Duplicates := 0,
        InvalidHeaders := 0, RejectedBadHeaders := 0, ReqMinBlock := 0, ReqMaxBlock := 0,
        RespMinBlock := 0, RespMaxBlock := 0, SkeletonReqMinBlock := 0,
        SkeletonReqMaxBlock := 0 } ∧
    (ExtractStats (ExtractStats hd).1).2 = {} ∧
    (ExtractStats (ExtractStats hd).1).1 = (ExtractStats hd).1 ∧
    SameForest hd (ExtractStats hd).1 :=
  ⟨rfl, rfl, rfl, rfl, rfl, rfl, rfl, rfl, rfl, rfl, rfl, rfl, rfl⟩

/-! ### InsertHeader returns -/

/-- The loop of `InsertHeader` over the children of the persisted link returns
on a forest without cycles, with fuel above the rank of the first child. -/
theorem moveChildren_total (rank : Nat → Nat) (n : Nat) :
    ∀ (hd : HeaderDownload) (o : Option Nat) (k : Nat), Ranked hd.mem rank →
      (∀ c, o = some c → rank c < k) → k ≤ n → ∃ hd2, moveChildren n hd o = some hd2 := by
  induction n with
  | zero =>
    intro hd o k _ hk hkn
    cases o with
    | none => exact ⟨hd, by simp only [moveChildren]⟩
    | some c =>
      have := hk c rfl
      omega
  | succ n ih =>
    intro hd o k hr hk hkn
    cases o with
    | none => exact ⟨hd, by simp only [moveChildren]⟩
    | some c =>
      have hck := hk c rfl
      simp only [moveChildren]
      by_cases hp : (getLink hd.mem c).persisted = true
      · simp only [hp, if_true]
        exact ih hd _ (rank c) hr (fun d hd1 => hr c d (Or.inr hd1)) (by omega)
      · simp only [hp, if_false]
        have hr1 : Ranked (moveLinkToQueue hd c QueueID.InsertQueueID).mem rank := by
          rw [moveLinkToQueue_mem]
          exact ranked_of_pruned (pruned_setLink_queueId _ _ _) hr
        exact ih _ _ (rank c) hr1 (fun d hd1 => hr1 c d (Or.inr hd1)) (by omega)

/-- The part of `InsertHeader` that persists the link returns on a forest without
cycles whose ranks are at most `B`, with fuel above `B`. -/
theorem persistLink_total (rank : Nat → Nat) (B n : Nat) (hB : ∀ q, rank q ≤ B) (hn : B + 1 ≤ n)
    (hd : HeaderDownload) (link : Nat) (hr : Ranked hd.mem rank) :
    ∃ hd2, persistLink n hd link = some hd2 := by
  unfold persistLink
  simp only
  apply moveChildren_total rank n _ _ (B + 1) _ (fun c _ => Nat.lt_succ_of_le (hB c)) hn
  rw [moveLinkToQueue_mem]
  apply ranked_of_pruned (pruned_setLink_queueId _ _ _)
  have hmem : ∀ (hd0 : HeaderDownload), Ranked hd0.mem rank → hd0.mem = hd.mem →
      Ranked (setLink hd0.mem link
        { getLink hd0.mem link with persisted := true, header := none, headerRaw := none }) rank := by
    intro hd0 hr0 _
    exact ranked_setLink hr0 link _ (fun c hc => hr0 link c hc)
  by_cases hh : (getLink hd.mem link).blockHeight > hd.highestInDb
  · simp only [hh, if_true]
    exact hmem _ hr rfl
  · simp only [hh, if_false]
    exact hmem _ hr rfl

theorem heapMin_isSome (mem : List Link) : ∀ (l : List Nat), l ≠ [] → ∃ p, heapMin mem l = some p := by
  intro l
  induction l with
  | nil => intro h; exact absurd rfl h
  | cons p ps ih =>
    intro _
    unfold heapMin
    cases hm : heapMin mem ps with
    | none => exact ⟨p, rfl⟩
    | some q =>
      by_cases hle : (getLink mem p).blockHeight ≤ (getLink mem q).blockHeight
      · exact ⟨p, by simp only [hle, if_true]⟩
      · exact ⟨q, by simp only [hle, if_false]⟩

/-- The eviction loop of `InsertHeader` returns on a forest without cycles whose
ranks are at most `B`, when the limit is not negative, with fuel above the length
of the persisted queue plus `B`. -/
theorem evictPersisted_total (rank : Nat → Nat) (B : Nat) (hB : ∀ q, rank q ≤ B) :
    ∀ (n : Nat) (hd : HeaderDownload), Ranked hd.mem rank → 0 ≤ hd.persistedLinkLimit →
      hd.persistedLinkQueue.length + B + 1 ≤ n → ∃ hd2, evictPersisted n hd = some hd2 := by
  intro n
  induction n with
  | zero =>
    intro hd _ _ hn
    omega
  | succ n ih =>
    intro hd hr hlim hn
    unfold evictPersisted
    by_cases hgt : (hd.persistedLinkQueue.length : Int) > hd.persistedLinkLimit
    · simp only [hgt, if_true]
      have hne : hd.persistedLinkQueue ≠ [] := by
        intro e
        rw [e] at hgt
        simp only [List.length_nil, Nat.cast_zero] at hgt
        omega
      obtain ⟨p, hp⟩ := heapMin_isSome hd.mem hd.persistedLinkQueue hne
      have hpm := (heapMin_spec hd.mem _ p hp).1
      simp only [hp]
      obtain ⟨mem3, h3⟩ := clearNext_total rank n hd.mem (getLink hd.mem p).fChild (B + 1) hr
        (fun c _ => Nat.lt_succ_of_le (hB c)) (by omega)
      have h3b : ClearChildren n hd.mem p = some mem3 := h3
      simp only [h3b, Option.some_bind]
      apply ih
      · exact ranked_of_pruned (clearNext_pruned n _ _ _ h3) hr
      · exact hlim
      · show (hd.persistedLinkQueue.erase p).length + B + 1 ≤ n
        rw [List.length_erase_of_mem hpm]
        have : 0 < hd.persistedLinkQueue.length := List.length_pos.mpr hne
        omega
    · simp only [hgt, if_false]
      exact ⟨hd, rfl⟩

theorem length_erase_le_self (l : List Nat) (p : Nat) : (l.erase p).length ≤ l.length := by
  by_cases h : p ∈ l
  · rw [List.length_erase_of_mem h]
    omega
  · rw [List.erase_of_not_mem h]

/-- A move to a queue lengthens the persisted queue by one link at most, and
not at all when the target is another queue. -/
theorem moveLinkToQueue_persisted_length (hd : HeaderDownload) (p : Nat) (t : QueueID) :
    (moveLinkToQueue hd p t).persistedLinkQueue.length ≤ hd.persistedLinkQueue.length + 1 ∧
      (t ≠ QueueID.PersistedQueueID →
        (moveLinkToQueue hd p t).persistedLinkQueue.length ≤ hd.persistedLinkQueue.length) := by
  have he := length_erase_le_self hd.persistedLinkQueue p
  refine ⟨?_, fun ht => ?_⟩
  · unfold moveLinkToQueue queuePush queueRemove
    cases (getLink hd.mem p).queueId <;> cases t <;>
      simp only [List.length_append, List.length_cons, List.length_nil] <;>
      omega
  · unfold moveLinkToQueue queuePush queueRemove
    cases (getLink hd.mem p).queueId <;> cases t <;>
      first
      | exact absurd rfl ht
      | (simp only [List.length_append, List.length_cons, List.length_nil]; omega)

theorem moveChildren_pruned (n : Nat) :
    ∀ (hd : HeaderDownload) (o : Option Nat) (hd2 : HeaderDownload),
      moveChildren n hd o = some hd2 →
        Pruned hd.mem hd2.mem ∧
          hd2.persistedLinkQueue.length ≤ hd.persistedLinkQueue.length := by
  induction n with
  | zero =>
    intro hd o hd2 h
    cases o with
    | none =>
      simp only [moveChildren, Option.some.injEq] at h
      subst h
      exact ⟨pruned_refl _, Nat.le_refl _⟩
    | some c => simp only [moveChildren] at h; cases h
  | succ n ih =>
    intro hd o hd2 h
    cases o with
    | none =>
      simp only [moveChildren, Option.some.injEq] at h
      subst h
      exact ⟨pruned_refl _, Nat.le_refl _⟩
    | some c =>
      simp only [moveChildren] at h
      by_cases hp : (getLink hd.mem c).persisted = true
      · simp only [hp, if_true] at h
        exact ih _ _ _ h
      · simp only [hp, if_false] at h
        obtain ⟨h1, h2⟩ := ih _ _ _ h
        have hm : Pruned hd.mem (moveLinkToQueue hd c QueueID.InsertQueueID).mem := by
          rw [moveLinkToQueue_mem]
          exact pruned_setLink_queueId _ _ _
        have hl := (moveLinkToQueue_persisted_length hd c QueueID.InsertQueueID).2 (by decide)
        exact ⟨pruned_trans hm h1, Nat.le_trans h2 hl⟩

/-- The part of `InsertHeader` that persists the link keeps the ranks and adds
one link at most to the persisted queue. -/
theorem persistLink_ranked (rank : Nat → Nat) (n : Nat) (hd : HeaderDownload) (link : Nat)
    (hd2 : HeaderDownload) (h : persistLink n hd link = some hd2) (hr : Ranked hd.mem rank) :
    Ranked hd2.mem rank ∧
      hd2.persistedLinkQueue.length ≤ hd.persistedLinkQueue.length + 1 := by
  unfold persistLink at h
  simp only at h
  obtain ⟨h1, h2⟩ := moveChildren_pruned n _ _ _ h
  have key : ∀ (hd0 : HeaderDownload), hd0.mem = hd.mem →
      hd0.persistedLinkQueue = hd.persistedLinkQueue →
      Ranked (moveLinkToQueue { hd0 with
          mem := setLink hd0.mem link
            { getLink hd0.mem link with persisted := true, header := none, headerRaw := none } }
          link QueueID.PersistedQueueID).mem rank ∧
        (moveLinkToQueue { hd0 with
          mem := setLink hd0.mem link
            { getLink hd0.mem link with persisted := true, header := none, headerRaw := none } }
          link QueueID.PersistedQueueID).persistedLinkQueue.length ≤
            hd.persistedLinkQueue.length + 1 := by
    intro hd0 e1 e2
    constructor
    · rw [moveLinkToQueue_mem]
      apply ranked_of_pruned (pruned_setLink_queueId _ _ _)
      show Ranked (setLink hd0.mem link _) rank
      rw [e1]
      exact ranked_setLink hr link _ (fun c hc => hr link c hc)
    · have := (moveLinkToQueue_persisted_length { hd0 with
          mem := setLink hd0.mem link
            { getLink hd0.mem link with persisted := true, header := none, headerRaw := none } }
          link QueueID.PersistedQueueID).1
      rw [← e2]
      exact this
  by_cases hh : (getLink hd.mem link).blockHeight > hd.highestInDb
  · simp only [hh, if_true] at h1 h2
    obtain ⟨k1, k2⟩ := key { hd with highestInDb := (getLink hd.mem link).blockHeight } rfl rfl
    exact ⟨ranked_of_pruned h1 k1, Nat.le_trans h2 k2⟩
  · simp only [hh, if_false] at h1 h2
    obtain ⟨k1, k2⟩ := key hd rfl rfl
    exact ⟨ranked_of_pruned h1 k1, Nat.le_trans h2 k2⟩

/-- The run of `InsertHeader` on a front link that passes the checks and whose
callback returns no error. -/
theorem InsertHeader_fed {σ ε : Type} (fuel : Nat) (verify : Header → VerifyResult)
    (hf : FeedHeaderFunc σ ε) (ttd : Option Int) (hd : HeaderDownload) (db db1 : σ)
    (link : Nat) (h : Header) (td : Option Int)
    (hfront : heapMin hd.mem hd.insertQueue = some link)
    (hbad : isBad hd (getLink hd.mem link) = some false)
    (hhdr : (getLink hd.mem link).header = some h)
    (hver : (getLink hd.mem link).verified = true ∨ verify h = VerifyResult.valid)
    (hfeed : hf h (getLink hd.mem link).headerRaw (getLink hd.mem link).hash
        (getLink hd.mem link).blockHeight db = (Except.ok td, db1)) :
    InsertHeader fuel verify hf ttd hd db =
      afterFeed fuel ttd
        { hd with mem := setLink hd.mem link { getLink hd.mem link with verified := true } }
        link h td db1 := by
  have hv : (if (getLink hd.mem link).verified = true then VerifyResult.valid else verify h) =
      VerifyResult.valid := by
    rcases hver with hv | hv
    · simp only [hv, if_true]
    · by_cases hx : (getLink hd.mem link).verified = true
      · simp only [hx, if_true]
      · rw [if_neg hx]
        exact hv
  unfold InsertHeader
  simp only [hfront, hbad, hhdr, hv, hfeed]

theorem persistLink_announces (n : Nat) (hd : HeaderDownload) (link : Nat) (hd2 : HeaderDownload)
    (h : persistLink n hd link = some hd2) :
    hd2.toAnnounce = hd.toAnnounce ∧ hd2.seenAnnounces = hd.seenAnnounces := by
  unfold persistLink at h
  simp only at h
  obtain ⟨hrest, _, _⟩ := moveChildren_frame n _ _ _ h
  obtain ⟨_, _, _, _, _, _, _, _, _, _, _, hs, ht⟩ := hrest
  have hm := fun (hd0 : HeaderDownload) => moveLinkToQueue_sameRest hd0 link QueueID.PersistedQueueID
  by_cases hh : (getLink hd.mem link).blockHeight > hd.highestInDb
  · simp only [hh, if_true] at hs ht
    obtain ⟨_, _, _, _, _, _, _, _, _, _, _, hs2, ht2⟩ := hm { hd with
      highestInDb := (getLink hd.mem link).blockHeight
      mem := setLink hd.mem link
        { getLink hd.mem link with persisted := true, header := none, headerRaw := none } }
    exact ⟨ht.trans ht2, hs.trans hs2⟩
  · simp only [hh, if_false] at hs ht
    obtain ⟨_, _, _, _, _, _, _, _, _, _, _, hs2, ht2⟩ := hm { hd with
      mem := setLink hd.mem link
        { getLink hd.mem link with persisted := true, header := none, headerRaw := none } }
    exact ⟨ht.trans ht2, hs.trans hs2⟩

/-- The part of `InsertHeader` from the persisting of the link on returns, on a
forest without cycles, when the limit of the persisted queue is not negative and
the estimate does not divide by zero; the announces are left as they are. -/
theorem persistTail_returns {σ ε : Type} (rank : Nat → Nat) (B fuel : Nat)
    (hB : ∀ q, rank q ≤ B) (ttd : Option Int) (pending : Option (Int × Nat)) (hd : HeaderDownload)
    (link : Nat) (height lastTime : Nat) (db : σ) (hr : Ranked hd.mem rank)
    (hlim : 0 ≤ hd.persistedLinkLimit)
    (hfuel : hd.persistedLinkQueue.length + B + 2 ≤ fuel)
    (hdiv : ∃ b, blocksToTTD ttd pending = some b) :
    ∃ r : InsertOutcome σ ε,
      ((persistLink fuel hd link).bind fun hd4 =>
        if height = hd4.latestMinedBlockNumber then
          some { hd := hd4, db := db, more := false, force := true, blocksToTTD := 0,
                 lastTime := lastTime, err := none }
        else finishInsert fuel ttd pending lastTime hd4 db) = some r ∧
      r.err = none ∧ r.db = db ∧ r.hd.toAnnounce = hd.toAnnounce ∧
      r.hd.seenAnnounces = hd.seenAnnounces := by
  obtain ⟨hd4, h4⟩ := persistLink_total rank B fuel hB (by omega) hd link hr
  obtain ⟨hr4, hlen⟩ := persistLink_ranked rank fuel hd link hd4 h4 hr
  obtain ⟨ha1, ha2⟩ := persistLink_announces fuel hd link hd4 h4
  have hlim4 := (persistLink_highestInDb fuel hd link hd4 h4).2.1
  simp only [h4, Option.some_bind]
  by_cases hm : height = hd4.latestMinedBlockNumber
  · rw [if_pos hm]
    exact ⟨_, rfl, rfl, rfl, ha1, ha2⟩
  · rw [if_neg hm]
    obtain ⟨hd5, h5⟩ := evictPersisted_total rank B hB fuel hd4 hr4 (by rw [hlim4]; exact hlim)
      (by omega)
    obtain ⟨b, hb⟩ := hdiv
    obtain ⟨hrest, _⟩ := evictPersisted_frame fuel hd4 hd5 h5
    obtain ⟨_, _, _, _, _, _, _, _, _, _, _, hs, ht⟩ := hrest
    refine ⟨{ hd := hd5, db := db,
              more :=
                (match heapMin hd5.mem hd5.insertQueue with
                  | none => false
                  | some front =>
                    decide ((getLink hd5.mem front).blockHeight ≤ (hd5.highestInDb + 1) % 2 ^ 64)),
              force := false, blocksToTTD := b, lastTime := lastTime, err := none }, ?_, rfl, rfl,
      ht.trans ha1, hs.trans ha2⟩
    unfold finishInsert
    simp only [h5, Option.some_bind, hb, Option.map_some']

/-- The part of `InsertHeader` after the callback returns, under the hypotheses
of `persistTail_returns`: with a total difficulty below the terminal one, the
difficulty of the header is not zero. -/
theorem afterFeed_returns {σ ε : Type} (rank : Nat → Nat) (B fuel : Nat)
    (hB : ∀ q, rank q ≤ B) (ttd : Option Int) (hd : HeaderDownload) (link : Nat) (h : Header)
    (td : Option Int) (db : σ) (hr : Ranked hd.mem rank) (hlim : 0 ≤ hd.persistedLinkLimit)
    (hfuel : hd.persistedLinkQueue.length + B + 2 ≤ fuel)
    (hdiv : ∀ T t, ttd = some T → td = some t → t < T → h.Difficulty ≠ 0) :
    ∃ r : InsertOutcome σ ε, afterFeed fuel ttd hd link h td db = some r ∧
      r.err = none ∧ r.db = db ∧ r.hd.toAnnounce = (noteInserted hd link td).toAnnounce ∧
      r.hd.seenAnnounces = (noteInserted hd link td).seenAnnounces := by
  obtain ⟨hforest, _, _, _, hlim3, _⟩ := noteInserted_frame hd link td
  have hmem3 : (noteInserted hd link td).mem = hd.mem := hforest.2.1
  have hpq3 : (noteInserted hd link td).persistedLinkQueue = hd.persistedLinkQueue :=
    hforest.2.2.2.2.2.2.2
  have tail := fun (pending : Option (Int × Nat)) (hdv : ∃ b, blocksToTTD ttd pending = some b) =>
    @persistTail_returns σ ε rank B fuel hB ttd pending (noteInserted hd link td) link
      (getLink hd.mem link).blockHeight h.Time db (by rw [hmem3]; exact hr)
      (by rw [hlim3]; exact hlim) (by rw [hpq3]; exact hfuel) hdv
  unfold afterFeed
  cases td with
  | none =>
    simp only [Bool.false_eq_true, if_false]
    exact tail none ⟨0, by cases ttd <;> rfl⟩
  | some t =>
    cases ttd with
    | none =>
      simp only [Bool.false_eq_true, if_false]
      exact tail none ⟨0, rfl⟩
    | some T =>
      by_cases hge : t ≥ T
      · simp only [hge, decide_True, if_true]
        exact ⟨_, rfl, rfl, rfl, rfl, rfl⟩
      · simp only [hge, decide_False, Bool.false_eq_true, if_false]
        have hd0 := hdiv T t rfl rfl (by omega)
        refine tail (some (t, h.Difficulty)) ?_
        unfold blocksToTTD
        simp only [hd0, if_false]
        by_cases hx : 0 ≤ (T - t) / (h.Difficulty : Int) ∧ (T - t) / (h.Difficulty : Int) < 2 ^ 64
        · exact ⟨_, by rw [if_pos hx]⟩
        · exact ⟨_, by rw [if_neg hx]⟩

/-- Claim C32, counterexample: the hash `0x0b` was passed to
`SaveExternalAnnounce` and is in the seen set; `InsertHeader` persists the link
`0x0b` at height 5 with a callback that returns no error and a nil total
difficulty. The link is persisted and in the persisted queue, nothing is appended
to the pending announces, and the hash stays in the seen set. -/
theorem InsertHeader_announce_counterexample :
    announcedEngine.seenAnnounces = [11] ∧
    (InsertHeader 10 verifyOk feedOk none announcedEngine []).map
        (fun r => (r.err, (getLink r.hd.mem 2).hash, (getLink r.hd.mem 2).persisted,
          r.hd.persistedLinkQueue)) = some (none, 11, true, [0, 2]) ∧
    (InsertHeader 10 verifyOk feedOk none announcedEngine []).map
        (fun r => (r.hd.toAnnounce, r.hd.seenAnnounces, (GrabAnnounces r.hd).2)) =
      some ([], [11], []) := by
  decide

/-- Claim C32, amended: the front link of the insert queue passes the checks, its
hash is in the seen set, and the callback returns a total difficulty (not nil).
On a forest without cycles, with a limit of the persisted queue that is not
negative and no division by zero in the estimate, `InsertHeader` returns without
error, the pair of the hash and the height of the link is appended once at the
end of the pending announces, and the hash leaves the seen set. `GrabAnnounces`
then returns the pending announces in that order and leaves none, so that a
second `GrabAnnounces` returns the empty list. -/
theorem InsertHeader_announce {σ ε : Type} (rank : Nat → Nat) (B : Nat)
    (verify : Header → VerifyResult) (hf : FeedHeaderFunc σ ε) (ttd : Option Int)
    (hd : HeaderDownload) (db db1 : σ) (link : Nat) (h : Header) (td : Int)
    (hrk : acyclic hd.mem rank = true) (hB : ∀ q, rank q ≤ B)
    (hlim : 0 ≤ hd.persistedLinkLimit)
    (hfront : heapMin hd.mem hd.insertQueue = some link)
    (hbad : isBad hd (getLink hd.mem link) = some false)
    (hhdr : (getLink hd.mem link).header = some h)
    (hver : (getLink hd.mem link).verified = true ∨ verify h = VerifyResult.valid)
    (hfeed : hf h (getLink hd.mem link).headerRaw (getLink hd.mem link).hash
        (getLink hd.mem link).blockHeight db = (Except.ok (some td), db1))
    (hseen : (getLink hd.mem link).hash ∈ hd.seenAnnounces)
    (hnodup : hd.seenAnnounces.Nodup)
    (hdiv : ∀ T, ttd = some T → td < T → h.Difficulty ≠ 0) :
    ∃ fuel0, ∀ fuel, fuel0 ≤ fuel →
      ∃ r, InsertHeader fuel verify hf ttd hd db = some r ∧ r.err = none ∧
        r.hd.toAnnounce =
          hd.toAnnounce ++ [((getLink hd.mem link).hash, (getLink hd.mem link).blockHeight)] ∧
        r.hd.seenAnnounces = hd.seenAnnounces.erase (getLink hd.mem link).hash ∧
        (getLink hd.mem link).hash ∉ r.hd.seenAnnounces ∧
        (GrabAnnounces r.hd).2 =
          hd.toAnnounce ++ [((getLink hd.mem link).hash, (getLink hd.mem link).blockHeight)] ∧
        (GrabAnnounces r.hd).1 = { r.hd with toAnnounce := [] } ∧
        (GrabAnnounces (GrabAnnounces r.hd).1).2 = [] := by
  refine ⟨hd.persistedLinkQueue.length + B + 2, fun fuel hfuel => ?_⟩
  have hl : getLink (setLink hd.mem link { getLink hd.mem link with verified := true }) link =
      { getLink hd.mem link with verified := true } ∨
      getLink (setLink hd.mem link { getLink hd.mem link with verified := true }) link =
        getLink hd.mem link := by
    rw [getLink_setLink]
    by_cases hc : link = link ∧ link < hd.mem.length
    · rw [if_pos hc]
      exact Or.inl rfl
    · rw [if_neg hc]
      exact Or.inr rfl
  have hhash : (getLink (setLink hd.mem link { getLink hd.mem link with verified := true })
      link).hash = (getLink hd.mem link).hash := by
    rcases hl with e | e <;> rw [e]
  have hheight : (getLink (setLink hd.mem link { getLink hd.mem link with verified := true })
      link).blockHeight = (getLink hd.mem link).blockHeight := by
    rcases hl with e | e <;> rw [e]
  have hrk1 : Ranked (setLink hd.mem link { getLink hd.mem link with verified := true }) rank :=
    ranked_setLink (ranked_of_acyclic hrk) link _
      (fun c hc => ranked_of_acyclic hrk link c hc)
  obtain ⟨r, h1, h2, _, h4, h5⟩ := @afterFeed_returns σ ε rank B fuel hB ttd
    { hd with mem := setLink hd.mem link { getLink hd.mem link with verified := true } }
    link h (some td) db1 hrk1 hlim hfuel
    (fun T t e1 e2 hlt => hdiv T e1 (by cases e2; exact hlt))
  have hnote : (noteInserted
      { hd with mem := setLink hd.mem link { getLink hd.mem link with verified := true } }
      link (some td)).toAnnounce =
        hd.toAnnounce ++ [((getLink hd.mem link).hash, (getLink hd.mem link).blockHeight)] ∧
      (noteInserted
      { hd with mem := setLink hd.mem link { getLink hd.mem link with verified := true } }
      link (some td)).seenAnnounces = hd.seenAnnounces.erase (getLink hd.mem link).hash := by
    unfold noteInserted
    simp only [hhash, hheight, hseen, if_true, and_self]
  rw [hnote.1] at h4
  rw [hnote.2] at h5
  refine ⟨r, ?_, h2, h4, h5, ?_, h4, rfl, rfl⟩
  · rw [InsertHeader_fed fuel verify hf ttd hd db db1 link h (some td) hfront hbad hhdr hver hfeed]
    exact h1
  · rw [h5]
    exact hnodup.not_mem_erase

/-- Claim C32, amended, on the engine in which the hash `0x0b` was announced: the
callback returns the total difficulty 5, and the pair `(0x0b, 5)` is the one
pending announce. -/
theorem InsertHeader_announce_witness :
    ∃ fuel0, ∀ fuel, fuel0 ≤ fuel →
      ∃ r, InsertHeader fuel verifyOk (feedTd 5) none announcedEngine [] = some r ∧
        r.err = none ∧
        r.hd.toAnnounce = announcedEngine.toAnnounce ++
          [((getLink announcedEngine.mem 2).hash, (getLink announcedEngine.mem 2).blockHeight)] ∧
        r.hd.seenAnnounces =
          announcedEngine.seenAnnounces.erase (getLink announcedEngine.mem 2).hash ∧
        (getLink announcedEngine.mem 2).hash ∉ r.hd.seenAnnounces ∧
        (GrabAnnounces r.hd).2 = announcedEngine.toAnnounce ++
          [((getLink announcedEngine.mem 2).hash, (getLink announcedEngine.mem 2).blockHeight)] ∧
        (GrabAnnounces r.hd).1 = { r.hd with toAnnounce := [] } ∧
        (GrabAnnounces (GrabAnnounces r.hd).1).2 = [] :=
  InsertHeader_announce readyRank 3 verifyOk (feedTd 5) none announcedEngine [] [5] 2
    header11.header 5 (by decide) (fun q => by unfold readyRank; split <;> [omega; (split <;> omega)])
    (by decide) (by decide) (by decide) (by decide) (Or.inr rfl) (by decide) (by decide)
    (by decide) (fun T e => by cases e)

/-- The tail of `InsertHeader` with a pending total difficulty and a last
difficulty of zero does not return, whatever the fuel: the estimate divides by
zero. -/
theorem finishInsert_zero_difficulty {σ ε : Type} (fuel : Nat) (T t : Int) (lastTime : Nat)
    (hd : HeaderDownload) (db : σ) :
    @finishInsert σ ε fuel (some T) (some (t, 0)) lastTime hd db = none := by
  unfold finishInsert
  cases evictPersisted fuel hd with
  | none => rfl
  | some hd1 => simp only [Option.some_bind, blocksToTTD, if_true, Option.map_none']

/-- The run of `InsertHeader` on a front link whose header has difficulty zero,
with a callback that returns a total difficulty below the terminal one, when the
link is not the latest mined block: it does not return, whatever the fuel. -/
theorem InsertHeader_zero_difficulty {σ ε : Type} (fuel : Nat) (verify : Header → VerifyResult)
    (hf : FeedHeaderFunc σ ε) (T t : Int) (hd : HeaderDownload) (db db1 : σ)
    (link : Nat) (h : Header)
    (hfront : heapMin hd.mem hd.insertQueue = some link)
    (hbad : isBad hd (getLink hd.mem link) = some false)
    (hhdr : (getLink hd.mem link).header = some h)
    (hver : (getLink hd.mem link).verified = true ∨ verify h = VerifyResult.valid)
    (hfeed : hf h (getLink hd.mem link).headerRaw (getLink hd.mem link).hash
        (getLink hd.mem link).blockHeight db = (Except.ok (some t), db1))
    (hlt : t < T) (hzero : h.Difficulty = 0)
    (hmined : (getLink hd.mem link).blockHeight ≠ hd.latestMinedBlockNumber) :
    InsertHeader fuel verify hf (some T) hd db = none := by
  rw [InsertHeader_fed fuel verify hf (some T) hd db db1 link h (some t) hfront hbad hhdr hver
    hfeed]
  have hge : ¬ (t ≥ T) := by omega
  unfold afterFeed
  simp only [hge, decide_False, Bool.false_eq_true, if_false, hzero]
  cases hp : persistLink fuel _ link with
  | none => rfl
  | some hd4 =>
    have hl := (persistLink_highestInDb fuel _ link hd4 hp).2.2
    have hn := (noteInserted_frame
      { hd with mem := setLink hd.mem link { getLink hd.mem link with verified := true } }
      link (some t)).2.2.2.1
    have hheight : (getLink (setLink hd.mem link { getLink hd.mem link with verified := true })
        link).blockHeight = (getLink hd.mem link).blockHeight := by
      rw [getLink_setLink]
      by_cases hc : link = link ∧ link < hd.mem.length
      · rw [if_pos hc]
      · rw [if_neg hc]
    have hne : ¬ ((getLink (setLink hd.mem link { getLink hd.mem link with verified := true })
        link).blockHeight = hd4.latestMinedBlockNumber) := by
      rw [hheight, hl, hn]
      exact hmined
    simp only [Option.some_bind]
    rw [if_neg hne]
    exact finishInsert_zero_difficulty fuel T t h.Time hd4 db1

/-- Claim C36, failing input: the front link `0x0b` of `readyEngine` has a header
of difficulty 0; with the terminal total difficulty 100 and a callback that
returns the total difficulty 5, `InsertHeader` does not return for any fuel (the
estimate `(100 - 5) / 0` is the panic of `big.Int.Div`), while the same call on
the same link with difficulty 1 returns the estimate 95, and the call without a
terminal total difficulty returns too. -/
theorem InsertHeader_zero_difficulty_panics :
    (getLink readyEngine.mem 2).header = some { ParentHash := 10, Number := 5, Difficulty := 0 } ∧
    (∀ fuel, InsertHeader fuel verifyOk (feedTd 5) (some 100) readyEngine [] = none) ∧
    blocksToTTD (some 100) (some (5, 0)) = none ∧
    (InsertHeader 10 verifyOk (feedTd 5) (some 100) (difficultyEngine 1) []).map
        (fun r => (r.err, r.blocksToTTD, r.db)) = some (none, 95, [5]) ∧
    (InsertHeader 10 verifyOk (feedTd 5) none readyEngine []).map
        (fun r => (r.err, r.blocksToTTD, r.db)) = some (none, 0, [5]) :=
  ⟨by decide,
   fun fuel => InsertHeader_zero_difficulty fuel verifyOk (feedTd 5) 100 5 readyEngine [] [5] 2
     header11.header (by decide) (by decide) (by decide) (Or.inr rfl) (by decide) (by decide)
     (by decide) (by decide),
   by decide, by decide, by decide⟩

/-! ## The threshold test of ProcessHeader in 64 bits -/

/-- Claim C39, failing input: the engine has no link and no anchor, its database
is at height 100000, and the header has the number `2 ^ 64 - 1`: it has no parent
link and no anchor keyed by its hash or its parent hash, and it passes the
rejection checks. With the threshold 90000 the sum `number + threshold` wraps to
89999, which is below `highestInDb`: `ProcessHeader` removes the new link,
creates no anchor and returns false. The header with the number
`2 ^ 64 - 90001`, whose sum does not wrap, becomes an anchor and the call returns
true. -/
theorem ProcessHeader_threshold_wraps :
    mapGet engineAtHundredThousand.links (farHeader (2 ^ 64 - 1)).header.ParentHash = none ∧
    mapGet engineAtHundredThousand.anchors (farHeader (2 ^ 64 - 1)).hash = none ∧
    mapGet engineAtHundredThousand.anchors (farHeader (2 ^ 64 - 1)).header.ParentHash = none ∧
    engineAtHundredThousand.highestInDb ≤ (farHeader (2 ^ 64 - 1)).number ∧
    (engineAtHundredThousand.anchors.length : Int) < engineAtHundredThousand.anchorLimit ∧
    ((farHeader (2 ^ 64 - 1)).number + 90000) % 2 ^ 64 = 89999 ∧
    (ProcessHeader 10 90000 engineAtHundredThousand (farHeader (2 ^ 64 - 1)) false 7).map
        (fun r => (r.2, r.1.anchors, r.1.anchorTree)) = some (false, [], []) ∧
    (ProcessHeader 10 90000 engineAtHundredThousand (farHeader (2 ^ 64 - 1)) false 7).map
        (fun r => (r.1.links, r.1.linkQueue)) = some ([], []) ∧
    (ProcessHeader 10 90000 engineAtHundredThousand (farHeader (2 ^ 64 - 90001)) false 7).map
        (fun r => (r.2, r.1.anchors, r.1.anchorTree)) = some (true, [(76, 0)], [0]) ∧
    (ProcessHeader 10 90000 engineAtHundredThousand (farHeader (2 ^ 64 - 90001)) false 7).map
        (fun r => r.1.links) = some [(77, 0)] := by
  refine ⟨by decide, by decide, by decide, by decide, by decide, by decide, by decide, by decide,
    by decide, by decide⟩

/-! ## Store closure -/

/-- Claim C37, failing input. From the empty engine, `ProcessHeader` of `0x0b`
(parent `0x0a`) creates the anchor keyed by `0x0a` with the link `0x0b` as its
child, and the store is closed; `UnlinkHeader(0x0b)` then removes the link from
the store, while the anchor stays in the anchors map with the removed link as its
first child. From `readyEngine`, `InsertHeader` persists `0x0b` below the
persisted link `0x0a`, and the store is closed; `UnlinkHeader(0x0b)` then removes
`0x0b` from the store, while the stored link `0x0a` keeps it as its first
child. -/
theorem UnlinkHeader_leaves_dangling_child :
    (ProcessHeader 10 90000 emptyEngine header11 false 7).map (fun r => storeClosed r.1) =
      some true ∧
    ((ProcessHeader 10 90000 emptyEngine header11 false 7).bind
        fun r => UnlinkHeader 10 r.1 11).map
        (fun hd => (storeClosed hd, mapGet hd.anchors 10, (getAnchor hd.amem 0).fLink)) =
      some (false, some 0, some 0) ∧
    ((ProcessHeader 10 90000 emptyEngine header11 false 7).bind
        fun r => UnlinkHeader 10 r.1 11).map
        (fun hd => ((getLink hd.mem 0).hash, mapGet hd.links 11)) = some (11, none) ∧
    storeClosed readyEngine = true ∧
    (InsertHeader 10 verifyOk feedOk none readyEngine []).map
        (fun o => (storeClosed o.hd, (getLink o.hd.mem 2).persisted)) = some (true, true) ∧
    ((InsertHeader 10 verifyOk feedOk none readyEngine []).bind
        fun o => UnlinkHeader 10 o.hd 11).map
        (fun hd => (storeClosed hd, mapGet hd.links 10, (getLink hd.mem 0).fChild)) =
      some (false, some 0, some 2) ∧
    ((InsertHeader 10 verifyOk feedOk none readyEngine []).bind
        fun o => UnlinkHeader 10 o.hd 11).map
        (fun hd => ((getLink hd.mem 2).hash, mapGet hd.links 11)) = some (11, none) := by
  refine ⟨by decide, by decide, by decide, by decide, by decide, by decide, by decide⟩

/-! ## The reverse walk of the proof-of-stake download -/

/-- Claim C31, counterexample. The chain `H_50 .. H_100`, of which the reader
knows `H_50` only, and the reverse segment `H_99, H_98, ..., H_51`. With the
anchor `SetHeaderToDownloadPoS(H_100, 100)` sets (parent hash `H_100`, height
101), and with the anchor of parent hash `H_100` and height 100, every header of
the segment is skipped and the anchor is as before. With the anchor that waits
for `H_99` below height 100, the last header `H_51`, whose parent `H_50` the
reader knows, ends the download: the anchor is nil and the status is `Synced`,
where the claim has the anchor at `H_50` and the status `Syncing`. -/
theorem ProcessHeadersPOS_reverse_walk_counterexample :
    (ProcessHeadersPOS memReader memCollect walkDb 4 (reverseSegment walkChain 99 49)
        (SetHeaderToDownloadPoS (posEngine 0 0) 1100 100)).map
        (fun r => (r.2.1, r.2.2.posAnchor, r.2.2.posStatus)) =
      some (none, some { parentHash := 1100, blockHeight := 101 }, SyncStatus.Syncing) ∧
    (ProcessHeadersPOS memReader memCollect walkDb 4 (reverseSegment walkChain 99 49)
        (posEngine 1100 100)).map
        (fun r => (r.2.1, r.2.2.posAnchor, r.2.2.posStatus)) =
      some (none, some { parentHash := 1100, blockHeight := 100, peerID := 3 },
        SyncStatus.Syncing) ∧
    (ProcessHeadersPOS memReader memCollect walkDb 4 (reverseSegment walkChain 99 49)
        (posEngine 1099 100)).map
        (fun r => (r.2.1, r.2.2.posAnchor, r.2.2.posStatus)) =
      some (none, none, SyncStatus.Synced) := by
  refine ⟨by decide, by decide, by decide⟩

/-- One step of the loop of `ProcessHeadersPOS` on a header that the anchor waits
for, whose parent the reader does not know, with a number above 1: the anchor
moves to the parent of the header and the loop goes on. -/
theorem processPOSLoop_advance {σ κ : Type} (hr : HeaderReader σ)
    (collect : κ → Nat → Hash → List Nat → Except Nat κ) (tx : σ) (peerId : PeerID)
    (hd : PosHeaderDownload κ) (anchor : Anchor) (collector collector1 : κ)
    (sh : ChainSegmentHeader) (rest : List ChainSegmentHeader)
    (ha : hd.posAnchor = some anchor) (hc : hd.headersCollector = some collector)
    (heq : sh.hash = anchor.parentHash)
    (hcol : collect collector (sh.header.Number % 2 ^ 64) sh.hash sh.headerRaw = .ok collector1)
    (hnone : hr.HeaderByHash tx sh.header.ParentHash = .ok none)
    (hgt : 1 < sh.header.Number % 2 ^ 64) :
    processPOSLoop hr collect tx peerId (sh :: rest) hd =
      processPOSLoop hr collect tx peerId rest
        { hd with
          headersCollector := some collector1
          posAnchor := some { parentHash := sh.header.ParentHash
                              blockHeight := sh.header.Number % 2 ^ 64
                              peerID := peerId } } := by
  have hne : ¬ (sh.hash ≠ anchor.parentHash) := fun h => h heq
  have hgt2 : ¬ (sh.header.Number % 2 ^ 64 ≤ 1) := by omega
  conv => lhs; unfold processPOSLoop
  simp only [ha, hc]
  rw [if_neg hne]
  simp only [hcol, hnone]
  rw [if_neg hgt2]

/-- One step of the loop of `ProcessHeadersPOS` on a header that the anchor waits
for, whose parent the reader knows one height below: the download ends. -/
theorem processPOSLoop_synced {σ κ : Type} (hr : HeaderReader σ)
    (collect : κ → Nat → Hash → List Nat → Except Nat κ) (tx : σ) (peerId : PeerID)
    (hd : PosHeaderDownload κ) (anchor : Anchor) (collector collector1 : κ)
    (sh : ChainSegmentHeader) (rest : List ChainSegmentHeader) (hh : Header)
    (ha : hd.posAnchor = some anchor) (hc : hd.headersCollector = some collector)
    (heq : sh.hash = anchor.parentHash)
    (hcol : collect collector (sh.header.Number % 2 ^ 64) sh.hash sh.headerRaw = .ok collector1)
    (hfound : hr.HeaderByHash tx sh.header.ParentHash = .ok (some hh))
    (hnum : sh.header.Number % 2 ^ 64 = (hh.Number % 2 ^ 64 + 1) % 2 ^ 64) :
    processPOSLoop hr collect tx peerId (sh :: rest) hd =
      some ([], none,
        { hd with
          headersCollector := some collector1
          posAnchor := none
          posStatus := SyncStatus.Synced
          deliveryNotify := true }) := by
  have hne : ¬ (sh.hash ≠ anchor.parentHash) := fun h => h heq
  have hnum2 : ¬ (sh.header.Number % 2 ^ 64 ≠ (hh.Number % 2 ^ 64 + 1) % 2 ^ 64) :=
    fun h => h hnum
  unfold processPOSLoop
  simp only [ha, hc]
  rw [if_neg hne]
  simp only [hcol, hfound]
  rw [if_neg hnum2]

/-- The loop of `ProcessHeadersPOS` over the `n` headers `chain top`,
`chain (top - 1)`, ..., all above `lo + 1`, whose parents the reader does not
know: the anchor ends below the last header. -/
theorem processPOSLoop_walk {σ κ : Type} (hr : HeaderReader σ)
    (collect : κ → Nat → Hash → List Nat → Except Nat κ) (tx : σ) (peerId : PeerID)
    (chain : Nat → ChainSegmentHeader) (lo hi : Nat)
    (hcollect : ∀ c n h raw, ∃ c1, collect c n h raw = .ok c1)
    (hparent : ∀ k, k < hi → lo + 1 < k → (chain k).header.ParentHash = (chain (k - 1)).hash)
    (hnum : ∀ k, k < hi → lo < k → (chain k).header.Number % 2 ^ 64 = k)
    (hunknown : ∀ k, k < hi → lo + 1 < k →
      hr.HeaderByHash tx (chain k).header.ParentHash = .ok none) :
    ∀ (n top : Nat) (hd : PosHeaderDownload κ) (anchor : Anchor) (collector : κ),
      hd.posAnchor = some anchor → hd.headersCollector = some collector →
      anchor.parentHash = (chain top).hash → top < hi → lo + 1 + n ≤ top →
      ∃ hd1 collector1, processPOSLoop hr collect tx peerId (reverseSegment chain top n) hd =
          some ([], none, hd1) ∧
        hd1.posStatus = hd.posStatus ∧ hd1.headersCollector = some collector1 ∧
        hd1.posAnchor =
          (if n = 0 then some anchor
           else some { parentHash := (chain (top - n)).hash, blockHeight := top - n + 1,
                       peerID := peerId }) := by
  intro n
  induction n with
  | zero =>
    intro top hd anchor collector ha hc _ _ _
    exact ⟨hd, collector, rfl, rfl, hc, by rw [if_pos rfl]; exact ha⟩
  | succ n ih =>
    intro top hd anchor collector ha hc hanc htop hlo
    obtain ⟨c1, hc1⟩ := hcollect collector ((chain top).header.Number % 2 ^ 64) (chain top).hash
      (chain top).headerRaw
    have hn := hnum top htop (by omega)
    have hp := hparent top htop (by omega)
    have hstep := processPOSLoop_advance hr collect tx peerId hd anchor collector c1 (chain top)
      (reverseSegment chain (top - 1) n) ha hc hanc.symm hc1 (hunknown top htop (by omega))
      (by rw [hn]; omega)
    obtain ⟨hd1, c2, h1, h2, h3, h4⟩ := ih (top - 1)
      { hd with
        headersCollector := some c1
        posAnchor := some { parentHash := (chain top).header.ParentHash
                            blockHeight := (chain top).header.Number % 2 ^ 64
                            peerID := peerId } }
      { parentHash := (chain top).header.ParentHash
        blockHeight := (chain top).header.Number % 2 ^ 64, peerID := peerId }
      c1 rfl rfl hp (by omega) (by omega)
    refine ⟨hd1, c2, ?_, h2, h3, ?_⟩
    · show processPOSLoop hr collect tx peerId (chain top :: reverseSegment chain (top - 1) n) hd = _
      rw [hstep]
      exact h1
    · rw [h4, if_neg (Nat.succ_ne_zero n)]
      by_cases h0 : n = 0
      · subst h0
        rw [if_pos rfl, hp, hn]
        have e : top - (0 + 1) + 1 = top := by omega
        rw [e]
      · rw [if_neg h0]
        have e1 : top - 1 - n = top - (n + 1) := by omega
        rw [e1]

/-- Claim C31, amended: a chain `chain lo, ..., chain (hi - 1)` of headers with
the numbers of their indices, each the parent of the next, of which the reader
knows `chain lo` (at height `lo`) and none above it; the anchor waits for
`chain (hi - 1)`. Feeding the reverse segment `chain (hi - 1), ..., chain (lo + 2)`
to `ProcessHeadersPOS` leaves the anchor waiting for `chain (lo + 1)` below the
height `lo + 2`, with the status as it was; a following segment that starts with
`chain (lo + 1)`, whose parent the reader knows, then sets the status `Synced`
and the anchor to nil. -/
theorem ProcessHeadersPOS_reverse_walk {σ κ : Type} (hr : HeaderReader σ)
    (collect : κ → Nat → Hash → List Nat → Except Nat κ) (tx : σ) (peerId : PeerID)
    (chain : Nat → ChainSegmentHeader) (lo hi : Nat) (hd : PosHeaderDownload κ)
    (anchor : Anchor) (collector : κ) (h0 : Header)
    (hlohi : lo + 2 < hi) (hhi : hi ≤ 2 ^ 64)
    (hcollect : ∀ c n h raw, ∃ c1, collect c n h raw = .ok c1)
    (hparent : ∀ k, k < hi → lo + 1 < k → (chain k).header.ParentHash = (chain (k - 1)).hash)
    (hnum : ∀ k, k < hi → lo < k → (chain k).header.Number % 2 ^ 64 = k)
    (hunknown : ∀ k, k < hi → lo + 1 < k →
      hr.HeaderByHash tx (chain k).header.ParentHash = .ok none)
    (hknown : hr.HeaderByHash tx (chain (lo + 1)).header.ParentHash = .ok (some h0))
    (hknownNum : h0.Number % 2 ^ 64 = lo)
    (ha : hd.posAnchor = some anchor) (hc : hd.headersCollector = some collector)
    (hanc : anchor.parentHash = (chain (hi - 1)).hash) :
    ∃ hd1, ProcessHeadersPOS hr collect tx peerId (reverseSegment chain (hi - 1) (hi - lo - 2)) hd =
        some ([], none, hd1) ∧
      hd1.posAnchor = some { parentHash := (chain (lo + 1)).hash, blockHeight := lo + 2,
                             peerID := peerId } ∧
      hd1.posStatus = hd.posStatus ∧
      ∀ rest, ∃ hd2, ProcessHeadersPOS hr collect tx peerId (chain (lo + 1) :: rest) hd1 =
          some ([], none, hd2) ∧
        hd2.posStatus = SyncStatus.Synced ∧ hd2.posAnchor = none := by
  obtain ⟨hd1, c1, h1, h2, h3, h4⟩ := processPOSLoop_walk hr collect tx peerId chain lo hi hcollect
    hparent hnum hunknown (hi - lo - 2) (hi - 1) hd anchor collector ha hc hanc (by omega)
    (by omega)
  have hn0 : ¬ (hi - lo - 2 = 0) := by omega
  rw [if_neg hn0] at h4
  have e1 : hi - 1 - (hi - lo - 2) = lo + 1 := by omega
  rw [e1] at h4
  refine ⟨hd1, ?_, h4, h2, fun rest => ?_⟩
  · rw [ProcessHeadersPOS_eq_loop hr collect tx peerId _ hd anchor collector ha hc]
    exact h1
  · obtain ⟨c2, hc2⟩ := hcollect c1 ((chain (lo + 1)).header.Number % 2 ^ 64) (chain (lo + 1)).hash
      (chain (lo + 1)).headerRaw
    have hn := hnum (lo + 1) (by omega) (by omega)
    have hs := processPOSLoop_synced hr collect tx peerId hd1 _ c1 c2 (chain (lo + 1)) rest h0
      h4 h3 rfl hc2 hknown (by rw [hn, hknownNum, Nat.mod_eq_of_lt (by omega)])
    refine ⟨{ hd1 with
              headersCollector := some c2
              posAnchor := none
              posStatus := SyncStatus.Synced
              deliveryNotify := true }, ?_, rfl, rfl⟩
    rw [ProcessHeadersPOS_eq_loop hr collect tx peerId _ hd1 _ c1 h4 h3]
    exact hs

/-- Claim C31, amended, on the chain `H_50 .. H_100` of which the reader knows
`H_50`: with the anchor waiting for `H_99` below height 100, the reverse segment
`H_99, ..., H_52` leaves the anchor waiting for `H_51` below height 52 and the
status `Syncing`; a segment that starts with `H_51` sets the status `Synced`. -/
theorem ProcessHeadersPOS_reverse_walk_witness :
    ∃ hd1, ProcessHeadersPOS memReader memCollect walkDb 4
          (reverseSegment walkChain (100 - 1) (100 - 50 - 2)) (posEngine 1099 100) =
        some ([], none, hd1) ∧
      hd1.posAnchor = some { parentHash := (walkChain (50 + 1)).hash, blockHeight := 50 + 2,
                             peerID := 4 } ∧
      hd1.posStatus = (posEngine 1099 100).posStatus ∧
      ∀ rest, ∃ hd2, ProcessHeadersPOS memReader memCollect walkDb 4
            (walkChain (50 + 1) :: rest) hd1 = some ([], none, hd2) ∧
        hd2.posStatus = SyncStatus.Synced ∧ hd2.posAnchor = none :=
  ProcessHeadersPOS_reverse_walk memReader memCollect walkDb 4 walkChain 50 100
    (posEngine 1099 100) { parentHash := 1099, blockHeight := 100, peerID := 3 } []
    (walkChain 50).header (by decide) (by decide) (fun _ _ _ _ => ⟨_, rfl⟩) (by decide)
    (by decide) (by decide) (by decide) (by decide) rfl rfl (by decide)

/-! ## UnlinkHeader -/

theorem below_of_pruned {mem mem2 : List Link} (hp : Pruned mem mem2) {o : Option Nat} {x : Nat}
    (h : Below mem2 o x) : Below mem o x := by
  induction h with
  | here p => exact Below.here p
  | child p x _ ih => exact Below.child p x (by rw [← (hp p).1]; exact ih)
  | sibling p x h ih =>
    rcases (hp p).2.2 with h1 | h1
    · exact Below.sibling p x (by rw [← h1]; exact ih)
    · rw [h1] at h
      cases h

theorem below_of_inChain {mem : List Link} {o : Option Nat} {c : Nat} (hc : InChain mem o c)
    {x : Nat} (hx : x = c ∨ Below mem (getLink mem c).fChild x) : Below mem o x := by
  induction hc with
  | here p =>
    rcases hx with e | hb
    · rw [e]; exact Below.here p
    · exact Below.child p x hb
  | sibling p q _ ih => exact Below.sibling p x (ih hx)

/-- One turn of the loop of `removeUpwards` brings no link into reach: a link
covered by the next stack was covered by the stack before. -/
theorem covered_step_back (n : Nat) (mem : List Link) (r : Nat) (rest cs : List Nat)
    (mem3 : List Link)
    (hcs : collectChildren n (setLink mem r { getLink mem r with queueId := QueueID.NoQueue })
      (getLink (setLink mem r { getLink mem r with queueId := QueueID.NoQueue }) r).fChild =
        some cs)
    (hclear : clearNext n (setLink mem r { getLink mem r with queueId := QueueID.NoQueue })
      (getLink (setLink mem r { getLink mem r with queueId := QueueID.NoQueue }) r).fChild =
        some mem3)
    (x : Nat) (hx : Covered mem3 (cs.reverse ++ rest) x) : Covered mem (r :: rest) x := by
  have hP2 := pruned_setLink_queueId mem r QueueID.NoQueue
  have hF2 := setLink_queueId_fields mem r QueueID.NoQueue
  have hP3 := clearNext_pruned n _ _ _ hclear
  have hP := pruned_trans hP2 hP3
  obtain ⟨c, hc, hxc⟩ := hx
  have hxc2 : x = c ∨ Below mem (getLink mem c).fChild x := by
    rcases hxc with e | hb
    · exact Or.inl e
    · right
      rw [← (hP c).1]
      exact below_of_pruned hP hb
  rcases List.mem_append.mp hc with h1 | h1
  · have hin := collectChildren_sound n _ _ _ hcs c (List.mem_reverse.mp h1)
    rw [(hF2 r).1] at hin
    have hin2 := inChain_mono hP2 hin
    exact ⟨r, List.mem_cons_self _ _, Or.inr (below_of_inChain hin2 hxc2)⟩
  · exact ⟨c, List.mem_cons_of_mem _ h1, hxc2⟩

/-- Taking link `r` out of its queue leaves every other link where it is. -/
theorem moveLinkToQueue_noQueue_others (hd : HeaderDownload) (r y : Nat) (hy : y ≠ r) :
    (y ∈ (moveLinkToQueue hd r QueueID.NoQueue).linkQueue ↔ y ∈ hd.linkQueue) ∧
      (y ∈ (moveLinkToQueue hd r QueueID.NoQueue).insertQueue ↔ y ∈ hd.insertQueue) ∧
      (y ∈ (moveLinkToQueue hd r QueueID.NoQueue).persistedLinkQueue ↔
        y ∈ hd.persistedLinkQueue) := by
  unfold moveLinkToQueue queueRemove queuePush
  cases (getLink hd.mem r).queueId <;> simp [List.mem_erase_of_ne hy]

/-- The loop of `removeUpwards` and the links outside the subtrees it removes:
such a link is as it was and in the queues it was in, and a key that is not the
hash of a link of the subtrees keeps its entry of the store. -/
theorem removeUpwardsLoop_untouched (n : Nat) :
    ∀ (hd : HeaderDownload) (stack : List Nat) (hd2 : HeaderDownload),
      removeUpwardsLoop n hd stack = some hd2 →
        (∀ y, ¬ Covered hd.mem stack y → getLink hd2.mem y = getLink hd.mem y ∧
          (y ∈ hd2.linkQueue ↔ y ∈ hd.linkQueue) ∧
          (y ∈ hd2.insertQueue ↔ y ∈ hd.insertQueue) ∧
          (y ∈ hd2.persistedLinkQueue ↔ y ∈ hd.persistedLinkQueue)) ∧
        (∀ k, (∀ x, Covered hd.mem stack x → (getLink hd.mem x).hash ≠ k) →
          mapGet hd2.links k = mapGet hd.links k) := by
  induction n with
  | zero =>
    intro hd stack hd2 h
    cases stack with
    | nil =>
      simp only [removeUpwardsLoop, Option.some.injEq] at h
      subst h
      exact ⟨fun _ _ => ⟨rfl, Iff.rfl, Iff.rfl, Iff.rfl⟩, fun _ _ => rfl⟩
    | cons r rest => simp [removeUpwardsLoop] at h
  | succ n ih =>
    intro hd stack hd2 h
    cases stack with
    | nil =>
      simp only [removeUpwardsLoop, Option.some.injEq] at h
      subst h
      exact ⟨fun _ _ => ⟨rfl, Iff.rfl, Iff.rfl, Iff.rfl⟩, fun _ _ => rfl⟩
    | cons r rest =>
      simp only [removeUpwardsLoop] at h
      split at h
      · simp at h
      · rename_i cs hcs
        split at h
        · simp at h
        · rename_i mem3 hclear
          simp only [moveLinkToQueue_mem] at hcs hclear
          simp only [ClearChildren] at hclear
          have hF2 := setLink_queueId_fields hd.mem r QueueID.NoQueue
          have hout := clearNext_outside n _ _ _ hclear
          have hback := covered_step_back n hd.mem r rest cs mem3 hcs hclear
          obtain ⟨ih1, ih2⟩ := ih _ _ _ h
          constructor
          · intro y hy
            have hyr : y ≠ r := fun e => hy ⟨r, List.mem_cons_self _ _, Or.inl e⟩
            have hy3 : ¬ Covered mem3 (cs.reverse ++ rest) y := fun hc => hy (hback y hc)
            obtain ⟨g1, g2, g3, g4⟩ := ih1 y hy3
            obtain ⟨m1, m2, m3⟩ := moveLinkToQueue_noQueue_others
              { hd with links := mapDel hd.links (getLink hd.mem r).hash } r y hyr
            have hnc : ¬ InChain (setLink hd.mem r
                  { getLink hd.mem r with queueId := QueueID.NoQueue })
                (getLink (setLink hd.mem r
                  { getLink hd.mem r with queueId := QueueID.NoQueue }) r).fChild y := by
              intro hin
              rw [(hF2 r).1] at hin
              have hin2 := inChain_mono (pruned_setLink_queueId hd.mem r QueueID.NoQueue) hin
              exact hy ⟨r, List.mem_cons_self _ _,
                Or.inr (below_of_inChain hin2 (Or.inl rfl))⟩
            refine ⟨?_, g2.trans m1, g3.trans m2, g4.trans m3⟩
            rw [g1]
            show getLink mem3 y = _
            rw [hout y hnc, getLink_setLink_ne _ _ _ _ (fun e => hyr e.symm)]
          · intro k hk
            have hkr : (getLink hd.mem r).hash ≠ k :=
              hk r ⟨r, List.mem_cons_self _ _, Or.inl rfl⟩
            have hP := pruned_trans (pruned_setLink_queueId hd.mem r QueueID.NoQueue)
              (clearNext_pruned n _ _ _ hclear)
            rw [ih2 k (fun x hx => by
              show (getLink mem3 x).hash ≠ k
              rw [(hP x).2.1]
              exact hk x (hback x hx))]
            show mapGet (moveLinkToQueue
              { hd with links := mapDel hd.links (getLink hd.mem r).hash } r
                QueueID.NoQueue).links k = _
            rw [moveLinkToQueue_links]
            exact mapGet_mapDel_ne _ _ _ hkr

/-- What the opening of `removeUpwards` does to the state: nothing, or one
pointer to `c` (a sibling pointer or a first-child pointer) now holds the next
sibling of `c`. -/
theorem detachFromParent_cases (n : Nat) (hd : HeaderDownload) (c : Nat) (hd1 : HeaderDownload)
    (h : detachFromParent n hd c = some hd1) :
    hd1 = hd ∨
      (∃ z, (getLink hd.mem z).next = some c ∧
        hd1 = { hd with
          mem := setLink hd.mem z { getLink hd.mem z with next := (getLink hd.mem c).next } }) ∨
      (∃ z, (getLink hd.mem z).fChild = some c ∧
        hd1 = { hd with
          mem := setLink hd.mem z { getLink hd.mem z with fChild := (getLink hd.mem c).next } }) := by
  unfold detachFromParent at h
  split at h
  · simp only [Option.some.injEq] at h
    exact Or.inl h.symm
  · split at h
    · simp only [Option.some.injEq] at h
      exact Or.inl h.symm
    · simp only [Option.map_eq_some'] at h
      obtain ⟨m, hm, h⟩ := h
      subst h
      rcases linkRemoveChild_cases _ _ _ _ _ hm with e | ⟨z, hz, e⟩ | ⟨z, hz, e⟩
      · left; rw [e]
      · right; left; exact ⟨z, hz, by rw [e]⟩
      · right; right; exact ⟨z, hz, by rw [e]⟩

/-- Under a rank, the links below a child list whose members have rank below
`R` have rank below `R`. -/
theorem below_rank_lt {mem : List Link} {rank : Nat → Nat} (hr : Ranked mem rank) (R : Nat)
    {o : Option Nat} {x : Nat} (h : Below mem o x) :
    (∀ c, o = some c → rank c < R) → rank x < R := by
  induction h with
  | here p => intro ho; exact ho p rfl
  | child p x _ ih =>
    intro ho
    exact ih (fun c hc => Nat.lt_trans (hr p c (Or.inl hc)) (ho p rfl))
  | sibling p x _ ih =>
    intro ho
    exact ih (fun c hc => Nat.lt_trans (hr p c (Or.inr hc)) (ho p rfl))

/-- The search of `detachNext` on a list that holds the link `y` whose `next` is
`link`: it is `y` that is made to skip `link`. -/
theorem detachNext_found {rank : Nat → Nat} (n : Nat) :
    ∀ (mem : List Link) (o : Option Nat) (link y : Nat) (mem1 : List Link),
      Ranked mem rank → InChain mem o y → (getLink mem y).next = some link →
      detachNext n mem o link = some mem1 →
        mem1 = setLink mem y { getLink mem y with next := (getLink mem link).next } := by
  induction n with
  | zero =>
    intro mem o link y mem1 _ hy _ h
    cases hy with
    | here => simp [detachNext] at h
    | sibling _ _ _ => simp [detachNext] at h
  | succ n ih =>
    intro mem o link y mem1 hr hy hyn h
    cases hy with
    | here =>
      simp only [detachNext, if_pos hyn, Option.some.injEq] at h
      exact h.symm
    | sibling c _ hc =>
      by_cases hcn : (getLink mem c).next = some link
      · exfalso
        rw [hcn] at hc
        have h1 := inChain_rank hr (rank link + 1) hc (fun d hd => by cases hd; omega)
        have h2 := hr y link (Or.inr hyn)
        omega
      · simp only [detachNext, if_neg hcn] at h
        exact ih mem _ link y mem1 hr hc hyn h

/-- Claim C33, counterexample: in the chain `0x0a`, `0x0b`, `0x0c`, `0x10`,
`0x11`, `0x12`, link `0x0c` (pointer 2) is the parent of `0x10` (pointer 3): it is
not `0x10` and is not reachable from it through child pointers. After
`UnlinkHeader` of `0x10` link `0x0c` is still in the store and its first-child
pointer, which held `0x10`, is nil: a link outside the removed subtree is not as
it was. -/
theorem UnlinkHeader_parent_pointer_counterexample :
    (2 ≠ 3 ∧ ¬ Below badChainEngine.mem (getLink badChainEngine.mem 3).fChild 2) ∧
    ((getLink badChainEngine.mem 2).hash, (getLink badChainEngine.mem 2).fChild,
      mapGet badChainEngine.links 16) = (12, some 3, some 3) ∧
    (UnlinkHeader 10 badChainEngine 16).map
        (fun hd2 => (mapGet hd2.links 12, (getLink hd2.mem 2).fChild)) = some (some 2, none) ∧
    (UnlinkHeader 10 badChainEngine 16).map
        (fun hd2 => decide (getLink hd2.mem 2 = getLink badChainEngine.mem 2)) = some false := by
  refine ⟨⟨by decide, fun hb => ?_⟩, by decide, by decide, by decide⟩
  have hsub : ∀ x, Below badChainEngine.mem (getLink badChainEngine.mem 3).fChild x →
      x = 4 ∨ x = 5 := by
    intro x hx
    change Below badChainEngine.mem (some 4) x at hx
    cases hx with
    | here => exact Or.inl rfl
    | child _ _ hc =>
      change Below badChainEngine.mem (some 5) x at hc
      cases hc with
      | here => exact Or.inr rfl
      | child _ _ hc2 =>
        change Below badChainEngine.mem none x at hc2
        cases hc2
      | sibling _ _ hc2 =>
        change Below badChainEngine.mem none x at hc2
        cases hc2
    | sibling _ _ hc =>
      change Below badChainEngine.mem none x at hc
      cases hc
  rcases hsub 2 hb with e | e
  · exact absurd e (by decide)
  · exact absurd e (by decide)

/-- Claim C33, amended: for a link `L` that the store holds under its own hash, on a
forest without pointer cycle whose queues agree with the queue tags,
`UnlinkHeader` of the hash of `L` returns for every fuel above a bound; `L` and
every link reachable from `L` through child pointers is then out of the store
and in no queue; every key that is not the hash of one of these links keeps its
entry of the store; every other link is in the queues it was in and is as it
was, except that the pointer that held `L` in the child list of its parent (a
first-child pointer or a sibling pointer) may now hold the next sibling of `L`,
and does hold it when `L` has its header and its parent link is in the store
(the first-child pointer of the parent when `L` is its first child, the sibling
pointer of the link before `L` in the child list of the parent otherwise); the
anchors (map, objects, tree), `highestInDb`, the counters and all other fields
are unchanged. `UnlinkHeader` of a hash that is not in the store returns
the state it was given. -/
theorem UnlinkHeader_spec (rank : Nat → Nat) (hd : HeaderDownload) (L : Nat)
    (hrk : acyclic hd.mem rank = true) (hqt : queuesTagged hd = true)
    (hL : mapGet hd.links (getLink hd.mem L).hash = some L) :
    (∀ fuel h, mapGet hd.links h = none → UnlinkHeader fuel hd h = some hd) ∧
    ∃ fuel0, ∀ fuel, fuel0 ≤ fuel → ∃ hd2,
      UnlinkHeader fuel hd (getLink hd.mem L).hash = some hd2 ∧
      (∀ x, (x = L ∨ Below hd.mem (getLink hd.mem L).fChild x) →
        mapGet hd2.links (getLink hd.mem x).hash = none ∧ inNoQueue hd2 x) ∧
      (∀ k, (∀ x, (x = L ∨ Below hd.mem (getLink hd.mem L).fChild x) →
          (getLink hd.mem x).hash ≠ k) → mapGet hd2.links k = mapGet hd.links k) ∧
      (∀ y, ¬ (y = L ∨ Below hd.mem (getLink hd.mem L).fChild y) →
        (y ∈ hd2.linkQueue ↔ y ∈ hd.linkQueue) ∧
        (y ∈ hd2.insertQueue ↔ y ∈ hd.insertQueue) ∧
        (y ∈ hd2.persistedLinkQueue ↔ y ∈ hd.persistedLinkQueue) ∧
        (getLink hd2.mem y = getLink hd.mem y ∨
          ((getLink hd.mem y).fChild = some L ∧
            getLink hd2.mem y = { getLink hd.mem y with fChild := (getLink hd.mem L).next }) ∨
          ((getLink hd.mem y).next = some L ∧
            getLink hd2.mem y = { getLink hd.mem y with next := (getLink hd.mem L).next }))) ∧
      (∀ h z, (getLink hd.mem L).header = some h → mapGet hd.links h.ParentHash = some z →
        ((getLink hd.mem z).fChild = some L →
          getLink hd2.mem z = { getLink hd.mem z with fChild := (getLink hd.mem L).next }) ∧
        (∀ y, (getLink hd.mem z).fChild ≠ some L →
          InChain hd.mem (getLink hd.mem z).fChild y → (getLink hd.mem y).next = some L →
          getLink hd2.mem y = { getLink hd.mem y with next := (getLink hd.mem L).next })) ∧
      SameAnchors hd hd2 ∧ SameRest hd hd2 := by
  refine ⟨fun fuel h hh => by simp only [UnlinkHeader, hh], ?_⟩
  have hr := ranked_of_acyclic hrk
  have hq := queuesTagged_spec hqt
  obtain ⟨fuel0, hfuel⟩ := removeUpwards_fuel rank hd L
  refine ⟨fuel0, fun fuel hf => ?_⟩
  obtain ⟨hn, hw⟩ := hfuel fuel hf
  obtain ⟨hd2, h2, hsub⟩ := removeUpwards_spec rank fuel hd L hr hq hn hw
  refine ⟨hd2, by simp only [UnlinkHeader, hL]; exact h2, hsub, ?_, ?_, ?_,
    removeUpwards_frame fuel hd L hd2 h2⟩
  all_goals
    obtain ⟨hd1, h1, hr1, hsame⟩ := detachFromParent_spec rank fuel hd L hr hn
    have hloop : removeUpwardsLoop fuel hd1 [L] = some hd2 := by
      simpa only [removeUpwards, h1, Option.some_bind] using h2
    obtain ⟨hs1, hl1, hq1, hq2, hq3⟩ := detachFromParent_sameLinks _ _ _ _ h1
    obtain ⟨u1, u2⟩ := removeUpwardsLoop_untouched fuel hd1 [L] hd2 hloop
    have hcov : ∀ x, Covered hd1.mem [L] x →
        x = L ∨ Below hd.mem (getLink hd.mem L).fChild x := by
      intro x hx
      obtain ⟨r, hr2, hx2⟩ := hx
      rw [List.mem_singleton.mp hr2] at hx2
      rcases hx2 with e | hb
      · exact Or.inl e
      · right
        rw [hsame L (le_refl _)] at hb
        exact below_stable hr1 (rank L) (fun y hy => (hsame y (Nat.le_of_lt hy)).symm) hb
          (fun c hc => hr L c (Or.inl hc))
  · intro k hk
    rw [u2 k (fun x hx => by
      rw [(sameLinks_linked hs1 x).2.2.2.1]
      exact hk x (hcov x hx)), hl1]
  · intro y hy
    obtain ⟨g1, g2, g3, g4⟩ := u1 y (fun hc => hy (hcov y hc))
    rw [hq1] at g2
    rw [hq2] at g3
    rw [hq3] at g4
    refine ⟨g2, g3, g4, ?_⟩
    rw [g1]
    rcases detachFromParent_cases _ _ _ _ h1 with e | ⟨z, hz, e⟩ | ⟨z, hz, e⟩
    · left; rw [e]
    · rw [e]
      show getLink (setLink hd.mem z _) y = _ ∨ _
      rw [getLink_setLink]
      by_cases hyz : y = z ∧ z < hd.mem.length
      · rw [if_pos hyz, hyz.1]
        exact Or.inr (Or.inr ⟨hz, rfl⟩)
      · rw [if_neg hyz]
        exact Or.inl rfl
    · rw [e]
      show getLink (setLink hd.mem z _) y = _ ∨ _
      rw [getLink_setLink]
      by_cases hyz : y = z ∧ z < hd.mem.length
      · rw [if_pos hyz, hyz.1]
        exact Or.inr (Or.inl ⟨hz, rfl⟩)
      · rw [if_neg hyz]
        exact Or.inl rfl
  · intro h z hh hp
    constructor
    · intro hf
      have hz : z < hd.mem.length := by
        by_contra hge
        rw [getLink_of_ge _ _ (Nat.le_of_not_lt hge)] at hf
        cases hf
      have hnc : ¬ Covered hd1.mem [L] z := by
        intro hc
        rcases hcov z hc with e | hb
        · rw [e] at hf
          exact absurd (hr L L (Or.inl hf)) (Nat.lt_irrefl _)
        · have h3 := below_rank_lt hr (rank L) hb (fun c hc => hr L c (Or.inl hc))
          have h4 := hr z L (Or.inl hf)
          omega
      rw [(u1 z hnc).1]
      simp only [detachFromParent, hh, hp, linkRemoveChild, if_pos hf, Option.map_some',
        Option.some.injEq] at h1
      rw [← h1]
      show getLink (setLink hd.mem z _) z = _
      rw [getLink_setLink, if_pos ⟨rfl, hz⟩]
    · intro y hne hy hyn
      have hylt : y < hd.mem.length := by
        by_contra hge
        rw [getLink_of_ge _ _ (Nat.le_of_not_lt hge)] at hyn
        cases hyn
      have hnc : ¬ Covered hd1.mem [L] y := by
        intro hc
        have h4 := hr y L (Or.inr hyn)
        rcases hcov y hc with e | hb
        · rw [e] at h4
          exact absurd h4 (Nat.lt_irrefl _)
        · have h3 := below_rank_lt hr (rank L) hb (fun c hc => hr L c (Or.inl hc))
          omega
      rw [(u1 y hnc).1]
      simp only [detachFromParent, hh, hp, linkRemoveChild, if_neg hne, Option.map_eq_some']
        at h1
      obtain ⟨m, hm, e⟩ := h1
      rw [← e, detachNext_found fuel hd.mem _ L y m hr hy hyn hm]
      show getLink (setLink hd.mem y _) y = _
      rw [getLink_setLink, if_pos ⟨rfl, hylt⟩]
/-- Claim C33, amended, on the chain `0x0b`, `0x0c`, `0x10`, `0x11`, `0x12` below
the persisted `0x0a`: `UnlinkHeader` of `0x10` takes `0x10`, `0x11` and `0x12` out
of the store and the queues, keeps `0x0a`, `0x0b`, `0x0c`, leaves `0x0a` and
`0x0b` as they were and sets the first-child pointer of the parent `0x0c` to
nil. -/
theorem UnlinkHeader_spec_witness :
    (∀ fuel, UnlinkHeader fuel badChainEngine 99 = some badChainEngine) ∧
    ∃ fuel0, ∀ fuel, fuel0 ≤ fuel → ∃ hd2,
      UnlinkHeader fuel badChainEngine 16 = some hd2 ∧
      (mapGet hd2.links 16 = none ∧ mapGet hd2.links 17 = none ∧ mapGet hd2.links 18 = none) ∧
      (inNoQueue hd2 3 ∧ inNoQueue hd2 4 ∧ inNoQueue hd2 5) ∧
      (mapGet hd2.links 10 = some 0 ∧ mapGet hd2.links 11 = some 1 ∧
        mapGet hd2.links 12 = some 2) ∧
      2 ∈ hd2.linkQueue ∧ 1 ∈ hd2.insertQueue ∧
      0 ∈ hd2.persistedLinkQueue ∧ getLink hd2.mem 0 = getLink badChainEngine.mem 0 ∧
      getLink hd2.mem 1 = getLink badChainEngine.mem 1 ∧
      getLink hd2.mem 2 = { getLink badChainEngine.mem 2 with fChild := none } ∧
      SameAnchors badChainEngine hd2 ∧ SameRest badChainEngine hd2 := by
  obtain ⟨h0, fuel0, h⟩ := UnlinkHeader_spec (fun q => 10 - q) badChainEngine 3
    (by decide) (by decide) (by decide)
  refine ⟨fun fuel => h0 fuel 99 (by decide), fuel0, fun fuel hge => ?_⟩
  obtain ⟨hd2, h1, h2, h3, h4, hp, h5, h6⟩ := h fuel hge
  have b4 : Below badChainEngine.mem (getLink badChainEngine.mem 3).fChild 4 := Below.here 4
  have b5 : Below badChainEngine.mem (getLink badChainEngine.mem 3).fChild 5 :=
    Below.child 4 5 (Below.here 5)
  have hsub : ∀ x, (x = 3 ∨ Below badChainEngine.mem (getLink badChainEngine.mem 3).fChild x) →
      x = 3 ∨ x = 4 ∨ x = 5 := by
    intro x hx
    rcases hx with e | hb
    · exact Or.inl e
    · change Below badChainEngine.mem (some 4) x at hb
      cases hb with
      | here => exact Or.inr (Or.inl rfl)
      | child _ _ hc =>
        change Below badChainEngine.mem (some 5) x at hc
        cases hc with
        | here => exact Or.inr (Or.inr rfl)
        | child _ _ hc2 =>
          change Below badChainEngine.mem none x at hc2
          cases hc2
        | sibling _ _ hc2 =>
          change Below badChainEngine.mem none x at hc2
          cases hc2
      | sibling _ _ hc =>
        change Below badChainEngine.mem none x at hc
        cases hc
  have hkeep : ∀ k, k ≠ 16 → k ≠ 17 → k ≠ 18 →
      ∀ x, (x = 3 ∨ Below badChainEngine.mem (getLink badChainEngine.mem 3).fChild x) →
        (getLink badChainEngine.mem x).hash ≠ k := by
    intro k k1 k2 k3 x hx
    rcases hsub x hx with e | e | e <;> subst e <;> intro e2
    · exact k1 e2.symm
    · exact k2 e2.symm
    · exact k3 e2.symm
  have hout : ∀ y, y ≠ 3 → y ≠ 4 → y ≠ 5 →
      ¬ (y = 3 ∨ Below badChainEngine.mem (getLink badChainEngine.mem 3).fChild y) := by
    intro y y1 y2 y3 hy
    rcases hsub y hy with e | e | e
    · exact y1 e
    · exact y2 e
    · exact y3 e
  have o0 := h4 0 (hout 0 (by decide) (by decide) (by decide))
  have o1 := h4 1 (hout 1 (by decide) (by decide) (by decide))
  have o2 := h4 2 (hout 2 (by decide) (by decide) (by decide))
  refine ⟨hd2, h1, ⟨(h2 3 (Or.inl rfl)).1, (h2 4 (Or.inr b4)).1, (h2 5 (Or.inr b5)).1⟩,
    ⟨(h2 3 (Or.inl rfl)).2, (h2 4 (Or.inr b4)).2, (h2 5 (Or.inr b5)).2⟩,
    ⟨(h3 10 (hkeep 10 (by decide) (by decide) (by decide))).trans (by decide),
      (h3 11 (hkeep 11 (by decide) (by decide) (by decide))).trans (by decide),
      (h3 12 (hkeep 12 (by decide) (by decide) (by decide))).trans (by decide)⟩,
    o2.1.mpr (by decide), o1.2.1.mpr (by decide), o0.2.2.1.mpr (by decide), ?_, ?_,
    (hp header16.header 2 rfl (by decide)).1 rfl, h5, h6⟩
  · rcases o0.2.2.2 with e | ⟨e, _⟩ | ⟨e, _⟩
    · exact e
    · exact absurd e (by decide)
    · exact absurd e (by decide)
  · rcases o1.2.2.2 with e | ⟨e, _⟩ | ⟨e, _⟩
    · exact e
    · exact absurd e (by decide)
    · exact absurd e (by decide)

/-! ## MarkAllVerified -/

theorem markVerified_length (mem : List Link) (p : Nat) :
    (markVerified mem p).length = mem.length := by
  unfold markVerified
  split
  · rfl
  · simp [setLink]

theorem getLink_markVerified (mem : List Link) (p q : Nat) :
    getLink (markVerified mem p) q =
      if q = p ∧ p < mem.length ∧ (getLink mem p).verified = false then
        { getLink mem p with linked := true, verified := true }
      else getLink mem q := by
  unfold markVerified
  by_cases hv : (getLink mem p).verified = true
  · rw [if_pos hv, if_neg (fun h => by rw [hv] at h; exact Bool.noConfusion h.2.2)]
  · rw [if_neg hv, getLink_setLink]
    have hv2 : (getLink mem p).verified = false := by
      cases h : (getLink mem p).verified
      · rfl
      · exact absurd h hv
    by_cases hc : q = p ∧ p < mem.length
    · rw [if_pos hc, if_pos ⟨hc.1, hc.2, hv2⟩]
    · rw [if_neg hc, if_neg (fun h => hc ⟨h.1, h.2.1⟩)]

/-- The first loop of `MarkAllVerified`: a link of the list that is not verified
becomes linked and verified, every other link is as it was. -/
theorem foldl_markVerified_spec :
    ∀ (l : List Nat) (mem : List Link),
      (l.foldl markVerified mem).length = mem.length ∧
      ∀ q, getLink (l.foldl markVerified mem) q =
        if q ∈ l ∧ q < mem.length ∧ (getLink mem q).verified = false then
          { getLink mem q with linked := true, verified := true }
        else getLink mem q := by
  intro l
  induction l with
  | nil =>
    intro mem
    refine ⟨rfl, fun q => ?_⟩
    rw [if_neg (fun h => by cases h.1)]
    rfl
  | cons p l ih =>
    intro mem
    simp only [List.foldl_cons]
    obtain ⟨h1, h2⟩ := ih (markVerified mem p)
    refine ⟨h1.trans (markVerified_length mem p), fun q => ?_⟩
    have hm := getLink_markVerified mem p q
    rw [h2 q, markVerified_length]
    by_cases hqp : q = p
    · subst hqp
      by_cases hc : q < mem.length ∧ (getLink mem q).verified = false
      · rw [if_pos ⟨rfl, hc.1, hc.2⟩] at hm
        rw [hm, if_neg (fun h => Bool.noConfusion h.2.2),
          if_pos ⟨List.mem_cons_self _ _, hc.1, hc.2⟩]
      · rw [if_neg (fun h => hc ⟨h.2.1, h.2.2⟩)] at hm
        rw [hm, if_neg (fun h => hc ⟨h.2.1, h.2.2⟩), if_neg (fun h => hc ⟨h.2.1, h.2.2⟩)]
    · rw [if_neg (fun h => hqp h.1)] at hm
      rw [hm]
      by_cases hc : q ∈ l ∧ q < mem.length ∧ (getLink mem q).verified = false
      · rw [if_pos hc, if_pos ⟨List.mem_cons_of_mem _ hc.1, hc.2.1, hc.2.2⟩]
      · rw [if_neg hc,
          if_neg (fun h => hc ⟨(List.mem_cons.mp h.1).resolve_left hqp, h.2.1, h.2.2⟩)]

theorem lt_length_of_queueId {mem : List Link} {p : Nat}
    (h : (getLink mem p).queueId ≠ QueueID.NoQueue) : p < mem.length := by
  by_contra hge
  rw [getLink_of_ge _ _ (Nat.le_of_not_lt hge)] at h
  exact h rfl

/-- One turn of the second loop of `MarkAllVerified` on an unverified front link
whose tag names the link queue: the fields of the next state. -/
theorem markStep_fields (hd : HeaderDownload) (link : Nat)
    (htag : (getLink hd.mem link).queueId = QueueID.EntryQueueID)
    (hv : (getLink hd.mem link).verified = false) :
    (moveLinkToQueue { hd with mem := markVerified hd.mem link } link
        QueueID.InsertQueueID).linkQueue = hd.linkQueue.erase link ∧
    (moveLinkToQueue { hd with mem := markVerified hd.mem link } link
        QueueID.InsertQueueID).insertQueue = hd.insertQueue ++ [link] ∧
    (moveLinkToQueue { hd with mem := markVerified hd.mem link } link
        QueueID.InsertQueueID).persistedLinkQueue = hd.persistedLinkQueue ∧
    getLink (moveLinkToQueue { hd with mem := markVerified hd.mem link } link
        QueueID.InsertQueueID).mem link =
      { getLink hd.mem link with linked := true, verified := true,
                                 queueId := QueueID.InsertQueueID } ∧
    ∀ y, y ≠ link →
      getLink (moveLinkToQueue { hd with mem := markVerified hd.mem link } link
        QueueID.InsertQueueID).mem y = getLink hd.mem y := by
  have hlt : link < hd.mem.length := lt_length_of_queueId (by rw [htag]; decide)
  have hm : getLink (markVerified hd.mem link) link =
      { getLink hd.mem link with linked := true, verified := true } := by
    rw [getLink_markVerified, if_pos ⟨rfl, hlt, hv⟩]
  have htag1 : (getLink (markVerified hd.mem link) link).queueId = QueueID.EntryQueueID := by
    rw [hm]; exact htag
  refine ⟨?_, ?_, ?_, ?_, ?_⟩
  · simp only [moveLinkToQueue, htag1, queueRemove, queuePush]
  · simp only [moveLinkToQueue, htag1, queueRemove, queuePush]
  · simp only [moveLinkToQueue, htag1, queueRemove, queuePush]
  · rw [moveLinkToQueue_mem]
    show getLink (setLink (markVerified hd.mem link) link _) link = _
    rw [getLink_setLink, if_pos ⟨rfl, by rw [markVerified_length]; exact hlt⟩]
    show { getLink (markVerified hd.mem link) link with queueId := QueueID.InsertQueueID } = _
    rw [hm]
  · intro y hy
    rw [moveLinkToQueue_mem]
    show getLink (setLink (markVerified hd.mem link) link _) y = _
    rw [getLink_setLink, if_neg (fun h => hy h.1), getLink_markVerified,
      if_neg (fun h => hy h.1)]

/-- The second loop of `MarkAllVerified` on a state whose queues agree with the
tags and whose link queue holds no verified link: with fuel for every link of
the link queue it returns; the link queue is empty, its links are linked,
verified and tagged for the insert queue, which holds them next to the links it
held; every other link, the persisted queue, the store, the anchors and the
rest of the state are as they were. -/
theorem markLinkQueue_spec (n : Nat) :
    ∀ (hd : HeaderDownload), QueuesOk hd →
      (∀ p ∈ hd.linkQueue, (getLink hd.mem p).verified = false) →
      hd.linkQueue.length ≤ n →
      ∃ hd2, markLinkQueue n hd = some hd2 ∧ hd2.linkQueue = [] ∧ QueuesOk hd2 ∧
        (∀ p ∈ hd.linkQueue, getLink hd2.mem p =
          { getLink hd.mem p with linked := true, verified := true,
                                  queueId := QueueID.InsertQueueID }) ∧
        (∀ y, y ∉ hd.linkQueue → getLink hd2.mem y = getLink hd.mem y) ∧
        (∀ p, p ∈ hd2.insertQueue ↔ p ∈ hd.insertQueue ∨ p ∈ hd.linkQueue) ∧
        hd2.persistedLinkQueue = hd.persistedLinkQueue ∧ hd2.links = hd.links ∧
        SameAnchors hd hd2 ∧ SameRest hd hd2 := by
  induction n with
  | zero =>
    intro hd hq _ hlen
    have he : hd.linkQueue = [] := List.length_eq_zero.mp (Nat.le_zero.mp hlen)
    refine ⟨hd, ?_, he, hq, ?_, fun _ _ => rfl, ?_, rfl, rfl, sameAnchors_refl _,
      sameRest_refl _⟩
    · simp only [markLinkQueue, he, List.length_nil, Nat.lt_irrefl, if_false]
    · intro p hp
      rw [he] at hp
      cases hp
    · intro p
      rw [he]
      simp
  | succ n ih =>
    intro hd hq hun hlen
    simp only [markLinkQueue]
    cases hmin : heapMin hd.mem hd.linkQueue with
    | none =>
      have he : hd.linkQueue = [] := by
        by_contra hne
        obtain ⟨p, hp⟩ := heapMin_isSome hd.mem _ hne
        rw [hp] at hmin
        cases hmin
      refine ⟨hd, rfl, he, hq, ?_, fun _ _ => rfl, ?_, rfl, rfl, sameAnchors_refl _,
        sameRest_refl _⟩
      · intro p hp
        rw [he] at hp
        cases hp
      · intro p
        rw [he]
        simp
    | some link =>
      have hmem := (heapMin_spec _ _ _ hmin).1
      have hv := hun link hmem
      obtain ⟨n1, n2, n3, t1, t2, t3⟩ := hq
      have htag := t1 link hmem
      obtain ⟨f1, f2, f3, f4, f5⟩ := markStep_fields hd link htag hv
      have hni : link ∉ hd.insertQueue := fun hm => by
        have := t2 link hm; rw [htag] at this; cases this
      have hnp : link ∉ hd.persistedLinkQueue := fun hm => by
        have := t3 link hm; rw [htag] at this; cases this
      have hne1 : ∀ p, p ∈ hd.linkQueue.erase link → p ≠ link := fun p hp e =>
        ((List.Nodup.mem_erase_iff n1).mp hp).1 e
      have hq1 : QueuesOk (moveLinkToQueue { hd with mem := markVerified hd.mem link } link
          QueueID.InsertQueueID) := by
        refine ⟨?_, ?_, ?_, ?_, ?_, ?_⟩
        · rw [f1]; exact n1.erase link
        · rw [f2]
          exact List.Nodup.append n2 (List.nodup_singleton _)
            (by
              intro x hx1 hx2
              rw [List.mem_singleton.mp hx2] at hx1
              exact hni hx1)
        · rw [f3]; exact n3
        · intro p hp
          rw [f1] at hp
          rw [f5 p (hne1 p hp)]
          exact t1 p (List.mem_of_mem_erase hp)
        · intro p hp
          rw [f2] at hp
          rcases List.mem_append.mp hp with h1 | h1
          · rw [f5 p (fun e => hni (e ▸ h1))]
            exact t2 p h1
          · rw [List.mem_singleton.mp h1, f4]
        · intro p hp
          rw [f3] at hp
          rw [f5 p (fun e => hnp (e ▸ hp))]
          exact t3 p hp
      have hun1 : ∀ p ∈ (moveLinkToQueue { hd with mem := markVerified hd.mem link } link
          QueueID.InsertQueueID).linkQueue,
          (getLink (moveLinkToQueue { hd with mem := markVerified hd.mem link } link
            QueueID.InsertQueueID).mem p).verified = false := by
        intro p hp
        rw [f1] at hp
        rw [f5 p (hne1 p hp)]
        exact hun p (List.mem_of_mem_erase hp)
      have hlen1 : (moveLinkToQueue { hd with mem := markVerified hd.mem link } link
          QueueID.InsertQueueID).linkQueue.length ≤ n := by
        rw [f1, List.length_erase_of_mem hmem]
        omega
      obtain ⟨hd2, g1, g2, g3, g4, g5, g6, g7, g8, g9, g10⟩ := ih _ hq1 hun1 hlen1
      refine ⟨hd2, ?_, g2, g3, ?_, ?_, ?_, g7.trans f3, ?_, ?_, ?_⟩
      · simp only [hv, Bool.false_eq_true, if_false]
        exact g1
      · intro p hp
        by_cases hpl : p = link
        · rw [hpl, g5 link (by rw [f1]; exact fun hm => hne1 link hm rfl), f4]
        · rw [g4 p (by rw [f1]; exact (List.mem_erase_of_ne hpl).mpr hp), f5 p hpl]
      · intro y hy
        have hyl : y ≠ link := fun e => hy (e ▸ hmem)
        rw [g5 y (by rw [f1]; exact fun hm => hy (List.mem_of_mem_erase hm)), f5 y hyl]
      · intro p
        rw [g6 p, f1, f2]
        constructor
        · intro h
          rcases h with h | h
          · rcases List.mem_append.mp h with h1 | h1
            · exact Or.inl h1
            · exact Or.inr (List.mem_singleton.mp h1 ▸ hmem)
          · exact Or.inr (List.mem_of_mem_erase h)
        · intro h
          rcases h with h | h
          · exact Or.inl (List.mem_append_left _ h)
          · by_cases hpl : p = link
            · exact Or.inl (List.mem_append_right _ (List.mem_singleton.mpr hpl))
            · exact Or.inr ((List.mem_erase_of_ne hpl).mpr h)
      · rw [g8, moveLinkToQueue_links]
      · exact sameAnchors_trans
          (moveLinkToQueue_sameAnchors { hd with mem := markVerified hd.mem link } link
            QueueID.InsertQueueID) g9
      · exact sameRest_trans
          (moveLinkToQueue_sameRest { hd with mem := markVerified hd.mem link } link
            QueueID.InsertQueueID) g10

/-- The second loop of `MarkAllVerified` with a verified link in the link queue
never ends: that link is never moved, so the queue never gets empty. -/
theorem markLinkQueue_stuck (n : Nat) :
    ∀ (hd : HeaderDownload), (∃ p, p ∈ hd.linkQueue ∧ (getLink hd.mem p).verified = true) →
      markLinkQueue n hd = none := by
  induction n with
  | zero =>
    intro hd hp
    obtain ⟨p, hp, _⟩ := hp
    simp only [markLinkQueue]
    rw [if_pos (List.length_pos_of_mem hp)]
  | succ n ih =>
    intro hd hp
    obtain ⟨p, hp, hpv⟩ := hp
    simp only [markLinkQueue]
    cases hmin : heapMin hd.mem hd.linkQueue with
    | none =>
      obtain ⟨q, hq⟩ := heapMin_isSome hd.mem _ (List.ne_nil_of_mem hp)
      rw [hq] at hmin
      cases hmin
    | some link =>
      by_cases hv : (getLink hd.mem link).verified = true
      · simp only [hv, if_true]
        exact ih hd ⟨p, hp, hpv⟩
      · simp only [hv, Bool.false_eq_true, if_false]
        have hpl : p ≠ link := fun e => hv (e ▸ hpv)
        apply ih
        refine ⟨p, ?_, ?_⟩
        · unfold moveLinkToQueue queueRemove queuePush
          cases (getLink (markVerified hd.mem link) link).queueId <;>
            simp [List.mem_erase_of_ne hpl, hp]
        · rw [moveLinkToQueue_mem]
          show (getLink (setLink (markVerified hd.mem link) link _) p).verified = true
          rw [getLink_setLink, if_neg (fun h => hpl h.1), getLink_markVerified,
            if_neg (fun h => hpl h.1)]
          exact hpv

/-- Claim C38, counterexample: `readyEngine` (reached by `ProcessHeaders`) holds
the persisted `0x0a`, its child `0x0b` in the insert queue and the child `0x0c`
of `0x0b` (pointer 1) in the link queue. `InsertHeader` persists `0x0b` and
moves `0x0c` to the insert queue; a second `InsertHeader` verifies `0x0c` and
fails in the callback. Link `0x0c` is then in the insert queue, verified and not
linked, and the link queue is empty. `MarkAllVerified` returns, and link `0x0c`,
which was in the insert queue beforehand, is still not linked. -/
theorem MarkAllVerified_linked_counterexample :
    verifiedUnlinkedEngine.map
        (fun hd => (hd.insertQueue, hd.linkQueue, (getLink hd.mem 1).hash)) =
      some ([1], [], 12) ∧
    verifiedUnlinkedEngine.map
        (fun hd => ((getLink hd.mem 1).verified, (getLink hd.mem 1).linked)) =
      some (true, false) ∧
    (verifiedUnlinkedEngine.bind (MarkAllVerified 10)).map
        (fun hd => (hd.insertQueue, hd.linkQueue)) = some ([1], []) ∧
    (verifiedUnlinkedEngine.bind (MarkAllVerified 10)).map
        (fun hd => ((getLink hd.mem 1).verified, (getLink hd.mem 1).linked)) =
      some (true, false) := by
  refine ⟨by decide, by decide, by decide, by decide⟩

/-! ## pruneLinkQueue -/

/-- A chain of the heap in which one first-child pointer changed is the chain it
was. -/
theorem inChain_setFChild {mem : List Link} (z : Nat) (f : Option Nat) {o : Option Nat} {x : Nat}
    (h : InChain (setLink mem z { getLink mem z with fChild := f }) o x) : InChain mem o x := by
  induction h with
  | here p => exact InChain.here p
  | sibling p q _ ih =>
    apply InChain.sibling
    rw [getLink_setLink] at ih
    by_cases hc : p = z ∧ z < mem.length
    · rw [if_pos hc] at ih
      rw [hc.1]
      exact ih
    · rw [if_neg hc] at ih
      exact ih

theorem getAnchor_of_ge (amem : List Anchor) (a : Nat) (h : amem.length ≤ a) :
    getAnchor amem a = default := by
  simp [getAnchor, List.getD_eq_getElem?_getD, List.getElem?_eq_none h]

theorem ptrBelow_spec {n : Nat} {o : Option Nat} : ptrBelow n o = true ↔ ∀ c, o = some c → c < n := by
  cases o with
  | none => simp [ptrBelow]
  | some q => simp [ptrBelow]

theorem getLink_exists_of_mem {mem : List Link} {l : Link} (h : l ∈ mem) :
    ∃ q, q < mem.length ∧ getLink mem q = l := by
  obtain ⟨q, hq, e⟩ := List.mem_iff_getElem.mp h
  refine ⟨q, hq, ?_⟩
  simp [getLink, List.getD_eq_getElem?_getD, List.getElem?_eq_getElem hq, e]

theorem getAnchor_exists_of_mem {amem : List Anchor} {x : Anchor} (h : x ∈ amem) :
    ∃ q, q < amem.length ∧ getAnchor amem q = x := by
  obtain ⟨q, hq, e⟩ := List.mem_iff_getElem.mp h
  refine ⟨q, hq, ?_⟩
  simp [getAnchor, List.getD_eq_getElem?_getD, List.getElem?_eq_getElem hq, e]

theorem pointersClosed_iff (hd : HeaderDownload) :
    pointersClosed hd = true ↔ ClosedL hd.mem hd.mem.length ∧ ClosedA hd.amem hd.mem.length := by
  unfold pointersClosed ClosedL ClosedA
  simp only [Bool.and_eq_true, List.all_eq_true, ptrBelow_spec]
  constructor
  · rintro ⟨h1, h2⟩
    constructor
    · intro q c hc
      by_cases hq : q < hd.mem.length
      · rcases hc with hc | hc
        · exact (h1 _ (getLink_mem _ _ hq)).1 c hc
        · exact (h1 _ (getLink_mem _ _ hq)).2 c hc
      · rw [getLink_of_ge _ _ (Nat.le_of_not_lt hq)] at hc
        rcases hc with hc | hc <;> cases hc
    · intro a c hc
      by_cases ha : a < hd.amem.length
      · exact h2 _ (getAnchor_mem _ _ ha) c hc
      · rw [getAnchor_of_ge _ _ (Nat.le_of_not_lt ha)] at hc
        cases hc
  · rintro ⟨h1, h2⟩
    constructor
    · intro l hl
      obtain ⟨q, _, e⟩ := getLink_exists_of_mem hl
      exact ⟨fun c hc => h1 q c (Or.inl (by rw [e]; exact hc)),
        fun c hc => h1 q c (Or.inr (by rw [e]; exact hc))⟩
    · intro x hx
      obtain ⟨a, _, e⟩ := getAnchor_exists_of_mem hx
      exact fun c hc => h2 a c (by rw [e]; exact hc)

theorem queuesTagged_iff (hd : HeaderDownload) : queuesTagged hd = true ↔ QueuesOk hd := by
  unfold queuesTagged QueuesOk
  simp only [Bool.and_eq_true, decide_eq_true_eq, List.all_eq_true]
  constructor
  · rintro ⟨⟨⟨⟨⟨h1, h2⟩, h3⟩, h4⟩, h5⟩, h6⟩
    exact ⟨h1, h2, h3, h4, h5, h6⟩
  · rintro ⟨h1, h2, h3, h4, h5, h6⟩
    exact ⟨⟨⟨⟨⟨h1, h2⟩, h3⟩, h4⟩, h5⟩, h6⟩

theorem linkQueueUnverified_iff (hd : HeaderDownload) :
    linkQueueUnverified hd = true ↔ ∀ p ∈ hd.linkQueue, (getLink hd.mem p).verified = false := by
  unfold linkQueueUnverified
  simp only [List.all_eq_true, Bool.not_eq_true']

theorem markInvariant_iff (hd : HeaderDownload) : markInvariant hd = true ↔ MarkInv hd := by
  unfold markInvariant MarkInv
  simp only [Bool.and_eq_true, queuesTagged_iff, linkQueueUnverified_iff, pointersClosed_iff]
  tauto

theorem closedL_mono {mem : List Link} {n m : Nat} (h : ClosedL mem n) (hnm : n ≤ m) :
    ClosedL mem m :=
  fun q c hc => lt_of_lt_of_le (h q c hc) hnm

theorem closedA_mono {amem : List Anchor} {n m : Nat} (h : ClosedA amem n) (hnm : n ≤ m) :
    ClosedA amem m :=
  fun a c hc => lt_of_lt_of_le (h a c hc) hnm

theorem closedL_setLink {mem : List Link} {n : Nat} (h : ClosedL mem n) (z : Nat) (l : Link)
    (hl : ∀ c, (l.fChild = some c ∨ l.next = some c) → c < n) : ClosedL (setLink mem z l) n := by
  intro q c hc
  rw [getLink_setLink] at hc
  split at hc
  · exact hl c hc
  · exact h q c hc

theorem closedA_setAnchor {amem : List Anchor} {n : Nat} (h : ClosedA amem n) (z : Nat)
    (x : Anchor) (hx : ∀ c, x.fLink = some c → c < n) : ClosedA (setAnchor amem z x) n := by
  intro a c hc
  rw [getAnchor_setAnchor] at hc
  split at hc
  · exact hx c hc
  · exact h a c hc

theorem closedL_append {mem : List Link} (h : ClosedL mem mem.length) (l : Link)
    (hl : ∀ c, (l.fChild = some c ∨ l.next = some c) → c < mem.length + 1) :
    ClosedL (mem ++ [l]) (mem ++ [l]).length := by
  intro q c hc
  rw [List.length_append, List.length_singleton]
  by_cases hq : q < mem.length
  · rw [getLink_append_lt _ _ _ hq] at hc
    exact Nat.lt_succ_of_lt (h q c hc)
  · by_cases hq2 : q = mem.length
    · rw [hq2, getLink_append_length] at hc
      exact hl c hc
    · rw [getLink_of_ge _ _ (by rw [List.length_append, List.length_singleton]; omega)] at hc
      rcases hc with hc | hc <;> cases hc

theorem closedA_append {amem : List Anchor} {n : Nat} (h : ClosedA amem n) (x : Anchor)
    (hx : ∀ c, x.fLink = some c → c < n) : ClosedA (amem ++ [x]) n := by
  intro a c hc
  by_cases ha : a < amem.length
  · rw [getAnchor_append_lt _ _ _ ha] at hc
    exact h a c hc
  · by_cases ha2 : a = amem.length
    · rw [ha2, getAnchor_append_length] at hc
      exact hx c hc
    · rw [getAnchor_of_ge _ _ (by rw [List.length_append, List.length_singleton]; omega)] at hc
      cases hc

/-- The invariant looks at the link heap, the first-link pointers and the three
queues only. -/
theorem markInv_congr {hd hd2 : HeaderDownload} (h : MarkInv hd) (e1 : hd2.mem = hd.mem)
    (e2 : ∀ a, (getAnchor hd2.amem a).fLink = (getAnchor hd.amem a).fLink)
    (e3 : hd2.linkQueue = hd.linkQueue) (e4 : hd2.insertQueue = hd.insertQueue)
    (e5 : hd2.persistedLinkQueue = hd.persistedLinkQueue) : MarkInv hd2 := by
  obtain ⟨hq, hu, hl, ha⟩ := h
  unfold MarkInv QueuesOk ClosedA
  rw [e1, e3, e4, e5]
  exact ⟨hq, hu, hl, fun a c hc => ha a c (by rw [← e2 a]; exact hc)⟩

/-- A change of the link heap that keeps its length, the queue tags and the
flags `verified`, and keeps the pointers closed, keeps the invariant. -/
theorem markInv_of_mem {hd : HeaderDownload} (h : MarkInv hd) (mem1 : List Link)
    (hlen : mem1.length = hd.mem.length)
    (hq : ∀ q, (getLink mem1 q).queueId = (getLink hd.mem q).queueId)
    (hv : ∀ q ∈ hd.linkQueue, (getLink mem1 q).verified = (getLink hd.mem q).verified)
    (hc : ClosedL mem1 hd.mem.length) : MarkInv { hd with mem := mem1 } := by
  obtain ⟨hqs, hu, _, ha⟩ := h
  refine ⟨queuesOk_of_mem hqs mem1 hq, ?_, ?_, ?_⟩
  · intro p hp
    show (getLink mem1 p).verified = false
    rw [hv p hp]
    exact hu p hp
  · show ClosedL mem1 mem1.length
    rw [hlen]; exact hc
  · show ClosedA hd.amem mem1.length
    rw [hlen]; exact ha

/-! ## The state invariant: pointer edits -/

theorem clearNext_closed (n : Nat) :
    ∀ (mem : List Link) (o : Option Nat) (mem2 : List Link) (k : Nat),
      clearNext n mem o = some mem2 → ClosedL mem k → mem2.length = mem.length ∧ ClosedL mem2 k := by
  induction n with
  | zero =>
    intro mem o mem2 k h hc
    cases o with
    | none =>
      simp only [clearNext, Option.some.injEq] at h
      subst h; exact ⟨rfl, hc⟩
    | some c => simp [clearNext] at h
  | succ n ih =>
    intro mem o mem2 k h hc
    cases o with
    | none =>
      simp only [clearNext, Option.some.injEq] at h
      subst h; exact ⟨rfl, hc⟩
    | some c =>
      simp only [clearNext] at h
      obtain ⟨h1, h2⟩ := ih _ _ _ k h (closedL_setLink hc c _ (by
        intro d hd
        rcases hd with hd | hd
        · exact hc c d (Or.inl hd)
        · cases hd))
      exact ⟨h1.trans (setLink_length _ _ _), h2⟩

theorem detachNext_closed (n : Nat) (mem : List Link) (o : Option Nat) (link : Nat)
    (mem2 : List Link) (k : Nat) (h : detachNext n mem o link = some mem2) (hc : ClosedL mem k) :
    mem2.length = mem.length ∧ ClosedL mem2 k := by
  rcases detachNext_cases _ _ _ _ _ h with e | ⟨z, _, e⟩
  · rw [e]; exact ⟨rfl, hc⟩
  · rw [e]
    refine ⟨setLink_length _ _ _, closedL_setLink hc z _ ?_⟩
    intro d hd
    rcases hd with hd | hd
    · exact hc z d (Or.inl hd)
    · exact hc link d (Or.inr hd)

theorem linkRemoveChild_closed (n : Nat) (mem : List Link) (par link : Nat)
    (mem2 : List Link) (k : Nat) (h : linkRemoveChild n mem par link = some mem2)
    (hc : ClosedL mem k) : mem2.length = mem.length ∧ ClosedL mem2 k := by
  rcases linkRemoveChild_cases _ _ _ _ _ h with e | ⟨z, _, e⟩ | ⟨z, _, e⟩
  · rw [e]; exact ⟨rfl, hc⟩
  · rw [e]
    refine ⟨setLink_length _ _ _, closedL_setLink hc z _ ?_⟩
    intro d hd
    rcases hd with hd | hd
    · exact hc z d (Or.inl hd)
    · exact hc link d (Or.inr hd)
  · rw [e]
    refine ⟨setLink_length _ _ _, closedL_setLink hc z _ ?_⟩
    intro d hd
    rcases hd with hd | hd
    · exact hc link d (Or.inr hd)
    · exact hc z d (Or.inr hd)

/-- Pointer edits of the link heap keep the invariant. -/
theorem markInv_clearNext {hd : HeaderDownload} (h : MarkInv hd) (n : Nat) (o : Option Nat)
    (mem2 : List Link) (e : clearNext n hd.mem o = some mem2) : MarkInv { hd with mem := mem2 } := by
  obtain ⟨h1, h2⟩ := clearNext_closed n _ _ _ _ e h.2.2.1
  exact markInv_of_mem h mem2 h1 (clearNext_queueId n _ _ _ e)
    (fun q _ => (sameLinks_linked (clearNext_sameLinks n _ _ _ e) q).2.2.1) h2

theorem markInv_detachNext {hd : HeaderDownload} (h : MarkInv hd) (n : Nat) (o : Option Nat)
    (link : Nat) (mem2 : List Link) (e : detachNext n hd.mem o link = some mem2) :
    MarkInv { hd with mem := mem2 } := by
  obtain ⟨h1, h2⟩ := detachNext_closed n _ _ _ _ _ e h.2.2.1
  exact markInv_of_mem h mem2 h1 (detachNext_queueId n _ _ _ _ e)
    (fun q _ => (sameLinks_linked (detachNext_sameLinks n _ _ _ _ e) q).2.2.1) h2

theorem markInv_linkRemoveChild {hd : HeaderDownload} (h : MarkInv hd) (n : Nat)
    (par link : Nat) (mem2 : List Link) (e : linkRemoveChild n hd.mem par link = some mem2) :
    MarkInv { hd with mem := mem2 } := by
  obtain ⟨h1, h2⟩ := linkRemoveChild_closed n _ _ _ _ _ e h.2.2.1
  exact markInv_of_mem h mem2 h1 (linkRemoveChild_queueId n _ _ _ _ e)
    (fun q _ => (sameLinks_linked (linkRemoveChild_sameLinks n _ _ _ _ e) q).2.2.1) h2

theorem markInv_links {hd : HeaderDownload} (h : MarkInv hd) (l : List (Hash × Nat)) :
    MarkInv { hd with links := l } := h

theorem markInv_detachFromParent {hd : HeaderDownload} (h : MarkInv hd) (n : Nat) (link : Nat)
    (hd1 : HeaderDownload) (e : detachFromParent n hd link = some hd1) : MarkInv hd1 := by
  unfold detachFromParent at e
  split at e
  · simp only [Option.some.injEq] at e; subst e; exact h
  · split at e
    · simp only [Option.some.injEq] at e; subst e; exact h
    · simp only [Option.map_eq_some'] at e
      obtain ⟨m, hm, e⟩ := e
      subst e
      exact markInv_linkRemoveChild h _ _ _ _ hm

/-- Taking a link out of its queue keeps the invariant. -/
theorem markInv_moveLinkToQueue_noQueue {hd : HeaderDownload} (h : MarkInv hd) (r : Nat) :
    MarkInv (moveLinkToQueue hd r QueueID.NoQueue) := by
  obtain ⟨hq, hu, hl, ha⟩ := h
  obtain ⟨q1, _, s1, _, _⟩ := moveLinkToQueue_noQueue hd r hq
  refine ⟨q1, ?_, ?_, ?_⟩
  · intro p hp
    rw [(sameLinks_linked (moveLinkToQueue_sameLinks hd r QueueID.NoQueue) p).2.2.1]
    exact hu p (s1 p hp)
  · rw [moveLinkToQueue_mem, setLink_length]
    exact closedL_setLink hl r _ (fun c hc => hl r c hc)
  · rw [moveLinkToQueue_amem, moveLinkToQueue_mem, setLink_length]
    exact ha

theorem markInv_removeUpwardsLoop (n : Nat) :
    ∀ (hd : HeaderDownload) (stack : List Nat) (hd2 : HeaderDownload),
      MarkInv hd → removeUpwardsLoop n hd stack = some hd2 → MarkInv hd2 := by
  induction n with
  | zero =>
    intro hd stack hd2 hi h
    cases stack with
    | nil =>
      simp only [removeUpwardsLoop, Option.some.injEq] at h
      subst h; exact hi
    | cons r rest => simp [removeUpwardsLoop] at h
  | succ n ih =>
    intro hd stack hd2 hi h
    cases stack with
    | nil =>
      simp only [removeUpwardsLoop, Option.some.injEq] at h
      subst h; exact hi
    | cons r rest =>
      simp only [removeUpwardsLoop] at h
      split at h
      · simp at h
      · split at h
        · simp at h
        · rename_i mem3 hclear
          simp only [ClearChildren] at hclear
          have h1 := markInv_moveLinkToQueue_noQueue
            (markInv_links hi (mapDel hd.links (getLink hd.mem r).hash)) r
          exact ih _ _ _ (markInv_clearNext h1 _ _ _ hclear) h

theorem markInv_removeUpwards {hd : HeaderDownload} (h : MarkInv hd) (n : Nat) (link : Nat)
    (hd2 : HeaderDownload) (e : removeUpwards n hd link = some hd2) : MarkInv hd2 := by
  simp only [removeUpwards, Option.bind_eq_some] at e
  obtain ⟨hd1, e1, e2⟩ := e
  exact markInv_removeUpwardsLoop n _ _ _ (markInv_detachFromParent h n link hd1 e1) e2

theorem markInv_UnlinkHeader {hd : HeaderDownload} (h : MarkInv hd) (n : Nat) (hash : Hash)
    (hd2 : HeaderDownload) (e : UnlinkHeader n hd hash = some hd2) : MarkInv hd2 := by
  unfold UnlinkHeader at e
  split at e
  · simp only [Option.some.injEq] at e; subst e; exact h
  · exact markInv_removeUpwards h n _ hd2 e

/-! ## The state invariant: queue moves and new links -/

theorem moveLinkToQueue_queues (hd : HeaderDownload) (p : Nat) (Q : QueueID) :
    (moveLinkToQueue hd p Q).linkQueue =
        (moveLinkToQueue hd p QueueID.NoQueue).linkQueue ++
          (if Q = QueueID.EntryQueueID then [p] else []) ∧
      (moveLinkToQueue hd p Q).insertQueue =
        (moveLinkToQueue hd p QueueID.NoQueue).insertQueue ++
          (if Q = QueueID.InsertQueueID then [p] else []) ∧
      (moveLinkToQueue hd p Q).persistedLinkQueue =
        (moveLinkToQueue hd p QueueID.NoQueue).persistedLinkQueue ++
          (if Q = QueueID.PersistedQueueID then [p] else []) := by
  unfold moveLinkToQueue queueRemove queuePush
  cases (getLink hd.mem p).queueId <;> cases Q <;> simp

theorem queue_push_ok (X : List Nat) (p : Nat) (b : Prop) [Decidable b] (hn : X.Nodup)
    (hp : p ∉ X) :
    (X ++ (if b then [p] else [])).Nodup ∧
      ∀ q, q ∈ X ++ (if b then [p] else []) → q ∈ X ∨ (b ∧ q = p) := by
  by_cases hb : b
  · simp only [hb, if_true]
    refine ⟨List.Nodup.append hn (List.nodup_singleton _) ?_, ?_⟩
    · intro x hx1 hx2
      rw [List.mem_singleton.mp hx2] at hx1
      exact hp hx1
    · intro q hq
      rcases List.mem_append.mp hq with h1 | h1
      · exact Or.inl h1
      · exact Or.inr ⟨trivial, List.mem_singleton.mp h1⟩
  · simp only [hb, if_false, List.append_nil]
    exact ⟨hn, fun q hq => Or.inl hq⟩

/-- Moving a link of the heap to a queue keeps the invariant; a link that moves
to the link queue must not be verified. -/
theorem markInv_moveLinkToQueue {hd : HeaderDownload} (h : MarkInv hd) (p : Nat) (Q : QueueID)
    (hp : p < hd.mem.length)
    (hQ : Q = QueueID.EntryQueueID → (getLink hd.mem p).verified = false) :
    MarkInv (moveLinkToQueue hd p Q) := by
  obtain ⟨hq, hu, hl, ha⟩ := h
  obtain ⟨⟨n1, n2, n3, t1, t2, t3⟩, ⟨o1, o2, o3⟩, s1, _, _⟩ := moveLinkToQueue_noQueue hd p hq
  obtain ⟨e1, e2, e3⟩ := moveLinkToQueue_queues hd p Q
  have htagp : (getLink (moveLinkToQueue hd p Q).mem p).queueId = Q := by
    rw [moveLinkToQueue_mem, getLink_setLink, if_pos ⟨rfl, hp⟩]
  have htag : ∀ q, q ≠ p → (getLink (moveLinkToQueue hd p Q).mem q).queueId =
      (getLink (moveLinkToQueue hd p QueueID.NoQueue).mem q).queueId := by
    intro q hne
    rw [moveLinkToQueue_mem, moveLinkToQueue_mem, getLink_setLink_ne _ _ _ _ (fun e => hne e.symm),
      getLink_setLink_ne _ _ _ _ (fun e => hne e.symm)]
  obtain ⟨a1, a2⟩ := queue_push_ok _ p (Q = QueueID.EntryQueueID) n1 o1
  obtain ⟨b1, b2⟩ := queue_push_ok _ p (Q = QueueID.InsertQueueID) n2 o2
  obtain ⟨c1, c2⟩ := queue_push_ok _ p (Q = QueueID.PersistedQueueID) n3 o3
  refine ⟨⟨by rw [e1]; exact a1, by rw [e2]; exact b1, by rw [e3]; exact c1, ?_, ?_, ?_⟩,
    ?_, ?_, ?_⟩
  · intro q hq1
    rw [e1] at hq1
    rcases a2 q hq1 with h1 | ⟨h1, h2⟩
    · rw [htag q (fun e => o1 (e ▸ h1))]; exact t1 q h1
    · rw [h2, htagp]; exact h1
  · intro q hq1
    rw [e2] at hq1
    rcases b2 q hq1 with h1 | ⟨h1, h2⟩
    · rw [htag q (fun e => o2 (e ▸ h1))]; exact t2 q h1
    · rw [h2, htagp]; exact h1
  · intro q hq1
    rw [e3] at hq1
    rcases c2 q hq1 with h1 | ⟨h1, h2⟩
    · rw [htag q (fun e => o3 (e ▸ h1))]; exact t3 q h1
    · rw [h2, htagp]; exact h1
  · intro q hq1
    rw [e1] at hq1
    rw [(sameLinks_linked (moveLinkToQueue_sameLinks hd p Q) q).2.2.1]
    rcases a2 q hq1 with h1 | ⟨h1, h2⟩
    · exact hu q (s1 q h1)
    · rw [h2]; exact hQ h1
  · rw [moveLinkToQueue_mem, setLink_length]
    exact closedL_setLink hl p _ (fun c hc => hl p c hc)
  · rw [moveLinkToQueue_amem, moveLinkToQueue_mem, setLink_length]
    exact ha

/-- Every link of a queue is a link of the heap. -/
theorem markInv_queue_lt {hd : HeaderDownload} (h : MarkInv hd) {p : Nat}
    (hp : p ∈ hd.linkQueue ∨ p ∈ hd.insertQueue ∨ p ∈ hd.persistedLinkQueue) :
    p < hd.mem.length := by
  obtain ⟨⟨_, _, _, t1, t2, t3⟩, _⟩ := h
  apply lt_length_of_queueId
  rcases hp with hp | hp | hp
  · rw [t1 p hp]; decide
  · rw [t2 p hp]; decide
  · rw [t3 p hp]; decide

/-- Allocation of a link without pointers and without queue tag keeps the
invariant. -/
theorem markInv_alloc {hd : HeaderDownload} (h : MarkInv hd) (l : Link)
    (hf : l.fChild = none) (hn : l.next = none) :
    MarkInv { hd with mem := hd.mem ++ [l] } := by
  have hlt : ∀ p, (p ∈ hd.linkQueue ∨ p ∈ hd.insertQueue ∨ p ∈ hd.persistedLinkQueue) →
      getLink (hd.mem ++ [l]) p = getLink hd.mem p := fun p hp =>
    getLink_append_lt _ _ _ (markInv_queue_lt h hp)
  obtain ⟨⟨n1, n2, n3, t1, t2, t3⟩, hu, hl, ha⟩ := h
  refine ⟨⟨n1, n2, n3, ?_, ?_, ?_⟩, ?_, ?_, ?_⟩
  · intro p hp
    show (getLink (hd.mem ++ [l]) p).queueId = _
    rw [hlt p (Or.inl hp)]; exact t1 p hp
  · intro p hp
    show (getLink (hd.mem ++ [l]) p).queueId = _
    rw [hlt p (Or.inr (Or.inl hp))]; exact t2 p hp
  · intro p hp
    show (getLink (hd.mem ++ [l]) p).queueId = _
    rw [hlt p (Or.inr (Or.inr hp))]; exact t3 p hp
  · intro p hp
    show (getLink (hd.mem ++ [l]) p).verified = _
    rw [hlt p (Or.inl hp)]; exact hu p hp
  · exact closedL_append hl l (fun c hc => by rw [hf, hn] at hc; rcases hc with hc | hc <;> cases hc)
  · show ClosedA hd.amem (hd.mem ++ [l]).length
    rw [List.length_append, List.length_singleton]
    exact closedA_mono ha (Nat.le_succ _)

/-- Allocation of a link without pointers, then a move to a queue. -/
theorem markInv_allocMove {hd : HeaderDownload} (h : MarkInv hd) (l : Link)
    (hf : l.fChild = none) (hn : l.next = none) (links : List (Hash × Nat)) (Q : QueueID)
    (hQ : Q = QueueID.EntryQueueID → l.verified = false) :
    MarkInv (moveLinkToQueue { hd with mem := hd.mem ++ [l], links := links } hd.mem.length Q) ∧
      (Q ≠ QueueID.EntryQueueID → hd.mem.length ∉
        (moveLinkToQueue { hd with mem := hd.mem ++ [l], links := links } hd.mem.length
          Q).linkQueue) := by
  have h1 : MarkInv { hd with mem := hd.mem ++ [l], links := links } :=
    markInv_links (markInv_alloc h l hf hn) links
  have hlen : hd.mem.length < (hd.mem ++ [l]).length := by
    rw [List.length_append, List.length_singleton]
    exact Nat.lt_succ_self _
  refine ⟨markInv_moveLinkToQueue h1 hd.mem.length Q hlen ?_, ?_⟩
  · intro e
    show (getLink (hd.mem ++ [l]) hd.mem.length).verified = false
    rw [getLink_append_length]
    exact hQ e
  · intro hne
    have hnot : hd.mem.length ∉ hd.linkQueue := fun hm =>
      Nat.lt_irrefl _ (markInv_queue_lt h (Or.inl hm))
    rw [(moveLinkToQueue_queues _ _ _).1, if_neg hne, List.append_nil]
    intro hm
    exact hnot ((moveLinkToQueue_noQueue _ _ h1.1).2.2.1 _ hm)

theorem markInv_addHeaderAsLink {hd : HeaderDownload} (h : MarkInv hd) (sh : ChainSegmentHeader)
    (persisted : Bool) :
    MarkInv (addHeaderAsLink hd sh persisted).1 ∧
      (addHeaderAsLink hd sh persisted).2 < (addHeaderAsLink hd sh persisted).1.mem.length ∧
      (addHeaderAsLink hd sh persisted).2 = hd.mem.length ∧
      (persisted = true → (addHeaderAsLink hd sh persisted).2 ∉
        (addHeaderAsLink hd sh persisted).1.linkQueue) := by
  unfold addHeaderAsLink
  dsimp only
  obtain ⟨a, b⟩ := markInv_allocMove h
    { blockHeight := sh.number, hash := sh.hash,
      header := if persisted then none else some sh.header,
      headerRaw := if persisted then none else some sh.headerRaw,
      persisted := persisted, linked := persisted, verified := persisted } rfl rfl
    (mapSet hd.links sh.hash hd.mem.length)
    (if persisted then QueueID.PersistedQueueID else QueueID.EntryQueueID)
    (by
      intro e
      cases persisted with
      | false => rfl
      | true => simp at e)
  refine ⟨a, ?_, rfl, ?_⟩
  · rw [moveLinkToQueue_mem, setLink_length, List.length_append, List.length_singleton]
    exact Nat.lt_succ_self _
  · intro hp
    subst hp
    exact b (by simp)

/-! ## The state invariant: ProcessHeaders -/

/-- A store through a link pointer that keeps the queue tag, keeps `verified`
on a link of the link queue and writes pointers into the heap keeps the
invariant. -/
theorem markInv_setLink {hd : HeaderDownload} (h : MarkInv hd) (z : Nat) (l : Link)
    (htag : l.queueId = (getLink hd.mem z).queueId)
    (hver : z ∈ hd.linkQueue → l.verified = (getLink hd.mem z).verified)
    (hptr : ∀ c, (l.fChild = some c ∨ l.next = some c) → c < hd.mem.length) :
    MarkInv { hd with mem := setLink hd.mem z l } := by
  apply markInv_of_mem h _ (setLink_length _ _ _)
  · intro q
    rw [getLink_setLink]
    split
    · rename_i e
      rw [e.1]; exact htag
    · rfl
  · intro q hq
    rw [getLink_setLink]
    split
    · rename_i e
      rw [e.1] at hq ⊢
      exact hver hq
    · rfl
  · exact closedL_setLink h.2.2.1 z l hptr

theorem markInv_amem {hd : HeaderDownload} (h : MarkInv hd) (amem1 : List Anchor)
    (hc : ClosedA amem1 hd.mem.length) : MarkInv { hd with amem := amem1 } :=
  ⟨h.1, h.2.1, h.2.2.1, hc⟩

theorem markInv_removeAnchor {hd : HeaderDownload} (h : MarkInv hd) (a : Nat) :
    MarkInv (removeAnchor hd a) := h

theorem markInv_attachToAnchor {hd : HeaderDownload} (h : MarkInv hd) (link A : Nat)
    (hl : link < hd.mem.length) : MarkInv (attachToAnchor hd link A) := by
  unfold attachToAnchor
  have h1 := markInv_setLink h link { getLink hd.mem link with next := (getAnchor hd.amem A).fLink }
    rfl (fun _ => rfl) (fun c hc => by
      rcases hc with hc | hc
      · exact h.2.2.1 link c (Or.inl hc)
      · exact h.2.2.2 A c hc)
  have h2 := markInv_amem h1 (setAnchor hd.amem A { getAnchor hd.amem A with fLink := some link })
    (closedA_setAnchor (by
        show ClosedA hd.amem (setLink hd.mem link _).length
        rw [setLink_length]; exact h.2.2.2) A _ (by
      intro c hc
      simp only [Option.some.injEq] at hc
      subst hc
      show link < (setLink hd.mem link _).length
      rw [setLink_length]; exact hl))
  exact h2

theorem markInv_attachToParent {hd : HeaderDownload} (h : MarkInv hd) (link parent : Nat)
    (hl : link < hd.mem.length) : MarkInv (attachToParent hd link parent) := by
  unfold attachToParent
  have h1 := markInv_setLink h link
    { getLink hd.mem link with next := (getLink hd.mem parent).fChild }
    rfl (fun _ => rfl) (fun c hc => by
      rcases hc with hc | hc
      · exact h.2.2.1 link c (Or.inl hc)
      · exact h.2.2.1 parent c (Or.inl hc))
  have h2 := markInv_setLink h1 parent
    { getLink (setLink hd.mem link
        { getLink hd.mem link with next := (getLink hd.mem parent).fChild }) parent with
      fChild := some link }
    rfl (fun _ => rfl) (fun c hc => by
      rcases hc with hc | hc
      · simp only [Option.some.injEq] at hc
        subst hc
        show link < (setLink hd.mem link _).length
        rw [setLink_length]; exact hl
      · exact h1.2.2.1 parent c (Or.inr hc))
  dsimp only
  split
  · have h3 := markInv_setLink h2 link
      { getLink (setLink (setLink hd.mem link
          { getLink hd.mem link with next := (getLink hd.mem parent).fChild }) parent
          { getLink (setLink hd.mem link
              { getLink hd.mem link with next := (getLink hd.mem parent).fChild }) parent with
            fChild := some link }) link with linked := true }
      rfl (fun _ => rfl) (fun c hc => h2.2.2.1 link c hc)
    exact markInv_moveLinkToQueue h3 link QueueID.InsertQueueID
      (by
        show link < (setLink _ link _).length
        rw [setLink_length]
        show link < (setLink _ parent _).length
        rw [setLink_length]
        show link < (setLink _ link _).length
        rw [setLink_length]
        exact hl)
      (fun e => by cases e)
  · exact h2

theorem markInv_addAnchor {hd : HeaderDownload} (h : MarkInv hd) (sh : ChainSegmentHeader)
    (peerID : PeerID) (link : Nat) (hl : link < hd.mem.length) :
    MarkInv (addAnchor hd sh peerID link) := by
  unfold addAnchor
  exact ⟨h.1, h.2.1, h.2.2.1, closedA_append h.2.2.2 _ (by
    intro c hc
    simp only [Option.some.injEq] at hc
    subst hc
    exact hl)⟩

theorem markInv_adoptAnchor {hd : HeaderDownload} (h : MarkInv hd) (link : Nat)
    (anchor : Option Nat) :
    MarkInv (adoptAnchor hd link anchor) ∧
      (adoptAnchor hd link anchor).mem.length = hd.mem.length := by
  unfold adoptAnchor
  cases anchor with
  | none => exact ⟨h, rfl⟩
  | some a =>
    refine ⟨?_, setLink_length _ _ _⟩
    exact markInv_removeAnchor (markInv_setLink h link
      { getLink hd.mem link with fChild := (getAnchor hd.amem a).fLink } rfl (fun _ => rfl)
      (fun c hc => by
        rcases hc with hc | hc
        · exact h.2.2.2 a c hc
        · exact h.2.2.1 link c (Or.inr hc))) a

theorem markInv_stats {hd : HeaderDownload} (h : MarkInv hd) (s : Stats) :
    MarkInv { hd with stats := s } := h

theorem markInv_acceptLink {hd : HeaderDownload} (h : MarkInv hd) (sh : ChainSegmentHeader) :
    MarkInv (acceptLink hd sh).1 ∧ (acceptLink hd sh).2 < (acceptLink hd sh).1.mem.length := by
  unfold acceptLink
  dsimp only
  obtain ⟨a1, a2, _, _⟩ := markInv_addHeaderAsLink
    (markInv_stats h (updateRespStats hd.stats sh.number)) sh false
  obtain ⟨b1, b2⟩ := markInv_adoptAnchor a1
    (addHeaderAsLink { hd with stats := updateRespStats hd.stats sh.number } sh false).2
    (mapGet hd.anchors sh.hash)
  exact ⟨b1, by rw [b2]; exact a2⟩

theorem markInv_attachLink {hd : HeaderDownload} (h : MarkInv hd) (fuel thr : Nat)
    (sh : ChainSegmentHeader) (peerID : PeerID) (link : Nat) (parent : Option Nat)
    (hl : link < hd.mem.length) (hd2 : HeaderDownload) (r : Bool)
    (e : attachLink fuel thr hd sh peerID link parent = some (hd2, r)) : MarkInv hd2 := by
  unfold attachLink at e
  split at e
  · simp only [Option.some.injEq, Prod.mk.injEq] at e
    rw [← e.1]
    exact markInv_attachToAnchor h link _ hl
  · split at e
    · simp only [Option.some.injEq, Prod.mk.injEq] at e
      rw [← e.1]
      exact markInv_attachToParent h link _ hl
    · split at e
      · simp only [Option.map_eq_some', Prod.mk.injEq] at e
        obtain ⟨hd1, e1, e2, _⟩ := e
        rw [← e2]
        exact markInv_removeUpwards h fuel link hd1 e1
      · simp only [Option.some.injEq, Prod.mk.injEq] at e
        rw [← e.1]
        exact markInv_addAnchor h sh peerID link hl

theorem markInv_ProcessHeader {hd : HeaderDownload} (h : MarkInv hd) (fuel thr : Nat)
    (sh : ChainSegmentHeader) (newBlock : Bool) (peerID : PeerID) (hd2 : HeaderDownload)
    (r : Bool) (e : ProcessHeader fuel thr hd sh newBlock peerID = some (hd2, r)) :
    MarkInv hd2 := by
  unfold ProcessHeader at e
  dsimp only at e
  split at e
  · simp only [Option.some.injEq, Prod.mk.injEq] at e
    rw [← e.1]
    exact h
  · split at e
    · simp only [Option.some.injEq, Prod.mk.injEq] at e
      rw [← e.1]
      exact h
    · split at e
      · simp only [Option.some.injEq, Prod.mk.injEq] at e
        rw [← e.1]
        exact h
      · obtain ⟨a1, a2⟩ := markInv_acceptLink h sh
        exact markInv_attachLink a1 fuel thr sh peerID _ _ a2 hd2 r e

theorem markInv_erase {hd : HeaderDownload} (h : MarkInv hd) (link : Nat) :
    MarkInv { hd with linkQueue := hd.linkQueue.erase link } := by
  obtain ⟨⟨n1, n2, n3, t1, t2, t3⟩, hu, hl, ha⟩ := h
  exact ⟨⟨n1.erase link, n2, n3, fun p hp => t1 p (List.mem_of_mem_erase hp), t2, t3⟩,
    fun p hp => hu p (List.mem_of_mem_erase hp), hl, ha⟩

theorem markInv_anchorRemoveChild {hd : HeaderDownload} (h : MarkInv hd) (n : Nat)
    (A link : Nat) (hd4 : HeaderDownload) (e : anchorRemoveChild n hd A link = some hd4) :
    MarkInv hd4 := by
  unfold anchorRemoveChild at e
  split at e
  · simp only [Option.some.injEq] at e
    subst e
    exact markInv_amem h _ (closedA_setAnchor h.2.2.2 A _ (fun c hc => h.2.2.1 link c (Or.inr hc)))
  · simp only [Option.map_eq_some'] at e
    obtain ⟨m, hm, e⟩ := e
    subst e
    exact markInv_detachNext h _ _ _ _ hm

theorem markInv_pruneLink {hd : HeaderDownload} (h : MarkInv hd) (n : Nat) (link : Nat)
    (hd2 : HeaderDownload) (e : pruneLink n hd link = some hd2) : MarkInv hd2 := by
  simp only [pruneLink, Option.bind_eq_some] at e
  obtain ⟨mem2, hclear, e⟩ := e
  simp only [ClearChildren] at hclear
  have h2 : MarkInv { hd with links := mapDel hd.links (getLink hd.mem link).hash, mem := mem2 } :=
    markInv_links (markInv_clearNext h _ _ _ hclear) _
  split at e
  · simp at e
  · simp only [Option.bind_eq_some] at e
    obtain ⟨hd3, e3, e⟩ := e
    have h3 : MarkInv hd3 := by
      split at e3
      · simp only [Option.some.injEq] at e3
        subst e3; exact h2
      · simp only [Option.map_eq_some'] at e3
        obtain ⟨m, hm, e3⟩ := e3
        subst e3
        exact markInv_linkRemoveChild h2 _ _ _ _ hm
    split at e
    · simp only [Option.some.injEq] at e
      subst e; exact h3
    · simp only [Option.map_eq_some'] at e
      obtain ⟨hd4, e4, e⟩ := e
      have h4 := markInv_anchorRemoveChild h3 _ _ _ _ e4
      subst e
      split
      · exact markInv_removeAnchor h4 _
      · exact h4

theorem markInv_pruneLinkQueue (n : Nat) :
    ∀ (hd hd2 : HeaderDownload), MarkInv hd → pruneLinkQueue n hd = some hd2 → MarkInv hd2 := by
  induction n with
  | zero =>
    intro hd hd2 h e
    simp only [pruneLinkQueue] at e
    split at e
    · simp at e
    · simp only [Option.some.injEq] at e
      subst e; exact h
  | succ n ih =>
    intro hd hd2 h e
    simp only [pruneLinkQueue] at e
    split at e
    · split at e
      · simp at e
      · simp only [Option.bind_eq_some] at e
        obtain ⟨hd1, e1, e⟩ := e
        exact ih _ _ (markInv_pruneLink (markInv_erase h _) _ _ _ e1) e
    · simp only [Option.some.injEq] at e
      subst e; exact h

theorem markInv_processSegment (fuel thr : Nat) (newBlock : Bool) (peerID : PeerID) :
    ∀ (seg : List ChainSegmentHeader) (hd : HeaderDownload) (more : Bool) (hd2 : HeaderDownload)
      (r : Bool), MarkInv hd →
        processSegment fuel thr newBlock peerID hd seg more = some (hd2, r) → MarkInv hd2 := by
  intro seg
  induction seg with
  | nil =>
    intro hd more hd2 r h e
    simp only [processSegment, Option.some.injEq, Prod.mk.injEq] at e
    rw [← e.1]; exact h
  | cons sh rest ih =>
    intro hd more hd2 r h e
    simp only [processSegment] at e
    split at e
    · simp at e
    · rename_i hd1 m e1
      exact ih _ _ _ _ (markInv_ProcessHeader h fuel thr sh newBlock peerID hd1 m e1) e

theorem markInv_ProcessHeaders {hd : HeaderDownload} (h : MarkInv hd) (fuel thr : Nat)
    (seg : List ChainSegmentHeader) (newBlock : Bool) (peerID : PeerID) (hd2 : HeaderDownload)
    (r : Bool) (e : ProcessHeaders fuel thr hd seg newBlock peerID = some (hd2, r)) :
    MarkInv hd2 := by
  unfold ProcessHeaders at e
  split at e
  · simp at e
  · rename_i hd1 more e1
    have h1 := markInv_processSegment fuel thr newBlock peerID seg hd false hd1 more h e1
    dsimp only at e
    split at e
    · simp at e
    · rename_i hd3 e3
      simp only [Option.some.injEq, Prod.mk.injEq] at e
      rw [← e.1]
      have h3 : MarkInv hd3 := by
        split at e3
        · exact markInv_pruneLinkQueue fuel _ _ (markInv_stats h1 _) e3
        · simp only [Option.some.injEq] at e3
          rw [← e3]
          exact markInv_stats h1 _
      exact h3

/-! ## The state invariant: InsertHeader -/

theorem markInv_moveChildren (n : Nat) :
    ∀ (hd : HeaderDownload) (o : Option Nat) (hd2 : HeaderDownload), MarkInv hd →
      (∀ c, o = some c → c < hd.mem.length) → moveChildren n hd o = some hd2 → MarkInv hd2 := by
  induction n with
  | zero =>
    intro hd o hd2 h _ e
    cases o with
    | none =>
      simp only [moveChildren, Option.some.injEq] at e
      subst e; exact h
    | some c => simp [moveChildren] at e
  | succ n ih =>
    intro hd o hd2 h ho e
    cases o with
    | none =>
      simp only [moveChildren, Option.some.injEq] at e
      subst e; exact h
    | some c =>
      simp only [moveChildren] at e
      have hc := ho c rfl
      by_cases hp : (getLink hd.mem c).persisted = true
      · simp only [hp, if_true] at e
        exact ih _ _ _ h (fun d hd => h.2.2.1 c d (Or.inr hd)) e
      · simp only [hp, Bool.false_eq_true, if_false] at e
        have h1 := markInv_moveLinkToQueue h c QueueID.InsertQueueID hc (fun e => by cases e)
        exact ih _ _ _ h1 (fun d hd => h1.2.2.1 c d (Or.inr hd)) e

theorem markInv_highestInDb {hd : HeaderDownload} (h : MarkInv hd) (v : Nat) :
    MarkInv { hd with highestInDb := v } := h

theorem markInv_persistLink {hd : HeaderDownload} (h : MarkInv hd) (fuel : Nat) (link : Nat)
    (hl : link < hd.mem.length) (hd2 : HeaderDownload)
    (e : persistLink fuel hd link = some hd2) : MarkInv hd2 := by
  unfold persistLink at e
  dsimp only at e
  have h1 : MarkInv (if (getLink hd.mem link).blockHeight > hd.highestInDb then
      { hd with highestInDb := (getLink hd.mem link).blockHeight } else hd) := by
    split
    · exact markInv_highestInDb h _
    · exact h
  have hmem : (if (getLink hd.mem link).blockHeight > hd.highestInDb then
      { hd with highestInDb := (getLink hd.mem link).blockHeight } else hd).mem = hd.mem := by
    split <;> rfl
  have hlq : (if (getLink hd.mem link).blockHeight > hd.highestInDb then
      { hd with highestInDb := (getLink hd.mem link).blockHeight } else hd).linkQueue =
        hd.linkQueue := by
    split <;> rfl
  have h2 := markInv_setLink h1 link
    { getLink (if (getLink hd.mem link).blockHeight > hd.highestInDb then
        { hd with highestInDb := (getLink hd.mem link).blockHeight } else hd).mem link with
      persisted := true, header := none, headerRaw := none }
    rfl (fun _ => rfl) (fun c hc => h1.2.2.1 link c hc)
  have h3 := markInv_moveLinkToQueue h2 link QueueID.PersistedQueueID
    (by
      show link < (setLink _ link _).length
      rw [setLink_length, hmem]; exact hl)
    (fun e => by cases e)
  exact markInv_moveChildren fuel _ _ _ h3 (fun c hc => h3.2.2.1 link c (Or.inl hc)) e

theorem markInv_erasePersisted {hd : HeaderDownload} (h : MarkInv hd) (link : Nat)
    (l : List (Hash × Nat)) :
    MarkInv { hd with persistedLinkQueue := hd.persistedLinkQueue.erase link, links := l } := by
  obtain ⟨⟨n1, n2, n3, t1, t2, t3⟩, hu, hl, ha⟩ := h
  exact ⟨⟨n1, n2, n3.erase link, t1, t2, fun p hp => t3 p (List.mem_of_mem_erase hp)⟩,
    hu, hl, ha⟩

theorem markInv_evictPersisted (n : Nat) :
    ∀ (hd hd2 : HeaderDownload), MarkInv hd → evictPersisted n hd = some hd2 → MarkInv hd2 := by
  induction n with
  | zero =>
    intro hd hd2 h e
    simp only [evictPersisted] at e
    split at e
    · simp at e
    · simp only [Option.some.injEq] at e
      subst e; exact h
  | succ n ih =>
    intro hd hd2 h e
    simp only [evictPersisted] at e
    split at e
    · split at e
      · simp at e
      · simp only [Option.bind_eq_some] at e
        obtain ⟨mem2, hclear, e⟩ := e
        simp only [ClearChildren] at hclear
        exact ih _ _ (markInv_clearNext (markInv_erasePersisted h _ _) _ _ _ hclear) e
    · simp only [Option.some.injEq] at e
      subst e; exact h

theorem markInv_noteInserted {hd : HeaderDownload} (h : MarkInv hd) (link : Nat)
    (td : Option Int) :
    MarkInv (noteInserted hd link td) ∧ (noteInserted hd link td).mem = hd.mem := by
  unfold noteInserted
  dsimp only
  split
  · exact ⟨h, rfl⟩
  · split
    · exact ⟨h, rfl⟩
    · exact ⟨h, rfl⟩

theorem markInv_afterFeed {σ ε : Type} {hd : HeaderDownload} (h : MarkInv hd) (fuel : Nat)
    (ttd : Option Int) (link : Nat) (hdr : Header) (td : Option Int) (db : σ)
    (hl : link < hd.mem.length) (r : InsertOutcome σ ε)
    (e : afterFeed fuel ttd hd link hdr td db = some r) : MarkInv r.hd := by
  obtain ⟨n1, n2⟩ := markInv_noteInserted h link td
  rcases afterFeed_cases fuel ttd hd link hdr td db r e with e1 | ⟨hd4, e4, e5⟩
  · rw [e1]
    exact markInv_highestInDb n1 _
  · have h4 := markInv_persistLink n1 fuel link (by rw [n2]; exact hl) hd4 e4
    rcases e5 with ⟨_, e6⟩ | ⟨_, pending, e6⟩
    · rw [e6]; exact h4
    · exact markInv_evictPersisted fuel _ _ h4 (finishInsert_frame _ _ _ _ _ _ _ e6).1

theorem markInv_badPoSHeaders {hd : HeaderDownload} (h : MarkInv hd) (l : List (Hash × Hash)) :
    MarkInv { hd with badPoSHeaders := l } := h

/-- Go `InsertHeader` keeps the invariant. -/
theorem markInv_InsertHeader {σ ε : Type} {hd : HeaderDownload} (h : MarkInv hd) (fuel : Nat)
    (verify : Header → VerifyResult) (hf : FeedHeaderFunc σ ε) (ttd : Option Int) (db : σ)
    (r : InsertOutcome σ ε) (e : InsertHeader fuel verify hf ttd hd db = some r) :
    MarkInv r.hd := by
  rcases InsertHeader_cases fuel verify hf ttd hd db r e with ⟨_, e1⟩ | ⟨link, hmin, e1⟩
  · exact markInv_evictPersisted fuel _ _ h (finishInsert_frame _ _ _ _ _ _ _ e1).1
  · have hmem := (heapMin_spec _ _ _ hmin).1
    have hl : link < hd.mem.length := markInv_queue_lt h (Or.inr (Or.inl hmem))
    have hnl : link ∉ hd.linkQueue := by
      intro hm
      have e1 := h.1.2.2.2.1 link hm
      rw [h.1.2.2.2.2.1 link hmem] at e1
      cases e1
    have hver : MarkInv { hd with
        mem := setLink hd.mem link { getLink hd.mem link with verified := true } } :=
      markInv_setLink h link _ rfl (fun hm => absurd hm hnl) (fun c hc => h.2.2.1 link c hc)
    rcases e1 with ⟨_, hd1, e2, e3⟩ | ⟨_, hdr, _, e2⟩
    · rw [e3]
      exact markInv_stats (markInv_removeUpwards h fuel link hd1 e2) _
    · rcases e2 with ⟨_, _, e3⟩ | ⟨_, _, hd1, e3, e4⟩ | ⟨_, e3⟩
      · rw [e3]
        exact markInv_badPoSHeaders h _
      · rw [e4]
        exact markInv_stats (markInv_removeUpwards (markInv_badPoSHeaders h _) fuel link hd1 e3) _
      · rcases e3 with ⟨err, db1, _, e4⟩ | ⟨td, db1, _, e4⟩
        · rw [e4]
          exact hver
        · exact markInv_afterFeed hver fuel ttd link hdr td db1
            (by
              show link < (setLink hd.mem link _).length
              rw [setLink_length]; exact hl) r e4

/-! ## The state invariant: the other operations -/

theorem markInv_invalidateChildren (f : Nat) (n : Nat) :
    ∀ (hd : HeaderDownload) (o : Option Nat) (hd2 : HeaderDownload), MarkInv hd →
      invalidateChildren f n hd o = some hd2 → MarkInv hd2 := by
  induction n with
  | zero =>
    intro hd o hd2 h e
    cases o with
    | none =>
      simp only [invalidateChildren, Option.some.injEq] at e
      subst e; exact h
    | some c => simp [invalidateChildren] at e
  | succ n ih =>
    intro hd o hd2 h e
    cases o with
    | none =>
      simp only [invalidateChildren, Option.some.injEq] at e
      subst e; exact h
    | some c =>
      simp only [invalidateChildren, Option.bind_eq_some] at e
      obtain ⟨hd1, e1, e⟩ := e
      have h1 := markInv_removeUpwards h f c hd1 e1
      exact ih _ _ _ (markInv_setLink h1 c { getLink hd1.mem c with next := none } rfl
        (fun _ => rfl) (fun d hd => by
          rcases hd with hd | hd
          · exact h1.2.2.1 c d (Or.inl hd)
          · cases hd)) e

theorem markInv_invalidateAnchor {hd : HeaderDownload} (h : MarkInv hd) (fuel : Nat)
    (anchor : Nat) (hd2 : HeaderDownload) (e : invalidateAnchor fuel hd anchor = some hd2) :
    MarkInv hd2 :=
  markInv_invalidateChildren fuel fuel _ _ _ (markInv_removeAnchor h anchor) e

theorem markInv_ascendAnchors (fuel currentTime : Nat) :
    ∀ (n i : Nat) (hd : HeaderDownload) (penalties : List PenaltyItem)
      (r : HeaderDownload × Option HeaderRequest × List PenaltyItem), MarkInv hd →
        ascendAnchors fuel currentTime n i hd penalties = some r → MarkInv r.1 := by
  intro n
  induction n with
  | zero =>
    intro i hd penalties r h e
    simp only [ascendAnchors] at e
    split at e
    · cases e
    · simp only [Option.some.injEq] at e
      rw [← e]; exact h
  | succ n ih =>
    intro i hd penalties r h e
    simp only [ascendAnchors] at e
    split at e
    · simp only [Option.some.injEq] at e
      rw [← e]; exact h
    · rename_i a _
      split at e
      · exact ih _ _ _ _ h e
      · split at e
        · exact ih _ _ _ _ h e
        · split at e
          · simp only [Option.bind_eq_some] at e
            obtain ⟨hd1, e1, e⟩ := e
            exact ih _ _ _ _ (markInv_invalidateAnchor h fuel a hd1 e1) e
          · simp only [Option.some.injEq] at e
            rw [← e]; exact h

theorem markInv_RequestMoreHeaders {hd : HeaderDownload} (h : MarkInv hd) (fuel : Nat)
    (currentTime : Nat) (r : HeaderDownload × Option HeaderRequest × List PenaltyItem)
    (e : RequestMoreHeaders fuel hd currentTime = some r) : MarkInv r.1 :=
  markInv_ascendAnchors fuel currentTime _ _ _ _ _ h e

theorem markInv_UpdateRetryTime {hd : HeaderDownload} (h : MarkInv hd) (req : HeaderRequest)
    (currentTime timeout : Nat) (hd2 : HeaderDownload)
    (e : UpdateRetryTime hd req currentTime timeout = some hd2) : MarkInv hd2 := by
  unfold UpdateRetryTime at e
  split at e
  · simp at e
  · rename_i anchor _
    simp only [Option.some.injEq] at e
    subst e
    exact markInv_amem h _ (closedA_setAnchor h.2.2.2 anchor _ (fun c hc => h.2.2.2 anchor c hc))

theorem markInv_addSnapshotHeaders (r : Nat → Option ChainSegmentHeader) (i : Nat) :
    ∀ (hd : HeaderDownload), MarkInv hd → MarkInv (addSnapshotHeaders r i hd) := by
  induction i with
  | zero => intro hd h; exact h
  | succ i ih =>
    intro hd h
    simp only [addSnapshotHeaders]
    split
    · split
      · exact ih hd h
      · rename_i sh _
        obtain ⟨a1, _, _, a4⟩ := markInv_addHeaderAsLink h { sh with number := sh.header.Number }
          true
        exact ih _ (markInv_setLink a1 _ _ rfl (fun hm => absurd hm (a4 rfl))
          (fun c hc => a1.2.2.1 _ c hc))
    · exact h

theorem markInv_AddHeadersFromSnapshot {hd : HeaderDownload} (h : MarkInv hd) (n : Nat)
    (r : Nat → Option ChainSegmentHeader) : MarkInv (AddHeadersFromSnapshot hd n r) := by
  unfold AddHeadersFromSnapshot
  have h1 := markInv_addSnapshotHeaders r n hd h
  dsimp only
  split
  · split
    · exact h1
    · exact h1
  · split
    · exact h1
    · exact h1

theorem markLinkQueue_ptr (n : Nat) :
    ∀ (hd hd2 : HeaderDownload), markLinkQueue n hd = some hd2 →
      hd2.mem.length = hd.mem.length ∧ hd2.amem = hd.amem ∧
      ∀ q, (getLink hd2.mem q).fChild = (getLink hd.mem q).fChild ∧
        (getLink hd2.mem q).next = (getLink hd.mem q).next := by
  induction n with
  | zero =>
    intro hd hd2 e
    simp only [markLinkQueue] at e
    split at e
    · simp at e
    · simp only [Option.some.injEq] at e
      subst e; exact ⟨rfl, rfl, fun _ => ⟨rfl, rfl⟩⟩
  | succ n ih =>
    intro hd hd2 e
    simp only [markLinkQueue] at e
    split at e
    · simp only [Option.some.injEq] at e
      subst e; exact ⟨rfl, rfl, fun _ => ⟨rfl, rfl⟩⟩
    · rename_i link _
      split at e
      · exact ih _ _ e
      · obtain ⟨a1, a2, a3⟩ := ih _ _ e
        refine ⟨?_, ?_, fun q => ?_⟩
        · rw [a1, moveLinkToQueue_mem, setLink_length]
          exact markVerified_length _ _
        · rw [a2, moveLinkToQueue_amem]
        · have hs := moveLinkToQueue_sameLinks { hd with mem := markVerified hd.mem link } link
            QueueID.InsertQueueID
          have e1 : (getLink (moveLinkToQueue { hd with mem := markVerified hd.mem link } link
              QueueID.InsertQueueID).mem q).fChild = (getLink hd.mem q).fChild ∧
              (getLink (moveLinkToQueue { hd with mem := markVerified hd.mem link } link
              QueueID.InsertQueueID).mem q).next = (getLink hd.mem q).next := by
            rw [moveLinkToQueue_mem]
            show (getLink (setLink (markVerified hd.mem link) link _) q).fChild = _ ∧
              (getLink (setLink (markVerified hd.mem link) link _) q).next = _
            rw [getLink_setLink]
            split
            · rename_i hc
              rw [hc.1]
              show (getLink (markVerified hd.mem link) link).fChild = _ ∧
                (getLink (markVerified hd.mem link) link).next = _
              rw [getLink_markVerified]
              split <;> exact ⟨rfl, rfl⟩
            · rw [getLink_markVerified]
              split
              · rename_i hc
                rw [hc.1]
                exact ⟨rfl, rfl⟩
              · exact ⟨rfl, rfl⟩
          exact ⟨(a3 q).1.trans e1.1, (a3 q).2.trans e1.2⟩

theorem markLinkQueue_succ (n : Nat) :
    ∀ (hd hd2 : HeaderDownload), markLinkQueue n hd = some hd2 →
      markLinkQueue (n + 1) hd = some hd2 := by
  induction n with
  | zero =>
    intro hd hd2 e
    simp only [markLinkQueue] at e
    split at e
    · simp at e
    · rename_i hlen
      simp only [Option.some.injEq] at e
      subst e
      have he : hd.linkQueue = [] := by
        cases hq : hd.linkQueue with
        | nil => rfl
        | cons a l => rw [hq] at hlen; simp at hlen
      simp only [markLinkQueue, he, heapMin]
  | succ n ih =>
    intro hd hd2 e
    rw [markLinkQueue] at e ⊢
    split
    · rename_i hmin
      rw [hmin] at e
      exact e
    · rename_i link hmin
      rw [hmin] at e
      dsimp only at e ⊢
      split
      · rename_i hv
        rw [if_pos hv] at e
        exact ih _ _ e
      · rename_i hv
        rw [if_neg hv] at e
        exact ih _ _ e

theorem markLinkQueue_mono (n m : Nat) (hd hd2 : HeaderDownload)
    (e : markLinkQueue n hd = some hd2) : markLinkQueue (n + m) hd = some hd2 := by
  induction m with
  | zero => exact e
  | succ m ih => exact markLinkQueue_succ _ _ _ ih

/-- Go `MarkAllVerified` keeps the invariant. -/
theorem markInv_MarkAllVerified {hd : HeaderDownload} (h : MarkInv hd) (fuel : Nat)
    (hd2 : HeaderDownload) (e : MarkAllVerified fuel hd = some hd2) : MarkInv hd2 := by
  unfold MarkAllVerified at e
  obtain ⟨hlen, hget⟩ := foldl_markVerified_spec hd.insertQueue hd.mem
  obtain ⟨⟨n1, n2, n3, t1, t2, t3⟩, hu, hl, ha⟩ := h
  have hnot : ∀ p ∈ hd.linkQueue, p ∉ hd.insertQueue := fun p hp hm => by
    have e1 := t1 p hp
    rw [t2 p hm] at e1
    cases e1
  have hq1 : QueuesOk { hd with mem := hd.insertQueue.foldl markVerified hd.mem } :=
    queuesOk_of_mem ⟨n1, n2, n3, t1, t2, t3⟩ _ (fun q => by
      rw [hget q]
      split <;> rfl)
  have hun1 : ∀ p ∈ hd.linkQueue,
      (getLink (hd.insertQueue.foldl markVerified hd.mem) p).verified = false := by
    intro p hp
    rw [hget p, if_neg (fun h => hnot p hp h.1)]
    exact hu p hp
  obtain ⟨b1, b2, b3⟩ := markLinkQueue_ptr fuel _ _ e
  have hptr : ∀ q, (getLink hd2.mem q).fChild = (getLink hd.mem q).fChild ∧
      (getLink hd2.mem q).next = (getLink hd.mem q).next := by
    intro q
    obtain ⟨c1, c2⟩ := b3 q
    have c3 : (getLink (hd.insertQueue.foldl markVerified hd.mem) q).fChild =
        (getLink hd.mem q).fChild ∧
        (getLink (hd.insertQueue.foldl markVerified hd.mem) q).next =
        (getLink hd.mem q).next := by
      rw [hget q]
      split <;> exact ⟨rfl, rfl⟩
    exact ⟨c1.trans c3.1, c2.trans c3.2⟩
  have hlen2 : hd2.mem.length = hd.mem.length := b1.trans hlen
  obtain ⟨hd3, g1, g2, g3, _⟩ := markLinkQueue_spec (fuel + hd.linkQueue.length)
    { hd with mem := hd.insertQueue.foldl markVerified hd.mem } hq1 hun1 (Nat.le_add_left _ _)
  rw [markLinkQueue_mono fuel _ _ _ e] at g1
  simp only [Option.some.injEq] at g1
  subst g1
  refine ⟨g3, ?_, ?_, ?_⟩
  · intro p hp
    rw [g2] at hp
    cases hp
  · rw [hlen2]
    intro q c hc
    rw [(hptr q).1, (hptr q).2] at hc
    exact hl q c hc
  · rw [hlen2, b2]
    exact ha

/-- A state without links and anchors meets the invariant. -/
theorem markInv_empty (hd : HeaderDownload) (h1 : hd.mem = []) (h2 : hd.amem = [])
    (h3 : hd.linkQueue = []) (h4 : hd.insertQueue = []) (h5 : hd.persistedLinkQueue = []) :
    MarkInv hd := by
  unfold MarkInv QueuesOk ClosedL ClosedA
  rw [h1, h2, h3, h4, h5]
  refine ⟨⟨List.nodup_nil, List.nodup_nil, List.nodup_nil, ?_, ?_, ?_⟩, ?_, ?_, ?_⟩
  · intro p hp; cases hp
  · intro p hp; cases hp
  · intro p hp; cases hp
  · intro p hp; cases hp
  · intro q c hc
    rw [getLink_of_ge _ _ (Nat.zero_le _)] at hc
    rcases hc with hc | hc <;> cases hc
  · intro a c hc
    rw [getAnchor_of_ge _ _ (Nat.zero_le _)] at hc
    cases hc

theorem markInv_drainPersisted (n : Nat) :
    ∀ (hd hd2 : HeaderDownload), MarkInv hd → drainPersisted n hd = some hd2 → MarkInv hd2 := by
  induction n with
  | zero =>
    intro hd hd2 h e
    simp only [drainPersisted] at e
    split at e
    · simp at e
    · simp only [Option.some.injEq] at e
      subst e; exact h
  | succ n ih =>
    intro hd hd2 h e
    simp only [drainPersisted] at e
    split at e
    · split at e
      · simp at e
      · simp only [Option.bind_eq_some] at e
        obtain ⟨mem2, hclear, e⟩ := e
        simp only [ClearChildren] at hclear
        exact ih _ _ (markInv_clearNext (markInv_erasePersisted h _ _) _ _ _ hclear) e
    · simp only [Option.some.injEq] at e
      subst e; exact h

theorem markInv_recoverHeaders :
    ∀ (headers : List ChainSegmentHeader) (hd : HeaderDownload), MarkInv hd →
      MarkInv (recoverHeaders headers hd) := by
  intro headers
  induction headers with
  | nil => intro hd h; exact h
  | cons sh rest ih =>
    intro hd h
    simp only [recoverHeaders]
    split
    · apply ih
      split
      · exact (markInv_addHeaderAsLink h _ true).1
      · exact h
    · exact h

theorem markInv_RecoverFromDb {hd : HeaderDownload} (h : MarkInv hd) (fuel progress : Nat)
    (headers : List ChainSegmentHeader) (hd2 : HeaderDownload)
    (e : RecoverFromDb fuel hd progress headers = some hd2) : MarkInv hd2 := by
  simp only [RecoverFromDb, Option.map_eq_some'] at e
  obtain ⟨hd1, e1, e2⟩ := e
  rw [← e2]
  exact markInv_recoverHeaders headers _
    (markInv_highestInDb (markInv_drainPersisted fuel _ _ h e1) progress)

theorem markInv_sameForest {hd hd2 : HeaderDownload} (h : MarkInv hd) (e : SameForest hd hd2) :
    MarkInv hd2 := by
  obtain ⟨_, e2, _, e4, _, e6, e7, e8⟩ := e
  exact markInv_congr h e2 (fun a => by rw [e4]) e6 e7 e8

/-- Go `MarkAllVerified` on a state whose queues agree with the tags and whose
link queue holds no verified link. -/
theorem MarkAllVerified_post (hd : HeaderDownload) (hq : QueuesOk hd)
    (hun0 : ∀ p ∈ hd.linkQueue, (getLink hd.mem p).verified = false) :
    ∀ fuel, hd.linkQueue.length ≤ fuel → ∃ hd2, MarkAllVerified fuel hd = some hd2 ∧
      hd2.linkQueue = [] ∧
      (∀ p ∈ hd.linkQueue, p ∈ hd2.insertQueue ∧
        getLink hd2.mem p =
          { getLink hd.mem p with linked := true, verified := true,
                                  queueId := QueueID.InsertQueueID }) ∧
      (∀ p ∈ hd.insertQueue, p ∈ hd2.insertQueue ∧ (getLink hd2.mem p).verified = true ∧
        getLink hd2.mem p =
          if (getLink hd.mem p).verified = true then getLink hd.mem p
          else { getLink hd.mem p with linked := true, verified := true }) ∧
      (∀ p ∈ hd2.insertQueue, p ∈ hd.insertQueue ∨ p ∈ hd.linkQueue) ∧
      (∀ y, y ∉ hd.linkQueue → y ∉ hd.insertQueue → getLink hd2.mem y = getLink hd.mem y) ∧
      hd2.persistedLinkQueue = hd.persistedLinkQueue ∧ hd2.links = hd.links ∧
      SameAnchors hd hd2 ∧ SameRest hd hd2 := by
  obtain ⟨hlen, hget⟩ := foldl_markVerified_spec hd.insertQueue hd.mem
  intro fuel hfuel
  obtain ⟨n1, n2, n3, t1, t2, t3⟩ := hq
  have hnot : ∀ p ∈ hd.linkQueue, p ∉ hd.insertQueue := fun p hp hm => by
    have e1 := t1 p hp
    rw [t2 p hm] at e1
    cases e1
  have htags : ∀ q, (getLink (hd.insertQueue.foldl markVerified hd.mem) q).queueId =
      (getLink hd.mem q).queueId := by
    intro q
    rw [hget q]
    split <;> rfl
  have hq1 : QueuesOk { hd with mem := hd.insertQueue.foldl markVerified hd.mem } :=
    queuesOk_of_mem ⟨n1, n2, n3, t1, t2, t3⟩ _ htags
  have hun1 : ∀ p ∈ hd.linkQueue,
      (getLink (hd.insertQueue.foldl markVerified hd.mem) p).verified = false := by
    intro p hp
    rw [hget p, if_neg (fun h => hnot p hp h.1)]
    exact hun0 p hp
  obtain ⟨hd2, g1, g2, _, g4, g5, g6, g7, g8, g9, g10⟩ :=
    markLinkQueue_spec fuel { hd with mem := hd.insertQueue.foldl markVerified hd.mem }
      hq1 hun1 hfuel
  refine ⟨hd2, g1, g2, ?_, ?_, ?_, ?_, g7, g8, g9, g10⟩
  · intro p hp
    refine ⟨(g6 p).mpr (Or.inr hp), ?_⟩
    rw [g4 p hp]
    show { getLink (hd.insertQueue.foldl markVerified hd.mem) p with
      linked := true, verified := true, queueId := QueueID.InsertQueueID } = _
    rw [hget p, if_neg (fun h => hnot p hp h.1)]
  · intro p hp
    have hpl : p ∉ hd.linkQueue := fun hm => hnot p hm hp
    have hlt : p < hd.mem.length := lt_length_of_queueId (by rw [t2 p hp]; decide)
    have e : getLink hd2.mem p =
        if (getLink hd.mem p).verified = true then getLink hd.mem p
        else { getLink hd.mem p with linked := true, verified := true } := by
      rw [g5 p hpl]
      show getLink (hd.insertQueue.foldl markVerified hd.mem) p = _
      rw [hget p]
      by_cases hv : (getLink hd.mem p).verified = true
      · rw [if_pos hv, if_neg (fun h => by rw [hv] at h; exact Bool.noConfusion h.2.2)]
      · rw [if_neg hv, if_pos ⟨hp, hlt, by simpa using hv⟩]
    refine ⟨(g6 p).mpr (Or.inl hp), ?_, e⟩
    rw [e]
    by_cases hv : (getLink hd.mem p).verified = true
    · rw [if_pos hv]; exact hv
    · rw [if_neg hv]
  · intro p hp
    exact (g6 p).mp hp
  · intro y hy1 hy2
    rw [g5 y hy1]
    show getLink (hd.insertQueue.foldl markVerified hd.mem) y = _
    rw [hget y, if_neg (fun h => hy2 h.1)]

/-- With a verified link in the link queue `MarkAllVerified` returns for no
fuel. -/
theorem MarkAllVerified_stuck (hd : HeaderDownload) (hun : linkQueueUnverified hd = false)
    (fuel : Nat) : MarkAllVerified fuel hd = none := by
  obtain ⟨_, hget⟩ := foldl_markVerified_spec hd.insertQueue hd.mem
  unfold MarkAllVerified
  apply markLinkQueue_stuck
  unfold linkQueueUnverified at hun
  have hex : ∃ p, p ∈ hd.linkQueue ∧ (getLink hd.mem p).verified = true := by
    by_contra hno
    have hall : hd.linkQueue.all (fun p => !(getLink hd.mem p).verified) = true := by
      rw [List.all_eq_true]
      intro p hp
      cases hv : (getLink hd.mem p).verified
      · rfl
      · exact absurd ⟨p, hp, hv⟩ hno
    rw [hall] at hun
    cases hun
  obtain ⟨p, hp, hpv⟩ := hex
  refine ⟨p, hp, ?_⟩
  show (getLink (hd.insertQueue.foldl markVerified hd.mem) p).verified = true
  rw [hget p]
  split
  · rfl
  · exact hpv

/-- Claim C38, amended: (1) in a state whose queues agree with the queue tags and
whose link queue holds no verified link, `MarkAllVerified` returns with fuel for
every link of the link queue; the link queue is then empty; every link that
was in the link queue is linked, verified, tagged for the insert queue and in
the insert queue, its other fields as they were; every link that was in the
insert queue is still there and verified, and is as it was when it was verified
already (its flag `linked` is not touched), else it is linked and verified; the
insert queue holds no other link; every link outside the two queues, the
persisted queue, the store, the anchors and the rest of the state are as they
were. (2) With a verified link in the link queue `MarkAllVerified` returns for
no fuel. (3) The conditions of (1) are part of `markInvariant`, which holds in
every state without links and anchors and is kept by `ProcessHeaders`,
`InsertHeader`, `UnlinkHeader`, `MarkAllVerified`, `RequestMoreHeaders`,
`UpdateRetryTime`, `AddHeadersFromSnapshot`, `RecoverFromDb` and by every change
that leaves the forest as it is. -/
theorem MarkAllVerified_spec :
    (∀ hd : HeaderDownload, queuesTagged hd = true → linkQueueUnverified hd = true →
      ∀ fuel, hd.linkQueue.length ≤ fuel → ∃ hd2, MarkAllVerified fuel hd = some hd2 ∧
        hd2.linkQueue = [] ∧
        (∀ p ∈ hd.linkQueue, p ∈ hd2.insertQueue ∧
          getLink hd2.mem p =
            { getLink hd.mem p with linked := true, verified := true,
                                    queueId := QueueID.InsertQueueID }) ∧
        (∀ p ∈ hd.insertQueue, p ∈ hd2.insertQueue ∧ (getLink hd2.mem p).verified = true ∧
          getLink hd2.mem p =
            if (getLink hd.mem p).verified = true then getLink hd.mem p
            else { getLink hd.mem p with linked := true, verified := true }) ∧
        (∀ p ∈ hd2.insertQueue, p ∈ hd.insertQueue ∨ p ∈ hd.linkQueue) ∧
        (∀ y, y ∉ hd.linkQueue → y ∉ hd.insertQueue → getLink hd2.mem y = getLink hd.mem y) ∧
        hd2.persistedLinkQueue = hd.persistedLinkQueue ∧ hd2.links = hd.links ∧
        SameAnchors hd hd2 ∧ SameRest hd hd2) ∧
    (∀ hd : HeaderDownload, linkQueueUnverified hd = false →
      ∀ fuel, MarkAllVerified fuel hd = none) ∧
    (∀ hd : HeaderDownload, markInvariant hd = true →
      queuesTagged hd = true ∧ linkQueueUnverified hd = true) ∧
    (∀ hd : HeaderDownload, hd.mem = [] → hd.amem = [] → hd.linkQueue = [] →
      hd.insertQueue = [] → hd.persistedLinkQueue = [] → markInvariant hd = true) ∧
    (∀ (hd : HeaderDownload) (fuel thr : Nat) (seg : List ChainSegmentHeader) (newBlock : Bool)
        (peerID : PeerID) (hd2 : HeaderDownload) (r : Bool), markInvariant hd = true →
      ProcessHeaders fuel thr hd seg newBlock peerID = some (hd2, r) →
        markInvariant hd2 = true) ∧
    (∀ (σ ε : Type) (hd : HeaderDownload) (fuel : Nat) (verify : Header → VerifyResult)
        (hf : FeedHeaderFunc σ ε) (ttd : Option Int) (db : σ) (r : InsertOutcome σ ε),
      markInvariant hd = true → InsertHeader fuel verify hf ttd hd db = some r →
        markInvariant r.hd = true) ∧
    (∀ (hd : HeaderDownload) (fuel : Nat) (hash : Hash) (hd2 : HeaderDownload),
      markInvariant hd = true → UnlinkHeader fuel hd hash = some hd2 →
        markInvariant hd2 = true) ∧
    (∀ (hd : HeaderDownload) (fuel : Nat) (hd2 : HeaderDownload),
      markInvariant hd = true → MarkAllVerified fuel hd = some hd2 →
        markInvariant hd2 = true) ∧
    (∀ (hd : HeaderDownload) (fuel currentTime : Nat)
        (r : HeaderDownload × Option HeaderRequest × List PenaltyItem),
      markInvariant hd = true → RequestMoreHeaders fuel hd currentTime = some r →
        markInvariant r.1 = true) ∧
    (∀ (hd : HeaderDownload) (req : HeaderRequest) (currentTime timeout : Nat)
        (hd2 : HeaderDownload), markInvariant hd = true →
      UpdateRetryTime hd req currentTime timeout = some hd2 → markInvariant hd2 = true) ∧
    (∀ (hd : HeaderDownload) (n : Nat) (r : Nat → Option ChainSegmentHeader),
      markInvariant hd = true → markInvariant (AddHeadersFromSnapshot hd n r) = true) ∧
    (∀ (hd : HeaderDownload) (fuel progress : Nat) (headers : List ChainSegmentHeader)
        (hd2 : HeaderDownload), markInvariant hd = true →
      RecoverFromDb fuel hd progress headers = some hd2 → markInvariant hd2 = true) ∧
    (∀ hd hd2 : HeaderDownload, markInvariant hd = true → SameForest hd hd2 →
      markInvariant hd2 = true) := by
  refine ⟨?_, ?_, ?_, ?_, ?_, ?_, ?_, ?_, ?_, ?_, ?_, ?_, ?_⟩
  · intro hd hqt hun
    exact MarkAllVerified_post hd (queuesTagged_spec hqt) ((linkQueueUnverified_iff hd).mp hun)
  · intro hd hun fuel
    exact MarkAllVerified_stuck hd hun fuel
  · intro hd h
    unfold markInvariant at h
    simp only [Bool.and_eq_true] at h
    exact ⟨h.1.1, h.1.2⟩
  · intro hd h1 h2 h3 h4 h5
    exact (markInvariant_iff hd).mpr (markInv_empty hd h1 h2 h3 h4 h5)
  · intro hd fuel thr seg newBlock peerID hd2 r h e
    exact (markInvariant_iff hd2).mpr
      (markInv_ProcessHeaders ((markInvariant_iff hd).mp h) fuel thr seg newBlock peerID hd2 r e)
  · intro σ ε hd fuel verify hf ttd db r h e
    exact (markInvariant_iff r.hd).mpr
      (markInv_InsertHeader ((markInvariant_iff hd).mp h) fuel verify hf ttd db r e)
  · intro hd fuel hash hd2 h e
    exact (markInvariant_iff hd2).mpr
      (markInv_UnlinkHeader ((markInvariant_iff hd).mp h) fuel hash hd2 e)
  · intro hd fuel hd2 h e
    exact (markInvariant_iff hd2).mpr
      (markInv_MarkAllVerified ((markInvariant_iff hd).mp h) fuel hd2 e)
  · intro hd fuel currentTime r h e
    exact (markInvariant_iff r.1).mpr
      (markInv_RequestMoreHeaders ((markInvariant_iff hd).mp h) fuel currentTime r e)
  · intro hd req currentTime timeout hd2 h e
    exact (markInvariant_iff hd2).mpr
      (markInv_UpdateRetryTime ((markInvariant_iff hd).mp h) req currentTime timeout hd2 e)
  · intro hd n r h
    exact (markInvariant_iff _).mpr
      (markInv_AddHeadersFromSnapshot ((markInvariant_iff hd).mp h) n r)
  · intro hd fuel progress headers hd2 h e
    exact (markInvariant_iff hd2).mpr
      (markInv_RecoverFromDb ((markInvariant_iff hd).mp h) fuel progress headers hd2 e)
  · intro hd hd2 h e
    exact (markInvariant_iff hd2).mpr (markInv_sameForest ((markInvariant_iff hd).mp h) e)

theorem MarkAllVerified_spec_witness :
    (∃ hd2, MarkAllVerified 4 badChainEngine = some hd2 ∧ hd2.linkQueue = [] ∧
      (∀ p ∈ [2, 3, 4, 5], p ∈ hd2.insertQueue ∧ (getLink hd2.mem p).linked = true ∧
        (getLink hd2.mem p).verified = true) ∧
      (1 ∈ hd2.insertQueue ∧ (getLink hd2.mem 1).verified = true ∧
        (getLink hd2.mem 1).linked = true) ∧
      getLink hd2.mem 0 = getLink badChainEngine.mem 0 ∧ hd2.persistedLinkQueue = [0] ∧
      SameAnchors badChainEngine hd2) ∧
    (∀ fuel, MarkAllVerified fuel stuckEngine = none) ∧
    (∀ (fuel thr : Nat) (seg : List ChainSegmentHeader) (newBlock : Bool) (peerID : PeerID)
        (hd2 : HeaderDownload) (r : Bool),
      ProcessHeaders fuel thr emptyEngine seg newBlock peerID = some (hd2, r) →
        ∃ hd3, MarkAllVerified hd2.linkQueue.length hd2 = some hd3 ∧ hd3.linkQueue = []) := by
  obtain ⟨t1, t2, t3, t4, t5, _⟩ := MarkAllVerified_spec
  obtain ⟨hd2, g1, g2, g4, g5, _, g7, g8, _, g10, _⟩ :=
    t1 badChainEngine (by decide) (by decide) 4 (by decide)
  refine ⟨⟨hd2, g1, g2, ?_, ?_, g7 0 (by decide) (by decide), g8, g10⟩,
    t2 stuckEngine (by decide), ?_⟩
  · intro p hp
    have hp2 : p ∈ badChainEngine.linkQueue := hp
    obtain ⟨a, b⟩ := g4 p hp2
    exact ⟨a, by rw [b], by rw [b]⟩
  · obtain ⟨a, b, c⟩ := g5 1 (by decide)
    refine ⟨a, b, ?_⟩
    rw [c]
    decide
  · intro fuel thr seg newBlock peerID hd2 r e
    have hinv := t5 emptyEngine fuel thr seg newBlock peerID hd2 r
      (t4 emptyEngine rfl rfl rfl rfl rfl) e
    obtain ⟨q1, q2⟩ := t3 hd2 hinv
    obtain ⟨hd3, e3, e4, _⟩ := t1 hd2 q1 q2 hd2.linkQueue.length (le_refl _)
    exact ⟨hd3, e3, e4⟩

end Headerdownload
